import Mathlib

/-!
# Squid: peer selection, NetDB and forwarding

A shallow embedding of parts of `src/peer_select.cc` and `src/icmp/net_db.cc`
and theorems about them.

Conventions of the embedding

* C `int` values are `Int`; no arithmetic of the embedded functions comes near
  the 32-bit limits except the conversion of a `double` to `int` for the wire,
  which is reduced modulo `2^32` explicitly.
* C `double` values are rationals (`ℚ`). Where the code makes a new `double`
  from others and stores, sends, reads or converts it (the smoothing of
  `netdbHandlePingReply`, the products of `netdbBinaryExchange`, `atof`, the
  sums of `netdbHostRtt` and `netdbHostHops`), the
  exact result of each operation is rounded to the nearest double by `toDouble`
  (each operation by itself: no fused multiply-add, no wider intermediate format).
  Conversions of an `int` to `double` and comparisons are exact, as in C; the
  quotient of a received field by `1000.0` is taken exactly.
* Pointers to `CachePeer` are the peer records themselves; a null pointer is
  `none`.
* The hash tables of NetDB are lists in `hash_first`/`hash_next` order.
* Asynchronous callbacks (ACL answers, ICP/HTCP replies, the ping timeout, DNS
  answers, the initiator losing interest) are events fed to a step function.
-/

namespace Squid

/-! ## Addresses, peers, requests -/

/-- The `Ip::Address` class: an address family, the address bits and a port. -/
structure Ip.Address where
  /-- True for an IPv4 (v4-mapped) address, `isIPv4()`. -/
  isIPv4 : Bool
  /-- Address bits in host order: 32 bits for IPv4, 128 bits for IPv6. -/
  bits : Nat
  port : Nat
deriving DecidableEq, Repr

/-- The default-constructed `Ip::Address` (`setEmpty`): all zero. -/
def Ip.Address.empty : Ip.Address := ⟨false, 0, 0⟩

/-- The method `Ip::Address::isAnyAddr()`: the unspecified address of either family. -/
def Ip.Address.isAnyAddr (a : Ip.Address) : Bool := a.bits == 0

/-- An IPv4 address `a.b.c.d` with a port. -/
def Ip.Address.ofOctets (a b c d port : Nat) : Ip.Address :=
  ⟨true, a * 2 ^ 24 + b * 2 ^ 16 + c * 2 ^ 8 + d, port⟩

/-- The `peer_t` enumeration. -/
inductive peer_t
  | PEER_NONE | PEER_SIBLING | PEER_PARENT | PEER_MULTICAST
deriving DecidableEq, Repr

/-- The `hier_code` enumeration (the codes used by peer selection). -/
inductive hier_code
  | HIER_NONE | HIER_DIRECT | SIBLING_HIT | PARENT_HIT | DEFAULT_PARENT
  | FIRSTUP_PARENT | FIRST_PARENT_MISS | CLOSEST_PARENT_MISS | CLOSEST_PARENT
  | CLOSEST_DIRECT | ROUNDROBIN_PARENT | CD_PARENT_HIT | CD_SIBLING_HIT | CARP
  | ANY_OLD_PARENT | USERHASH_PARENT | SOURCEHASH_PARENT | PINNED | ORIGINAL_DST
deriving DecidableEq, Repr

/-- The fields of `CachePeer` read by peer selection and NetDB. -/
structure CachePeer where
  host : String
  in_addr : Ip.Address
  http_port : Nat
  basetime : Int
  weight : Int
  /-- Option `options.closest_only`. -/
  closest_only : Bool
  /-- Option `options.no_tproxy`. -/
  no_tproxy : Bool
deriving DecidableEq, Repr

/-! ## NetDB (`src/icmp/net_db.cc`) -/

/-- C conversion `(int) x` of a double: truncation toward zero. -/
def truncToInt (q : ℚ) : Int := Int.tdiv q.num q.den

/-- The search of `natLog2`: the number of times `n` can be halved before it is below 2,
with at most `fuel` halvings. -/
def log2Fuel : Nat → Nat → Nat
  | 0, _ => 0
  | fuel + 1, n => if n < 2 then 0 else log2Fuel fuel (n / 2) + 1

/-- The position of the highest set bit of `n`: the `k` with `2 ^ k <= n < 2 ^ (k + 1)`,
and 0 for 0. -/
def natLog2 (n : Nat) : Nat := log2Fuel n n

/-- The binary exponent of a rational `q` other than 0: the `e` with
`2 ^ e <= |q| < 2 ^ (e + 1)`. The difference of the bit positions of numerator and
denominator is `e` or `e + 1`. -/
def binaryExponent (q : ℚ) : Int :=
  let e0 : Int := (natLog2 q.num.natAbs : Int) - (natLog2 q.den : Int)
  if (2 : ℚ) ^ e0 ≤ |q| then e0 else e0 - 1

/-- The integer nearest to `q`, the even one of two that are equally near. -/
def roundHalfEven (q : ℚ) : Int :=
  if q - ⌊q⌋ < 1 / 2 then ⌊q⌋
  else if 1 / 2 < q - ⌊q⌋ then ⌊q⌋ + 1
  else if ⌊q⌋ % 2 = 0 then ⌊q⌋ else ⌊q⌋ + 1

/-- The value of a C `double` (IEEE 754 binary64) that an operation with the exact result
`q` yields: `q` rounded to the nearest multiple of the unit in the last place of its
binade, `2 ^ (e - 52)` with `e` the binary exponent, not below -1022 (subnormal numbers),
ties going to the even multiple. Infinities and NaN are not modelled: the values of NetDB
are averages of 32-bit samples and stay far below `2 ^ 1024`. -/
def toDouble (q : ℚ) : ℚ :=
  if q = 0 then 0
  else (roundHalfEven (q / (2 : ℚ) ^ (max (binaryExponent q) (-1022) - 52)) : ℚ)
        * (2 : ℚ) ^ (max (binaryExponent q) (-1022) - 52)

/-- The `net_db_peer` record: one per-peer measurement of a network entry. -/
structure net_db_peer where
  peername : String
  hops : ℚ
  rtt : ℚ
  expires : Int
deriving DecidableEq, Repr

/-- The `netdbEntry` record. The `network` string is kept as the address it prints;
`hosts` is the linked list of `net_db_name` objects, given by their keys. -/
structure netdbEntry where
  network : Ip.Address
  pings_sent : Int
  pings_recv : Int
  hops : ℚ
  rtt : ℚ
  next_ping_time : Int
  last_use_time : Int
  link_count : Int
  hosts : List String
  peers : List net_db_peer
  n_peers_alloc : Nat
deriving DecidableEq, Repr

/-- A freshly allocated `netdbEntry` for a network (`new netdbEntry` then `netdbHashInsert`). -/
def netdbEntry.fresh (network : Ip.Address) : netdbEntry :=
  { network := network, pings_sent := 0, pings_recv := 0, hops := 0, rtt := 0,
    next_ping_time := 0, last_use_time := 0, link_count := 0, hosts := [], peers := [],
    n_peers_alloc := 0 }

/-- The `net_db_name` record: a hostname and the entry it points to (by network key). -/
structure net_db_name where
  key : String
  net_db_entry : Ip.Address
deriving DecidableEq, Repr

/-- The two process-wide tables `addr_table` and `host_table`. -/
structure NetDB where
  addr_table : List netdbEntry
  host_table : List net_db_name
deriving DecidableEq, Repr

/-- The function `networkFromInaddr`: /64 for IPv6, /24 for IPv4. The result is used as
the table key, which is the printed address, so the port is dropped. -/
def networkFromInaddr (a : Ip.Address) : Ip.Address :=
  if a.isIPv4 then
    { isIPv4 := true, bits := a.bits / 2 ^ 8 * 2 ^ 8, port := 0 }
  else
    { isIPv4 := false, bits := a.bits / 2 ^ 64 * 2 ^ 64, port := 0 }

/-- The function `netdbLookupAddr`: `hash_lookup(addr_table, key)` for the network of `addr`. -/
def netdbLookupAddr (db : NetDB) (addr : Ip.Address) : Option netdbEntry :=
  db.addr_table.find? (fun n => n.network == networkFromInaddr addr)

/-- The function `netdbLookupHost`: the entry of the `net_db_name` found in `host_table`. -/
def netdbLookupHost (db : NetDB) (key : String) : Option netdbEntry :=
  match db.host_table.find? (fun x => x.key == key) with
  | none => none
  | some x => db.addr_table.find? (fun n => n.network == x.net_db_entry)

/-- Writing through an entry pointer: the entry with the same network key is replaced. -/
def NetDB.store (db : NetDB) (n : netdbEntry) : NetDB :=
  { db with addr_table := db.addr_table.map (fun e => if e.network == n.network then n else e) }

/-- The function `netdbHandlePingReply` (with `USE_ICMP`). The fields `hops` and `rtt`
are doubles: the product with `N - 1`, the sum with the sample and the quotient by `N` are
each rounded to a double; the `int` operands convert exactly. -/
def netdbHandlePingReply (db : NetDB) (src : Ip.Address) (hops rtt : Int) : NetDB :=
  match netdbLookupAddr db src with
  | none => db
  | some n =>
    let pings_recv := n.pings_recv + 1
    let N : Int := if pings_recv > 5 then 5 else pings_recv
    let rtt : Int := if rtt < 1 then 1 else rtt
    let hops1 : ℚ :=
      toDouble (toDouble (toDouble (n.hops * ((N - 1 : Int) : ℚ)) + (hops : ℚ)) / (N : ℚ))
    let rtt1 : ℚ :=
      toDouble (toDouble (toDouble (n.rtt * ((N - 1 : Int) : ℚ)) + (rtt : ℚ)) / (N : ℚ))
    db.store { n with pings_recv := pings_recv, hops := hops1, rtt := rtt1 }

/-- The function `netdbHostHops`: the value returned and the table after the call
(`squid_curtime` is the current time). The sum `n->hops + 0.5` is a double. -/
def netdbHostHops (db : NetDB) (squid_curtime : Int) (host : String) : Int × NetDB :=
  match netdbLookupHost db host with
  | some n =>
    (truncToInt (toDouble (n.hops + 1 / 2)), db.store { n with last_use_time := squid_curtime })
  | none => (0, db)

/-- The function `netdbHostRtt`: the value returned and the table after the call. The sum
`n->rtt + 0.5` is a double. -/
def netdbHostRtt (db : NetDB) (squid_curtime : Int) (host : String) : Int × NetDB :=
  match netdbLookupHost db host with
  | some n =>
    (truncToInt (toDouble (n.rtt + 1 / 2)), db.store { n with last_use_time := squid_curtime })
  | none => (0, db)

/-- Modelled from the spec: the field tag `NETDB_EX_NETWORK` of `net_db.h`, `0x01`. -/
def NETDB_EX_NETWORK : Nat := 1

/-- Modelled from the spec: the field tag `NETDB_EX_RTT` of `net_db.h`, `0x02`. -/
def NETDB_EX_RTT : Nat := 2

/-- Modelled from the spec: the field tag `NETDB_EX_HOPS` of `net_db.h`, `0x03`. -/
def NETDB_EX_HOPS : Nat := 3

/-- The four bytes that `memcpy` writes for `htonl(j)`: the 32-bit two's complement
pattern of `j`, most significant byte first. -/
def htonlBytes (j : Int) : List Nat :=
  let u := (j % 2 ^ 32).toNat
  [u / 2 ^ 24 % 256, u / 2 ^ 16 % 256, u / 2 ^ 8 % 256, u % 256]

/-- The four bytes of `struct in_addr` filled by `getInAddr`: network byte order. -/
def inAddrBytes (a : Ip.Address) : List Nat :=
  [a.bits / 2 ^ 24 % 256, a.bits / 2 ^ 16 % 256, a.bits / 2 ^ 8 % 256, a.bits % 256]

/-- The record size computed by `netdbBinaryExchange`:
`1 + sizeof(struct in_addr) + 1 + sizeof(int) + 1 + sizeof(int)`. -/
def rec_sz : Nat := (1 + 4) + (1 + 4) + (1 + 4)

/-- The tests at the head of the loop body of `netdbBinaryExchange`: entries that
`continue` are skipped. The test `!(addr = n->network)` re-parses the printed network
and cannot fail on a key printed by `netdbHashInsert`; here the key is the address. -/
def netdbExported (n : netdbEntry) : Bool :=
  if n.rtt == 0 then false
  else if n.rtt > 60000 then false
  else if !n.network.isIPv4 then false
  else true

/-- The writes into `buf` made by one pass of the loop body of `netdbBinaryExchange`
for an entry that is not skipped, starting at index `buf.length`. The products
`n->rtt * 1000` and `n->hops * 1000` are doubles, so the exact product is rounded to a
double before `(int)` truncates it. -/
def netdbWriteRecord (buf : List Nat) (n : netdbEntry) : List Nat :=
  let buf := buf ++ [NETDB_EX_NETWORK]
  let buf := buf ++ inAddrBytes n.network
  let buf := buf ++ [NETDB_EX_RTT]
  let buf := buf ++ htonlBytes (truncToInt (toDouble (n.rtt * 1000)))
  let buf := buf ++ [NETDB_EX_HOPS]
  let buf := buf ++ htonlBytes (truncToInt (toDouble (n.hops * 1000)))
  buf

/-- One pass of the `while` loop of `netdbBinaryExchange` over the state
(`buf[0..i)`, the appends made to the store entry so far). -/
def netdbBinaryExchangeStep (st : List Nat × List (List Nat)) (n : netdbEntry) :
    List Nat × List (List Nat) :=
  if !netdbExported n then st
  else
    let buf := netdbWriteRecord st.1 n
    if buf.length + rec_sz > 4096 then ([], st.2 ++ [buf]) else (buf, st.2)

/-- The function `netdbBinaryExchange` (with `USE_ICMP`): the sequence of `s->append(buf, i)`
calls it makes, each given by the bytes appended. -/
def netdbBinaryExchange (db : NetDB) : List (List Nat) :=
  let st := db.addr_table.foldl netdbBinaryExchangeStep ([], [])
  if st.1.length > 0 then st.2 ++ [st.1] else st.2

/-! ## Peer selection (`src/peer_select.cc`) -/

/-- The `allow_t` answers of an ACL check. -/
inductive allow_t
  | ACCESS_DENIED | ACCESS_ALLOWED | ACCESS_DUNNO | ACCESS_AUTH_REQUIRED
deriving DecidableEq, Repr

/-- The direct-disposition values `DIRECT_UNKNOWN` .. `DIRECT_YES`. -/
inductive direct_t
  | DIRECT_UNKNOWN | DIRECT_NO | DIRECT_MAYBE | DIRECT_YES
deriving DecidableEq, Repr

/-- The `ping_status_t` of a store entry. -/
inductive ping_status_t
  | PING_NONE | PING_WAITING | PING_DONE
deriving DecidableEq, Repr

/-- The URL schemes that peer selection tells apart (`AnyP::ProtocolType`). -/
inductive ProtocolType
  | PROTO_HTTP | PROTO_HTTPS | PROTO_FTP | PROTO_WAIS | PROTO_ICP | PROTO_HTCP | PROTO_OTHER
deriving DecidableEq, Repr

/-- The class `FwdServer`: a selected destination; the `next` pointer is the list tail. -/
structure FwdServer where
  /-- A null `_peer` (`none`) is the origin server. -/
  _peer : Option CachePeer
  code : hier_code
deriving DecidableEq, Repr

/-- The request flags read by peer selection. -/
structure RequestFlags where
  redirected : Bool
  intercepted : Bool
  interceptTproxy : Bool
  hostVerified : Bool
  noDirect : Bool
  loopDetected : Bool
  hierarchical : Bool
  spoofClientIp : Bool
deriving DecidableEq, Repr

/-- The pinned connection of a request: `pinnedPeer()` and whether
`validatePinnedConnection(request, pear)` returns an open connection. -/
structure PinnedConnection where
  pinnedPeer : Option CachePeer
  isConnOpen : Bool
deriving DecidableEq, Repr

/-- The parts of `HttpRequest` read by peer selection. -/
structure HttpRequest where
  flags : RequestFlags
  /-- Value of `url.host()`. -/
  url_host : String
  /-- Value of `url.port()`. -/
  url_port : Nat
  /-- Value of `url.getScheme()`. -/
  url_scheme : ProtocolType
  client_addr : Ip.Address
  /-- When the manager is still valid, `clientConnectionManager->clientConnection->local`. -/
  clientConnectionManager : Option Ip.Address
  pinnedConnection : Option PinnedConnection
deriving DecidableEq, Repr

/-- The parts of `StoreEntry` read by peer selection. -/
structure StoreEntry where
  ping_status : ping_status_t
  /-- Flag bit `KEY_PRIVATE` of `flags`. -/
  KEY_PRIVATE : Bool
deriving DecidableEq, Repr

/-- The class `ping_data`; times are in milliseconds. -/
structure ping_data where
  start : Int
  stop : Int
  n_sent : Int
  n_recv : Int
  n_replies_expected : Int
  timeout : Int
  timedout : Int
  w_rtt : Int
  p_rtt : Int
deriving DecidableEq, Repr

/-- The constructor `ping_data::ping_data`. -/
def ping_data.init : ping_data :=
  { start := 0, stop := 0, n_sent := 0, n_recv := 0, n_replies_expected := 0,
    timeout := 0, timedout := 0, w_rtt := 0, p_rtt := 0 }

/-- The error types created by peer selection. -/
inductive err_type
  | ERR_DNS_FAIL
deriving DecidableEq, Repr

/-- The `ErrorState` created by `noteIps`: type, HTTP status and DNS error text. -/
structure ErrorState where
  type : err_type
  httpStatus : Nat
  dnsError : String
deriving DecidableEq, Repr

/-- The parts of `Comm::Connection` set by peer selection. -/
structure Comm.Connection where
  remote : Ip.Address
  peerType : hier_code
  /-- The peer set by `setPeer`; `none` for the origin server. -/
  peer : Option CachePeer
deriving DecidableEq, Repr

/-- The calls made on the `PeerSelectionInitiator`. -/
inductive InitiatorCall
  | noteDestination (path : Comm.Connection)
  | noteDestinationsEnd (error : Option ErrorState)
deriving DecidableEq, Repr

/-- The `PeerSelectionInitiator` as seen by the selector: its `subscribed` flag. -/
structure PeerSelectionInitiator where
  subscribed : Bool
deriving DecidableEq, Repr

/-- The access list whose non-blocking check is pending. -/
inductive AclList
  | AlwaysDirect | NeverDirect
deriving DecidableEq, Repr

/-- The configuration values (`Config`) read by peer selection. -/
structure SquidConfig where
  forward_max_tries : Int
  /-- Option `onoff.client_dst_passthru`. -/
  client_dst_passthru : Bool
  /-- Option `onoff.prefer_direct`. -/
  prefer_direct : Bool
  /-- Option `onoff.nonhierarchical_direct`. -/
  nonhierarchical_direct : Bool
  /-- Option `onoff.query_icmp`. -/
  query_icmp : Bool
  minDirectRtt : Int
  minDirectHops : Int
  /-- Whether `accessList.AlwaysDirect` is configured (non-null). -/
  AlwaysDirect : Bool
  /-- Whether `accessList.NeverDirect` is configured (non-null). -/
  NeverDirect : Bool
  /-- The list `Config.peers`. -/
  peers : List CachePeer

/-- The collaborators of peer selection that live outside the excerpt (neighbors, CARP,
hashing selectors, the ip cache) and the process-wide NetDB tables and clock. -/
structure Env where
  whichPeer : Ip.Address → Option CachePeer
  neighborType : CachePeer → HttpRequest → peer_t
  peerHTTPOkay : CachePeer → HttpRequest → Bool
  peerAllowedToUse : CachePeer → HttpRequest → Bool
  neighborsDigestSelect : HttpRequest → Option CachePeer
  neighborsCount : HttpRequest → Int
  /-- Result of `neighborsUdpPing`: `(n_sent, n_replies_expected, timeout)`. -/
  neighborsUdpPing : HttpRequest → Int × Int × Int
  neighbors_do_private_keys : Bool
  peerSourceHashSelectParent : HttpRequest → Option CachePeer
  peerUserHashSelectParent : HttpRequest → Option CachePeer
  carpSelectParent : HttpRequest → Option CachePeer
  getRoundRobinParent : HttpRequest → Option CachePeer
  getWeightedRoundRobinParent : HttpRequest → Option CachePeer
  getFirstUpParent : HttpRequest → Option CachePeer
  getDefaultParent : HttpRequest → Option CachePeer
  /-- Result of `ipcache_gethostbyname(host, 0)`: the current address, if cached. -/
  ipcache_gethostbyname : String → Option Ip.Address
  netdb : NetDB
  squid_curtime : Int
  /-- The clock `current_time`, in milliseconds. -/
  current_time : Int

/-- The helper `findUsableParentAtHostname` of `netdbClosestParent`. -/
def findUsableParentAtHostname (cfg : SquidConfig) (env : Env) (hostname : String)
    (request : HttpRequest) : Option CachePeer :=
  cfg.peers.find? (fun p =>
    p.host.toLower == hostname.toLower
      && env.neighborType p request == peer_t.PEER_PARENT
      && env.peerHTTPOkay p request)

/-- The `for` loop of `netdbClosestParent` over the peer slots, from slot `i` on. -/
def netdbClosestParentLoop (cfg : SquidConfig) (env : Env) (request : HttpRequest)
    (n : netdbEntry) : List net_db_peer → Option CachePeer
  | [] => none
  | h :: rest =>
    if n.rtt > 0 && n.rtt < h.rtt then none
    else
      match findUsableParentAtHostname cfg env h.peername request with
      | some p => some p
      | none => netdbClosestParentLoop cfg env request n rest

/-- The function `netdbClosestParent` (with `USE_ICMP`); the update of `last_use_time`
is not part of the returned value. -/
def netdbClosestParent (cfg : SquidConfig) (env : Env) (request : HttpRequest) :
    Option CachePeer :=
  let n :=
    match netdbLookupHost env.netdb request.url_host with
    | some n => some n
    | none =>
      match env.ipcache_gethostbyname request.url_host with
      | some ia => netdbLookupAddr env.netdb ia
      | none => none
  match n with
  | none => none
  | some n => if n.peers.length == 0 then none else netdbClosestParentLoop cfg env request n n.peers

/-- The class `ps_state` together with what surrounds one selection: the initiator it
points to, whether `delete psstate` has run, the DNS lookups and the ping-timeout event
that are outstanding, and the calls made so far on the initiator and on NetDB. -/
structure ps_state where
  request : HttpRequest
  entry : Option StoreEntry
  always_direct : allow_t
  never_direct : allow_t
  direct : direct_t
  lastError : Option ErrorState
  servers : List FwdServer
  first_parent_miss : Ip.Address
  closest_parent_miss : Ip.Address
  hit : Option CachePeer
  hit_type : peer_t
  ping : ping_data
  /-- The pending `acl_checklist`, if any, named by the list it checks. -/
  acl_checklist : Option AclList
  foundPaths : Nat
  /-- The initiator behind `initiator_`; `none` once the pointer is no longer valid. -/
  initiator_ : Option PeerSelectionInitiator
  /-- Set by `delete psstate`. -/
  deleted : Bool
  /-- Hosts passed to `Dns::nbgethostbyname` whose `noteIps` has not come yet. -/
  dnsLookups : List String
  /-- Whether the `peerPingTimeout` event added by `eventAdd` is still registered. -/
  pingEvent : Bool
  /-- The calls made on the initiator, oldest first. -/
  calls : List InitiatorCall
  /-- The calls `netdbUpdatePeer(url, p, rtt, hops)` made, oldest first. -/
  netdbUpdatePeerCalls : List (String × CachePeer × Int × Int)
deriving DecidableEq, Repr

/-- The constructor `ps_state::ps_state` followed by the assignments of `peerSelect`. -/
def ps_state.init (cfg : SquidConfig) (initiator : PeerSelectionInitiator)
    (request : HttpRequest) (entry : Option StoreEntry) : ps_state :=
  { request := request,
    entry := entry,
    always_direct := if cfg.AlwaysDirect then allow_t.ACCESS_DUNNO else allow_t.ACCESS_DENIED,
    never_direct := if cfg.NeverDirect then allow_t.ACCESS_DUNNO else allow_t.ACCESS_DENIED,
    direct := direct_t.DIRECT_UNKNOWN,
    lastError := none,
    servers := [],
    first_parent_miss := Ip.Address.empty,
    closest_parent_miss := Ip.Address.empty,
    hit := none,
    hit_type := peer_t.PEER_NONE,
    ping := ping_data.init,
    acl_checklist := none,
    foundPaths := 0,
    initiator_ := some initiator,
    deleted := false,
    dnsLookups := [],
    pingEvent := false,
    calls := [],
    netdbUpdatePeerCalls := [] }

/-- The method `ps_state::interestedInitiator`, as a truth value. -/
def ps_state.interestedInitiator (s : ps_state) : Bool :=
  match s.initiator_ with
  | none => false
  | some initiator => initiator.subscribed

/-- Assignment to `entry->ping_status` (nothing to assign when there is no entry). -/
def ps_state.setPingStatus (s : ps_state) (st : ping_status_t) : ps_state :=
  { s with entry := s.entry.map (fun e => { e with ping_status := st }) }

/-- Test `entry->ping_status == st` for an entry that exists. -/
def ps_state.pingStatusIs (s : ps_state) (st : ping_status_t) : Bool :=
  match s.entry with
  | none => false
  | some e => e.ping_status == st

/-- The destructor `ps_state::~ps_state` (run by `delete psstate`). The entry keeps its
final `ping_status`, which stays readable here after the pointer is dropped. -/
def ps_state.destroy (s : ps_state) : ps_state :=
  let s := { s with servers := [] }
  let s := if s.pingStatusIs ping_status_t.PING_WAITING then { s with pingEvent := false } else s
  let s := s.setPingStatus ping_status_t.PING_DONE
  { s with acl_checklist := none, lastError := none, deleted := true }

/-- The method `ps_state::wantsMoreDestinations`. -/
def ps_state.wantsMoreDestinations (cfg : SquidConfig) (s : ps_state) : Bool :=
  let maxCount := cfg.forward_max_tries
  decide (maxCount ≥ 0) && decide ((s.foundPaths : Int) < maxCount)

/-- The method `ps_state::handlePath`; `getOutgoingAddress` only sets the local address
of the path, which is not kept here. -/
def ps_state.handlePath (s : ps_state) (path : Comm.Connection) (fs : FwdServer) : ps_state :=
  let s := { s with foundPaths := s.foundPaths + 1 }
  let path := { path with peerType := fs.code, peer := fs._peer }
  if s.interestedInitiator then
    { s with calls := s.calls ++ [InitiatorCall.noteDestination path] }
  else s

/-- The function `peerAddFwdServer`: append at the end of the list. -/
def peerAddFwdServer (FSVR : List FwdServer) (p : Option CachePeer) (code : hier_code) :
    List FwdServer :=
  FSVR ++ [{ _peer := p, code := code }]

/-- The tail of `peerSelectDnsPaths`, from "done with DNS lookups" on: the remaining
servers are freed, the end of the selection is reported and the state is deleted. -/
def peerSelectDnsPathsDone (env : Env) (s : ps_state) : ps_state :=
  let s := { s with servers := [] }
  let s := { s with ping := { s.ping with stop := env.current_time } }
  let s := if s.lastError.isSome && s.foundPaths != 0 then { s with lastError := none } else s
  let s :=
    if s.interestedInitiator then
      { s with calls := s.calls ++ [InitiatorCall.noteDestinationsEnd s.lastError] }
    else s
  let s := { s with lastError := none }
  s.destroy

/-- The body of `peerSelectDnsPaths` with `fs = psstate->servers` given as the first
argument; the self-call of the ORIGINAL_DST branch is the recursive call on `fs->next`. -/
def peerSelectDnsPathsFrom (cfg : SquidConfig) (env : Env) : List FwdServer → ps_state → ps_state
  | [], s =>
    if !s.interestedInitiator then s.destroy
    else peerSelectDnsPathsDone env s
  | fs :: next, s =>
    if !s.interestedInitiator then s.destroy
    else
      let req := s.request
      let isIntercepted := !req.flags.redirected &&
        (req.flags.intercepted || req.flags.interceptTproxy)
      let useOriginalDst := cfg.client_dst_passthru || !req.flags.hostVerified
      let choseDirect := fs.code == hier_code.HIER_DIRECT
      if isIntercepted && useOriginalDst && choseDirect then
        let s :=
          match req.clientConnectionManager with
          | some clientLocal =>
            let p : Comm.Connection :=
              { remote := clientLocal, peerType := hier_code.HIER_NONE, peer := none }
            s.handlePath p { fs with code := hier_code.ORIGINAL_DST }
          | none => s
        peerSelectDnsPathsFrom cfg env next { s with servers := next }
      else if s.wantsMoreDestinations cfg then
        let host := match fs._peer with
          | some peer => peer.host
          | none => s.request.url_host
        { s with dnsLookups := s.dnsLookups ++ [host] }
      else peerSelectDnsPathsDone env s

/-- The function `peerSelectDnsPaths`. -/
def peerSelectDnsPaths (cfg : SquidConfig) (env : Env) (s : ps_state) : ps_state :=
  peerSelectDnsPathsFrom cfg env s.servers s

/-- The method `ps_state::noteIp`. Without a server at the head of the list the source
would dereference a null pointer; the state is then left as it is. -/
def ps_state.noteIp (cfg : SquidConfig) (s : ps_state) (ip : Ip.Address) : ps_state :=
  if !s.interestedInitiator then s.destroy
  else if !s.wantsMoreDestinations cfg then s
  else
    match s.servers with
    | [] => s
    | fs :: _ =>
      let peer := fs._peer
      let noTproxy := match peer with
        | some p => p.no_tproxy
        | none => false
      if s.request.flags.spoofClientIp && !noTproxy
          && (ip.isIPv4 != s.request.client_addr.isIPv4) then s
      else
        let port := match peer with
          | some p => p.http_port
          | none => s.request.url_port
        let p : Comm.Connection :=
          { remote := { ip with port := port }, peerType := hier_code.HIER_NONE, peer := none }
        s.handlePath p fs

/-- The method `ps_state::noteIps`; `ia` tells whether addresses were found and
`dnsError` is `details.error`. Without a server at the head of the list the source would
dereference a null pointer; the state is then left as it is. -/
def ps_state.noteIps (cfg : SquidConfig) (env : Env) (s : ps_state) (ia : Bool)
    (dnsError : String) : ps_state :=
  if !s.interestedInitiator then s.destroy
  else
    match s.servers with
    | [] => s
    | fs :: next =>
      let s :=
        if !ia then
          let s := { s with lastError := none }
          if fs.code == hier_code.HIER_DIRECT then
            { s with lastError := some { type := err_type.ERR_DNS_FAIL, httpStatus := 503,
                                         dnsError := dnsError } }
          else s
        else s
      let s := { s with servers := next }
      peerSelectDnsPaths cfg env s

/-- The function `peerCheckNetdbDirect` (with `USE_ICMP`); the result 1 is `true`. -/
def peerCheckNetdbDirect (cfg : SquidConfig) (env : Env) (s : ps_state) : Bool :=
  if s.direct == direct_t.DIRECT_NO then false
  else
    let myrtt := (netdbHostRtt env.netdb env.squid_curtime s.request.url_host).1
    if myrtt != 0 && decide (myrtt ≤ cfg.minDirectRtt) then true
    else
      let myhops := (netdbHostHops env.netdb env.squid_curtime s.request.url_host).1
      if myhops != 0 && decide (myhops ≤ cfg.minDirectHops) then true
      else
        match env.whichPeer s.closest_parent_miss with
        | none => false
        | some _ =>
          if myrtt != 0 && decide (myrtt ≤ s.ping.p_rtt) then true
          else false

/-- The function `peerSelectPinned`. -/
def peerSelectPinned (env : Env) (s : ps_state) : ps_state :=
  match s.request.pinnedConnection with
  | none => s
  | some pinned =>
    let pear := pinned.pinnedPeer
    if pinned.isConnOpen then
      match pear with
      | some peer =>
        if env.peerAllowedToUse peer s.request then
          let s := { s with servers := peerAddFwdServer s.servers (some peer) hier_code.PINNED }
          s.setPingStatus ping_status_t.PING_DONE
        else s
      | none =>
        if s.direct != direct_t.DIRECT_NO then
          let s := { s with servers := peerAddFwdServer s.servers none hier_code.PINNED }
          s.setPingStatus ping_status_t.PING_DONE
        else s
    else s

/-- The function `peerSelectIcpPing`; `KEY_PRIVATE` is the flag of the entry. -/
def peerSelectIcpPing (env : Env) (request : HttpRequest) (direct : direct_t)
    (KEY_PRIVATE : Bool) : Int :=
  if !request.flags.hierarchical && direct != direct_t.DIRECT_NO then 0
  else if KEY_PRIVATE && !env.neighbors_do_private_keys && direct != direct_t.DIRECT_NO then 0
  else env.neighborsCount request

/-- The function `peerGetSomeNeighbor` (with `USE_CACHE_DIGESTS`); it is called with an
entry whose `ping_status` is `PING_NONE`. -/
def peerGetSomeNeighbor (cfg : SquidConfig) (env : Env) (s : ps_state) : ps_state :=
  let request := s.request
  if s.direct == direct_t.DIRECT_YES then s.setPingStatus ping_status_t.PING_DONE
  else
    match env.neighborsDigestSelect request with
    | some p =>
      let code :=
        if env.neighborType p request == peer_t.PEER_PARENT then hier_code.CD_PARENT_HIT
        else hier_code.CD_SIBLING_HIT
      let s := { s with servers := peerAddFwdServer s.servers (some p) code }
      s.setPingStatus ping_status_t.PING_DONE
    | none =>
      match netdbClosestParent cfg env request with
      | some p =>
        let s := { s with servers := peerAddFwdServer s.servers (some p) hier_code.CLOSEST_PARENT }
        s.setPingStatus ping_status_t.PING_DONE
      | none =>
        let KEY_PRIVATE := match s.entry with
          | some e => e.KEY_PRIVATE
          | none => false
        if peerSelectIcpPing env request s.direct KEY_PRIVATE != 0 then
          let r := env.neighborsUdpPing request
          let s := { s with ping := { s.ping with start := env.current_time, n_sent := r.1,
                                                  n_replies_expected := r.2.1,
                                                  timeout := r.2.2 } }
          if decide ((0 : Int) < s.ping.n_replies_expected) then
            let s := s.setPingStatus ping_status_t.PING_WAITING
            { s with pingEvent := true }
          else s.setPingStatus ping_status_t.PING_DONE
        else s.setPingStatus ping_status_t.PING_DONE

/-- The function `peerGetSomeNeighborReplies`. -/
def peerGetSomeNeighborReplies (cfg : SquidConfig) (env : Env) (s : ps_state) : ps_state :=
  if peerCheckNetdbDirect cfg env s then
    { s with servers := peerAddFwdServer s.servers none hier_code.CLOSEST_DIRECT }
  else
    let pc : Option CachePeer × hier_code :=
      match s.hit with
      | some p =>
        (some p, if s.hit_type == peer_t.PEER_PARENT then hier_code.PARENT_HIT
                 else hier_code.SIBLING_HIT)
      | none =>
        if !s.closest_parent_miss.isAnyAddr then
          (env.whichPeer s.closest_parent_miss, hier_code.CLOSEST_PARENT_MISS)
        else if !s.first_parent_miss.isAnyAddr then
          (env.whichPeer s.first_parent_miss, hier_code.FIRST_PARENT_MISS)
        else (none, hier_code.HIER_NONE)
    match pc.1 with
    | some p =>
      if pc.2 != hier_code.HIER_NONE then
        { s with servers := peerAddFwdServer s.servers (some p) pc.2 }
      else s
    | none => s

/-- The function `peerGetSomeDirect`. -/
def peerGetSomeDirect (s : ps_state) : ps_state :=
  if s.direct == direct_t.DIRECT_NO then s
  else if s.request.url_scheme == ProtocolType.PROTO_WAIS then s
  else { s with servers := peerAddFwdServer s.servers none hier_code.HIER_DIRECT }

/-- The selection chain of `peerGetSomeParent` (with `USE_AUTH`): the first method that
yields a peer wins. -/
def peerGetSomeParentChoice (env : Env) (request : HttpRequest) : Option (CachePeer × hier_code) :=
  match env.peerSourceHashSelectParent request with
  | some p => some (p, hier_code.SOURCEHASH_PARENT)
  | none =>
  match env.peerUserHashSelectParent request with
  | some p => some (p, hier_code.USERHASH_PARENT)
  | none =>
  match env.carpSelectParent request with
  | some p => some (p, hier_code.CARP)
  | none =>
  match env.getRoundRobinParent request with
  | some p => some (p, hier_code.ROUNDROBIN_PARENT)
  | none =>
  match env.getWeightedRoundRobinParent request with
  | some p => some (p, hier_code.ROUNDROBIN_PARENT)
  | none =>
  match env.getFirstUpParent request with
  | some p => some (p, hier_code.FIRSTUP_PARENT)
  | none =>
  match env.getDefaultParent request with
  | some p => some (p, hier_code.DEFAULT_PARENT)
  | none => none

/-- The function `peerGetSomeParent`. -/
def peerGetSomeParent (env : Env) (s : ps_state) : ps_state :=
  if s.direct == direct_t.DIRECT_YES then s
  else
    match peerGetSomeParentChoice env s.request with
    | some (p, code) => { s with servers := peerAddFwdServer s.servers (some p) code }
    | none => s

/-- The `for` loop of `peerGetAllParents` over `Config.peers`. -/
def peerGetAllParentsLoop (env : Env) (request : HttpRequest) :
    List CachePeer → List FwdServer → List FwdServer
  | [], servers => servers
  | p :: next, servers =>
    if env.neighborType p request != peer_t.PEER_PARENT then
      peerGetAllParentsLoop env request next servers
    else if !env.peerHTTPOkay p request then
      peerGetAllParentsLoop env request next servers
    else
      peerGetAllParentsLoop env request next
        (peerAddFwdServer servers (some p) hier_code.ANY_OLD_PARENT)

/-- The function `peerGetAllParents`. -/
def peerGetAllParents (cfg : SquidConfig) (env : Env) (s : ps_state) : ps_state :=
  let servers := peerGetAllParentsLoop env s.request cfg.peers s.servers
  match env.getDefaultParent s.request with
  | some p => { s with servers := peerAddFwdServer servers (some p) hier_code.DEFAULT_PARENT }
  | none => { s with servers := servers }

/-- The first block of `peerSelectFoo` once no ACL check has to be issued: the
direct-disposition is settled if it is still unknown. -/
def peerSelectFooDirect (cfg : SquidConfig) (env : Env) (s : ps_state) : ps_state :=
  if s.direct == direct_t.DIRECT_UNKNOWN then
    if s.request.flags.noDirect then { s with direct := direct_t.DIRECT_NO }
    else if s.request.flags.loopDetected then { s with direct := direct_t.DIRECT_YES }
    else if peerCheckNetdbDirect cfg env s then { s with direct := direct_t.DIRECT_YES }
    else { s with direct := direct_t.DIRECT_MAYBE }
  else s

/-- The middle of `peerSelectFoo`: the pinned connection and the neighbors. The second
component is true when `peerSelectFoo` returns to wait for ping replies. -/
def peerSelectFooNeighbors (cfg : SquidConfig) (env : Env) (s : ps_state) : ps_state × Bool :=
  let s :=
    if s.entry.isNone || s.pingStatusIs ping_status_t.PING_NONE then peerSelectPinned env s
    else s
  match s.entry with
  | none => (s, false)
  | some entry =>
    if entry.ping_status == ping_status_t.PING_NONE then
      let s := peerGetSomeNeighbor cfg env s
      if s.pingStatusIs ping_status_t.PING_WAITING then (s, true) else (s, false)
    else if entry.ping_status == ping_status_t.PING_WAITING then
      let s := peerGetSomeNeighborReplies cfg env s
      (s.setPingStatus ping_status_t.PING_DONE, false)
    else (s, false)

/-- The `switch (ps->direct)` of `peerSelectFoo`. -/
def peerSelectFooSwitch (cfg : SquidConfig) (env : Env) (s : ps_state) : ps_state :=
  match s.direct with
  | direct_t.DIRECT_YES => peerGetSomeDirect s
  | direct_t.DIRECT_NO => peerGetAllParents cfg env (peerGetSomeParent env s)
  | _ =>
    let s := if cfg.prefer_direct then peerGetSomeDirect s else s
    let s :=
      if s.request.flags.hierarchical || !cfg.nonhierarchical_direct then
        peerGetAllParents cfg env (peerGetSomeParent env s)
      else s
    let s := if !cfg.prefer_direct then peerGetSomeDirect s else s
    s

/-- The function `peerSelectFoo`. -/
def peerSelectFoo (cfg : SquidConfig) (env : Env) (s : ps_state) : ps_state :=
  if !s.interestedInitiator then s.destroy
  else if s.direct == direct_t.DIRECT_UNKNOWN && s.always_direct == allow_t.ACCESS_DUNNO then
    { s with acl_checklist := some AclList.AlwaysDirect }
  else if s.direct == direct_t.DIRECT_UNKNOWN && s.never_direct == allow_t.ACCESS_DUNNO then
    { s with acl_checklist := some AclList.NeverDirect }
  else
    let s := peerSelectFooDirect cfg env s
    let r := peerSelectFooNeighbors cfg env s
    if r.2 then r.1
    else peerSelectDnsPaths cfg env (peerSelectFooSwitch cfg env r.1)

/-- The function `peerSelect`, called by `startSelectingDestinations` after it has set
`subscribed`. -/
def peerSelect (cfg : SquidConfig) (env : Env) (request : HttpRequest)
    (entry : Option StoreEntry) : ps_state :=
  peerSelectFoo cfg env (ps_state.init cfg { subscribed := true } request entry)

/-- The callback `peerCheckNeverDirectDone`. -/
def peerCheckNeverDirectDone (cfg : SquidConfig) (env : Env) (answer : allow_t)
    (s : ps_state) : ps_state :=
  let s := { s with acl_checklist := none, never_direct := answer }
  let s :=
    match answer with
    | allow_t.ACCESS_ALLOWED => { s with direct := direct_t.DIRECT_NO }
    | _ => s
  peerSelectFoo cfg env s

/-- The callback `peerCheckAlwaysDirectDone`. -/
def peerCheckAlwaysDirectDone (cfg : SquidConfig) (env : Env) (answer : allow_t)
    (s : ps_state) : ps_state :=
  let s := { s with acl_checklist := none, always_direct := answer }
  let s :=
    match answer with
    | allow_t.ACCESS_ALLOWED => { s with direct := direct_t.DIRECT_YES }
    | _ => s
  peerSelectFoo cfg env s

/-- The event handler `peerPingTimeout`. -/
def peerPingTimeout (cfg : SquidConfig) (env : Env) (s : ps_state) : ps_state :=
  let s := s.setPingStatus ping_status_t.PING_DONE
  if !s.interestedInitiator then s.destroy
  else
    let s := { s with ping := { s.ping with timedout := 1 } }
    peerSelectFoo cfg env s

/-- The ICP opcodes told apart by `peerHandleIcpReply`. -/
inductive icp_opcode
  | ICP_HIT | ICP_MISS | ICP_DECHO | ICP_OTHER
deriving DecidableEq, Repr

/-- The fields of the ICP header `icp_common_t` read by peer selection. -/
structure icp_common_t where
  opcode : icp_opcode
  flags : Nat
  pad : Nat
deriving DecidableEq, Repr

/-- Modelled from the spec: the `SRC_RTT` flag bit of an ICP message, `ICP_FLAG_SRC_RTT`
of the ICP header file (`0x40000000`, as in RFC 2186). -/
def ICP_FLAG_SRC_RTT : Nat := 0x40000000

/-- The fields of `HtcpReplyData` read by peer selection. -/
structure HtcpReplyData where
  hit : Bool
  /-- Field `cto.rtt`. -/
  cto_rtt : ℚ
  /-- Field `cto.hops`. -/
  cto_hops : ℚ
deriving DecidableEq, Repr

/-- The common tail of `peerIcpParentMiss` and `peerHtcpParentMiss`, from the
`closest_only` test on: the FIRST_PARENT_MISS candidate. -/
def peerParentMissFirst (env : Env) (p : CachePeer) (s : ps_state) : ps_state :=
  if p.closest_only then s
  else if !s.closest_parent_miss.isAnyAddr then s
  else
    let rtt := Int.tdiv ((env.current_time - s.ping.start) - p.basetime) p.weight
    let rtt := if rtt < 1 then 1 else rtt
    if s.first_parent_miss.isAnyAddr || decide (rtt < s.ping.w_rtt) then
      { s with first_parent_miss := p.in_addr, ping := { s.ping with w_rtt := rtt } }
    else s

/-- The function `peerIcpParentMiss` (with `USE_ICMP`). -/
def peerIcpParentMiss (cfg : SquidConfig) (env : Env) (p : CachePeer) (header : icp_common_t)
    (s : ps_state) : ps_state :=
  let s :=
    if cfg.query_icmp then
      if header.flags &&& ICP_FLAG_SRC_RTT != 0 then
        let rtt : Int := ((header.pad &&& 0xFFFF : Nat) : Int)
        let hops : Int := (((header.pad >>> 16) &&& 0xFFFF : Nat) : Int)
        let s :=
          if decide (rtt > 0) && decide (rtt < 0xFFFF) then
            { s with netdbUpdatePeerCalls :=
                       s.netdbUpdatePeerCalls ++ [(s.request.url_host, p, rtt, hops)] }
          else s
        if rtt != 0 && (s.ping.p_rtt == 0 || decide (rtt < s.ping.p_rtt)) then
          { s with closest_parent_miss := p.in_addr, ping := { s.ping with p_rtt := rtt } }
        else s
      else s
    else s
  peerParentMissFirst env p s

/-- The function `peerHtcpParentMiss` (with `USE_HTCP` and `USE_ICMP`). -/
def peerHtcpParentMiss (cfg : SquidConfig) (env : Env) (p : CachePeer) (htcp : HtcpReplyData)
    (s : ps_state) : ps_state :=
  let s :=
    if cfg.query_icmp then
      if htcp.cto_rtt > 0 then
        let rtt : Int := truncToInt htcp.cto_rtt * 1000
        let hops : Int := truncToInt htcp.cto_hops * 1000
        let s := { s with netdbUpdatePeerCalls :=
                            s.netdbUpdatePeerCalls ++ [(s.request.url_host, p, rtt, hops)] }
        if rtt != 0 && (s.ping.p_rtt == 0 || decide (rtt < s.ping.p_rtt)) then
          { s with closest_parent_miss := p.in_addr, ping := { s.ping with p_rtt := rtt } }
        else s
      else s
    else s
  peerParentMissFirst env p s

/-- The function `peerHandleIcpReply`. -/
def peerHandleIcpReply (cfg : SquidConfig) (env : Env) (p : CachePeer) (type : peer_t)
    (header : icp_common_t) (s : ps_state) : ps_state :=
  let op := header.opcode
  let s := { s with ping := { s.ping with n_recv := s.ping.n_recv + 1 } }
  if op == icp_opcode.ICP_HIT then
    peerSelectFoo cfg env { s with hit := some p, hit_type := type }
  else
    let s :=
      if (op == icp_opcode.ICP_MISS || op == icp_opcode.ICP_DECHO)
          && type == peer_t.PEER_PARENT then
        peerIcpParentMiss cfg env p header s
      else s
    if s.ping.n_recv < s.ping.n_replies_expected then s
    else peerSelectFoo cfg env s

/-- The function `peerHandleHtcpReply` (with `USE_HTCP`). -/
def peerHandleHtcpReply (cfg : SquidConfig) (env : Env) (p : CachePeer) (type : peer_t)
    (htcp : HtcpReplyData) (s : ps_state) : ps_state :=
  let s := { s with ping := { s.ping with n_recv := s.ping.n_recv + 1 } }
  if htcp.hit then
    peerSelectFoo cfg env { s with hit := some p, hit_type := type }
  else
    let s := if type == peer_t.PEER_PARENT then peerHtcpParentMiss cfg env p htcp s else s
    if s.ping.n_recv < s.ping.n_replies_expected then s
    else peerSelectFoo cfg env s

/-- What can happen to a selection between two of its own steps. -/
inductive Event
  /-- The pending non-blocking ACL check answers. -/
  | aclAnswer (answer : allow_t)
  /-- The neighbor layer passes an ICP reply to `peerHandlePingReply`. -/
  | icpReply (p : CachePeer) (type : peer_t) (header : icp_common_t)
  /-- The neighbor layer passes an HTCP reply to `peerHandlePingReply`. -/
  | htcpReply (p : CachePeer) (type : peer_t) (htcp : HtcpReplyData)
  /-- The registered `peerPingTimeout` event fires. -/
  | pingTimeout
  /-- The oldest outstanding DNS lookup reports one address through `noteIp`. -/
  | noteIp (ip : Ip.Address)
  /-- The oldest outstanding DNS lookup ends through `noteIps`; `ia` is false when no
  address was found. -/
  | noteIps (ia : Bool) (dnsError : String)
  /-- The initiator clears its `subscribed` flag. -/
  | initiatorUnsubscribes
  /-- The initiator is destroyed, so `initiator_` is no longer valid. -/
  | initiatorGone
deriving DecidableEq, Repr

/-- One event delivered to a selection. Callbacks for a deleted `ps_state` are dropped
(cbdata); an ACL answer needs a pending check; ping replies are passed on by the
neighbor layer only while the entry is `PING_WAITING`; the timeout fires only while it is
registered; DNS answers need an outstanding lookup. -/
def step (cfg : SquidConfig) (env : Env) (s : ps_state) (ev : Event) : ps_state :=
  if s.deleted then s
  else
    match ev with
    | Event.aclAnswer answer =>
      match s.acl_checklist with
      | some AclList.AlwaysDirect => peerCheckAlwaysDirectDone cfg env answer s
      | some AclList.NeverDirect => peerCheckNeverDirectDone cfg env answer s
      | none => s
    | Event.icpReply p type header =>
      if s.pingStatusIs ping_status_t.PING_WAITING then peerHandleIcpReply cfg env p type header s
      else s
    | Event.htcpReply p type htcp =>
      if s.pingStatusIs ping_status_t.PING_WAITING then peerHandleHtcpReply cfg env p type htcp s
      else s
    | Event.pingTimeout =>
      if s.pingEvent then peerPingTimeout cfg env { s with pingEvent := false } else s
    | Event.noteIp ip =>
      match s.dnsLookups with
      | [] => s
      | _ :: _ => s.noteIp cfg ip
    | Event.noteIps ia dnsError =>
      match s.dnsLookups with
      | [] => s
      | _ :: rest => ps_state.noteIps cfg env { s with dnsLookups := rest } ia dnsError
    | Event.initiatorUnsubscribes =>
      { s with initiator_ := s.initiator_.map (fun _ => { subscribed := false }) }
    | Event.initiatorGone => { s with initiator_ := none }

/-- A run of one selection: the events are delivered in order. -/
def run (cfg : SquidConfig) (env : Env) (s : ps_state) (events : List Event) : ps_state :=
  events.foldl (step cfg env) s

/-- The number of `noteDestination` calls among the calls made on the initiator. -/
def countNoteDestination (calls : List InitiatorCall) : Nat :=
  calls.countP (fun c => match c with
    | InitiatorCall.noteDestination _ => true
    | InitiatorCall.noteDestinationsEnd _ => false)

/-- The number of `noteDestinationsEnd` calls among the calls made on the initiator. -/
def countNoteDestinationsEnd (calls : List InitiatorCall) : Nat :=
  calls.countP (fun c => match c with
    | InitiatorCall.noteDestination _ => false
    | InitiatorCall.noteDestinationsEnd _ => true)

/-! ## Concrete inputs used by the theorems -/

/-- A NetDB entry for network 10.0.0.0 with rtt 42.0 ms and hops 3.0. -/
def exampleEntry : netdbEntry :=
  { netdbEntry.fresh (Ip.Address.ofOctets 10 0 0 0 0) with
    pings_sent := 1, pings_recv := 1, hops := 3, rtt := 42 }

/-- A table that holds one fresh entry, for network 10.0.0.0. -/
def freshTable : NetDB :=
  { addr_table := [netdbEntry.fresh (Ip.Address.ofOctets 10 0 0 0 0)], host_table := [] }

/-- Six ping replies `(hops, rtt)` with the RTT samples 1, 1, 1, 1, 2, 2. -/
def sixReplies : List (Int × Int) := [(2, 1), (2, 1), (2, 1), (2, 1), (2, 2), (2, 2)]

/-- An environment without neighbors and with empty NetDB tables. -/
def noNeighbors : Env :=
  { whichPeer := fun _ => none, neighborType := fun _ _ => peer_t.PEER_NONE,
    peerHTTPOkay := fun _ _ => false, peerAllowedToUse := fun _ _ => false,
    neighborsDigestSelect := fun _ => none, neighborsCount := fun _ => 0,
    neighborsUdpPing := fun _ => (0, 0, 0), neighbors_do_private_keys := false,
    peerSourceHashSelectParent := fun _ => none, peerUserHashSelectParent := fun _ => none,
    carpSelectParent := fun _ => none, getRoundRobinParent := fun _ => none,
    getWeightedRoundRobinParent := fun _ => none, getFirstUpParent := fun _ => none,
    getDefaultParent := fun _ => none, ipcache_gethostbyname := fun _ => none,
    netdb := { addr_table := [], host_table := [] }, squid_curtime := 0, current_time := 0 }

/-- A configuration with the given `forward_max_tries`, no `always_direct` or
`never_direct` list, no peers, and the other options at their defaults. -/
def defaultConfig (forward_max_tries : Int) : SquidConfig :=
  { forward_max_tries := forward_max_tries, client_dst_passthru := true,
    prefer_direct := false, nonhierarchical_direct := true, query_icmp := false,
    minDirectRtt := 400, minDirectHops := 4, AlwaysDirect := false, NeverDirect := false,
    peers := [] }

/-- No request flag set. -/
def noFlags : RequestFlags :=
  { redirected := false, intercepted := false, interceptTproxy := false,
    hostVerified := false, noDirect := false, loopDetected := false,
    hierarchical := false, spoofClientIp := false }

/-- A plain request `GET http://origin.example/` from 192.0.2.10, received on the local
address 203.0.113.5:80, with the given flags. -/
def exampleRequest (flags : RequestFlags) : HttpRequest :=
  { flags := flags, url_host := "origin.example", url_port := 80,
    url_scheme := ProtocolType.PROTO_HTTP,
    client_addr := Ip.Address.ofOctets 192 0 2 10 50000,
    clientConnectionManager := some (Ip.Address.ofOctets 203 0 113 5 80),
    pinnedConnection := none }

/-- An intercepted request that failed host verification. -/
def interceptedRequest : HttpRequest :=
  exampleRequest { noFlags with intercepted := true, hierarchical := true }

/-- A parent cache `parent.example` at 198.51.100.1, port 3128. -/
def exampleParent : CachePeer :=
  { host := "parent.example", in_addr := Ip.Address.ofOctets 198 51 100 1 3130,
    http_port := 3128, basetime := 0, weight := 1, closest_only := false, no_tproxy := false }

/-- An environment whose only neighbor is the parent `exampleParent`, alive and found by
the first-up method. -/
def oneParent : Env :=
  { noNeighbors with
    whichPeer := fun a => if a == exampleParent.in_addr then some exampleParent else none,
    neighborType := fun _ _ => peer_t.PEER_PARENT,
    peerHTTPOkay := fun _ _ => true,
    peerAllowedToUse := fun _ _ => true,
    neighborsCount := fun _ => 1,
    getFirstUpParent := fun _ => some exampleParent }

/-- The configuration `defaultConfig` with the one parent `exampleParent`. -/
def oneParentConfig (forward_max_tries : Int) : SquidConfig :=
  { defaultConfig forward_max_tries with peers := [exampleParent] }

/-- The condition the claim C8 gives for `peerCheckNetdbDirect`, in the claim's words:
own RTT at most `minDirectRtt`, or own hops at most `minDirectHops`, or, when a
closest_parent_miss peer is known, own RTT at most `ping.p_rtt`. -/
def netdbDirectClaimed (cfg : SquidConfig) (env : Env) (s : ps_state) : Bool :=
  let myrtt := (netdbHostRtt env.netdb env.squid_curtime s.request.url_host).1
  let myhops := (netdbHostHops env.netdb env.squid_curtime s.request.url_host).1
  decide (myrtt ≤ cfg.minDirectRtt) || decide (myhops ≤ cfg.minDirectHops)
    || ((env.whichPeer s.closest_parent_miss).isSome && decide (myrtt ≤ s.ping.p_rtt))

/-- The environment `noNeighbors` with a NetDB that knows `origin.example`, in network
203.0.113.0, with rtt 5 ms and 2 hops. -/
def knownHost : Env :=
  { noNeighbors with
    netdb :=
      { addr_table := [{ netdbEntry.fresh (Ip.Address.ofOctets 203 0 113 0 0) with
                         pings_sent := 1, pings_recv := 1, rtt := 5, hops := 2,
                         link_count := 1, hosts := ["origin.example"] }],
        host_table := [{ key := "origin.example",
                         net_db_entry := Ip.Address.ofOctets 203 0 113 0 0 }] } }

/-- The state built by `peerSelect` for the plain request, before `peerSelectFoo` runs. -/
def plainStart : ps_state :=
  ps_state.init (defaultConfig 10) { subscribed := true } (exampleRequest noFlags) none

/-- The destination that C6 describes for the state PING_WAITING, in the claim's words:
CLOSEST_DIRECT (origin) if the NetDB direct heuristic passes; else the recorded hit peer
as PARENT_HIT or SIBLING_HIT; else the closest_parent_miss peer as CLOSEST_PARENT_MISS if
that address is set; else the first_parent_miss peer as FIRST_PARENT_MISS if that address
is set. The peer of an address is the one `whichPeer` finds, if any. -/
def neighborReplyChoice (cfg : SquidConfig) (env : Env) (s : ps_state) : Option FwdServer :=
  if peerCheckNetdbDirect cfg env s then some { _peer := none, code := hier_code.CLOSEST_DIRECT }
  else
    match s.hit with
    | some p =>
      some { _peer := some p,
             code := if s.hit_type = peer_t.PEER_PARENT then hier_code.PARENT_HIT
                     else hier_code.SIBLING_HIT }
    | none =>
      if s.closest_parent_miss.isAnyAddr = false then
        (env.whichPeer s.closest_parent_miss).map
          (fun p => { _peer := some p, code := hier_code.CLOSEST_PARENT_MISS })
      else if s.first_parent_miss.isAnyAddr = false then
        (env.whichPeer s.first_parent_miss).map
          (fun p => { _peer := some p, code := hier_code.FIRST_PARENT_MISS })
      else none

/-- The direct destination of a request: HIER_DIRECT to the origin server, and none for a
WAIS URL, which is not forwarded natively. -/
def directDestination (request : HttpRequest) : List FwdServer :=
  if request.url_scheme = ProtocolType.PROTO_WAIS then []
  else [{ _peer := none, code := hier_code.HIER_DIRECT }]

/-- The parent destinations of a request: the parent chosen by the first selection method
that yields one, then every alive parent as ANY_OLD_PARENT, then the default parent. -/
def parentDestinations (cfg : SquidConfig) (env : Env) (request : HttpRequest) :
    List FwdServer :=
  (match peerGetSomeParentChoice env request with
    | some (p, code) => [{ _peer := some p, code := code }]
    | none => [])
  ++ ((cfg.peers.filter (fun p => env.neighborType p request == peer_t.PEER_PARENT
                                    && env.peerHTTPOkay p request)).map
        (fun p => { _peer := some p, code := hier_code.ANY_OLD_PARENT }))
  ++ (match env.getDefaultParent request with
    | some p => [{ _peer := some p, code := hier_code.DEFAULT_PARENT }]
    | none => [])

/-- The order of destinations that C5 gives for the disposition Maybe, in the claim's
words: direct first if `prefer_direct` is on; then the parents exactly when the request
is hierarchical or `nonhierarchical_direct` is enabled; then direct if `prefer_direct` is
off. -/
def maybeOrderClaimed (cfg : SquidConfig) (env : Env) (request : HttpRequest) :
    List FwdServer :=
  (if cfg.prefer_direct then directDestination request else [])
  ++ (if request.flags.hierarchical || cfg.nonhierarchical_direct then
        parentDestinations cfg env request else [])
  ++ (if !cfg.prefer_direct then directDestination request else [])

/-- The order of destinations that `peerSelectFoo` follows for the disposition Maybe: as
`maybeOrderClaimed`, with the parents exactly when the request is hierarchical or
`nonhierarchical_direct` is disabled. -/
def maybeOrder (cfg : SquidConfig) (env : Env) (request : HttpRequest) : List FwdServer :=
  (if cfg.prefer_direct then directDestination request else [])
  ++ (if request.flags.hierarchical || !cfg.nonhierarchical_direct then
        parentDestinations cfg env request else [])
  ++ (if !cfg.prefer_direct then directDestination request else [])

/-- The state of `plainStart` with the disposition already settled as Maybe. -/
def maybeStart : ps_state :=
  { plainStart with direct := direct_t.DIRECT_MAYBE }

/-! ## Relations between selection states used by the proofs -/

/-- The state `t` differs from `s` at most in fields that neither the initiator nor the
DNS phase sees: the request, the calls made, the deleted flag, the initiator, the
outstanding lookups, `foundPaths` and `lastError` are those of `s`, and the destination
list of `t` is that of `s` with destinations appended, none of them ORIGINAL_DST. -/
structure Frame (s t : ps_state) : Prop where
  request : t.request = s.request
  calls : t.calls = s.calls
  deleted : t.deleted = s.deleted
  initiator : t.initiator_ = s.initiator_
  dnsLookups : t.dnsLookups = s.dnsLookups
  foundPaths : t.foundPaths = s.foundPaths
  lastError : t.lastError = s.lastError
  servers : ∃ extra : List FwdServer, t.servers = s.servers ++ extra
    ∧ ∀ fs ∈ extra, fs.code ≠ hier_code.ORIGINAL_DST

/-- A `Frame` that also keeps the direct-disposition, the two ACL answers and the
pending ACL check. -/
structure Quiet (s t : ps_state) extends Frame s t : Prop where
  direct : t.direct = s.direct
  always_direct : t.always_direct = s.always_direct
  never_direct : t.never_direct = s.never_direct
  acl_checklist : t.acl_checklist = s.acl_checklist

/-- The test of `peerSelectDnsPaths` that sends a destination down the ORIGINAL_DST
branch: `isIntercepted && useOriginalDst && choseDirect`. -/
def usesOriginalDst (cfg : SquidConfig) (req : HttpRequest) (fs : FwdServer) : Bool :=
  (!req.flags.redirected && (req.flags.intercepted || req.flags.interceptTproxy))
    && (cfg.client_dst_passthru || !req.flags.hostVerified)
    && (fs.code == hier_code.HIER_DIRECT)

/-- The paths that the ORIGINAL_DST branch of `peerSelectDnsPaths` hands to the
initiator: code ORIGINAL_DST and the local address of the client connection as remote
address. -/
def IsOriginalDstPath (req : HttpRequest) (p : Comm.Connection) : Prop :=
  p.peerType = hier_code.ORIGINAL_DST ∧ req.clientConnectionManager = some p.remote

/-- What a call of `peerSelectDnsPaths` on a live selection `s` with an interested
initiator leads to, `t`: some ORIGINAL_DST paths are handed to the initiator, and then
either a DNS lookup is started for the destination now at the head of the list, which is
not one for the ORIGINAL_DST branch and is started only while more destinations are
wanted, or the end of the selection is reported and the state is deleted. -/
structure DnsOutcome (cfg : SquidConfig) (s t : ps_state) : Prop where
  request : t.request = s.request
  direct : t.direct = s.direct
  always_direct : t.always_direct = s.always_direct
  never_direct : t.never_direct = s.never_direct
  initiator : t.initiator_ = s.initiator_
  acl_checklist : s.acl_checklist = none → t.acl_checklist = none
  servers : ∀ fs ∈ t.servers, fs ∈ s.servers
  outcome : ∃ paths : List Comm.Connection,
    (∀ p ∈ paths, IsOriginalDstPath s.request p)
    ∧ t.foundPaths = s.foundPaths + paths.length
    ∧ ((t.deleted = false
          ∧ t.calls = s.calls ++ paths.map InitiatorCall.noteDestination
          ∧ t.wantsMoreDestinations cfg = true
          ∧ ∃ fs rest host, t.servers = fs :: rest ∧ usesOriginalDst cfg s.request fs = false
              ∧ t.dnsLookups = s.dnsLookups ++ [host])
        ∨ (t.deleted = true
          ∧ t.dnsLookups = s.dnsLookups
          ∧ ∃ err, t.calls = s.calls ++ paths.map InitiatorCall.noteDestination
                      ++ [InitiatorCall.noteDestinationsEnd err]))

/-- The number of `noteDestination` calls whose path is not an ORIGINAL_DST path, that
is, whose address came from a DNS lookup. -/
def countDnsPaths (calls : List InitiatorCall) : Nat :=
  calls.countP (fun c => match c with
    | InitiatorCall.noteDestination p => p.peerType != hier_code.ORIGINAL_DST
    | InitiatorCall.noteDestinationsEnd _ => false)

/-- The part of the invariant of a run that does not speak of outstanding lookups. -/
structure RunCore (cfg : SquidConfig) (req : HttpRequest) (s : ps_state) : Prop where
  /-- The request does not change. -/
  request : s.request = req
  /-- No queued destination carries the code ORIGINAL_DST. -/
  servers : ∀ fs ∈ s.servers, fs.code ≠ hier_code.ORIGINAL_DST
  /-- Every path handed to the initiator is either an ORIGINAL_DST path or the path of a
  destination that was sent to DNS. -/
  paths : ∀ p, InitiatorCall.noteDestination p ∈ s.calls →
    IsOriginalDstPath req p
      ∨ (p.peerType ≠ hier_code.ORIGINAL_DST
          ∧ usesOriginalDst cfg req { _peer := p.peer, code := p.peerType } = false)
  /-- No `noteDestinationsEnd` call is made while the state exists. -/
  live : s.deleted = false → countNoteDestinationsEnd s.calls = 0
  /-- A deleted state has made one `noteDestinationsEnd` call if the initiator was still
  interested and none otherwise. -/
  ended : s.deleted = true →
    countNoteDestinationsEnd s.calls = if s.interestedInitiator then 1 else 0
  /-- Every `noteDestination` call was counted in `foundPaths`. -/
  found : countNoteDestination s.calls ≤ s.foundPaths
  /-- The paths that came from DNS respect `forward_max_tries`. -/
  capped : (countDnsPaths s.calls : Int) ≤ max cfg.forward_max_tries 0

/-- The invariant of a run of one selection on the request `req`. -/
structure RunInv (cfg : SquidConfig) (req : HttpRequest) (s : ps_state)
    extends RunCore cfg req s : Prop where
  /-- While a DNS lookup is outstanding, the destination at the head of the list is one
  that `peerSelectDnsPaths` sends to DNS, not down the ORIGINAL_DST branch. -/
  head : s.deleted = false → s.dnsLookups ≠ [] →
    ∃ fs rest, s.servers = fs :: rest ∧ usesOriginalDst cfg req fs = false

/-- An intercepted request that failed host verification and whose URL was rewritten by
a redirector. -/
def redirectedRequest : HttpRequest :=
  exampleRequest { noFlags with intercepted := true, redirected := true }

/-- The environment `oneParent` with ICP enabled towards the one parent (one query sent,
one reply expected, 200 ms timeout) and a NetDB that knows `origin.example`, in network
203.0.113.0, with rtt 500 ms and 10 hops. -/
def farHost : Env :=
  { oneParent with
    neighborsUdpPing := fun _ => (1, 1, 200),
    netdb :=
      { addr_table := [{ netdbEntry.fresh (Ip.Address.ofOctets 203 0 113 0 0) with
                         pings_sent := 1, pings_recv := 1, rtt := 500, hops := 10,
                         link_count := 1, hosts := ["origin.example"] }],
        host_table := [{ key := "origin.example",
                         net_db_entry := Ip.Address.ofOctets 203 0 113 0 0 }] } }

/-- The configuration `oneParentConfig 10` with `query_icmp` on. -/
def icmpConfig : SquidConfig :=
  { oneParentConfig 10 with query_icmp := true }

/-- An ICP_MISS reply that carries SRC_RTT with the given RTT and no hop count. -/
def icpMiss (rtt : Nat) : icp_common_t :=
  { opcode := icp_opcode.ICP_MISS, flags := ICP_FLAG_SRC_RTT, pad := rtt }

/-- A store entry that has not been pinged yet. -/
def newEntry : StoreEntry :=
  { ping_status := ping_status_t.PING_NONE, KEY_PRIVATE := false }

/-- The peer-to-origin RTT reported by an ICP reply: `header->pad & 0xFFFF`. -/
def icpRtt (header : icp_common_t) : Int := ((header.pad &&& 0xFFFF : Nat) : Int)

/-- The handler `peerIcpParentMiss` applied to a sequence of replies, in arrival order. -/
def peerIcpParentMissAll (cfg : SquidConfig) (env : Env)
    (replies : List (CachePeer × icp_common_t)) (s : ps_state) : ps_state :=
  replies.foldl (fun st r => peerIcpParentMiss cfg env r.1 r.2 st) s

/-- Parent A, at 198.51.100.1. -/
def parentA : CachePeer :=
  { exampleParent with host := "a.example", in_addr := Ip.Address.ofOctets 198 51 100 1 3130 }

/-- Parent B, at 198.51.100.2. -/
def parentB : CachePeer :=
  { exampleParent with host := "b.example", in_addr := Ip.Address.ofOctets 198 51 100 2 3130 }

/-- An environment with the two parents A and B, both queried by ICP (two queries sent,
two replies expected, 200 ms timeout), and no other selection method. -/
def twoParents : Env :=
  { noNeighbors with
    whichPeer := fun a =>
      if a == parentA.in_addr then some parentA
      else if a == parentB.in_addr then some parentB
      else none,
    neighborType := fun _ _ => peer_t.PEER_PARENT,
    peerHTTPOkay := fun _ _ => true,
    peerAllowedToUse := fun _ _ => true,
    neighborsCount := fun _ => 2,
    neighborsUdpPing := fun _ => (2, 2, 200) }

/-- The configuration with the two parents A and B and `query_icmp` on. -/
def twoParentsConfig : SquidConfig :=
  { defaultConfig 10 with query_icmp := true, peers := [parentA, parentB] }

/-- The selection for a hierarchical request with the two parents, waiting for ICP
replies. -/
def waitingForReplies : ps_state :=
  peerSelect twoParentsConfig twoParents
    (exampleRequest { noFlags with hierarchical := true }) (some newEntry)

/-- The reference decision of C4, in the claim's words: Yes if the always_direct answer
is Allowed; else No if the never_direct answer is Allowed; else No if the request has
noDirect; else Yes if the request has loopDetected; else Yes if the NetDB direct
heuristic passes; else Maybe. -/
def directReference (always never : allow_t) (noDirect loopDetected netdbDirect : Bool) :
    direct_t :=
  if always = allow_t.ACCESS_ALLOWED then direct_t.DIRECT_YES
  else if never = allow_t.ACCESS_ALLOWED then direct_t.DIRECT_NO
  else if noDirect then direct_t.DIRECT_NO
  else if loopDetected then direct_t.DIRECT_YES
  else if netdbDirect then direct_t.DIRECT_YES
  else direct_t.DIRECT_MAYBE

/-- What a selection that still exists is waiting for. While the direct-disposition is
unknown, no DNS lookup has been started and an ACL check is pending on a list whose stored
answer is still DUNNO. Once it is known, no ACL check is pending and the selection waits
for ping replies or for a DNS lookup. -/
structure Waits (s : ps_state) : Prop where
  undecided : s.deleted = false → s.direct = direct_t.DIRECT_UNKNOWN →
    s.dnsLookups = []
    ∧ ((s.acl_checklist = some AclList.AlwaysDirect ∧ s.always_direct = allow_t.ACCESS_DUNNO)
      ∨ (s.acl_checklist = some AclList.NeverDirect ∧ s.never_direct = allow_t.ACCESS_DUNNO))
  decided : s.deleted = false → s.direct ≠ direct_t.DIRECT_UNKNOWN →
    s.acl_checklist = none
    ∧ (s.pingStatusIs ping_status_t.PING_WAITING = true ∨ s.dnsLookups ≠ [])

/-- The states on which `peerSelectFoo` is called in a run: the selection exists, no DNS
lookup has been started while the direct-disposition is unknown, and an ACL check is
pending only while the direct-disposition is unknown and one of the two stored answers is
DUNNO (the check is then issued again). -/
structure FooPre (s : ps_state) : Prop where
  live : s.deleted = false
  lookups : s.direct = direct_t.DIRECT_UNKNOWN → s.dnsLookups = []
  acl : s.acl_checklist = none
    ∨ (s.direct = direct_t.DIRECT_UNKNOWN
        ∧ (s.always_direct = allow_t.ACCESS_DUNNO ∨ s.never_direct = allow_t.ACCESS_DUNNO))

/-- The state `t` has the fields of `s` that tell what the selection is waiting for. -/
structure Same (s t : ps_state) : Prop where
  deleted : t.deleted = s.deleted
  direct : t.direct = s.direct
  always_direct : t.always_direct = s.always_direct
  never_direct : t.never_direct = s.never_direct
  acl_checklist : t.acl_checklist = s.acl_checklist
  dnsLookups : t.dnsLookups = s.dnsLookups
  entry : t.entry = s.entry

/-- The state `t` is waiting as `Waits` says, for the initiator of `s`. -/
def Keeps (s t : ps_state) : Prop :=
  Waits t ∧ t.initiator_ = s.initiator_

/-- The configuration `twoParentsConfig` with an `always_direct` and a `never_direct`
list. -/
def aclConfig : SquidConfig :=
  { twoParentsConfig with AlwaysDirect := true, NeverDirect := true }

/-! ## NetDB: peer measurements, the LRU purge and the exchange parser -/

/-- The configuration values `Config.Netdb`: the high and low water marks and the ping
period. -/
structure Netdb where
  high : Int
  low : Int
  period : Int
deriving DecidableEq, Repr

/-- The C library function `qsort` with the comparison function `sortPeerByRtt`. The
order it gives to slots of equal RTT is unspecified; here they keep their order. -/
def qsortPeerByRtt (peers : List net_db_peer) : List net_db_peer :=
  peers.insertionSort (fun p1 p2 => p1.rtt ≤ p2.rtt)

/-- The C library function `qsort` with the comparison function `netdbLRU`. The order it
gives to entries of equal `last_use_time` is unspecified; here they keep their order. -/
def qsortLRU (list : List netdbEntry) : List netdbEntry :=
  list.insertionSort (fun n1 n2 => n1.last_use_time ≤ n2.last_use_time)

/-- The value `netdbEntry::UseCount()`: the number of `netdbEntry` objects in use. Every
entry is joined to `addr_table` right after `new netdbEntry`, so this is the table size. -/
def UseCount (db : NetDB) : Int := (db.addr_table.length : Int)

/-- The function `netdbHashDelete`: the entry with this key leaves `addr_table`. -/
def netdbHashDelete (db : NetDB) (key : Ip.Address) : NetDB :=
  { db with addr_table := db.addr_table.filter (fun n => !(n.network == key)) }

/-- The function `netdbHostDelete` for the `net_db_name` with the key `hostname` that
points to the entry `n`; the entry after the call is returned with the tables. -/
def netdbHostDelete (db : NetDB) (n : netdbEntry) (hostname : String) : NetDB × netdbEntry :=
  let n := { n with link_count := n.link_count - 1, hosts := n.hosts.erase hostname }
  let db := db.store n
  ({ db with host_table := db.host_table.filter (fun x => !(x.key == hostname)) }, n)

/-- The function `netdbRelease`. -/
def netdbRelease (db : NetDB) (n : netdbEntry) : NetDB :=
  let r := n.hosts.foldl (fun (st : NetDB × netdbEntry) x => netdbHostDelete st.1 st.2 x) (db, n)
  let n := { r.2 with hosts := [], peers := [], n_peers_alloc := 0 }
  let db := r.1.store n
  if n.link_count == 0 then netdbHashDelete db n.network else db

/-- The `for` loop of `netdbPurgeLRU` over the sorted list, from index `k` on. -/
def netdbPurgeLRULoop (cfg : Netdb) : List netdbEntry → NetDB → NetDB
  | [], db => db
  | n :: rest, db =>
    if UseCount db < cfg.low then db
    else netdbPurgeLRULoop cfg rest (netdbRelease db n)

/-- The function `netdbPurgeLRU`. -/
def netdbPurgeLRU (cfg : Netdb) (db : NetDB) : NetDB :=
  netdbPurgeLRULoop cfg (qsortLRU db.addr_table) db

/-- The function `netdbAdd`: the tables after the call and the entry returned. The place
of a new entry in `hash_next` order depends on its hash; here it is the end. -/
def netdbAdd (cfg : Netdb) (db : NetDB) (addr : Ip.Address) : NetDB × netdbEntry :=
  let db := if UseCount db > cfg.high then netdbPurgeLRU cfg db else db
  match netdbLookupAddr db addr with
  | some n => (db, n)
  | none =>
    let n := netdbEntry.fresh (networkFromInaddr addr)
    ({ db with addr_table := db.addr_table ++ [n] }, n)

/-- The function `netdbPeerName`: the interned copy of the name, which is the same string. -/
def netdbPeerName (name : String) : String := name

/-- The function `netdbPeerByName`: the first slot with this name. -/
def netdbPeerByName (n : netdbEntry) (peername : String) : Option net_db_peer :=
  n.peers.find? (fun p => p.peername == peername)

/-- The function `netdbPeerAdd`: the entry after the call; the new slot is the last one,
zero-filled by `xcalloc` but for its name. -/
def netdbPeerAdd (n : netdbEntry) (e : CachePeer) : netdbEntry :=
  let n :=
    if n.peers.length == n.n_peers_alloc then
      if n.n_peers_alloc == 0 then { n with n_peers_alloc := 2 }
      else { n with n_peers_alloc := n.n_peers_alloc * 2 }
    else n
  { n with peers := n.peers ++ [{ peername := netdbPeerName e.host, hops := 0, rtt := 0,
                                  expires := 0 }] }

/-- Writing `rtt`, `hops` and `expires` through the slot pointer returned by
`netdbPeerByName` or `netdbPeerAdd`: the first slot with this name is written. -/
def writePeerSlot (peername : String) (rtt hops : ℚ) (expires : Int) :
    List net_db_peer → List net_db_peer
  | [] => []
  | p :: rest =>
    if p.peername == peername then { p with rtt := rtt, hops := hops, expires := expires } :: rest
    else p :: writePeerSlot peername rtt hops expires rest

/-- The common tail of `netdbUpdatePeer` and `netdbExchangeUpdatePeer`, from the
`netdbPeerByName` call on; the entry after the call. -/
def netdbRecordPeer (squid_curtime : Int) (n : netdbEntry) (e : CachePeer) (rtt hops : ℚ) :
    netdbEntry :=
  let n :=
    match netdbPeerByName n e.host with
    | some _ => n
    | none => netdbPeerAdd n e
  let n := { n with peers := writePeerSlot e.host rtt hops (squid_curtime + 3600) n.peers }
  if n.peers.length < 2 then n
  else { n with peers := qsortPeerByRtt n.peers }

/-- The function `netdbUpdatePeer` (with `USE_ICMP`); `host` is `url.host()`. -/
def netdbUpdatePeer (squid_curtime : Int) (db : NetDB) (host : String) (e : CachePeer)
    (irtt ihops : Int) : NetDB :=
  let rtt : ℚ := (irtt : ℚ)
  let hops : ℚ := (ihops : ℚ)
  match netdbLookupHost db host with
  | none => db
  | some n => db.store (netdbRecordPeer squid_curtime n e rtt hops)

/-- The function `netdbExchangeUpdatePeer` (with `USE_ICMP`). -/
def netdbExchangeUpdatePeer (cfg : Netdb) (squid_curtime : Int) (db : NetDB) (addr : Ip.Address)
    (e : CachePeer) (rtt hops : ℚ) : NetDB :=
  if !addr.isIPv4 then db
  else
    let r :=
      match netdbLookupAddr db addr with
      | some n => (db, n)
      | none => netdbAdd cfg db addr
    r.1.store (netdbRecordPeer squid_curtime r.2 e rtt hops)

/-- The value of `ntohl(j)` for the four bytes copied into `j` by `memcpy`: the unsigned
32-bit number they spell, most significant byte first. -/
def ntohl (b0 b1 b2 b3 : Nat) : Nat :=
  b0 % 256 * 2 ^ 24 + b1 % 256 * 2 ^ 16 + b2 % 256 * 2 ^ 8 + b3 % 256

/-- The locals `addr`, `rtt` and `hops` of `netdbExchangeHandleReply`. -/
structure ExchangeRecord where
  addr : Ip.Address
  rtt : ℚ
  hops : ℚ
deriving DecidableEq, Repr

/-- The values set at the head of the `while` loop body: `addr.setAnyAddr()` and
`hops = rtt = 0.0`. -/
def ExchangeRecord.init : ExchangeRecord :=
  { addr := Ip.Address.empty, rtt := 0, hops := 0 }

/-- The inner `for (o = 0; o < rec_sz;)` loop of `netdbExchangeHandleReply` over the bytes
`p[o .. rec_sz)` of one record. Every `case` moves `o` forward by 5, so the argument is
empty when `o` reaches `rec_sz`; `none` is the `default:` branch (corrupt data). -/
def netdbParseFields : List Nat → ExchangeRecord → Option ExchangeRecord
  | tag :: b0 :: b1 :: b2 :: b3 :: rest, r =>
    if tag == NETDB_EX_NETWORK then
      netdbParseFields rest { r with addr := { isIPv4 := true, bits := ntohl b0 b1 b2 b3,
                                               port := 0 } }
    else if tag == NETDB_EX_RTT then
      netdbParseFields rest { r with rtt := (ntohl b0 b1 b2 b3 : ℚ) / 1000 }
    else if tag == NETDB_EX_HOPS then
      netdbParseFields rest { r with hops := (ntohl b0 b1 b2 b3 : ℚ) / 1000 }
    else none
  | _, r => some r

/-- The class `netdbExchangeState`, with what the handler does to its surroundings: whether
`delete ex` has run, the `netdbExchangeUpdatePeer` calls made and the number of
`storeClientCopy` calls made by the handler. `parsingBuffer` is the content of the
`Store::ParsingBuffer`: `appended` adds bytes at its end and `consume` drops them from its
front. -/
structure netdbExchangeState where
  p : CachePeer
  parsingBuffer : List Nat
  /-- True for `STATE_BODY`, false for `STATE_HEADER`. -/
  connstateBody : Bool
  deleted : Bool
  updates : List ExchangeRecord
  copyRequests : Nat
deriving DecidableEq, Repr

/-- The state made by `netdbExchangeStart`: `connstate = STATE_HEADER`, an empty buffer. -/
def netdbExchangeState.init (p : CachePeer) : netdbExchangeState :=
  { p := p, parsingBuffer := [], connstateBody := false, deleted := false, updates := [],
    copyRequests := 0 }

/-- What one call of the `STCB` callback is given: the `StoreIOBuffer` (its error flag and
its bytes) and what the handler reads from its surroundings during the call. -/
structure ReceivedData where
  /-- Result of `ex->p.valid()`. -/
  peerValid : Bool
  /-- Flag `receivedData.flags.error`. -/
  error : Bool
  /-- The bytes `receivedData.data[0 .. length)`. -/
  data : List Nat
  /-- The status code of the stored reply, `baseReply().sline.status()`. -/
  scode : Nat
  /-- Flag `ENTRY_ABORTED` of the store entry. -/
  entryAborted : Bool
  /-- Result of `ex->sc->atEof()`. -/
  atEof : Bool
deriving DecidableEq, Repr

/-- The `while (size >= rec_sz)` loop of `netdbExchangeHandleReply`; `p` holds the `size`
bytes still to parse. Each pass takes `rec_sz` bytes off, so `fuel = size` passes are never
used up. The result is the tables, the exchange state and the bytes left, or `none` for
the bytes left after `delete ex; return` on corrupt data. -/
def netdbParseLoop (cfg : Netdb) (squid_curtime : Int) :
    Nat → List Nat → NetDB × netdbExchangeState → NetDB × netdbExchangeState × Option (List Nat)
  | 0, p, st => (st.1, st.2, some p)
  | fuel + 1, p, st =>
    if p.length ≥ rec_sz then
      match netdbParseFields (p.take rec_sz) ExchangeRecord.init with
      | none => (st.1, { st.2 with deleted := true }, none)
      | some r =>
        let st :=
          if !r.addr.isAnyAddr && decide (r.rtt > 0) then
            (netdbExchangeUpdatePeer cfg squid_curtime st.1 r.addr st.2.p r.rtt r.hops,
             { st.2 with updates := st.2.updates ++ [r] })
          else st
        netdbParseLoop cfg squid_curtime fuel (p.drop rec_sz) st
    else (st.1, st.2, some p)

/-- The callback `netdbExchangeHandleReply`: the tables and the exchange state after the
call. -/
def netdbExchangeHandleReply (cfg : Netdb) (squid_curtime : Int) (db : NetDB)
    (ex : netdbExchangeState) (receivedData : ReceivedData) : NetDB × netdbExchangeState :=
  if !receivedData.peerValid then (db, { ex with deleted := true })
  else if receivedData.error then (db, { ex with deleted := true })
  else if !ex.connstateBody && receivedData.scode != 200 then (db, { ex with deleted := true })
  else
    let ex := { ex with connstateBody := true }
    let ex := { ex with parsingBuffer := ex.parsingBuffer ++ receivedData.data }
    let r := netdbParseLoop cfg squid_curtime ex.parsingBuffer.length ex.parsingBuffer (db, ex)
    match r.2.2 with
    | none => (r.1, r.2.1)
    | some left =>
      let db := r.1
      let ex := { r.2.1 with parsingBuffer := left }
      if receivedData.entryAborted then (db, { ex with deleted := true })
      else if receivedData.atEof then (db, { ex with deleted := true })
      else (db, { ex with copyRequests := ex.copyRequests + 1 })

/-- The exchange as the store drives it: the callback runs for each delivery as long as
the exchange state exists (a deleted state gets no more callbacks). -/
def netdbExchangeRun (cfg : Netdb) (squid_curtime : Int) (db : NetDB) (ex : netdbExchangeState)
    (deliveries : List ReceivedData) : NetDB × netdbExchangeState :=
  deliveries.foldl
    (fun st d => if st.2.deleted then st else netdbExchangeHandleReply cfg squid_curtime st.1 st.2 d)
    (db, ex)

/-- An entry for network 10.0.0.0 as three ping replies leave it (RTT samples 1, 2, 2 and
hop samples 2, 3, 3): `rtt` and `hops` are the doubles nearest to 5/3 and 8/3. -/
def thirdsEntry : netdbEntry :=
  { netdbEntry.fresh (Ip.Address.ofOctets 10 0 0 0 0) with
    pings_sent := 3, pings_recv := 3, rtt := toDouble (5 / 3), hops := toDouble (8 / 3) }

/-- An entry for network 10.0.0.0 as five ping replies leave it (RTT samples 1, 1, 1, 1, 2
and hop samples 2, 2, 2, 2, 3): `rtt` and `hops` are the doubles nearest to 6/5 and
11/5. -/
def fifthsEntry : netdbEntry :=
  { netdbEntry.fresh (Ip.Address.ofOctets 10 0 0 0 0) with
    pings_sent := 5, pings_recv := 5, rtt := toDouble (6 / 5), hops := toDouble (11 / 5) }

/-- The integer that the RTT field of a record carries: the big-endian number spelled by
bytes 6 to 9. -/
def rttFieldValue : List Nat → Nat
  | _ :: _ :: _ :: _ :: _ :: _ :: r0 :: r1 :: r2 :: r3 :: _ => ntohl r0 r1 r2 r3
  | _ => 0

/-- The integer that the HOPS field of a record carries: the big-endian number spelled by
bytes 11 to 14. -/
def hopsFieldValue : List Nat → Nat
  | _ :: _ :: _ :: _ :: _ :: _ :: _ :: _ :: _ :: _ :: _ :: h0 :: h1 :: h2 :: h3 :: _ =>
    ntohl h0 h1 h2 h3
  | _ => 0

/-- The first `k` records of a byte stream: consecutive pieces of `rec_sz` bytes. -/
def recordsN : Nat → List Nat → List (List Nat)
  | 0, _ => []
  | k + 1, s => s.take rec_sz :: recordsN k (s.drop rec_sz)

/-- The complete records of a byte stream: its first `length / rec_sz` pieces of `rec_sz`
bytes. -/
def records (s : List Nat) : List (List Nat) := recordsN (s.length / rec_sz) s

/-- The bytes of a stream that follow its complete records: fewer than `rec_sz`. -/
def trailing (s : List Nat) : List Nat := s.drop (rec_sz * (s.length / rec_sz))

/-- A byte that is one of the three field tags `0x01`, `0x02`, `0x03`. -/
def validTag (t : Nat) : Bool :=
  t == NETDB_EX_NETWORK || t == NETDB_EX_RTT || t == NETDB_EX_HOPS

/-- The three field-tag positions of a record, offsets 0, 5 and 10, hold field tags. -/
def validTags (r : List Nat) : Bool :=
  validTag (r.getD 0 0) && validTag (r.getD 5 0) && validTag (r.getD 10 0)

/-- The test `!addr.isAnyAddr() && rtt > 0` that a parsed record passes to become a
`netdbExchangeUpdatePeer` call. -/
def ExchangeRecord.applied (r : ExchangeRecord) : Bool :=
  !r.addr.isAnyAddr && decide (r.rtt > 0)

/-- The peer updates that a sequence of records stands for: one for each record, in
order, whose parsed address is set and whose parsed `rtt` is positive, up to the first
record with a byte that is no field tag at a field-tag position. -/
def exchangeUpdates : List (List Nat) → List ExchangeRecord
  | [] => []
  | r :: rest =>
    match netdbParseFields r ExchangeRecord.init with
    | none => []
    | some x => (if x.applied then [x] else []) ++ exchangeUpdates rest

/-- Some record of the sequence has a byte that is no field tag at a field-tag position. -/
def corruptRecords (recs : List (List Nat)) : Bool :=
  recs.any (fun r => (netdbParseFields r ExchangeRecord.init).isNone)

/-- The tables after the `netdbExchangeUpdatePeer` calls for the given updates from the
peer `p`, made in order. -/
def applyUpdates (cfg : Netdb) (squid_curtime : Int) (p : CachePeer) (db : NetDB)
    (updates : List ExchangeRecord) : NetDB :=
  updates.foldl (fun db r => netdbExchangeUpdatePeer cfg squid_curtime db r.addr p r.rtt r.hops) db

/-- A delivery of body bytes with nothing else happening: the peer is valid, there is no
error, the reply status is 200, the store entry is not aborted and not at its end. -/
def plainDelivery (data : List Nat) : ReceivedData :=
  { peerValid := true, error := false, data := data, scode := 200, entryAborted := false,
    atEof := false }

/-- The tables used in the exchange examples: empty, with water marks 900 and 1000. -/
def exampleNetdb : Netdb := { high := 1000, low := 900, period := 300 }

/-- An empty NetDB. -/
def emptyDB : NetDB := { addr_table := [], host_table := [] }

/-- A well-tagged byte stream: the field-tag positions of every complete record hold field
tags. -/
def WellTagged (s : List Nat) : Prop := ∀ r ∈ records s, validTags r = true

/-- The exchange state `st` is what deliveries with the bytes `s` in all, none of them at
the end of the store entry, lead to from the first call for the peer `p` on the tables
`db`: the updates of the complete records of `s` have been made and the bytes after them
wait in the buffer. -/
structure Tracks (cfg : Netdb) (squid_curtime : Int) (db : NetDB) (p : CachePeer) (s : List Nat)
    (st : NetDB × netdbExchangeState) : Prop where
  db : st.1 = applyUpdates cfg squid_curtime p db (exchangeUpdates (records s))
  updates : st.2.updates = exchangeUpdates (records s)
  parsingBuffer : st.2.parsingBuffer = trailing s
  deleted : st.2.deleted = false
  p : st.2.p = p

instance WellTagged.decidable (s : List Nat) : Decidable (WellTagged s) :=
  inferInstanceAs (Decidable (∀ r ∈ records s, validTags r = true))

/-- The table without the entries that have the network of one of the given entries. -/
def withoutNetworks (table released : List netdbEntry) : List netdbEntry :=
  table.filter (fun e => !(released.any (fun r => e.network == r.network)))

/-- An entry for the network `10.0.c.0` with one hostname, last used at the given time. -/
def usedEntry (c : Nat) (host : String) (last_use_time : Int) : netdbEntry :=
  { netdbEntry.fresh (Ip.Address.ofOctets 10 0 c 0 0) with
    pings_sent := 1, pings_recv := 1, rtt := 10, hops := 2, last_use_time := last_use_time,
    link_count := 1, hosts := [host] }

/-- A table of four entries, last used at times 40, 10, 30 and 20. -/
def fourEntries : NetDB :=
  { addr_table := [usedEntry 1 "a.example" 40, usedEntry 2 "b.example" 10,
                   usedEntry 3 "c.example" 30, usedEntry 4 "d.example" 20],
    host_table := [{ key := "a.example", net_db_entry := Ip.Address.ofOctets 10 0 1 0 0 },
                   { key := "b.example", net_db_entry := Ip.Address.ofOctets 10 0 2 0 0 },
                   { key := "c.example", net_db_entry := Ip.Address.ofOctets 10 0 3 0 0 },
                   { key := "d.example", net_db_entry := Ip.Address.ofOctets 10 0 4 0 0 }] }

/-- Water marks 3 (high) and 2 (low). -/
def smallNetdb : Netdb := { high := 3, low := 2, period := 300 }

/-- The entry that `netdbClosestParent` works on: the one of the request host, or else
the one of the network of its cached address. -/
def closestParentEntry (env : Env) (request : HttpRequest) : Option netdbEntry :=
  match netdbLookupHost env.netdb request.url_host with
  | some n => some n
  | none =>
    match env.ipcache_gethostbyname request.url_host with
    | some ia => netdbLookupAddr env.netdb ia
    | none => none

/-- The environment `oneParent` with a NetDB that knows `origin.example`, in network
203.0.113.0, with own rtt 50 ms and one peer slot, for `parent.example`, of the given
RTT. -/
def measuredParent (peerRtt : ℚ) : Env :=
  { oneParent with
    netdb :=
      { addr_table := [{ netdbEntry.fresh (Ip.Address.ofOctets 203 0 113 0 0) with
                         pings_sent := 1, pings_recv := 1, rtt := 50, hops := 5,
                         link_count := 1, hosts := ["origin.example"],
                         peers := [{ peername := "parent.example", hops := 3, rtt := peerRtt,
                                     expires := 4600 }],
                         n_peers_alloc := 2 }],
        host_table := [{ key := "origin.example",
                         net_db_entry := Ip.Address.ofOctets 203 0 113 0 0 }] } }

/-- An entry for the network 203.0.113.0 with the host `origin.example` and three peer
slots in ascending RTT order: 10, 20 (the slot of `parent.example`) and 50. -/
def threePeersEntry : netdbEntry :=
  { netdbEntry.fresh (Ip.Address.ofOctets 203 0 113 0 0) with
    pings_sent := 1, pings_recv := 1, rtt := 50, hops := 5, link_count := 1,
    hosts := ["origin.example"],
    peers := [{ peername := "near.example", hops := 1, rtt := 10, expires := 4000 },
              { peername := "parent.example", hops := 2, rtt := 20, expires := 4100 },
              { peername := "far.example", hops := 6, rtt := 50, expires := 4200 }],
    n_peers_alloc := 4 }

/-- The tables that hold `threePeersEntry` only. -/
def threePeersDB : NetDB :=
  { addr_table := [threePeersEntry],
    host_table := [{ key := "origin.example",
                     net_db_entry := Ip.Address.ofOctets 203 0 113 0 0 }] }

/-! ## NetDB: the state file (`netdbSaveState`, `netdbReloadState`) -/

/-- The space character. -/
def chSpace : Char := Char.ofNat 32

/-- The horizontal tab character. -/
def chTab : Char := Char.ofNat 9

/-- The newline character. -/
def chNewline : Char := Char.ofNat 10

/-- The carriage return character. -/
def chReturn : Char := Char.ofNat 13

/-- The minus sign. -/
def chMinus : Char := Char.ofNat 45

/-- The plus sign. -/
def chPlus : Char := Char.ofNat 43

/-- The decimal point. -/
def chPoint : Char := Char.ofNat 46

/-- Modelled from the spec: the macro `w_space` of `defines.h`, the characters space, tab,
newline and carriage return. -/
def w_space : List Char := [chSpace, chTab, chNewline, chReturn]

/-- Modelled from the spec: the text form of an `Ip::Address` (`ip/Address.cc`), taken as
a parameter. The field `toStr` is `Ip::Address::toStr`, the field `assign` is
`operator =(const char *)`, which fails on a text that is no address. -/
structure AddressText where
  toStr : Ip.Address → List Char
  assign : List Char → Option Ip.Address

/-- The character of the decimal digit `d`. -/
def digitChar (d : Nat) : Char := Char.ofNat (48 + d)

/-- The C library function `isdigit`. -/
def isDigit (c : Char) : Bool := decide (48 ≤ c.toNat) && decide (c.toNat ≤ 57)

/-- The value of a decimal digit character. -/
def digitValue (c : Char) : Nat := c.toNat - 48

/-- The decimal digits of `n`, least significant first; `fuel` bounds their number. -/
def decimalDigits : Nat → Nat → List Nat
  | 0, _ => []
  | fuel + 1, n => if n < 10 then [n] else n % 10 :: decimalDigits fuel (n / 10)

/-- The text of a natural number as printf writes it: its decimal digits, most significant
first. -/
def printNat (n : Nat) : List Char :=
  (decimalDigits (n + 1) n).reverse.map digitChar

/-- The conversion `%d` of printf. -/
def printInt (z : Int) : List Char :=
  if z < 0 then chMinus :: printNat z.natAbs else printNat z.natAbs

/-- The number spelled by the leading decimal digits of a text. -/
def atoiNat (cs : List Char) : Nat :=
  (cs.takeWhile isDigit).foldl (fun acc c => acc * 10 + digitValue c) 0

/-- The C library function `atoi` on a token, which has no leading white space: an
optional sign, then the leading digits. The model does not overflow; `%d` prints numbers
of the `int` range only. -/
def atoi (cs : List Char) : Int :=
  match cs with
  | [] => 0
  | c :: rest =>
    if c = chMinus then -(atoiNat rest : Int)
    else if c = chPlus then (atoiNat rest : Int)
    else (atoiNat cs : Int)

/-- The conversion `(int) t` of a `time_t`: the low 32 bits of `t` as a signed number. -/
def timeToInt (t : Int) : Int := (t + 2 ^ 31) % 2 ^ 32 - 2 ^ 31

/-- The number that the conversion `%.5f` of printf prints for `q`, in units of
`1/100000` and without its sign: the integer nearest to `|q| * 100000`, the even one of
two that are equally near. -/
def roundedUnits (q : ℚ) : Nat :=
  let n := (|q| * 100000).num.natAbs
  let d := (|q| * 100000).den
  if 2 * (n % d) < d then n / d
  else if d < 2 * (n % d) then n / d + 1
  else if n / d % 2 = 0 then n / d
  else n / d + 1

/-- The characters that the conversion `%.5f` of printf writes for `q`: sign, integral
digits, the point and five decimals. -/
def fixed5 (q : ℚ) : List Char :=
  (if q < 0 then [chMinus] else [])
    ++ printNat (roundedUnits q / 100000)
    ++ [chPoint, digitChar (roundedUnits q / 10000 % 10), digitChar (roundedUnits q / 1000 % 10),
        digitChar (roundedUnits q / 100 % 10), digitChar (roundedUnits q / 10 % 10),
        digitChar (roundedUnits q % 10)]

/-- The conversion `%10.5f` of printf: the text of `%.5f`, padded on the left with spaces
to ten characters. -/
def printFixed5 (q : ℚ) : List Char :=
  List.replicate (10 - (fixed5 q).length) chSpace ++ fixed5 q

/-- The number spelled by an unsigned decimal text: digits, then optionally a point and
more digits; the exact decimal value. -/
def atofNat (cs : List Char) : ℚ :=
  match cs.dropWhile isDigit with
  | [] => (atoiNat cs : ℚ)
  | c :: more =>
    if c = chPoint then
      (atoiNat cs : ℚ) + (atoiNat more : ℚ) / 10 ^ (more.takeWhile isDigit).length
    else (atoiNat cs : ℚ)

/-- The C library function `atof` on a token, for the plain decimal texts that `%f`
prints: an optional sign, digits, a point, digits. The result is the double nearest to
the number spelled. Exponents, hexadecimal texts, infinities and NaN are not modelled. -/
def atof (cs : List Char) : ℚ :=
  match cs with
  | [] => 0
  | c :: rest =>
    if c = chMinus then toDouble (-(atofNat rest))
    else if c = chPlus then toDouble (atofNat rest)
    else toDouble (atofNat cs)

/-- The lines that the loop `while ((s = strchr(t, '\n')))` of `netdbReloadState` visits:
the parts of the buffer that end in a newline, without it. What follows the last newline
is not visited. -/
def bufferLines (buf : List Char) : List (List Char) :=
  (buf.splitOnP (fun c => c == chNewline)).dropLast

/-- The successive results of `strtok(t, w_space)`, `strtok(nullptr, w_space)`, ... on a
line: its maximal runs of characters that are not in `w_space`, in order. -/
def strtokAll (line : List Char) : List (List Char) :=
  (line.splitOnP (fun c => w_space.contains c)).filter (fun t => !t.isEmpty)

/-- The text of the first `logfilePrintf` call of `netdbSaveState` for an entry, with the
format `"%s %d %d %10.5f %10.5f %d %d"`. -/
def netdbSaveFields (txt : AddressText) (n : netdbEntry) : List Char :=
  txt.toStr n.network ++ chSpace :: (printInt n.pings_sent ++ chSpace :: (printInt n.pings_recv
    ++ chSpace :: (printFixed5 n.hops ++ chSpace :: (printFixed5 n.rtt
    ++ chSpace :: (printInt (timeToInt n.next_ping_time)
    ++ chSpace :: printInt (timeToInt n.last_use_time))))))

/-- The line that `netdbSaveState` prints for an entry: the fields, then `" %s"` for each
name of `n->hosts`, then a newline. -/
def netdbSaveLine (txt : AddressText) (n : netdbEntry) : List Char :=
  (netdbSaveFields txt n ++ n.hosts.flatMap (fun x => chSpace :: x.data)) ++ [chNewline]

/-- The function `netdbSaveState` with a file name other than `none` and a file that
opens: the text written, one line for each entry whose `pings_recv` is not zero. -/
def netdbSaveState (txt : AddressText) (db : NetDB) : List Char :=
  db.addr_table.flatMap (fun n => if n.pings_recv == 0 then [] else netdbSaveLine txt n)

/-- The function `netdbHostInsert` with the constructor of `net_db_name`: the name joins
the front of `n->hosts`, `link_count` grows by one and the name joins `host_table`. The
tables and the entry after the call. -/
def netdbHostInsert (db : NetDB) (n : netdbEntry) (hostname : String) : NetDB × netdbEntry :=
  let n := { n with hosts := hostname :: n.hosts, link_count := n.link_count + 1 }
  let db := db.store n
  ({ db with host_table := db.host_table ++ [{ key := hostname, net_db_entry := n.network }] }, n)

/-- The inner loop of `netdbReloadState` over the remaining tokens of a line: each token
that is not yet a key of `host_table` is inserted as a name of the entry. -/
def netdbReloadHosts : List (List Char) → NetDB × netdbEntry → NetDB × netdbEntry
  | [], st => st
  | q :: rest, st =>
    if (netdbLookupHost st.1 (String.mk q)).isSome then netdbReloadHosts rest st
    else netdbReloadHosts rest (netdbHostInsert st.1 st.2 (String.mk q))

/-- The body of the outer loop of `netdbReloadState` for one line. Every `continue`
leaves the tables as they are. -/
def netdbReloadLine (txt : AddressText) (db : NetDB) (line : List Char) : NetDB :=
  match strtokAll line with
  | [] => db
  | q :: toks =>
    match txt.assign q with
    | none => db
    | some addr =>
      if (netdbLookupAddr db addr).isSome then db
      else
        match toks with
        | [] => db
        | _ :: toks =>
          match toks with
          | [] => db
          | q :: toks =>
            if atoi q == 0 then db
            else
              match toks with
              | [] => db
              | qhops :: toks =>
                match toks with
                | [] => db
                | qrtt :: toks =>
                  match toks with
                  | [] => db
                  | qnext :: toks =>
                    match toks with
                    | [] => db
                    | qlast :: toks =>
                      let n : netdbEntry :=
                        { netdbEntry.fresh (networkFromInaddr addr) with
                          pings_sent := 1, pings_recv := 1, hops := atof qhops,
                          rtt := atof qrtt, next_ping_time := atoi qnext,
                          last_use_time := atoi qlast }
                      (netdbReloadHosts toks
                        ({ db with addr_table := db.addr_table ++ [n] }, n)).1

/-- The function `netdbReloadState` with a file name other than `none`, for the text
`buf` read from the file: the tables after the call. -/
def netdbReloadState (txt : AddressText) (db : NetDB) (buf : List Char) : NetDB :=
  (bufferLines buf).foldl (netdbReloadLine txt) db

/-- The text of an IPv4 address in dotted decimal form. -/
def dottedToStr (a : Ip.Address) : List Char :=
  printNat (a.bits / 2 ^ 24 % 256) ++ chPoint :: printNat (a.bits / 2 ^ 16 % 256)
    ++ chPoint :: printNat (a.bits / 2 ^ 8 % 256) ++ chPoint :: printNat (a.bits % 256)

/-- The IPv4 address spelled by a dotted decimal text, if it is one. -/
def dottedAssign (cs : List Char) : Option Ip.Address :=
  match cs.splitOnP (fun c => c == chPoint) with
  | [a, b, c, d] =>
    if a.all isDigit && b.all isDigit && c.all isDigit && d.all isDigit
        && !a.isEmpty && !b.isEmpty && !c.isEmpty && !d.isEmpty
        && decide (atoiNat a < 256) && decide (atoiNat b < 256)
        && decide (atoiNat c < 256) && decide (atoiNat d < 256) then
      some (Ip.Address.ofOctets (atoiNat a) (atoiNat b) (atoiNat c) (atoiNat d) 0)
    else none
  | _ => none

/-- A sample `AddressText` for IPv4 addresses: dotted decimal text. -/
def dottedQuad : AddressText := { toStr := dottedToStr, assign := dottedAssign }

/-- An entry with two names whose `rtt` is the double nearest to 5/3 and whose `hops` is
5/2. -/
def measuredEntry : netdbEntry :=
  { netdbEntry.fresh (Ip.Address.ofOctets 10 0 1 0 0) with
    pings_sent := 4, pings_recv := 3, hops := 5 / 2, rtt := toDouble (5 / 3),
    next_ping_time := 1700000300, last_use_time := 1700000000, link_count := 2,
    hosts := ["b.example", "a.example"] }

/-- An entry that never got an answer: `pings_recv` is 0. -/
def silentEntry : netdbEntry :=
  { netdbEntry.fresh (Ip.Address.ofOctets 10 0 2 0 0) with
    pings_sent := 2, pings_recv := 0, link_count := 1, hosts := ["c.example"] }

/-- A table of the two entries `measuredEntry` and `silentEntry`. -/
def savedDB : NetDB :=
  { addr_table := [measuredEntry, silentEntry],
    host_table := [{ key := "a.example", net_db_entry := Ip.Address.ofOctets 10 0 1 0 0 },
                   { key := "b.example", net_db_entry := Ip.Address.ofOctets 10 0 1 0 0 },
                   { key := "c.example", net_db_entry := Ip.Address.ofOctets 10 0 2 0 0 }] }

/-- The number that `printFixed5` spells for `q`: `q` rounded to five decimals. -/
def roundDecimals5 (q : ℚ) : ℚ :=
  if q < 0 then -((roundedUnits q : ℚ) / 100000) else (roundedUnits q : ℚ) / 100000

/-- A text goes on with something that is no digit, or ends. -/
def EndsDigits (rest : List Char) : Prop := ∀ c ∈ rest.head?, isDigit c = false

/-- A text that `strtok` returns whole: it is not empty and has no character of
`w_space`. -/
def IsToken (t : List Char) : Prop := t ≠ [] ∧ ∀ c ∈ t, w_space.contains c = false

/-- The entry that `netdbReloadState` builds from the line that `netdbSaveState` prints
for `n`: the network and the two times of `n`, `hops` and `rtt` the doubles nearest to
their values with five decimals, both ping counts 1, the names of `n` in reverse order and
no peer slots. -/
def reloadedEntry (n : netdbEntry) : netdbEntry :=
  { netdbEntry.fresh n.network with
    pings_sent := 1, pings_recv := 1, hops := toDouble (roundDecimals5 n.hops),
    rtt := toDouble (roundDecimals5 n.rtt),
    next_ping_time := n.next_ping_time, last_use_time := n.last_use_time,
    link_count := (n.hosts.length : Int), hosts := n.hosts.reverse }

/-- The entries that `netdbSaveState` prints: those whose `pings_recv` is not zero. -/
def savedEntries (db : NetDB) : List netdbEntry :=
  db.addr_table.filter (fun n => !(n.pings_recv == 0))

/-- The conditions on the entries of `addr_table` under which the state file is read back
as written: the network keys are distinct, already in network form and printed as a token
that `assign` reads back; every name is a token and is a name of one entry only; the two
times of an entry are in the range of `int`. -/
structure Saveable (txt : AddressText) (l : List netdbEntry) : Prop where
  networks : (l.map (fun n => n.network)).Nodup
  normal : ∀ n ∈ l, networkFromInaddr n.network = n.network
  assigned : ∀ n ∈ l, txt.assign (txt.toStr n.network) = some n.network
  netToken : ∀ n ∈ l, IsToken (txt.toStr n.network)
  hostToken : ∀ n ∈ l, ∀ x ∈ n.hosts, IsToken x.data
  hostsNodup : (l.flatMap (fun n => n.hosts)).Nodup
  nextRange : ∀ n ∈ l, -2 ^ 31 ≤ n.next_ping_time ∧ n.next_ping_time < 2 ^ 31
  lastRange : ∀ n ∈ l, -2 ^ 31 ≤ n.last_use_time ∧ n.last_use_time < 2 ^ 31

/-- The `net_db_name` objects of an entry: one for each name, pointing to the entry. -/
def namesOf (n : netdbEntry) : List net_db_name :=
  n.hosts.map (fun x => { key := x, net_db_entry := n.network })

instance IsToken.decidable (t : List Char) : Decidable (IsToken t) :=
  inferInstanceAs (Decidable (t ≠ [] ∧ ∀ c ∈ t, w_space.contains c = false))

/-- A table of one entry whose `next_ping_time` is `2^31 + 300`, past the range of
`int`. -/
def lateDB : NetDB :=
  { addr_table :=
      [{ netdbEntry.fresh (Ip.Address.ofOctets 10 0 1 0 0) with
         pings_sent := 1, pings_recv := 1, hops := 2, rtt := 10,
         next_ping_time := 2147483948, last_use_time := 2147483000 }],
    host_table := [] }

/-- What a pointer to the entry `n` reads after the tables have changed: the entry of
`addr_table` with the network of `n`. A pointer to an entry that was freed is not
followed by the code; it reads here what it read before. -/
def netdbEntry.current (db : NetDB) (n : netdbEntry) : netdbEntry :=
  (db.addr_table.find? (fun e => e.network == n.network)).getD n

/-- The assignment `x->net_db_entry = na` for the `net_db_name` that
`hash_lookup(host_table, hostname)` finds, which is the first one with this key. -/
def netdbRetarget : List net_db_name → String → Ip.Address → List net_db_name
  | [], _, _ => []
  | y :: rest, hostname, network =>
    if y.key == hostname then { y with net_db_entry := network } :: rest
    else y :: netdbRetarget rest hostname network

/-- The last part of `netdbSendPing`: an entry whose `next_ping_time` has come is pinged
(`icmpEngine.DomainPing`, not shown) and its times are set. -/
def netdbSendPingNow (cfg : Netdb) (squid_curtime : Int) (db : NetDB) (n : netdbEntry) : NetDB :=
  if n.next_ping_time ≤ squid_curtime then
    db.store { n with pings_sent := n.pings_sent + 1,
                      next_ping_time := squid_curtime + cfg.period,
                      last_use_time := squid_curtime }
  else db

/-- The part of `netdbSendPing` that moves the hostname from the entry `n` to the entry
`na`, once `hash_lookup(host_table, hostname)` has found its `net_db_name`: the name
leaves `n->hosts`, `n->link_count` goes down by one, the name points to `na` and joins
the front of `na->hosts`, and `na->link_count` goes up by one. The tables and the entry
`na` after that. -/
def netdbMoveHost (db : NetDB) (n na : netdbEntry) (hostname : String) : NetDB × netdbEntry :=
  let n := netdbEntry.current db n
  let n := { n with hosts := n.hosts.erase hostname, link_count := n.link_count - 1 }
  let db := db.store n
  let db := { db with host_table := netdbRetarget db.host_table hostname na.network }
  let na := netdbEntry.current db na
  let na := { na with hosts := hostname :: na.hosts, link_count := na.link_count + 1 }
  (db.store na, na)

/-- The function `netdbSendPing` for the lookup result `ia` (`none` for a null pointer,
else `ia->current()`) and the hostname of the callback data: the tables after the call. -/
def netdbSendPing (cfg : Netdb) (squid_curtime : Int) (db : NetDB) (ia : Option Ip.Address)
    (hostname : String) : NetDB :=
  match ia with
  | none => db
  | some addr =>
    match netdbLookupHost db hostname with
    | none =>
      let a := netdbAdd cfg db addr
      let r := netdbHostInsert a.1 a.2 hostname
      netdbSendPingNow cfg squid_curtime r.1 r.2
    | some n =>
      let found := netdbLookupAddr db addr
      if found.map (fun na => na.network) = some n.network then
        netdbSendPingNow cfg squid_curtime db n
      else
        let a :=
          match found with
          | some na => (db, na)
          | none => netdbAdd cfg db addr
        match a.1.host_table.find? (fun x => x.key == hostname) with
        | none => a.1
        | some _ =>
          let r := netdbMoveHost a.1 n a.2 hostname
          netdbSendPingNow cfg squid_curtime r.1 r.2

/-- The invariant of the two tables: the networks of `addr_table` and the keys of
`host_table` are distinct, the `link_count` of an entry is the length of its host list,
no name is twice on a host list, every name on the host list of an entry is in
`host_table` and points to that entry, and every name of `host_table` is on the host
list of the entry it points to. -/
structure HostsInv (db : NetDB) : Prop where
  networks : (db.addr_table.map (fun n => n.network)).Nodup
  keys : (db.host_table.map (fun x => x.key)).Nodup
  counts : ∀ n ∈ db.addr_table, n.link_count = (n.hosts.length : Int)
  hostsNodup : ∀ n ∈ db.addr_table, n.hosts.Nodup
  listed : ∀ n ∈ db.addr_table, ∀ h ∈ n.hosts,
    ({ key := h, net_db_entry := n.network } : net_db_name) ∈ db.host_table
  owned : ∀ x ∈ db.host_table, ∃ n ∈ db.addr_table, n.network = x.net_db_entry ∧ x.key ∈ n.hosts

/-- Following the spec's words: each hostname of the host table is on the host list of
exactly one network entry, the `link_count` of each entry is the length of its host
list, and the sum of all `link_count`s is the size of the host table. -/
def HostsLinked (db : NetDB) : Prop :=
  (∀ x ∈ db.host_table, db.addr_table.countP (fun n => decide (x.key ∈ n.hosts)) = 1)
  ∧ (∀ n ∈ db.addr_table, n.link_count = (n.hosts.length : Int))
  ∧ (db.addr_table.map (fun n => n.link_count)).sum = (db.host_table.length : Int)

/-! ## The forwarding client (`src/clients/Client.cc`, with `USE_ADAPTATION`) -/

namespace Client

/-- Modelled from the spec: the values of `Comm::Flag` (`comm/Flag.h`) that an I/O
completion brings; `OK` is zero, every other value is non-zero. -/
inductive Flag
  | OK | COMM_ERROR | NOMESSAGE | TIMEOUT | SHUTDOWN | IDLE | INPROGRESS | ERR_CONNECT
  | ERR_DNS | ERR_CLOSING | ERR_PROTOCOL | EOF_FOUND
deriving DecidableEq, Repr

/-- The parts of `CommIoCbParams` read by `sentRequestBody`. -/
structure CommIoCbParams where
  fd : Int
  size : Nat
  flag : Flag
  xerrno : Int
deriving DecidableEq, Repr

/-- Modelled from the spec: the error page ids (`err_type`) that `Client.cc` names, and
the custom deny-info pages, told apart by a number. -/
inductive err_type
  | ERR_NONE | ERR_ACCESS_DENIED | ERR_WRITE_ERROR | ERR_ICAP_FAILURE | ERR_TOO_BIG
  | ERR_CUSTOM (id : Nat)
deriving DecidableEq, Repr

/-- Modelled from the spec: the status code `Http::scForbidden`. -/
def scForbidden : Nat := 403

/-- Modelled from the spec: the status code `Http::scInternalServerError`. -/
def scInternalServerError : Nat := 500

/-- Modelled from the spec: the status code `Http::scBadGateway`. -/
def scBadGateway : Nat := 502

/-- The parts of an `ErrorState` that `Client.cc` sets: page id, HTTP status, `xerrno`
and the name of the error detail given to `detailError`. -/
structure ErrorState where
  type : err_type
  httpStatus : Nat
  xerrno : Int
  detail : Option String
deriving DecidableEq, Repr

/-- Modelled from the spec: a body pipe as its producer and consumer see it. The field
`buf` holds the bytes put and not yet consumed, `potentialSpaceSize` is the number of
bytes that still fit, `productionEnded` tells that the producer signalled the end or
aborted. -/
structure BodyPipe where
  buf : List Nat
  potentialSpaceSize : Nat
  productionEnded : Bool
deriving DecidableEq, Repr

/-- Modelled from the spec: `exhausted()` is true after the producer signalled the end and
the buffer is empty. -/
def BodyPipe.exhausted (p : BodyPipe) : Bool := p.productionEnded && p.buf.isEmpty

/-- Modelled from the spec: `putMoreData(data, len)` appends the bytes that fit and
returns their number (0 when the pipe is full); the pipe after the call and that
number. -/
def BodyPipe.putMoreData (p : BodyPipe) (data : List Nat) : BodyPipe × Nat :=
  let n := min data.length p.potentialSpaceSize
  ({ p with buf := p.buf ++ data.take n, potentialSpaceSize := p.potentialSpaceSize - n }, n)

/-- Modelled from the spec: `consume(n)` removes `n` bytes from the front. -/
def BodyPipe.consume (p : BodyPipe) (n : Nat) : BodyPipe :=
  { p with buf := p.buf.drop n, potentialSpaceSize := p.potentialSpaceSize + min n p.buf.length }

/-- Modelled from the spec: the request methods that `Client.cc` tells apart. -/
inductive Method
  | METHOD_GET | METHOD_HEAD | METHOD_PUT | METHOD_POST | METHOD_DELETE | METHOD_CONNECT
  | METHOD_OPTIONS | METHOD_TRACE
deriving DecidableEq, Repr

/-- Modelled from the spec: `HttpRequestMethod::purgesOthers()`; the methods flagged as
purging are PUT, POST and DELETE. -/
def Method.purgesOthers : Method → Bool
  | Method.METHOD_PUT => true
  | Method.METHOD_POST => true
  | Method.METHOD_DELETE => true
  | _ => false

/-- The URL schemes that `purgeEntriesByHeader` tells apart (`AnyP::ProtocolType`). -/
inductive UriScheme
  | PROTO_HTTP | PROTO_HTTPS | PROTO_FTP | PROTO_URN | PROTO_OTHER
deriving DecidableEq, Repr

/-- Modelled from the spec: the parts of an `AnyP::Uri`. -/
structure Uri where
  scheme : UriScheme
  userInfo : List Char
  host : List Char
  port : Nat
  path : List Char
deriving DecidableEq, Repr

/-- Modelled from the spec: the functions of `anyp/Uri.cc` that `purgeEntriesByHeader`
calls, taken as parameters. The field `urlIsRelative` is the function of that name,
`absolute` is `AnyP::Uri::absolute()` and `relativePath p rel` is the path that
`addRelativePath(rel)` leaves in a URL whose path was `p` (it changes nothing else). -/
structure UriLib where
  urlIsRelative : List Char → Bool
  absolute : Uri → List Char
  relativePath : List Char → List Char → List Char

/-- The method `AnyP::Uri::path(const char *)`: the path is replaced. -/
def Uri.setPath (u : Uri) (p : List Char) : Uri := { u with path := p }

/-- The method `AnyP::Uri::addRelativePath` through `UriLib.relativePath`. -/
def Uri.addRelativePath (lib : UriLib) (u : Uri) (relUrl : List Char) : Uri :=
  { u with path := lib.relativePath u.path relUrl }

/-- The parts of the `HttpRequest` read by `Client.cc`; `effectiveRequestUri` is the text
that the method of that name returns. -/
structure HttpRequest where
  method : Method
  url : Uri
  effectiveRequestUri : List Char
deriving DecidableEq, Repr

/-- The parts of an `HttpReply` read by `Client.cc`: the status, the values of the
`Location` and `Content-Location` headers (`header.getStr`), the body pipe and the offset
of a `Content-Range` whose position is known. -/
structure HttpReply where
  status : Nat
  location : Option (List Char)
  contentLocation : Option (List Char)
  body_pipe : Option BodyPipe
  contentRangeOffset : Option Int
deriving DecidableEq, Repr

/-- The kinds of an `Adaptation::Answer`. -/
inductive AnswerKind
  | akForward | akBlock | akError
deriving DecidableEq, Repr

/-- The parts of an `Adaptation::Answer` read by `Client.cc`. The field `denyInfoPage` is
what `FindDenyInfoPage(answer.blockedToChecklistAnswer(), true)` returns. -/
structure Answer where
  kind : AnswerKind
  message : Option HttpReply
  final : Bool
  denyInfoPage : err_type
deriving DecidableEq, Repr

/-- The character `:`. -/
def chColon : Char := Char.ofNat 58

/-- The character `/`. -/
def chSlash : Char := Char.ofNat 47

/-- The terminating character of a C string. -/
def chNul : Char := Char.ofNat 0

/-- The value `*p` of a pointer into a C string, given by the rest of the text from `p`
on: its first character, and the terminator at the end. -/
def cstrHead (p : List Char) : Char := p.headD chNul

/-- The C library function `strchr(url, ':')`: the text from its first colon on, or null. -/
def strchrColon : List Char → Option (List Char)
  | [] => none
  | c :: rest => if c = chColon then some (c :: rest) else strchrColon rest

/-- The loop `do { ++host1; ++host2; } while (*host1 == '/' && *host2 == '/')` of
`sameUrlHosts` after its first pass: the two pointers when it ends. -/
def skipSchemeSlashes : List Char → List Char → List Char × List Char
  | a :: r1, b :: r2 =>
    if a = chSlash ∧ b = chSlash then skipSchemeSlashes r1 r2 else (a :: r1, b :: r2)
  | host1, host2 => (host1, host2)

/-- The loop `while (*host1 && *host1 != '/' && *host1 == *host2)` of `sameUrlHosts` with
the `return *host1 == *host2` that follows it. -/
def sameUntilSlash : List Char → List Char → Bool
  | [], host2 => chNul == cstrHead host2
  | a :: r1, host2 =>
    if a ≠ chNul ∧ a ≠ chSlash ∧ a = cstrHead host2 then sameUntilSlash r1 host2.tail
    else a == cstrHead host2

/-- The function `sameUrlHosts`. -/
def sameUrlHosts (url1 url2 : List Char) : Bool :=
  match strchrColon url1, strchrColon url2 with
  | some host1, some host2 =>
    let p := skipSchemeSlashes host1.tail host2.tail
    if cstrHead p.1 = chNul then false
    else sameUntilSlash p.1 p.2
  | _, _ => false

/-- The function `purgeEntriesByHeader` for the header value `hdrUrl` (`none` when the
reply has no such header): the URL given to `purgeEntriesByUrl`, or `none` when the
function returns without a purge. -/
def purgeEntriesByHeader (lib : UriLib) (req : HttpRequest) (reqUrl : List Char)
    (hdrUrl : Option (List Char)) : Option (List Char) :=
  match hdrUrl with
  | none => none
  | some hdrUrl =>
    if lib.urlIsRelative hdrUrl then
      if req.method = Method.METHOD_CONNECT then some hdrUrl
      else if req.url.scheme = UriScheme.PROTO_URN then some (lib.absolute req.url)
      else
        let tmpUrl :=
          if cstrHead hdrUrl = chSlash then req.url.setPath hdrUrl
          else req.url.addRelativePath lib reqUrl
        some (lib.absolute tmpUrl)
    else if !sameUrlHosts reqUrl hdrUrl then none
    else some hdrUrl

/-- The function `Client::maybePurgeOthers` for the final reply `rep`: the URLs given to
`purgeEntriesByUrl`, in order. -/
def maybePurgeOthers (lib : UriLib) (req : HttpRequest) (rep : HttpReply) : List (List Char) :=
  if !req.method.purgesOthers then []
  else if rep.status ≥ 400 then []
  else
    let reqUrl := req.effectiveRequestUri
    [reqUrl] ++ (purgeEntriesByHeader lib req reqUrl rep.location).toList
      ++ (purgeEntriesByHeader lib req reqUrl rep.contentLocation).toList

end Client
namespace Client

/-- The calls that `Client.cc` makes on the objects around it: the `FwdState` (`fwd->`),
the store entry (`entry->`), the request, the connection, and the methods that the
classes derived from `Client` supply (`abortAll`, `closeServer`, `processReplyBody`,
`maybeReadVirginBody`). The entry `completeForwardingCalled` is a ghost record written at
the start of `completeForwarding`: the values of `doneWithAdaptation()`,
`startedAdaptation` and `receivedWholeAdaptedReply` at that time. -/
inductive Call
  | fwdFail (err : ErrorState)
  | fwdDontRetry (v : Bool)
  | fwdMarkStoredReplyAsWhole (reason : String)
  | fwdComplete
  | fwdHandleUnregisteredServerEnd
  | abortAll (reason : String)
  | closeServer
  | processReplyBody
  | maybeReadVirginBody
  | requestDetailError (type : err_type) (detail : String)
  | notePeerWrite
  | fdBytes (fd : Int) (size : Nat)
  | commWrite (bytes : List Nat)
  | entryReplaceHttpReply (rep : HttpReply)
  | entryRelease
  | entryStartWriting
  | entryWrite (offset : Int) (bytes : List Nat)
  | entryDeferProducer
  | purgeEntriesByUrl (url : List Char)
  | expectNoConsumption
  | noteInitiatorAborted
  | completeForwardingCalled (doneWithAdaptation startedAdaptation
      receivedWholeAdaptedReply : Bool)
deriving DecidableEq, Repr

/-- What a handler of `Client` reads from the objects around it during one call: the
store entry (`isAccepting()`, `isEmpty()`, the flags `ENTRY_ABORTED` and
`RELEASE_REQUEST`, `bytesWanted(Range(0, n), true)`), whether `request` is set, whether
the data connection is open, `mayReadVirginReplyBody()`, `blockCaching()`,
`virginReply()->expectedBodyTooLarge(*request)`, the answer of
`vrep->expectingBody(method, size) && size` with the size, whether the adaptation that
`initiateAdaptation` launches is `initiated`, whether `Adaptation::AccessCheck::Start`
started a check, and what `setConsumerIfNotLate(this)` returns. The fields `requestBody`,
`adaptedBody` and `virginBody` are the three body pipes as their other ends have left
them when the call begins. -/
structure Obs where
  entryAccepting : Bool
  entryEmpty : Bool
  entryAborted : Bool
  entryReleaseRequest : Bool
  bytesWanted : Nat → Nat
  hasRequest : Bool
  connOpen : Bool
  mayReadVirginReplyBody : Bool
  blockCaching : Bool
  expectedBodyTooLarge : Bool
  virginBodyExpected : Option Int
  initiated : Bool
  accessCheckStarted : Bool
  setConsumerIfNotLate : Bool
  requestBody : BodyPipe
  adaptedBody : BodyPipe
  virginBody : BodyPipe

/-- The data members of a `Client` job, the state of the server connection as the derived
class keeps it (`doneWithServer()`), the calls made so far, and the assertion or `Must`
that failed, if one did. -/
structure State where
  request : HttpRequest
  completed : Bool
  doneWithFwd : Option String
  requestBodySource : Option BodyPipe
  requestSender : Bool
  receivedWholeRequestBody : Bool
  markedParsedVirginReplyAsWhole : Option String
  theVirginReply : Option HttpReply
  theFinalReply : Option HttpReply
  responseBodyBuffer : Option (List Nat)
  currentOffset : Int
  adaptationAccessCheckPending : Bool
  startedAdaptation : Bool
  receivedWholeAdaptedReply : Bool
  adaptedReplyAborted : Bool
  virginBodyDestination : Option BodyPipe
  adaptedHeadSource : Bool
  adaptedBodySource : Option BodyPipe
  doneWithServer : Bool
  calls : List Call
  failure : Option String
deriving DecidableEq, Repr

/-- The constructor `Client::Client` with the member initialisers of `Client.h`. -/
def State.init (request : HttpRequest) : State :=
  { request := request, completed := false, doneWithFwd := none, requestBodySource := none,
    requestSender := false, receivedWholeRequestBody := false,
    markedParsedVirginReplyAsWhole := none, theVirginReply := none, theFinalReply := none,
    responseBodyBuffer := none, currentOffset := 0, adaptationAccessCheckPending := false,
    startedAdaptation := false, receivedWholeAdaptedReply := false,
    adaptedReplyAborted := false, virginBodyDestination := none, adaptedHeadSource := false,
    adaptedBodySource := none, doneWithServer := false, calls := [], failure := none }

/-- One more call is made. -/
def State.call (s : State) (c : Call) : State := { s with calls := s.calls ++ [c] }

/-- An `assert`, `Assure` or `Must` fails: the handler ends there. -/
def State.fail (s : State) (what : String) : State := { s with failure := some what }

/-- Modelled from the spec: the size limit of the overflow buffer,
`SQUID_TCP_SO_RCVBUF * 10`, with the default `SQUID_TCP_SO_RCVBUF` of 16384. -/
def responseBodyBufferMax : Nat := 16384 * 10

/-- The method `Client::doneWithAdaptation`. -/
def doneWithAdaptation (s : State) : Bool :=
  !s.adaptationAccessCheckPending && s.virginBodyDestination.isNone
    && !s.adaptedHeadSource && s.adaptedBodySource.isNone

/-- The method `closeServer` of the derived class, as `serverComplete` asserts it to
behave: `doneWithServer()` holds after it. -/
def closeServer (s : State) : State :=
  ({ s with doneWithServer := true }).call Call.closeServer

/-- The method `Client::abortOnData` of the base class: `abortAll(reason)`. -/
def abortOnData (s : State) (reason : String) : State := s.call (Call.abortAll reason)

/-- The method `Client::abortOnBadEntry`: the state after the call and the value
returned. -/
def abortOnBadEntry (o : Obs) (s : State) (abortReason : String) : State × Bool :=
  if o.entryAccepting then (s, false)
  else (abortOnData s abortReason, true)

/-- The method `Client::completeForwarding`. -/
def completeForwarding (s : State) : State :=
  let s := s.call (Call.completeForwardingCalled (doneWithAdaptation s) s.startedAdaptation
    s.receivedWholeAdaptedReply)
  let storedWholeReply := s.markedParsedVirginReplyAsWhole
  if !doneWithAdaptation s then s.fail "Assure(doneWithAdaptation())"
  else
    let storedWholeReply :=
      if s.startedAdaptation then
        (if s.receivedWholeAdaptedReply then some "receivedWholeAdaptedReply" else none)
      else storedWholeReply
    let s :=
      match storedWholeReply with
      | some reason => s.call (Call.fwdMarkStoredReplyAsWhole reason)
      | none => s
    ({ s with doneWithFwd := some "completeForwarding()" }).call Call.fwdComplete

/-- The method `Client::serverComplete2`. -/
def serverComplete2 (s : State) : State :=
  let s := if s.virginBodyDestination.isSome then { s with virginBodyDestination := none } else s
  if !doneWithAdaptation s then s
  else completeForwarding s

/-- The method `Client::serverComplete`. -/
def serverComplete (s : State) : State :=
  let s := if !s.doneWithServer then closeServer s else s
  let s := { s with completed := true }
  let s := if s.requestBodySource.isSome then { s with requestBodySource := none } else s
  if s.responseBodyBuffer.isSome then s
  else serverComplete2 s

/-- The method `Client::markParsedVirginReplyAsWhole`. -/
def markParsedVirginReplyAsWhole (s : State) (reasonWeAreSure : String) : State :=
  { s with markedParsedVirginReplyAsWhole := some reasonWeAreSure }

/-- The method `Client::doneSendingRequestBody` of the base class. -/
def doneSendingRequestBody (s : State) : State :=
  if s.requestBodySource.isNone then s.fail "assert(requestBodySource != nullptr)"
  else { s with requestBodySource := none }

/-- The method `Client::sendMoreRequestBody`, with the `getMoreRequestBody` of the base
class, which takes all bytes that the pipe holds. -/
def sendMoreRequestBody (o : Obs) (s : State) : State :=
  match s.requestBodySource with
  | none => s.fail "assert(requestBodySource != nullptr)"
  | some pipe =>
    if s.requestSender then s.fail "assert(!requestSender)"
    else if !o.connOpen then s
    else if !pipe.buf.isEmpty then
      ({ s with requestBodySource := some (pipe.consume pipe.buf.length),
                requestSender := true }).call (Call.commWrite pipe.buf)
    else { s with requestSender := false }

/-- The method `Client::handleMoreRequestBodyAvailable`. -/
def handleMoreRequestBodyAvailable (o : Obs) (s : State) : State :=
  if !s.requestSender then sendMoreRequestBody o s else s

/-- The method `Client::handleRequestBodyProductionEnded`. -/
def handleRequestBodyProductionEnded (s : State) : State :=
  let s := { s with receivedWholeRequestBody := true }
  if !s.requestSender then doneSendingRequestBody s else s

/-- The method `Client::handleRequestBodyProducerAborted` of the base class. -/
def handleRequestBodyProducerAborted (s : State) : State :=
  let s := s.call (Call.fwdDontRetry true)
  { s with requestBodySource := none }

/-- The method `Client::sentRequestBody`. -/
def sentRequestBody (o : Obs) (s : State) (io : CommIoCbParams) : State :=
  let s := { s with requestSender := false }
  let s := if io.size > 0 then s.call (Call.fdBytes io.fd io.size) else s
  if io.flag = Flag.ERR_CLOSING then s
  else
    match s.requestBodySource with
    | none => s
    | some pipe =>
      let s := s.call Call.notePeerWrite
      if io.flag ≠ Flag.OK then
        let err : ErrorState :=
          { type := err_type.ERR_WRITE_ERROR, httpStatus := scBadGateway, xerrno := 0,
            detail := none }
        let err := { err with xerrno := io.xerrno }
        let s := s.call (Call.fwdFail err)
        abortOnData s "I/O error while sending request body"
      else if o.entryAborted then
        abortOnData s "store entry aborted while sending request body"
      else if !pipe.exhausted then sendMoreRequestBody o s
      else if s.receivedWholeRequestBody then doneSendingRequestBody s
      else s

/-- The method `Client::haveParsedReplyHeaders` of the base class, for the final reply
`rep`. -/
def haveParsedReplyHeaders (lib : UriLib) (s : State) (rep : HttpReply) : State :=
  let s := (maybePurgeOthers lib s.request rep).foldl
    (fun st url => st.call (Call.purgeEntriesByUrl url)) s
  let s := { s with currentOffset := 0 }
  match rep.contentRangeOffset with
  | some offset => { s with currentOffset := offset }
  | none => s

/-- The method `Client::setFinalReply`. -/
def setFinalReply (lib : UriLib) (o : Obs) (s : State) (rep : HttpReply) : State :=
  if s.theFinalReply.isSome then s.fail "assert(!theFinalReply)"
  else
    let s := { s with theFinalReply := some rep }
    let s := s.call (Call.entryReplaceHttpReply rep)
    let s := haveParsedReplyHeaders lib s rep
    let s := if !o.entryReleaseRequest && o.blockCaching then s.call Call.entryRelease else s
    s.call Call.entryStartWriting

/-- The method `Client::setVirginReply`. -/
def setVirginReply (s : State) (rep : HttpReply) : State :=
  if s.theVirginReply.isSome then s.fail "assert(!theVirginReply)"
  else { s with theVirginReply := some rep }

/-- The method `Client::cleanAdaptation`. -/
def cleanAdaptation (s : State) : State :=
  let s := if s.virginBodyDestination.isSome then { s with virginBodyDestination := none } else s
  let s := if s.adaptedHeadSource then
      ({ s with adaptedHeadSource := false }).call Call.noteInitiatorAborted
    else s
  let s := if s.adaptedBodySource.isSome then { s with adaptedBodySource := none } else s
  if !s.adaptationAccessCheckPending then
    (if doneWithAdaptation s then s else s.fail "assert(doneWithAdaptation())")
  else s

/-- The method `Client::handleAdaptationCompleted`. -/
def handleAdaptationCompleted (o : Obs) (s : State) : State :=
  let s := cleanAdaptation s
  if s.failure.isSome then s
  else
    let s := if o.mayReadVirginReplyBody then closeServer s else s
    completeForwarding s

/-- The method `Client::checkAdaptationWithBodyCompletion`. -/
def checkAdaptationWithBodyCompletion (o : Obs) (s : State) : State :=
  match s.adaptedBodySource with
  | none => s
  | some pipe =>
    if !s.receivedWholeAdaptedReply && !s.adaptedReplyAborted then s
    else if !pipe.exhausted then s
    else
      let s := { s with adaptedBodySource := none }
      if doneWithAdaptation s then handleAdaptationCompleted o s else s

/-- The method `Client::handleMoreAdaptedBodyAvailable`. -/
def handleMoreAdaptedBodyAvailable (o : Obs) (s : State) : State :=
  let r := abortOnBadEntry o s "entry refuses adapted body"
  if r.2 then r.1
  else
    match s.adaptedBodySource with
    | none => s.fail "adaptedBodySource is null"
    | some pipe =>
      let contentSize := pipe.buf.length
      if contentSize = 0 then s
      else
        let spaceAvailable := o.bytesWanted contentSize
        let s := if spaceAvailable < contentSize then s.call Call.entryDeferProducer else s
        if spaceAvailable = 0 then s
        else
          let contentSize := if spaceAvailable < contentSize then spaceAvailable else contentSize
          let s := s.call (Call.entryWrite s.currentOffset (pipe.buf.take contentSize))
          { s with currentOffset := s.currentOffset + (contentSize : Int),
                   adaptedBodySource := some (pipe.consume contentSize) }

/-- The method `Client::resumeBodyStorage`. -/
def resumeBodyStorage (o : Obs) (s : State) : State :=
  let r := abortOnBadEntry o s "store entry aborted while kick producer callback"
  if r.2 then r.1
  else if s.adaptedBodySource.isNone then s
  else
    let s := handleMoreAdaptedBodyAvailable o s
    if s.failure.isSome then s
    else checkAdaptationWithBodyCompletion o s

/-- The method `Client::handleAdaptedBodyProductionEnded`. -/
def handleAdaptedBodyProductionEnded (o : Obs) (s : State) : State :=
  let r := abortOnBadEntry o s "entry went bad while waiting for adapted body eof"
  if r.2 then r.1
  else if s.adaptedReplyAborted then s.fail "Assure(!adaptedReplyAborted)"
  else
    let s := { s with receivedWholeAdaptedReply := true }
    checkAdaptationWithBodyCompletion o s

/-- The method `Client::handledEarlyAdaptationAbort`: the state after the call and the
value returned. -/
def handledEarlyAdaptationAbort (o : Obs) (s : State) : State × Bool :=
  if o.entryEmpty then
    let err : ErrorState :=
      { type := err_type.ERR_ICAP_FAILURE, httpStatus := scInternalServerError, xerrno := 0,
        detail := none }
    let err := { err with detail := some "ICAP_RESPMOD_EARLY" }
    let s := s.call (Call.fwdFail err)
    let s := s.call (Call.fwdDontRetry true)
    let s := s.call (Call.abortAll "adaptation failure with an empty entry")
    (s, true)
  else
    let s :=
      if o.hasRequest then
        s.call (Call.requestDetailError err_type.ERR_ICAP_FAILURE "ICAP_RESPMOD_LATE")
      else s
    (s, false)

/-- The method `Client::handleAdaptedBodyProducerAborted`. -/
def handleAdaptedBodyProducerAborted (o : Obs) (s : State) : State :=
  let r := abortOnBadEntry o s "entry went bad while waiting for the now-aborted adapted body"
  if r.2 then r.1
  else if s.receivedWholeAdaptedReply then s.fail "Assure(!receivedWholeAdaptedReply)"
  else
    let s := { s with adaptedReplyAborted := true }
    match s.adaptedBodySource with
    | none => s.fail "Must(adaptedBodySource != nullptr)"
    | some pipe =>
      if !pipe.exhausted then s
      else
        let h := handledEarlyAdaptationAbort o s
        if h.2 then h.1
        else checkAdaptationWithBodyCompletion o h.1

/-- The method `Client::handleAdaptationAborted`. -/
def handleAdaptationAborted (o : Obs) (s : State) (_bypassable : Bool) : State :=
  let r := abortOnBadEntry o s "entry went bad while ICAP aborted"
  if r.2 then r.1
  else
    let h := handledEarlyAdaptationAbort o s
    if !h.2 then h.1.call (Call.abortAll "adaptation failure with a filled entry")
    else h.1

/-- The method `Client::handleAdaptationBlocked`. -/
def handleAdaptationBlocked (o : Obs) (s : State) (answer : Answer) : State :=
  let r := abortOnBadEntry o s "entry went bad while ICAP aborted"
  if r.2 then r.1
  else if !o.entryEmpty then
    let s :=
      if o.hasRequest then
        s.call (Call.requestDetailError err_type.ERR_ICAP_FAILURE "RESPMOD_BLOCK_LATE")
      else s
    s.call (Call.abortAll "late adaptation block")
  else
    let page_id := answer.denyInfoPage
    let page_id := if page_id = err_type.ERR_NONE then err_type.ERR_ACCESS_DENIED else page_id
    let err : ErrorState :=
      { type := page_id, httpStatus := scForbidden, xerrno := 0, detail := none }
    let err := { err with detail := some "RESPMOD_BLOCK_EARLY" }
    let s := s.call (Call.fwdFail err)
    let s := s.call (Call.fwdDontRetry true)
    abortOnData s "timely adaptation block"

/-- The method `Client::handleAdaptedHeader`; a null `msg`, or one that is no
`HttpReply`, fails `assert(rep)`. -/
def handleAdaptedHeader (lib : UriLib) (o : Obs) (s : State) (msg : Option HttpReply) :
    State :=
  let r := abortOnBadEntry o s "entry went bad while waiting for adapted headers"
  if r.2 then
    match msg with
    | none => r.1.fail "assert(rep)"
    | some rep => if rep.body_pipe.isSome then r.1.call Call.expectNoConsumption else r.1
  else
    match msg with
    | none => s.fail "assert(rep)"
    | some rep =>
      let s := setFinalReply lib o s rep
      if s.failure.isSome then s
      else if s.adaptedBodySource.isSome then s.fail "assert(!adaptedBodySource)"
      else
        match rep.body_pipe with
        | some pipe =>
          let s := { s with adaptedBodySource := some pipe }
          if !o.setConsumerIfNotLate then s.fail "assert(result)"
          else checkAdaptationWithBodyCompletion o s
        | none =>
          if s.adaptedReplyAborted then s.fail "Assure(!adaptedReplyAborted)"
          else
            let s := { s with receivedWholeAdaptedReply := true }
            if doneWithAdaptation s then handleAdaptationCompleted o s else s

/-- The method `Client::noteAdaptationAnswer`. -/
def noteAdaptationAnswer (lib : UriLib) (o : Obs) (s : State) (answer : Answer) : State :=
  let s := { s with adaptedHeadSource := false }
  match answer.kind with
  | AnswerKind.akForward => handleAdaptedHeader lib o s answer.message
  | AnswerKind.akBlock => handleAdaptationBlocked o s answer
  | AnswerKind.akError => handleAdaptationAborted o s (!answer.final)

/-- The method `Client::storeReplyBody`. -/
def storeReplyBody (s : State) (data : List Nat) : State :=
  let s := s.call (Call.entryWrite s.currentOffset data)
  { s with currentOffset := s.currentOffset + (data.length : Int) }

/-- The method `Client::adaptVirginReplyBody`; an overflow buffer that would grow beyond
its size limit fails the assertion of `MemBuf`. -/
def adaptVirginReplyBody (s : State) (data : List Nat) : State :=
  if !s.startedAdaptation then s.fail "assert(startedAdaptation)"
  else
    match s.virginBodyDestination with
    | none => s
    | some pipe =>
      match s.responseBodyBuffer with
      | some buffered =>
        let all := buffered ++ data
        if all.length > responseBodyBufferMax then s.fail "MemBuf: capacity exceeded"
        else
          let put := pipe.putMoreData all
          let s := { s with virginBodyDestination := some put.1 }
          if put.2 = all.length then { s with responseBodyBuffer := none }
          else { s with responseBodyBuffer := some (all.drop put.2) }
      | none =>
        let put := pipe.putMoreData data
        let s := { s with virginBodyDestination := some put.1 }
        let rest := data.drop put.2
        if rest.length > 0 then
          (if rest.length > responseBodyBufferMax then s.fail "MemBuf: capacity exceeded"
           else { s with responseBodyBuffer := some rest })
        else s

/-- The method `Client::addVirginReplyBody`, but for the statistics of
`adjustBodyBytesRead`. -/
def addVirginReplyBody (s : State) (data : List Nat) : State :=
  if s.adaptationAccessCheckPending then s.fail "assert(!adaptationAccessCheckPending)"
  else if s.startedAdaptation then adaptVirginReplyBody s data
  else storeReplyBody s data

/-- The method `Client::noteMoreBodySpaceAvailable`. -/
def noteMoreBodySpaceAvailable (s : State) : State :=
  if s.responseBodyBuffer.isSome then
    let s := addVirginReplyBody s []
    if s.failure.isSome then s
    else if s.completed && s.responseBodyBuffer.isNone then serverComplete2 s
    else s.call Call.maybeReadVirginBody
  else s.call Call.maybeReadVirginBody

/-- The method `Client::noteBodyConsumerAborted`. -/
def noteBodyConsumerAborted (o : Obs) (s : State) : State :=
  let s := { s with virginBodyDestination := none }
  if doneWithAdaptation s then handleAdaptationCompleted o s else s

/-- The method `Client::startAdaptation`; the virgin body pipe is created empty, with
the space `pipeSpace`. -/
def startAdaptation (o : Obs) (s : State) (pipeSpace : Nat) : State :=
  if s.virginBodyDestination.isSome then s.fail "assert(!virginBodyDestination)"
  else
    match s.theVirginReply with
    | none => s.fail "assert(theVirginReply)"
    | some vrep =>
      if vrep.body_pipe.isSome then s.fail "assert(!vrep->body_pipe)"
      else
        let s :=
          match o.virginBodyExpected with
          | some _ =>
            let pipe : BodyPipe :=
              { buf := [], potentialSpaceSize := pipeSpace, productionEnded := false }
            { s with virginBodyDestination := some pipe }
          | none => s
        let s := { s with adaptedHeadSource := o.initiated }
        let s := { s with startedAdaptation := s.adaptedHeadSource }
        if !s.startedAdaptation then s.fail "Must(startedAdaptation)" else s

/-- The method `Client::sendBodyIsTooLargeError`. -/
def sendBodyIsTooLargeError (s : State) : State :=
  let err : ErrorState :=
    { type := err_type.ERR_TOO_BIG, httpStatus := scForbidden, xerrno := 0, detail := none }
  let s := s.call (Call.fwdFail err)
  let s := s.call (Call.fwdDontRetry true)
  abortOnData s "Virgin body too large."

/-- The method `Client::noteAdaptationAclCheckDone`; `group` tells whether the service
group is set. -/
def noteAdaptationAclCheckDone (lib : UriLib) (o : Obs) (s : State) (group : Bool)
    (pipeSpace : Nat) : State :=
  let s := { s with adaptationAccessCheckPending := false }
  let r := abortOnBadEntry o s "entry went bad while waiting for ICAP ACL check"
  if r.2 then r.1
  else
    match s.theVirginReply with
    | none => s.fail "assert(theVirginReply)"
    | some vrep =>
      if o.expectedBodyTooLarge then sendBodyIsTooLargeError s
      else if !group then
        let s := setFinalReply lib o s vrep
        if s.failure.isSome then s else s.call Call.processReplyBody
      else
        let s := startAdaptation o s pipeSpace
        if s.failure.isSome then s else s.call Call.processReplyBody

/-- The method `Client::adaptOrFinalizeReply`. -/
def adaptOrFinalizeReply (lib : UriLib) (o : Obs) (s : State) : State :=
  match s.theVirginReply with
  | none => s.fail "assert(theVirginReply)"
  | some vrep =>
    let s := { s with adaptationAccessCheckPending := o.accessCheckStarted }
    if s.adaptationAccessCheckPending then s
    else setFinalReply lib o s vrep

/-- The method `Client::startRequestBodyFlow` for the body pipe of the request: the state
after the call (the value returned tells whether `requestBodySource` is set). -/
def startRequestBodyFlow (o : Obs) (s : State) (body_pipe : BodyPipe) : State :=
  let s := { s with requestBodySource := some body_pipe }
  if o.setConsumerIfNotLate then s
  else { s with requestBodySource := none }

/-- The method `Client::swanSong`, but for the `swanSong` of its base classes. -/
def swanSong (s : State) : State :=
  let s := if s.requestBodySource.isSome then { s with requestBodySource := none } else s
  let s := cleanAdaptation s
  if s.failure.isSome then s
  else
    let s := if !s.doneWithServer then closeServer s else s
    if s.doneWithFwd.isNone then
      ({ s with doneWithFwd := some "swanSong()" }).call Call.fwdHandleUnregisteredServerEnd
    else s

/-- The pipe that the argument `bp` of a body pipe callback points to. -/
inductive PipeRef
  | requestBody | adaptedBody | other
deriving DecidableEq, Repr

/-- The method `Client::noteMoreBodyDataAvailable`. -/
def noteMoreBodyDataAvailable (o : Obs) (s : State) (bp : PipeRef) : State :=
  if s.adaptedBodySource.isSome ∧ bp = PipeRef.adaptedBody then
    handleMoreAdaptedBodyAvailable o s
  else if s.requestBodySource.isSome ∧ bp = PipeRef.requestBody then
    handleMoreRequestBodyAvailable o s
  else s

/-- The method `Client::noteBodyProductionEnded`. -/
def noteBodyProductionEnded (o : Obs) (s : State) (bp : PipeRef) : State :=
  if s.adaptedBodySource.isSome ∧ bp = PipeRef.adaptedBody then
    handleAdaptedBodyProductionEnded o s
  else if s.requestBodySource.isSome ∧ bp = PipeRef.requestBody then
    handleRequestBodyProductionEnded s
  else s

/-- The method `Client::noteBodyProducerAborted`. -/
def noteBodyProducerAborted (o : Obs) (s : State) (bp : PipeRef) : State :=
  if s.adaptedBodySource.isSome ∧ bp = PipeRef.adaptedBody then
    handleAdaptedBodyProducerAborted o s
  else if s.requestBodySource.isSome ∧ bp = PipeRef.requestBody then
    handleRequestBodyProducerAborted s
  else s

/-- The calls that reach a `Client` job from outside: from the derived class
(`startRequestBodyFlow`, `setVirginReply`, `markParsedVirginReplyAsWhole`,
`adaptOrFinalizeReply`, `addVirginReplyBody`, `serverComplete`), from the connection
(`sentRequestBody`), from the body pipes, from the adaptation side, from the store
(`resumeBodyStorage`) and from the job framework (`swanSong`). -/
inductive Event
  | startRequestBodyFlow (body_pipe : BodyPipe)
  | setVirginReply (rep : HttpReply)
  | markParsedVirginReplyAsWhole (reasonWeAreSure : String)
  | adaptOrFinalizeReply
  | addVirginReplyBody (data : List Nat)
  | serverComplete
  | sentRequestBody (io : CommIoCbParams)
  | noteMoreBodyDataAvailable (bp : PipeRef)
  | noteBodyProductionEnded (bp : PipeRef)
  | noteBodyProducerAborted (bp : PipeRef)
  | noteMoreBodySpaceAvailable
  | noteBodyConsumerAborted
  | noteAdaptationAclCheckDone (group : Bool) (pipeSpace : Nat)
  | noteAdaptationAnswer (answer : Answer)
  | resumeBodyStorage
  | swanSong
deriving DecidableEq, Repr

/-- The pipes that the job holds, as their other ends have left them. -/
def refresh (o : Obs) (s : State) : State :=
  { s with
    requestBodySource := s.requestBodySource.map (fun _ => o.requestBody),
    adaptedBodySource := s.adaptedBodySource.map (fun _ => o.adaptedBody),
    virginBodyDestination := s.virginBodyDestination.map (fun _ => o.virginBody) }

/-- One call from outside. A job whose assertion or `Must` failed gets no more calls. The
answer of an adaptation comes from the transaction that `adaptedHeadSource` points to and
the access check answers while `adaptationAccessCheckPending` is set; without them
those calls do not come. -/
def step (lib : UriLib) (s : State) (oe : Obs × Event) : State :=
  if s.failure.isSome then s
  else
    let o := oe.1
    let s := refresh o s
    match oe.2 with
    | Event.startRequestBodyFlow body_pipe => startRequestBodyFlow o s body_pipe
    | Event.setVirginReply rep => setVirginReply s rep
    | Event.markParsedVirginReplyAsWhole reason => markParsedVirginReplyAsWhole s reason
    | Event.adaptOrFinalizeReply => adaptOrFinalizeReply lib o s
    | Event.addVirginReplyBody data => addVirginReplyBody s data
    | Event.serverComplete => serverComplete s
    | Event.sentRequestBody io => sentRequestBody o s io
    | Event.noteMoreBodyDataAvailable bp => noteMoreBodyDataAvailable o s bp
    | Event.noteBodyProductionEnded bp => noteBodyProductionEnded o s bp
    | Event.noteBodyProducerAborted bp => noteBodyProducerAborted o s bp
    | Event.noteMoreBodySpaceAvailable => noteMoreBodySpaceAvailable s
    | Event.noteBodyConsumerAborted => noteBodyConsumerAborted o s
    | Event.noteAdaptationAclCheckDone group pipeSpace =>
      if s.adaptationAccessCheckPending then noteAdaptationAclCheckDone lib o s group pipeSpace
      else s
    | Event.noteAdaptationAnswer answer =>
      if s.adaptedHeadSource then noteAdaptationAnswer lib o s answer else s
    | Event.resumeBodyStorage => resumeBodyStorage o s
    | Event.swanSong => swanSong s

/-- A job from its construction through a sequence of calls. -/
def run (lib : UriLib) (request : HttpRequest) (events : List (Obs × Event)) : State :=
  events.foldl (step lib) (State.init request)

end Client

namespace Client

/-- A library in which every text with a colon is absolute, `absolute()` prints the host
and the path of a URL after `http://`, and `addRelativePath` replaces the last segment
of the path. -/
def sampleLib : UriLib :=
  { urlIsRelative := fun url => !url.contains chColon,
    absolute := fun u => "http://".data ++ u.host ++ u.path,
    relativePath := fun p rel =>
      (p.reverse.dropWhile (fun c => c != chSlash)).reverse ++ rel }

/-- A PUT request for `http://origin.example/dir/doc`. -/
def putRequest : HttpRequest :=
  { method := Method.METHOD_PUT,
    url := { scheme := UriScheme.PROTO_HTTP, userInfo := [], host := "origin.example".data,
             port := 80, path := "/dir/doc".data },
    effectiveRequestUri := "http://origin.example/dir/doc".data }

/-- What the environment shows when the store entry is accepting and holds bytes, the
request is set, the connection is open and the pipes are empty and open. -/
def filledEntry : Obs :=
  { entryAccepting := true, entryEmpty := false, entryAborted := false,
    entryReleaseRequest := false, bytesWanted := fun n => n, hasRequest := true,
    connOpen := true, mayReadVirginReplyBody := false, blockCaching := false,
    expectedBodyTooLarge := false, virginBodyExpected := none, initiated := true,
    accessCheckStarted := true, setConsumerIfNotLate := true,
    requestBody := { buf := [], potentialSpaceSize := 4096, productionEnded := false },
    adaptedBody := { buf := [], potentialSpaceSize := 4096, productionEnded := false },
    virginBody := { buf := [], potentialSpaceSize := 4096, productionEnded := false } }

/-- The environment of `filledEntry` with a store entry that is still empty. -/
def emptyEntry : Obs := { filledEntry with entryEmpty := true }

/-- A job for `putRequest` right after its construction. -/
def freshJob : State := State.init putRequest

/-- A job that consumes a request body and has a write in flight. -/
def sendingBody : State :=
  { freshJob with
    requestBodySource := some { buf := [], potentialSpaceSize := 4096, productionEnded := false },
    requestSender := true }

end Client

namespace Client

/-- In a job that has not failed, the adapted head source, the adapted body source and
the flag `receivedWholeAdaptedReply` are set only when `startedAdaptation` is. -/
def Started (s : State) : Prop :=
  s.failure = none →
    (s.adaptedHeadSource = true → s.startedAdaptation = true)
    ∧ (s.adaptedBodySource.isSome = true → s.startedAdaptation = true)
    ∧ (s.receivedWholeAdaptedReply = true → s.startedAdaptation = true)

/-- In a list of calls, every run of `completeForwarding` that began with
`doneWithAdaptation()` and `receivedWholeAdaptedReply` set went on with
`fwd->markStoredReplyAsWhole("receivedWholeAdaptedReply")`. -/
def MarksAdapted (calls : List Call) : Prop :=
  ∀ (pre post : List Call) (d st r : Bool),
    calls = pre ++ Call.completeForwardingCalled d st r :: post → d = true → r = true →
    ∃ tail, post = Call.fwdMarkStoredReplyAsWhole "receivedWholeAdaptedReply" :: tail

/-- The state `t` comes after `s`: it keeps `Started`, and the calls made in between
satisfy `MarksAdapted`. -/
def Follows (s t : State) : Prop :=
  Started s → Started t ∧ ∃ extra, t.calls = s.calls ++ extra ∧ MarksAdapted extra

/-- A reply with status 200 and neither a body pipe nor a header that names a URL. -/
def plainReply : HttpReply :=
  { status := 200, location := none, contentLocation := none, body_pipe := none,
    contentRangeOffset := none }

/-- The calls of a reply that is adapted without a body: the virgin reply is set, the
access check starts and ends with a service group, the server side completes, and the
adaptation answers with a reply that has no body pipe. -/
def adaptedRun : List (Obs × Event) :=
  [(filledEntry, Event.setVirginReply plainReply),
   (filledEntry, Event.adaptOrFinalizeReply),
   (filledEntry, Event.noteAdaptationAclCheckDone true 4096),
   (filledEntry, Event.serverComplete),
   (filledEntry,
      Event.noteAdaptationAnswer
        { kind := AnswerKind.akForward, message := some plainReply, final := true,
          denyInfoPage := err_type.ERR_NONE })]

end Client

namespace Client

/-- Whether a call is the record that a run of `completeForwarding` began. -/
def Call.isGhost : Call → Bool
  | Call.completeForwardingCalled _ _ _ => true
  | _ => false

end Client

namespace Client

/-- Following the spec's words, the host of a URL text: the text after the first `:` and
the slashes that come next, up to the next `/` or the end of the string (a C string ends
at its terminator); `none` when the text has no `:`. -/
def specHostText (url : List Char) : Option (List Char) :=
  match url.dropWhile (fun c => c != chColon) with
  | [] => none
  | _ :: rest =>
    some ((rest.dropWhile (fun c => c == chSlash)).takeWhile
      (fun c => c != chSlash && c != chNul))

/-- A reply with status 201 and the given `Location` and `Content-Location` values. -/
def locatedReply (location contentLocation : Option (List Char)) : HttpReply :=
  { status := 201, location := location, contentLocation := contentLocation,
    body_pipe := none, contentRangeOffset := none }

/-- The reply to `putRequest` that names `http://origin.example/other` in `Location` and
the relative `sub/page` in `Content-Location`. -/
def createdReply : HttpReply :=
  locatedReply (some "http://origin.example/other".data) (some "sub/page".data)

end Client

namespace Client

/-- The parts of the read buffer `readBuf` (a `MemBuf`) that `replyBodySpace` reads:
`spaceSize()`, the space available without growing, and `potentialSpaceSize()`, the space
that growing to the size limit would give. -/
structure ReadBuf where
  spaceSize : Nat
  potentialSpaceSize : Nat
deriving DecidableEq, Repr

/-- The method `Client::calcBufferSpaceToReserve`; `maxSize` is the constant
`SBuf::maxSize`. -/
def calcBufferSpaceToReserve (s : State) (maxSize : Nat) (space wantSpace : Nat) : Nat :=
  let space :=
    if space < wantSpace then
      let maxSpace := maxSize
      min wantSpace maxSpace
    else space
  if s.responseBodyBuffer.isSome then 0
  else
    match s.virginBodyDestination with
    | some pipe =>
      let adaptor_space := pipe.potentialSpaceSize
      if adaptor_space < space then adaptor_space else space
    | none => space

/-- The method `Client::replyBodySpace`. -/
def replyBodySpace (s : State) (readBuf : ReadBuf) (minSpace : Nat) : Nat :=
  let space := readBuf.spaceSize
  let space :=
    if space < minSpace then
      let maxSpace := readBuf.potentialSpaceSize
      min minSpace maxSpace
    else space
  if s.responseBodyBuffer.isSome then 0
  else
    match s.virginBodyDestination with
    | some pipe =>
      let adaptation_space := pipe.potentialSpaceSize
      if adaptation_space < space then adaptation_space else space
    | none => space

/-- Following the spec's words: the available space `space`, raised to
`min(wanted, maximum)` when it is below the wanted minimum. -/
def raisedSpace (space wanted maximum : Nat) : Nat :=
  if space < wanted then min wanted maximum else space

/-- A job that adapts, with an empty virgin body pipe that has room for 100 bytes. -/
def adaptingJob : State :=
  { freshJob with
    startedAdaptation := true,
    virginBodyDestination := some { buf := [], potentialSpaceSize := 100, productionEnded := false } }

end Client

/-! ## Callback parameters (`src/CommCalls.cc`) -/

namespace CommCalls

/-- Modelled from the spec: the part of `Comm::Connection` that `syncWithComm` reads, its
descriptor `fd`; the connection is open while the descriptor is not negative. -/
structure Connection where
  fd : Int
deriving DecidableEq, Repr

/-- Modelled from the spec: `Comm::Connection::isOpen()`. -/
def Connection.isOpen (c : Connection) : Bool := decide (0 ≤ c.fd)

/-- Modelled from the spec: `Comm::Connection::noteClosure()` marks the connection as
closed: the descriptor is forgotten. -/
def Connection.noteClosure (c : Connection) : Connection :=
  if c.isOpen then { c with fd := -1 } else c

/-- The class `CommCommonCbParams`, base of `CommConnectCbParams` and `CommIoCbParams`:
the connection (`none` for a null pointer), the flag, `xerrno` and `fd`. -/
structure CommCommonCbParams where
  conn : Option Connection
  flag : Client.Flag
  xerrno : Int
  fd : Int
deriving DecidableEq, Repr

/-- The method `CommConnectCbParams::syncWithComm`; `closing fd` is
`fd_table[fd].closing()`. The parameters after the call and the value returned, or `none`
when an `assert` fails. -/
def connectSyncWithComm (closing : Int → Bool) (p : CommCommonCbParams) :
    Option (CommCommonCbParams × Bool) :=
  match p.conn with
  | none => none
  | some conn =>
    if p.flag ≠ Client.Flag.OK then
      if conn.isOpen then none
      else some (p, true)
    else if !conn.isOpen then none
    else if !closing conn.fd then some (p, true)
    else
      let conn := conn.noteClosure
      some ({ p with conn := some conn, flag := Client.Flag.ERR_CLOSING }, true)

/-- The method `CommIoCbParams::syncWithComm`; `closing fd` is `fd_table[fd].closing()`.
The parameters after the call and the value returned, or `none` when `conn` is null, which
the method dereferences. -/
def ioSyncWithComm (closing : Int → Bool) (p : CommCommonCbParams) :
    Option (CommCommonCbParams × Bool) :=
  match p.conn with
  | none => none
  | some conn =>
    let p :=
      if (conn.fd < 0 || closing conn.fd) && p.flag != Client.Flag.ERR_CLOSING then
        { p with flag := Client.Flag.ERR_CLOSING }
      else p
    some (p, true)

/-- A descriptor table in which descriptor 7 is closing and no other is. -/
def closingSeven (fd : Int) : Bool := fd == 7

/-- The parameters of a callback on descriptor `fd` with the given flag. -/
def paramsOn (fd : Int) (flag : Client.Flag) : CommCommonCbParams :=
  { conn := some { fd := fd }, flag := flag, xerrno := 0, fd := fd }

end CommCalls

namespace Client

/-- The increment `++p` of a pointer into a C string, given by the rest of the text from
`p` on: `none` when `p` is at the terminator, so that the pointer would leave the
string. -/
def cstrNext : List Char → Option (List Char)
  | [] => none
  | _ :: rest => some rest

/-- The second loop of `sameUrlHosts` with the increment of `host2` checked (that of
`host1` is made only after a character of the string was read). -/
def sameUntilSlashChecked : List Char → List Char → Option Bool
  | [], host2 => some (chNul == cstrHead host2)
  | a :: r1, host2 =>
    if a ≠ chNul ∧ a ≠ chSlash ∧ a = cstrHead host2 then
      match cstrNext host2 with
      | some r2 => sameUntilSlashChecked r1 r2
      | none => none
    else some (a == cstrHead host2)

/-- The function `sameUrlHosts` with the pointer increments checked: `none` when a pointer
would move past the terminator of its string. -/
def sameUrlHostsChecked (url1 url2 : List Char) : Option Bool :=
  match strchrColon url1, strchrColon url2 with
  | some host1, some host2 =>
    match cstrNext host1, cstrNext host2 with
    | some h1, some h2 =>
      let p := skipSchemeSlashes h1 h2
      if cstrHead p.1 = chNul then some false
      else sameUntilSlashChecked p.1 p.2
    | _, _ => none
  | _, _ => some false

end Client

namespace Client

/-- A job that adapts, with an empty virgin body pipe that has room for 3 bytes. -/
def narrowPipeJob : State :=
  { freshJob with
    startedAdaptation := true,
    virginBodyDestination := some { buf := [], potentialSpaceSize := 3, productionEnded := false } }

end Client

/-- The number of destinations of a list that name the peer `p`. -/
def countPeer (l : List FwdServer) (p : CachePeer) : Nat :=
  l.countP (fun fs => fs._peer == some p)

/-- A selection for the plain request whose direct-disposition is already No. -/
def neverDirectStart : ps_state :=
  { ps_state.init (oneParentConfig 10) { subscribed := true } (exampleRequest noFlags) none with
    direct := direct_t.DIRECT_NO }

/-- Every destination of the list names a peer: none stands for the origin server. -/
def PeersOnly (l : List FwdServer) : Prop := ∀ fs ∈ l, fs._peer ≠ none

/-- The state `t` has the direct-disposition of `s`, and its destination list is that of
`s` with destinations appended at the end; if the direct-disposition is No, each of the
appended destinations names a peer. -/
def AddsPeers (s t : ps_state) : Prop :=
  t.direct = s.direct
    ∧ ∃ extra : List FwdServer, t.servers = s.servers ++ extra
        ∧ (s.direct = direct_t.DIRECT_NO → PeersOnly extra)

/-- The destination list of a selection, by its direct-disposition: empty while the
disposition is unknown, and without origin-server destinations when it is No. -/
structure NoDirectInv (s : ps_state) : Prop where
  undecided : s.direct = direct_t.DIRECT_UNKNOWN → s.servers = []
  peers : s.direct = direct_t.DIRECT_NO → PeersOnly s.servers

/-- A request with a pinned connection to the origin server that is still open. -/
def pinnedRequest : HttpRequest :=
  { exampleRequest { noFlags with hierarchical := true } with
    pinnedConnection := some { pinnedPeer := none, isConnOpen := true } }

/-- A selection for `pinnedRequest` whose direct-disposition is already No, with a store
entry whose ping status is PING_WAITING. -/
def neverDirectPinned (st : ping_status_t) : ps_state :=
  { ps_state.init (oneParentConfig 10) { subscribed := true } pinnedRequest
      (some { ping_status := st, KEY_PRIVATE := false }) with
    direct := direct_t.DIRECT_NO }

/-- The states that the helpers of `peerSelectFoo` which add destinations leave when they
are called on `s`: `peerSelectPinned`, `peerGetSomeNeighbor`,
`peerGetSomeNeighborReplies`, `peerGetSomeDirect`, `peerGetSomeParent`,
`peerGetAllParents`, and the two parts of `peerSelectFoo` that call them. -/
def selectionHelpers (cfg : SquidConfig) (env : Env) (s : ps_state) : List ps_state :=
  [peerSelectPinned env s, peerGetSomeNeighbor cfg env s, peerGetSomeNeighborReplies cfg env s,
   peerGetSomeDirect s, peerGetSomeParent env s, peerGetAllParents cfg env s,
   (peerSelectFooNeighbors cfg env s).1, peerSelectFooSwitch cfg env s]

/-- What a call of `peerSelectDnsPaths` on a selection `s` with an interested initiator
does with the stored error: after some paths were handed to the initiator, either a DNS
lookup is started and the error is kept, or the end of the selection is reported with the
stored error if no path was found at all and with a null error otherwise, and the state is
deleted. -/
def DnsEnd (s t : ps_state) : Prop :=
  ∃ paths : List Comm.Connection,
    t.foundPaths = s.foundPaths + paths.length
    ∧ ((t.deleted = s.deleted ∧ t.lastError = s.lastError
          ∧ t.calls = s.calls ++ paths.map InitiatorCall.noteDestination)
      ∨ (t.deleted = true ∧ t.lastError = none
          ∧ t.calls = s.calls ++ paths.map InitiatorCall.noteDestination
              ++ [InitiatorCall.noteDestinationsEnd
                    (if t.foundPaths = 0 then s.lastError else none)]))

/-- The stored error and the reported errors of a selection: a stored error is a
DNS_FAIL error with status 503, no end has been reported while the state exists, and an
end reported with an error was reported with a DNS_FAIL error with status 503 and without
any path found. -/
structure ErrInv (s : ps_state) : Prop where
  lastError : ∀ e, s.lastError = some e →
    e.type = err_type.ERR_DNS_FAIL ∧ e.httpStatus = 503
  live : s.deleted = false → ∀ e, InitiatorCall.noteDestinationsEnd e ∉ s.calls
  ended : ∀ e, InitiatorCall.noteDestinationsEnd (some e) ∈ s.calls →
    s.foundPaths = 0 ∧ e.type = err_type.ERR_DNS_FAIL ∧ e.httpStatus = 503

/-- The error that `noteIps` leaves stored before it goes on with the next destination:
the stored one if addresses were found; otherwise a new DNS_FAIL error with status 503 if
the destination `fs` is HIER_DIRECT, and none for any other destination. -/
def errorAfterLookup (s : ps_state) (fs : FwdServer) (ia : Bool) (dnsError : String) :
    Option ErrorState :=
  if ia then s.lastError
  else if fs.code = hier_code.HIER_DIRECT then
    some { type := err_type.ERR_DNS_FAIL, httpStatus := 503, dnsError := dnsError }
  else none

/-- The configuration `oneParentConfig` with `prefer_direct` on. -/
def preferDirectConfig : SquidConfig :=
  { oneParentConfig 10 with prefer_direct := true }

/-- The plain request with the `hierarchical` flag. -/
def hierarchicalRequest : HttpRequest :=
  exampleRequest { noFlags with hierarchical := true }

/-- Three DNS lookups in a row that find no address. -/
def failedLookups : List Event :=
  [Event.noteIps false "no address", Event.noteIps false "no address",
   Event.noteIps false "no address"]

/-- The DNS_FAIL error with status 503 that `noteIps` creates for the error text
"no address". -/
def dnsFailure : ErrorState :=
  { type := err_type.ERR_DNS_FAIL, httpStatus := 503, dnsError := "no address" }

/-- The lookup of the first destination finds no address, the lookup of the second one
finds 198.51.100.1, and the third one finds nothing new. -/
def lateAddress : List Event :=
  [Event.noteIps false "no address", Event.noteIp (Ip.Address.ofOctets 198 51 100 1 0),
   Event.noteIps true "", Event.noteIps true ""]

/-- The peer array of a NetDB entry is well formed: no two slots carry the same name,
the number of slots (`n_peers`) is at most `n_peers_alloc`, and the slots are in ascending
RTT order. -/
structure PeerSlots (n : netdbEntry) : Prop where
  names : (n.peers.map (fun p => p.peername)).Nodup
  alloc : n.peers.length ≤ n.n_peers_alloc
  sorted : n.peers.Sorted (fun p1 p2 => p1.rtt ≤ p2.rtt)

/-- Every entry of `addr_table` has the property `P`. -/
def EntriesHave (P : netdbEntry → Prop) (db : NetDB) : Prop := ∀ n ∈ db.addr_table, P n

/-- The property `P` of an entry speaks of its peer array only (`peers`, `n_peers`,
`n_peers_alloc`), and an entry without peer slots has it. -/
structure OfPeers (P : netdbEntry → Prop) : Prop where
  congr : ∀ m n : netdbEntry, m.peers = n.peers → m.n_peers_alloc = n.n_peers_alloc → P n → P m
  empty : ∀ n : netdbEntry, n.peers = [] → P n

/-- The peer array of the entry is well formed and every slot name is in the list `L`. -/
def SlotsIn (L : List String) (n : netdbEntry) : Prop :=
  PeerSlots n ∧ ∀ p ∈ n.peers, p.peername ∈ L

/-- A call that records the measurement of a peer: `netdbUpdatePeer(url, e, irtt, ihops)`
with `host = url.host()`, or `netdbExchangeUpdatePeer(addr, e, rtt, hops)`. -/
inductive PeerUpdate
  | update (host : String) (e : CachePeer) (irtt ihops : Int)
  | exchange (addr : Ip.Address) (e : CachePeer) (rtt hops : ℚ)

/-- The host name of the peer a call is about. -/
def PeerUpdate.peername : PeerUpdate → String
  | PeerUpdate.update _ e _ _ => e.host
  | PeerUpdate.exchange _ e _ _ => e.host

/-- The tables after one call. -/
def applyPeerUpdate (cfg : Netdb) (squid_curtime : Int) (db : NetDB) : PeerUpdate → NetDB
  | PeerUpdate.update host e irtt ihops => netdbUpdatePeer squid_curtime db host e irtt ihops
  | PeerUpdate.exchange addr e rtt hops =>
    netdbExchangeUpdatePeer cfg squid_curtime db addr e rtt hops

/-- A second parent cache, `near.example`. -/
def nearParent : CachePeer :=
  { exampleParent with host := "near.example", in_addr := Ip.Address.ofOctets 198 51 100 2 3130 }

/-- The configuration with the parents `exampleParent` and `nearParent`, in this order. -/
def nearParentConfig : SquidConfig :=
  { defaultConfig 10 with peers := [exampleParent, nearParent] }

/-- The environment `oneParent` with the tables `threePeersDB`, whose entry lists
`near.example` at RTT 10, `parent.example` at 20 and `far.example` at 50. -/
def threePeersEnv : Env := { oneParent with netdb := threePeersDB }

/-- Four measurements for the network of 203.0.113.9: two from `parent.example` and two
from `near.example`. -/
def repeatedUpdates : List PeerUpdate :=
  [PeerUpdate.exchange (Ip.Address.ofOctets 203 0 113 9 0) exampleParent 30 3,
   PeerUpdate.exchange (Ip.Address.ofOctets 203 0 113 9 0) nearParent 20 2,
   PeerUpdate.exchange (Ip.Address.ofOctets 203 0 113 9 0) exampleParent 10 3,
   PeerUpdate.exchange (Ip.Address.ofOctets 203 0 113 9 0) nearParent 40 2]

namespace Client

/-- The state `t` comes after `s` by calls that run `completeForwarding` only with
`doneWithAdaptation()`: every record of such a run among the calls made in between says
so, and `t` has failed the `Assure(doneWithAdaptation())` of `completeForwarding` only if
`s` had. -/
def Guarded (s t : State) : Prop :=
  ∃ extra : List Call, t.calls = s.calls ++ extra
    ∧ (∀ d st r, Call.completeForwardingCalled d st r ∈ extra → d = true)
    ∧ (t.failure = some "Assure(doneWithAdaptation())" →
        s.failure = some "Assure(doneWithAdaptation())")

end Client

/-! # Theorems -/

/-! ## Doubles -/

theorem log2Fuel_eq : ∀ (fuel n : Nat), n ≤ fuel → log2Fuel fuel n = Nat.log 2 n := by
  intro fuel
  induction fuel with
  | zero =>
    intro n hn
    have : n = 0 := by omega
    subst this
    simp [log2Fuel]
  | succ f ih =>
    intro n hn
    rw [log2Fuel]
    by_cases h : n < 2
    · rw [if_pos h, Nat.log_of_lt h]
    · rw [if_neg h, ih (n / 2) (by omega)]
      exact (Nat.log_of_one_lt_of_le (by norm_num) (by omega)).symm

theorem natLog2_eq (n : Nat) : natLog2 n = Nat.log 2 n := log2Fuel_eq n n le_rfl

theorem roundHalfEven_near (q : ℚ) : |(roundHalfEven q : ℚ) - q| ≤ 1 / 2 := by
  have h1 := Int.floor_le q
  have h2 := Int.lt_floor_add_one q
  unfold roundHalfEven
  rw [abs_le]
  split
  · constructor <;> linarith
  · split
    · push_cast
      constructor <;> linarith
    · split
      · constructor <;> linarith
      · push_cast
        constructor <;> linarith

theorem roundHalfEven_intCast (n : Int) : roundHalfEven (n : ℚ) = n := by
  unfold roundHalfEven
  simp

theorem binaryExponent_le (q : ℚ) (hq : q ≠ 0) : (2 : ℚ) ^ binaryExponent q ≤ |q| := by
  unfold binaryExponent
  simp only
  split
  · assumption
  · rw [natLog2_eq, natLog2_eq]
    have hnum : q.num.natAbs ≠ 0 := by
      simpa using Rat.num_ne_zero.mpr hq
    have h1 : 2 ^ Nat.log 2 q.num.natAbs ≤ q.num.natAbs := Nat.pow_log_le_self 2 hnum
    have h2 : q.den < 2 ^ (Nat.log 2 q.den + 1) := Nat.lt_pow_succ_log_self (by norm_num) _
    have habs : |q| = (q.num.natAbs : ℚ) / (q.den : ℚ) := by
      rw [Rat.abs_def, Rat.divInt_eq_div]
      simp [Nat.cast_natAbs]
    rw [habs]
    have hden : (0 : ℚ) < q.den := by exact_mod_cast q.den_pos
    rw [le_div_iff₀ hden]
    have h1q : ((2 : ℚ) ^ Nat.log 2 q.num.natAbs) ≤ (q.num.natAbs : ℚ) := by exact_mod_cast h1
    have h2q : (q.den : ℚ) ≤ (2 : ℚ) ^ (Nat.log 2 q.den + 1) := by exact_mod_cast h2.le
    have hz : (2 : ℚ) ^ ((Nat.log 2 q.num.natAbs : Int) - (Nat.log 2 q.den : Int) - 1)
        = (2 : ℚ) ^ Nat.log 2 q.num.natAbs / (2 : ℚ) ^ (Nat.log 2 q.den + 1) := by
      rw [show ((Nat.log 2 q.num.natAbs : Int) - (Nat.log 2 q.den : Int) - 1)
          = (Nat.log 2 q.num.natAbs : Int) - ((Nat.log 2 q.den + 1 : Nat) : Int) by push_cast; ring]
      rw [zpow_sub₀ (by norm_num), zpow_natCast, zpow_natCast]
    rw [hz]
    have hp : (0 : ℚ) < (2 : ℚ) ^ (Nat.log 2 q.den + 1) := by positivity
    calc (2 : ℚ) ^ Nat.log 2 q.num.natAbs / (2 : ℚ) ^ (Nat.log 2 q.den + 1) * q.den
        ≤ (2 : ℚ) ^ Nat.log 2 q.num.natAbs / (2 : ℚ) ^ (Nat.log 2 q.den + 1)
            * (2 : ℚ) ^ (Nat.log 2 q.den + 1) := by
          apply mul_le_mul_of_nonneg_left h2q
          positivity
      _ = (2 : ℚ) ^ Nat.log 2 q.num.natAbs := by field_simp
      _ ≤ (q.num.natAbs : ℚ) := h1q

theorem toDouble_zero : toDouble 0 = 0 := by simp [toDouble]

theorem toDouble_eq (q : ℚ) (hq : q ≠ 0) :
    toDouble q = (roundHalfEven (q / (2 : ℚ) ^ (max (binaryExponent q) (-1022) - 52)) : ℚ)
        * (2 : ℚ) ^ (max (binaryExponent q) (-1022) - 52) := by
  unfold toDouble
  rw [if_neg hq]

theorem binaryExponent_lt (q : ℚ) (hq : q ≠ 0) (k : Int) (h : |q| < (2 : ℚ) ^ k) :
    binaryExponent q < k := by
  have h1 := (binaryExponent_le q hq).trans_lt h
  exact (zpow_lt_zpow_iff_right₀ (by norm_num : (1 : ℚ) < 2)).mp h1

theorem toDouble_intCast (n : Int) (h : |n| < 2 ^ 53) : toDouble (n : ℚ) = n := by
  by_cases hn : n = 0
  · subst hn
    simp [toDouble]
  have hq : (n : ℚ) ≠ 0 := by exact_mod_cast hn
  rw [toDouble_eq _ hq]
  have hlt : binaryExponent (n : ℚ) < 53 := by
    apply binaryExponent_lt _ hq
    have : |(n : ℚ)| = ((|n| : Int) : ℚ) := by simp
    rw [this]
    exact_mod_cast h
  obtain ⟨k, hk⟩ : ∃ k : ℕ, max (binaryExponent (n : ℚ)) (-1022) - 52 = -(k : ℤ) :=
    ⟨(52 - max (binaryExponent (n : ℚ)) (-1022)).toNat, by omega⟩
  rw [hk, zpow_neg, zpow_natCast]
  have hpos : (0 : ℚ) < 2 ^ k := by positivity
  have hcast : (n : ℚ) / ((2 : ℚ) ^ k)⁻¹ = ((n * 2 ^ k : Int) : ℚ) := by
    push_cast
    field_simp
  rw [hcast, roundHalfEven_intCast]
  push_cast
  field_simp

theorem toDouble_near (q : ℚ) :
    |toDouble q - q| ≤ max (|q| / 2 ^ 53) (1 / 2 ^ 1075) := by
  by_cases hq : q = 0
  · subst hq
    simp [toDouble]
  rw [toDouble_eq q hq]
  have hu : (0 : ℚ) < (2 : ℚ) ^ (max (binaryExponent q) (-1022) - 52) := by positivity
  generalize hU : (2 : ℚ) ^ (max (binaryExponent q) (-1022) - 52) = u at hu
  have h1 := roundHalfEven_near (q / u)
  have h2 : |(roundHalfEven (q / u) : ℚ) * u - q| = |(roundHalfEven (q / u) : ℚ) - q / u| * u := by
    rw [← abs_of_pos hu, ← abs_mul, abs_of_pos hu]
    congr 1
    field_simp
  rw [h2]
  have h3 : |(roundHalfEven (q / u) : ℚ) - q / u| * u ≤ u / 2 := by
    calc |(roundHalfEven (q / u) : ℚ) - q / u| * u ≤ 1 / 2 * u :=
          mul_le_mul_of_nonneg_right h1 hu.le
      _ = u / 2 := by ring
  refine h3.trans ?_
  rw [← hU]
  rcases le_total (binaryExponent q) (-1022) with hc | hc
  · rw [max_eq_right hc]
    apply le_max_of_le_right
    norm_num
  · rw [max_eq_left hc]
    apply le_max_of_le_left
    have hl := binaryExponent_le q hq
    rw [zpow_sub₀ (by norm_num)]
    have : ((2 : ℚ) ^ (52 : Int)) = 2 ^ 52 := by norm_num
    rw [this]
    rw [div_div, div_le_div_iff₀ (by positivity) (by positivity)]
    calc (2 : ℚ) ^ binaryExponent q * 2 ^ 53 ≤ |q| * 2 ^ 53 :=
          mul_le_mul_of_nonneg_right hl (by positivity)
      _ = |q| * (2 ^ 52 * 2) := by norm_num

theorem roundHalfEven_nonneg (q : ℚ) (hq : 0 ≤ q) : 0 ≤ roundHalfEven q := by
  have hf : 0 ≤ ⌊q⌋ := Int.floor_nonneg.mpr hq
  unfold roundHalfEven
  repeat' split
  all_goals omega

theorem toDouble_nonneg (q : ℚ) (hq : 0 ≤ q) : 0 ≤ toDouble q := by
  by_cases h0 : q = 0
  · subst h0
    simp [toDouble]
  rw [toDouble_eq q h0]
  have hu : (0 : ℚ) < (2 : ℚ) ^ (max (binaryExponent q) (-1022) - 52) := by positivity
  have := roundHalfEven_nonneg (q / (2 : ℚ) ^ (max (binaryExponent q) (-1022) - 52))
    (div_nonneg hq hu.le)
  have h2 : (0 : ℚ) ≤ (roundHalfEven (q / (2 : ℚ) ^ (max (binaryExponent q) (-1022) - 52)) : ℚ) := by
    exact_mod_cast this
  exact mul_nonneg h2 hu.le

theorem roundHalfEven_floor_le (q : ℚ) : ⌊q⌋ ≤ roundHalfEven q := by
  unfold roundHalfEven
  repeat' split
  all_goals omega

theorem roundHalfEven_le_ceil (q : ℚ) : roundHalfEven q ≤ ⌈q⌉ := by
  unfold roundHalfEven
  by_cases hq : (⌊q⌋ : ℚ) = q
  · have h0 : q - ⌊q⌋ < 1 / 2 := by rw [hq]; norm_num
    rw [if_pos h0]
    exact Int.floor_le_ceil q
  · have hc : ⌈q⌉ = ⌊q⌋ + 1 := by
      rw [Int.ceil_eq_iff]
      have h1 := Int.floor_le q
      have h2 := Int.lt_floor_add_one q
      push_cast
      constructor
      · have : (⌊q⌋ : ℚ) < q := lt_of_le_of_ne h1 hq
        linarith
      · linarith
    repeat' split
    all_goals omega

/-- The exponent of the unit in the last place of a value below `2 ^ 53` is not
positive: the unit is `1 / 2 ^ k`. -/
theorem toDouble_small (q : ℚ) (hq : q ≠ 0) (h : |q| < 2 ^ 53) :
    ∃ k : ℕ, toDouble q = (roundHalfEven (q * 2 ^ k) : ℚ) / 2 ^ k := by
  have hlt : binaryExponent q < 53 := by
    apply binaryExponent_lt _ hq
    exact_mod_cast h
  obtain ⟨k, hk⟩ : ∃ k : ℕ, max (binaryExponent q) (-1022) - 52 = -(k : ℤ) :=
    ⟨(52 - max (binaryExponent q) (-1022)).toNat, by omega⟩
  refine ⟨k, ?_⟩
  rw [toDouble_eq q hq, hk, zpow_neg, zpow_natCast, div_inv_eq_mul, div_eq_mul_inv]

theorem toDouble_ge_int (q : ℚ) (k : Int) (hq : |q| < 2 ^ 53) (h : (k : ℚ) ≤ q) :
    (k : ℚ) ≤ toDouble q := by
  by_cases h0 : q = 0
  · subst h0
    simpa [toDouble] using h
  obtain ⟨t, ht⟩ := toDouble_small q h0 hq
  rw [ht]
  have hpos : (0 : ℚ) < 2 ^ t := by positivity
  rw [le_div_iff₀ hpos]
  have h1 : ((k * 2 ^ t : Int) : ℚ) ≤ q * 2 ^ t := by
    push_cast
    exact mul_le_mul_of_nonneg_right h hpos.le
  have h2 : k * 2 ^ t ≤ ⌊q * 2 ^ t⌋ := Int.le_floor.mpr h1
  have h3 := h2.trans (roundHalfEven_floor_le (q * 2 ^ t))
  have h4 : ((k * 2 ^ t : Int) : ℚ) ≤ (roundHalfEven (q * 2 ^ t) : ℚ) := by exact_mod_cast h3
  push_cast at h4
  exact h4

theorem toDouble_le_int (q : ℚ) (k : Int) (hq : |q| < 2 ^ 53) (h : q ≤ (k : ℚ)) :
    toDouble q ≤ (k : ℚ) := by
  by_cases h0 : q = 0
  · subst h0
    simpa [toDouble] using h
  obtain ⟨t, ht⟩ := toDouble_small q h0 hq
  rw [ht]
  have hpos : (0 : ℚ) < 2 ^ t := by positivity
  rw [div_le_iff₀ hpos]
  have h1 : q * 2 ^ t ≤ ((k * 2 ^ t : Int) : ℚ) := by
    push_cast
    exact mul_le_mul_of_nonneg_right h hpos.le
  have h2 : ⌈q * 2 ^ t⌉ ≤ k * 2 ^ t := Int.ceil_le.mpr h1
  have h3 := (roundHalfEven_le_ceil (q * 2 ^ t)).trans h2
  have h4 : (roundHalfEven (q * 2 ^ t) : ℚ) ≤ ((k * 2 ^ t : Int) : ℚ) := by exact_mod_cast h3
  push_cast at h4
  exact h4

/-- The integer part of a double product lies between the exact one and the next
integer. -/
theorem floor_toDouble (q : ℚ) (h0 : 0 ≤ q) (hq : q < 2 ^ 53) :
    ⌊q⌋ ≤ ⌊toDouble q⌋ ∧ ⌊toDouble q⌋ ≤ ⌊q⌋ + 1
      ∧ (⌊toDouble q⌋ = ⌊q⌋ + 1 → toDouble q = ((⌊q⌋ + 1 : Int) : ℚ)) := by
  have habs : |q| < 2 ^ 53 := by rwa [abs_of_nonneg h0]
  have h1 : ((⌊q⌋ : Int) : ℚ) ≤ toDouble q := toDouble_ge_int q ⌊q⌋ habs (Int.floor_le q)
  have h2 : toDouble q ≤ ((⌊q⌋ + 1 : Int) : ℚ) :=
    toDouble_le_int q (⌊q⌋ + 1) habs (by push_cast; exact (Int.lt_floor_add_one q).le)
  have h3 : ⌊q⌋ ≤ ⌊toDouble q⌋ := Int.le_floor.mpr h1
  have h4 : ⌊toDouble q⌋ ≤ ⌊q⌋ + 1 := by
    have := Int.floor_le (toDouble q)
    have h5 : ((⌊toDouble q⌋ : Int) : ℚ) ≤ ((⌊q⌋ + 1 : Int) : ℚ) := this.trans h2
    exact_mod_cast h5
  refine ⟨h3, h4, ?_⟩
  intro he
  apply le_antisymm h2
  rw [← he]
  exact Int.floor_le _

theorem toDouble_rel (q : ℚ) (h : 1 / 2 ^ 1022 ≤ |q|) : |toDouble q - q| ≤ |q| / 2 ^ 53 := by
  have h1 := toDouble_near q
  have h2 : (1 : ℚ) / 2 ^ 1075 ≤ |q| / 2 ^ 53 := by
    rw [div_le_div_iff₀ (by positivity) (by positivity)]
    have : (1 : ℚ) * 2 ^ 53 ≤ |q| * 2 ^ 1022 * 2 ^ 53 := by
      have h3 : (1 : ℚ) ≤ |q| * 2 ^ 1022 := by
        rwa [div_le_iff₀ (by positivity)] at h
      exact mul_le_mul_of_nonneg_right h3 (by positivity)
    calc (1 : ℚ) * 2 ^ 53 ≤ |q| * 2 ^ 1022 * 2 ^ 53 := this
      _ = |q| * 2 ^ 1075 := by rw [mul_assoc, ← pow_add]
  rwa [max_eq_left h2] at h1

/-- The smoothing step of `netdbHandlePingReply` on doubles is within a relative
`2 ^ -51` of the exact quotient. -/
theorem smoothing_near (old : ℚ) (s N : Int) (h0 : 0 ≤ old) (hs : 1 ≤ s) (hN1 : 1 ≤ N)
    (hN5 : N ≤ 5) :
    |toDouble (toDouble (toDouble (old * ((N - 1 : Int) : ℚ)) + (s : ℚ)) / (N : ℚ))
        - (old * ((N - 1 : Int) : ℚ) + (s : ℚ)) / (N : ℚ)|
      ≤ (old * ((N - 1 : Int) : ℚ) + (s : ℚ)) / (N : ℚ) / 2 ^ 51 := by
  have hsq : (1 : ℚ) ≤ (s : ℚ) := by exact_mod_cast hs
  have hNq1 : (1 : ℚ) ≤ (N : ℚ) := by exact_mod_cast hN1
  have hNq5 : (N : ℚ) ≤ 5 := by exact_mod_cast hN5
  have hNpos : (0 : ℚ) < (N : ℚ) := by linarith
  have ha0 : (0 : ℚ) ≤ old * ((N - 1 : Int) : ℚ) := by
    apply mul_nonneg h0
    push_cast
    linarith
  generalize old * ((N - 1 : Int) : ℚ) = a at ha0 ⊢
  have hA0 : 0 ≤ toDouble a := toDouble_nonneg a ha0
  have hA := toDouble_near a
  generalize toDouble a = A at hA0 hA
  have hu : (0 : ℚ) < 1 / 2 ^ 53 := by positivity
  have hu1 : (1 : ℚ) / 2 ^ 53 ≤ 1 / 2 ^ 50 := by
    apply one_div_le_one_div_of_le (by positivity)
    exact pow_le_pow_right₀ (by norm_num) (by norm_num)
  have ht : (1 : ℚ) / 2 ^ 1075 ≤ 1 / 2 ^ 53 := by
    apply one_div_le_one_div_of_le (by positivity)
    exact pow_le_pow_right₀ (by norm_num) (by norm_num)
  generalize hU : (1 : ℚ) / 2 ^ 53 = u at hu hu1 ht
  have hu2 : u ≤ 1 / 8 := hu1.trans (by norm_num)
  have hA' : |A - a| ≤ max (a * u) (1 / 2 ^ 1075) := by
    rw [abs_of_nonneg ha0] at hA
    rw [← hU]
    convert hA using 2
    ring
  have da : |A - a| ≤ (a + s) * u := by
    refine hA'.trans (max_le ?_ ?_)
    · have := mul_le_mul_of_nonneg_right (by linarith : a ≤ a + s) hu.le
      exact this
    · have h1 : (1 : ℚ) * u ≤ (a + s) * u :=
        mul_le_mul_of_nonneg_right (by linarith) hu.le
      linarith
  have hb1 : (1 : ℚ) ≤ A + s := by linarith
  have hsmall : (1 : ℚ) / 2 ^ 1022 ≤ 1 / 16 := by
    have : (1 : ℚ) / 16 = 1 / 2 ^ 4 := by norm_num
    rw [this]
    apply one_div_le_one_div_of_le (by positivity)
    exact pow_le_pow_right₀ (by norm_num) (by norm_num)
  have hB := toDouble_rel (A + s) (by
    rw [abs_of_nonneg (by linarith)]
    linarith)
  rw [abs_of_nonneg (by linarith : (0 : ℚ) ≤ A + s)] at hB
  have hB' : |toDouble (A + s) - (A + s)| ≤ (A + s) * u := by
    rw [← hU]
    convert hB using 1
    ring
  clear hB hA hA' ht
  generalize toDouble (A + s) = B at hB'
  rw [abs_le] at da hB'
  have hE0 : (0 : ℚ) ≤ a + s := by linarith
  have hbu : A + s ≤ (a + s) * (1 + u) := by linarith [da.2]
  have hbu2 : (A + s) * u ≤ (a + s) * (1 + u) * u := mul_le_mul_of_nonneg_right hbu hu.le
  have hbl : (A + s) * u ≤ (A + s) * (1 / 8) := mul_le_mul_of_nonneg_left hu2 (by linarith)
  have hBl : (1 : ℚ) / 2 ≤ B := by linarith [hB'.1]
  have hBu : B ≤ (a + s) * (1 + u) * (1 + u) := by
    have : (a + s) * (1 + u) * (1 + u) = (a + s) * (1 + u) + (a + s) * (1 + u) * u := by ring
    linarith [hB'.2]
  have hc0 : (0 : ℚ) < B / N := by positivity
  have hC := toDouble_rel (B / N) (by
    rw [abs_of_pos hc0, le_div_iff₀ hNpos]
    have h1 : (1 : ℚ) / 16 * N ≤ 1 / 16 * 5 := mul_le_mul_of_nonneg_left hNq5 (by norm_num)
    have h2 : (1 : ℚ) / 2 ^ 1022 * N ≤ 1 / 16 * N :=
      mul_le_mul_of_nonneg_right hsmall hNpos.le
    linarith)
  rw [abs_of_pos hc0] at hC
  have hC' : |toDouble (B / N) - B / N| ≤ B / N * u := by
    rw [← hU]
    convert hC using 1
    ring
  clear hC hsmall
  generalize toDouble (B / N) = C at hC'
  rw [abs_le] at hC' ⊢
  have key1 : B / N * u ≤ (a + s) / N * ((1 + u) * (1 + u) * u) := by
    rw [div_mul_eq_mul_div, div_mul_eq_mul_div, div_le_div_iff₀ hNpos hNpos]
    apply mul_le_mul_of_nonneg_right _ hNpos.le
    have := mul_le_mul_of_nonneg_right hBu hu.le
    linarith
  have key2 : |B / N - (a + s) / N| ≤ (a + s) / N * ((1 + u) * u + u) := by
    rw [← sub_div, abs_div, abs_of_pos hNpos, div_mul_eq_mul_div,
      div_le_div_iff₀ hNpos hNpos]
    apply mul_le_mul_of_nonneg_right _ hNpos.le
    rw [abs_le]
    have : (a + s) * ((1 + u) * u + u) = (a + s) * (1 + u) * u + (a + s) * u := by ring
    constructor
    · linarith [hB'.1, da.1]
    · linarith [hB'.2, da.2]
  rw [abs_le] at key2
  have hq0 : (0 : ℚ) ≤ (a + s) / N := by positivity
  have hfin : (1 + u) * (1 + u) * u + ((1 + u) * u + u) ≤ 1 / 2 ^ 51 := by
    have h4 : (1 : ℚ) / 2 ^ 51 = 4 * u := by
      rw [← hU]
      norm_num
    rw [h4]
    have h5 : u * u ≤ 1 / 8 * u := mul_le_mul_of_nonneg_right hu2 hu.le
    have h6 : u * u * u ≤ 1 / 8 * (u * u) := by
      have := mul_le_mul_of_nonneg_right hu2 (mul_nonneg hu.le hu.le)
      linarith
    have h7 : (1 + u) * (1 + u) * u + ((1 + u) * u + u) = 3 * u + 3 * (u * u) + u * u * u := by
      ring
    rw [h7]
    linarith
  have hprod := mul_le_mul_of_nonneg_left hfin hq0
  rw [div_eq_mul_one_div ((a + s) / N) (2 ^ 51)]
  have hsplit : (a + s) / N * ((1 + u) * (1 + u) * u + ((1 + u) * u + u))
      = (a + s) / N * ((1 + u) * (1 + u) * u) + (a + s) / N * ((1 + u) * u + u) := by ring
  constructor
  · linarith [hC'.1, key2.1]
  · linarith [hC'.2, key2.2]

/-! ## NetDB -/

theorem truncToInt_intCast (n : Int) : truncToInt (n : ℚ) = n := by
  simp [truncToInt]

theorem find?_store (l : List netdbEntry) (key : Ip.Address) (n m : netdbEntry)
    (hm : m.network = key)
    (h : l.find? (fun e => e.network == key) = some n) :
    (l.map (fun e => if e.network == key then m else e)).find? (fun e => e.network == key)
      = some m := by
  induction l with
  | nil => simp at h
  | cons a t ih =>
    by_cases ha : a.network = key
    · have hb : (a.network == key) = true := by simpa using ha
      have hmb : (m.network == key) = true := by simpa using hm
      simp only [List.map_cons, hb, if_true, List.find?_cons, hmb]
    · have hb : (a.network == key) = false := by simpa using ha
      rw [List.find?_cons, hb] at h
      simp only [List.map_cons, hb, List.find?_cons, Bool.false_eq_true, if_false]
      exact ih h

theorem netdbLookupAddr_network {db : NetDB} {src : Ip.Address} {n : netdbEntry}
    (h : netdbLookupAddr db src = some n) : n.network = networkFromInaddr src := by
  unfold netdbLookupAddr at h
  have := List.find?_some h
  simpa using this

theorem netdbLookupAddr_store {db : NetDB} {src : Ip.Address} {n : netdbEntry} (m : netdbEntry)
    (h : netdbLookupAddr db src = some n) (hm : m.network = n.network) :
    netdbLookupAddr (db.store m) src = some m := by
  have hk := netdbLookupAddr_network h
  unfold netdbLookupAddr at h ⊢
  unfold NetDB.store
  simp only [hm, hk]
  exact find?_store db.addr_table (networkFromInaddr src) n m (hm.trans hk) h

/-- C9: for a ping reply `(hops, rtt)` (two C `int`s) from an address whose network has
the entry `n`, `netdbHandlePingReply` leaves in the table, under that network, the entry
`n` with `pings_recv` incremented to `r`, and with `N = min r 5`,
`rtt := (rtt_old * (N - 1) + max rtt 1) / N` and `hops := (hops_old * (N - 1) + hops) / N`.
The fields are doubles, so the product, the sum and the quotient are each rounded to the
nearest double; for values that are not negative the result is within a relative
`2 ^ -51` of the exact quotient. When `pings_recv` was 0 (a fresh entry) the smoothed
values are the sample itself, `max rtt 1` and `hops`, which is `rtt` and `hops` for every
`rtt` of at least 1. -/
theorem netdbHandlePingReply_smoothing (db : NetDB) (src : Ip.Address) (hops rtt : Int)
    (n : netdbEntry) (h : netdbLookupAddr db src = some n)
    (hhops : -2 ^ 31 ≤ hops ∧ hops < 2 ^ 31) (hrtt : -2 ^ 31 ≤ rtt ∧ rtt < 2 ^ 31) :
    ∃ m : netdbEntry,
      netdbLookupAddr (netdbHandlePingReply db src hops rtt) src = some m
      ∧ m = { n with pings_recv := n.pings_recv + 1, rtt := m.rtt, hops := m.hops }
      ∧ m.rtt = toDouble (toDouble (toDouble (n.rtt * ((min (n.pings_recv + 1) 5 - 1 : Int) : ℚ))
                  + ((max rtt 1 : Int) : ℚ))
                / ((min (n.pings_recv + 1) 5 : Int) : ℚ))
      ∧ m.hops = toDouble (toDouble (toDouble (n.hops * ((min (n.pings_recv + 1) 5 - 1 : Int) : ℚ))
                  + (hops : ℚ))
                / ((min (n.pings_recv + 1) 5 : Int) : ℚ))
      ∧ (0 ≤ n.pings_recv → 0 ≤ n.rtt →
          |m.rtt - (n.rtt * ((min (n.pings_recv + 1) 5 - 1 : Int) : ℚ) + ((max rtt 1 : Int) : ℚ))
                / ((min (n.pings_recv + 1) 5 : Int) : ℚ)|
            ≤ (n.rtt * ((min (n.pings_recv + 1) 5 - 1 : Int) : ℚ) + ((max rtt 1 : Int) : ℚ))
                / ((min (n.pings_recv + 1) 5 : Int) : ℚ) / 2 ^ 51)
      ∧ (0 ≤ n.pings_recv → 0 ≤ n.hops → 1 ≤ hops →
          |m.hops - (n.hops * ((min (n.pings_recv + 1) 5 - 1 : Int) : ℚ) + (hops : ℚ))
                / ((min (n.pings_recv + 1) 5 : Int) : ℚ)|
            ≤ (n.hops * ((min (n.pings_recv + 1) 5 - 1 : Int) : ℚ) + (hops : ℚ))
                / ((min (n.pings_recv + 1) 5 : Int) : ℚ) / 2 ^ 51)
      ∧ (n.pings_recv = 0 → m.rtt = ((max rtt 1 : Int) : ℚ) ∧ m.hops = (hops : ℚ))
      ∧ (n.pings_recv = 0 → 1 ≤ rtt → m.rtt = (rtt : ℚ) ∧ m.hops = (hops : ℚ)) := by
  have hN : (if n.pings_recv + 1 > 5 then (5 : Int) else n.pings_recv + 1)
      = min (n.pings_recv + 1) 5 := by
    split
    · rw [min_eq_right]; omega
    · rw [min_eq_left]; omega
  have hR : (if rtt < 1 then (1 : Int) else rtt) = max rtt 1 := by
    split
    · rw [max_eq_right]; omega
    · rw [max_eq_left]; omega
  have key : netdbLookupAddr (netdbHandlePingReply db src hops rtt) src =
      some { n with
        pings_recv := n.pings_recv + 1,
        rtt := toDouble (toDouble (toDouble (n.rtt * ((min (n.pings_recv + 1) 5 - 1 : Int) : ℚ))
                  + ((max rtt 1 : Int) : ℚ))
                / ((min (n.pings_recv + 1) 5 : Int) : ℚ)),
        hops := toDouble (toDouble (toDouble (n.hops * ((min (n.pings_recv + 1) 5 - 1 : Int) : ℚ))
                  + (hops : ℚ))
                / ((min (n.pings_recv + 1) 5 : Int) : ℚ)) } := by
    simp only [netdbHandlePingReply, h, hN, hR]
    exact netdbLookupAddr_store _ h rfl
  have hd1 : toDouble ((hops : Int) : ℚ) = hops :=
    toDouble_intCast hops (by rw [abs_lt]; constructor <;> omega)
  have hd2 : toDouble ((max rtt 1 : Int) : ℚ) = (max rtt 1 : Int) :=
    toDouble_intCast (max rtt 1) (by
      rw [abs_lt]
      rcases le_total rtt 1 with h1 | h1
      · rw [max_eq_right h1]; constructor <;> norm_num
      · rw [max_eq_left h1]; constructor <;> omega)
  have first : n.pings_recv = 0 →
      toDouble (toDouble (toDouble (n.rtt * ((min (n.pings_recv + 1) 5 - 1 : Int) : ℚ))
                  + ((max rtt 1 : Int) : ℚ))
                / ((min (n.pings_recv + 1) 5 : Int) : ℚ)) = ((max rtt 1 : Int) : ℚ)
      ∧ toDouble (toDouble (toDouble (n.hops * ((min (n.pings_recv + 1) 5 - 1 : Int) : ℚ))
                  + (hops : ℚ))
                / ((min (n.pings_recv + 1) 5 : Int) : ℚ)) = (hops : ℚ) := by
    intro h0
    simp only [h0, zero_add, min_eq_left (show (1 : Int) ≤ 5 by norm_num), sub_self,
      Int.cast_zero, mul_zero, toDouble_zero, Int.cast_one, div_one, hd1, hd2, and_self]
  refine ⟨_, key, rfl, rfl, rfl, ?_, ?_, first, ?_⟩
  · intro hp h0
    exact smoothing_near n.rtt (max rtt 1) (min (n.pings_recv + 1) 5) h0 (le_max_right _ _)
      (le_min (by omega) (by norm_num)) (min_le_right _ _)
  · intro hp h0 h1
    exact smoothing_near n.hops hops (min (n.pings_recv + 1) 5) h0 h1
      (le_min (by omega) (by norm_num)) (min_le_right _ _)
  · intro h0 h1
    have := first h0
    refine ⟨this.1.trans ?_, this.2⟩
    rw [max_eq_left h1]

/-- Witness for C9: the first reply `(hops 3, rtt 42)` from 10.0.0.7 on a fresh entry for
10.0.0.0 leaves `pings_recv = 1`, `rtt = 42`, `hops = 3`. -/
theorem netdbHandlePingReply_smoothing_witness :
    netdbLookupAddr freshTable (Ip.Address.ofOctets 10 0 0 7 0)
        = some (netdbEntry.fresh (Ip.Address.ofOctets 10 0 0 0 0))
    ∧ netdbLookupAddr (netdbHandlePingReply freshTable (Ip.Address.ofOctets 10 0 0 7 0) 3 42)
        (Ip.Address.ofOctets 10 0 0 7 0) =
      some { netdbEntry.fresh (Ip.Address.ofOctets 10 0 0 0 0) with
             pings_recv := 1, rtt := 42, hops := 3 } := by
  have h0 : netdbLookupAddr freshTable (Ip.Address.ofOctets 10 0 0 7 0)
      = some (netdbEntry.fresh (Ip.Address.ofOctets 10 0 0 0 0)) := by decide
  obtain ⟨m, h1, h2, _, _, _, _, _, h3⟩ :=
    netdbHandlePingReply_smoothing freshTable (Ip.Address.ofOctets 10 0 0 7 0) 3 42
      (netdbEntry.fresh (Ip.Address.ofOctets 10 0 0 0 0)) h0 (by decide) (by decide)
  obtain ⟨h4, h5⟩ := h3 rfl (by decide)
  refine ⟨h0, ?_⟩
  rw [h1, h2, h4, h5]
  simp [netdbEntry.fresh]

/-- Six ping replies with the RTT samples 1, 1, 1, 1, 2, 2 from 10.0.0.7: after five the
stored `rtt` is the double nearest to 1.2, and after six it is the double
1.3599999999999999 (one unit in the last place below the double nearest to 1.36), which
the exchange of NetDB sends as 1359. -/
theorem netdbHandlePingReply_six_replies :
    (netdbLookupAddr
        (sixReplies.take 5 |>.foldl
          (fun db r => netdbHandlePingReply db (Ip.Address.ofOctets 10 0 0 7 0) r.1 r.2)
          freshTable)
        (Ip.Address.ofOctets 10 0 0 7 0)).map (fun m => (m.pings_recv, m.rtt))
      = some (5, 5404319552844595 / 4503599627370496)
    ∧ toDouble (6 / 5) = 5404319552844595 / 4503599627370496
    ∧ (netdbLookupAddr
        (sixReplies.foldl
          (fun db r => netdbHandlePingReply db (Ip.Address.ofOctets 10 0 0 7 0) r.1 r.2)
          freshTable)
        (Ip.Address.ofOctets 10 0 0 7 0)).map (fun m => (m.pings_recv, m.rtt))
      = some (6, 3062447746611937 / 2251799813685248)
    ∧ toDouble (34 / 25) = 6124895493223875 / 4503599627370496
    ∧ truncToInt (toDouble ((3062447746611937 / 2251799813685248 : ℚ) * 1000)) = 1359 := by
  refine ⟨by decide!, by decide!, by decide!, by decide!, by decide!⟩

theorem netdbWriteRecord_append (buf : List Nat) (n : netdbEntry) :
    netdbWriteRecord buf n = buf ++ netdbWriteRecord [] n := by
  simp [netdbWriteRecord, List.append_assoc]

theorem netdbBinaryExchange_foldl (l : List netdbEntry) (st : List Nat × List (List Nat)) :
    ((l.foldl netdbBinaryExchangeStep st).2.flatten ++ (l.foldl netdbBinaryExchangeStep st).1)
      = (st.2.flatten ++ st.1) ++ (l.filter netdbExported).flatMap (netdbWriteRecord []) := by
  induction l generalizing st with
  | nil => simp
  | cons n t ih =>
    rw [List.foldl_cons, ih]
    by_cases hx : netdbExported n = true
    · have hstep : (netdbBinaryExchangeStep st n).2.flatten ++ (netdbBinaryExchangeStep st n).1
          = (st.2.flatten ++ st.1) ++ netdbWriteRecord [] n := by
        unfold netdbBinaryExchangeStep
        simp only [hx, Bool.not_true, Bool.false_eq_true, if_false]
        split
        · rw [netdbWriteRecord_append]; simp
        · rw [netdbWriteRecord_append]; simp
      rw [hstep, List.filter_cons_of_pos hx, List.flatMap_cons, List.append_assoc]
    · have hstep : netdbBinaryExchangeStep st n = st := by
        unfold netdbBinaryExchangeStep
        simp [hx]
      rw [hstep, List.filter_cons_of_neg hx]

theorem htonlBytes_value (j : Int) :
    ∃ b0 b1 b2 b3 : Nat, htonlBytes j = [b0, b1, b2, b3]
      ∧ b0 < 256 ∧ b1 < 256 ∧ b2 < 256 ∧ b3 < 256
      ∧ ((b0 * 2 ^ 24 + b1 * 2 ^ 16 + b2 * 2 ^ 8 + b3 : Nat) : Int) = j % 2 ^ 32 := by
  refine ⟨_, _, _, _, rfl, ?_, ?_, ?_, ?_, ?_⟩
  · exact Nat.mod_lt _ (by norm_num)
  · exact Nat.mod_lt _ (by norm_num)
  · exact Nat.mod_lt _ (by norm_num)
  · exact Nat.mod_lt _ (by norm_num)
  · have hnn : (0 : Int) ≤ j % 2 ^ 32 := Int.emod_nonneg _ (by norm_num)
    have hlt : j % 2 ^ 32 < 2 ^ 32 := Int.emod_lt_of_pos _ (by norm_num)
    have hu : ((j % 2 ^ 32).toNat : Int) = j % 2 ^ 32 := Int.toNat_of_nonneg hnn
    have hul : (j % 2 ^ 32).toNat < 2 ^ 32 := by omega
    rw [← hu]
    generalize (j % 2 ^ 32).toNat = u at hul
    norm_cast
    omega

theorem inAddrBytes_value (a : Ip.Address) :
    ∃ b0 b1 b2 b3 : Nat, inAddrBytes a = [b0, b1, b2, b3]
      ∧ b0 < 256 ∧ b1 < 256 ∧ b2 < 256 ∧ b3 < 256
      ∧ (a.bits < 2 ^ 32 → b0 * 2 ^ 24 + b1 * 2 ^ 16 + b2 * 2 ^ 8 + b3 = a.bits) := by
  refine ⟨_, _, _, _, rfl, ?_, ?_, ?_, ?_, ?_⟩
  · exact Nat.mod_lt _ (by norm_num)
  · exact Nat.mod_lt _ (by norm_num)
  · exact Nat.mod_lt _ (by norm_num)
  · exact Nat.mod_lt _ (by norm_num)
  · intro h
    omega

/-- C10: the bytes appended by `netdbBinaryExchange`, taken together, are the records of
the exported entries in table order, and the record of an entry is exactly 15 bytes:
`0x01` and the four bytes of the IPv4 network address, most significant first, then `0x02`
and the four big-endian bytes of `(int)(rtt * 1000)`, then `0x03` and the four big-endian
bytes of `(int)(hops * 1000)`, the products being doubles. For network 10.0.0.0, rtt 42.0 and hops 3.0 the bytes are
`01 0A 00 00 00 02 00 00 A4 10 03 00 00 0B B8`. -/
theorem netdbBinaryExchange_record_layout :
    (∀ db : NetDB, (netdbBinaryExchange db).flatten
        = (db.addr_table.filter netdbExported).flatMap (netdbWriteRecord []))
    ∧ (∀ n : netdbEntry, ∃ a0 a1 a2 a3 r0 r1 r2 r3 h0 h1 h2 h3 : Nat,
        netdbWriteRecord [] n
          = [0x01, a0, a1, a2, a3, 0x02, r0, r1, r2, r3, 0x03, h0, h1, h2, h3]
        ∧ (netdbWriteRecord [] n).length = 15
        ∧ (a0 < 256 ∧ a1 < 256 ∧ a2 < 256 ∧ a3 < 256)
        ∧ (r0 < 256 ∧ r1 < 256 ∧ r2 < 256 ∧ r3 < 256)
        ∧ (h0 < 256 ∧ h1 < 256 ∧ h2 < 256 ∧ h3 < 256)
        ∧ (n.network.bits < 2 ^ 32 →
            a0 * 2 ^ 24 + a1 * 2 ^ 16 + a2 * 2 ^ 8 + a3 = n.network.bits)
        ∧ ((r0 * 2 ^ 24 + r1 * 2 ^ 16 + r2 * 2 ^ 8 + r3 : Nat) : Int)
            = truncToInt (toDouble (n.rtt * 1000)) % 2 ^ 32
        ∧ ((h0 * 2 ^ 24 + h1 * 2 ^ 16 + h2 * 2 ^ 8 + h3 : Nat) : Int)
            = truncToInt (toDouble (n.hops * 1000)) % 2 ^ 32)
    ∧ netdbBinaryExchange { addr_table := [exampleEntry], host_table := [] }
        = [[0x01, 0x0A, 0x00, 0x00, 0x00, 0x02, 0x00, 0x00, 0xA4, 0x10,
            0x03, 0x00, 0x00, 0x0B, 0xB8]] := by
  refine ⟨?_, ?_, ?_⟩
  · intro db
    have h := netdbBinaryExchange_foldl db.addr_table ([], [])
    simp only [List.flatten_nil, List.append_nil, List.nil_append] at h
    unfold netdbBinaryExchange
    by_cases hlen : (db.addr_table.foldl netdbBinaryExchangeStep ([], [])).1.length > 0
    · simp only [hlen, if_true, List.flatten_append, List.flatten_cons, List.flatten_nil,
        List.append_nil]
      exact h
    · simp only [hlen, if_false]
      have hnil : (db.addr_table.foldl netdbBinaryExchangeStep ([], [])).1 = [] := by
        apply List.eq_nil_of_length_eq_zero
        omega
      rw [hnil, List.append_nil] at h
      exact h
  · intro n
    obtain ⟨a0, a1, a2, a3, ha, ha0, ha1, ha2, ha3, hav⟩ := inAddrBytes_value n.network
    obtain ⟨r0, r1, r2, r3, hr, hr0, hr1, hr2, hr3, hrv⟩ :=
      htonlBytes_value (truncToInt (toDouble (n.rtt * 1000)))
    obtain ⟨h0, h1, h2, h3, hh, hh0, hh1, hh2, hh3, hhv⟩ :=
      htonlBytes_value (truncToInt (toDouble (n.hops * 1000)))
    refine ⟨a0, a1, a2, a3, r0, r1, r2, r3, h0, h1, h2, h3, ?_, ?_,
      ⟨ha0, ha1, ha2, ha3⟩, ⟨hr0, hr1, hr2, hr3⟩, ⟨hh0, hh1, hh2, hh3⟩, hav, hrv, hhv⟩
    · simp [netdbWriteRecord, ha, hr, hh, NETDB_EX_NETWORK, NETDB_EX_RTT, NETDB_EX_HOPS]
    · simp [netdbWriteRecord, ha, hr, hh]
  · have e1 : truncToInt (toDouble (exampleEntry.rtt * 1000)) = 42000 := by
      rw [show exampleEntry.rtt * 1000 = ((42000 : Int) : ℚ) by norm_num [exampleEntry],
        toDouble_intCast _ (by decide), truncToInt_intCast]
    have e2 : truncToInt (toDouble (exampleEntry.hops * 1000)) = 3000 := by
      rw [show exampleEntry.hops * 1000 = ((3000 : Int) : ℚ) by norm_num [exampleEntry],
        toDouble_intCast _ (by decide), truncToInt_intCast]
    have e3 : netdbExported exampleEntry = true := by
      norm_num [netdbExported, exampleEntry, netdbEntry.fresh, Ip.Address.ofOctets]
    have e4 : netdbWriteRecord [] exampleEntry
        = [0x01, 0x0A, 0x00, 0x00, 0x00, 0x02, 0x00, 0x00, 0xA4, 0x10,
            0x03, 0x00, 0x00, 0x0B, 0xB8] := by
      simp only [netdbWriteRecord, e1, e2]
      decide
    simp only [netdbBinaryExchange, List.foldl_cons, List.foldl_nil, netdbBinaryExchangeStep, e3,
      e4]
    decide

/-! ## Peer selection: single functions -/

theorem netdbHostRtt_knownHost :
    (netdbHostRtt knownHost.netdb knownHost.squid_curtime "origin.example").1 = 5 := by
  have h : netdbLookupHost knownHost.netdb "origin.example"
      = some { netdbEntry.fresh (Ip.Address.ofOctets 203 0 113 0 0) with
               pings_sent := 1, pings_recv := 1, rtt := 5, hops := 2,
               link_count := 1, hosts := ["origin.example"] } := by decide
  simp only [netdbHostRtt, h]
  rw [show ((5 : ℚ) + 1 / 2) = 11 / 2 by norm_num]
  decide!

/-- C8, as stated, fails: for a host unknown to NetDB the own RTT and hops are 0, which is
at most `minDirectRtt`, yet `peerCheckNetdbDirect` reports 0; and with the disposition
`DIRECT_NO` it reports 0 although the own RTT 5 is at most `minDirectRtt` 400. -/
theorem peerCheckNetdbDirect_claim_fails :
    (peerCheckNetdbDirect (defaultConfig 10) noNeighbors plainStart = false
      ∧ netdbDirectClaimed (defaultConfig 10) noNeighbors plainStart = true)
    ∧ (peerCheckNetdbDirect (defaultConfig 10) knownHost
          { plainStart with direct := direct_t.DIRECT_NO } = false
      ∧ netdbDirectClaimed (defaultConfig 10) knownHost
          { plainStart with direct := direct_t.DIRECT_NO } = true) := by
  refine ⟨⟨by decide, by decide⟩, by decide, ?_⟩
  have h : (exampleRequest noFlags).url_host = "origin.example" := rfl
  simp only [netdbDirectClaimed, plainStart, ps_state.init, h, netdbHostRtt_knownHost]
  decide

/-- C8, amended: `peerCheckNetdbDirect` reports direct exactly when the disposition is
not `DIRECT_NO` and the own RTT is known (non-zero) and at most `minDirectRtt`, or the own
hop count is known (non-zero) and at most `minDirectHops`, or a closest_parent_miss peer
is known and the own RTT is known and at most `ping.p_rtt`; own RTT and hops are the
values returned by `netdbHostRtt` and `netdbHostHops`. -/
theorem peerCheckNetdbDirect_iff (cfg : SquidConfig) (env : Env) (s : ps_state) :
    peerCheckNetdbDirect cfg env s = true ↔
      s.direct ≠ direct_t.DIRECT_NO ∧
      (((netdbHostRtt env.netdb env.squid_curtime s.request.url_host).1 ≠ 0
          ∧ (netdbHostRtt env.netdb env.squid_curtime s.request.url_host).1 ≤ cfg.minDirectRtt)
        ∨ ((netdbHostHops env.netdb env.squid_curtime s.request.url_host).1 ≠ 0
          ∧ (netdbHostHops env.netdb env.squid_curtime s.request.url_host).1
              ≤ cfg.minDirectHops)
        ∨ ((env.whichPeer s.closest_parent_miss).isSome = true
          ∧ (netdbHostRtt env.netdb env.squid_curtime s.request.url_host).1 ≠ 0
          ∧ (netdbHostRtt env.netdb env.squid_curtime s.request.url_host).1 ≤ s.ping.p_rtt)) := by
  unfold peerCheckNetdbDirect
  generalize (netdbHostRtt env.netdb env.squid_curtime s.request.url_host).1 = myrtt
  generalize (netdbHostHops env.netdb env.squid_curtime s.request.url_host).1 = myhops
  by_cases hd : s.direct = direct_t.DIRECT_NO
  · simp [hd]
  · cases hw : env.whichPeer s.closest_parent_miss <;>
      by_cases h1 : myrtt = 0 <;> by_cases h2 : myrtt ≤ cfg.minDirectRtt <;>
      by_cases h3 : myhops = 0 <;> by_cases h4 : myhops ≤ cfg.minDirectHops <;>
      by_cases h5 : myrtt ≤ s.ping.p_rtt <;>
      simp [hd, hw, h1, h2, h3, h4, h5]

theorem peerGetSomeNeighborReplies_eq (cfg : SquidConfig) (env : Env) (s : ps_state) :
    peerGetSomeNeighborReplies cfg env s
      = { s with servers := s.servers ++ (neighborReplyChoice cfg env s).toList } := by
  unfold peerGetSomeNeighborReplies neighborReplyChoice peerAddFwdServer
  by_cases hd : peerCheckNetdbDirect cfg env s = true
  · simp [hd]
  · cases hh : s.hit with
    | some p =>
      by_cases ht : s.hit_type = peer_t.PEER_PARENT <;> simp [hd, hh, ht]
    | none =>
      by_cases hc : s.closest_parent_miss.isAnyAddr = true
      · by_cases hf : s.first_parent_miss.isAnyAddr = true
        · simp [hd, hh, hc, hf]
          cases s; simp_all
        · cases hw : env.whichPeer s.first_parent_miss <;> simp [hd, hh, hc, hf, hw]
          cases s; simp_all
      · cases hw : env.whichPeer s.closest_parent_miss <;> simp [hd, hh, hc, hw]
        cases s; simp_all

/-- C6: `peerGetSomeNeighborReplies` appends to the destination list at most one
destination and changes nothing else; the destination is the one chosen by the priority
CLOSEST_DIRECT (origin, when the NetDB direct heuristic passes), else the recorded hit peer
as PARENT_HIT or SIBLING_HIT, else the peer of a set closest_parent_miss address as
CLOSEST_PARENT_MISS, else the peer of a set first_parent_miss address as
FIRST_PARENT_MISS. In state PING_WAITING this is what `peerSelectFoo` adds for the
neighbors before it marks the ping done. -/
theorem peerGetSomeNeighborReplies_choice (cfg : SquidConfig) (env : Env) (s : ps_state) :
    peerGetSomeNeighborReplies cfg env s
      = { s with servers := s.servers ++ (neighborReplyChoice cfg env s).toList }
    ∧ (neighborReplyChoice cfg env s).toList.length ≤ 1
    ∧ (s.pingStatusIs ping_status_t.PING_WAITING = true →
        peerSelectFooNeighbors cfg env s
          = (({ s with servers := s.servers ++ (neighborReplyChoice cfg env s).toList }
                : ps_state).setPingStatus ping_status_t.PING_DONE, false)) := by
  have h1 := peerGetSomeNeighborReplies_eq cfg env s
  refine ⟨h1, ?_, ?_⟩
  · cases neighborReplyChoice cfg env s <;> simp
  · intro hw
    unfold ps_state.pingStatusIs at hw
    cases he : s.entry with
    | none => simp [he] at hw
    | some e =>
      rw [he] at hw
      have hst : e.ping_status = ping_status_t.PING_WAITING := by simpa using hw
      unfold peerSelectFooNeighbors
      simp [he, hst, ps_state.pingStatusIs, h1]

/-! ## Frame lemmas for the selection phase -/

theorem frame_refl (s : ps_state) : Frame s s :=
  ⟨rfl, rfl, rfl, rfl, rfl, rfl, rfl, [], by simp, by simp⟩

theorem Frame.ftrans {a b c : ps_state} (h1 : Frame a b) (h2 : Frame b c) : Frame a c := by
  obtain ⟨e1, he1, hc1⟩ := h1.servers
  obtain ⟨e2, he2, hc2⟩ := h2.servers
  refine ⟨h2.request.trans h1.request, h2.calls.trans h1.calls, h2.deleted.trans h1.deleted,
    h2.initiator.trans h1.initiator, h2.dnsLookups.trans h1.dnsLookups,
    h2.foundPaths.trans h1.foundPaths, h2.lastError.trans h1.lastError, e1 ++ e2, ?_, ?_⟩
  · rw [he2, he1, List.append_assoc]
  · intro fs hfs
    rcases List.mem_append.mp hfs with h | h
    · exact hc1 fs h
    · exact hc2 fs h

theorem quiet_refl (s : ps_state) : Quiet s s :=
  ⟨frame_refl s, rfl, rfl, rfl, rfl⟩

theorem Quiet.qtrans {a b c : ps_state} (h1 : Quiet a b) (h2 : Quiet b c) : Quiet a c :=
  ⟨h1.toFrame.ftrans h2.toFrame, h2.direct.trans h1.direct,
    h2.always_direct.trans h1.always_direct, h2.never_direct.trans h1.never_direct,
    h2.acl_checklist.trans h1.acl_checklist⟩

theorem frame_interested {s t : ps_state} (h : Frame s t) :
    t.interestedInitiator = s.interestedInitiator := by
  unfold ps_state.interestedInitiator
  rw [h.initiator]

theorem quiet_setPingStatus (s : ps_state) (st : ping_status_t) : Quiet s (s.setPingStatus st) :=
  ⟨⟨rfl, rfl, rfl, rfl, rfl, rfl, rfl, [], by simp [ps_state.setPingStatus], by simp⟩,
    rfl, rfl, rfl, rfl⟩

theorem quiet_addServer (s : ps_state) (p : Option CachePeer) (code : hier_code)
    (h : code ≠ hier_code.ORIGINAL_DST) :
    Quiet s { s with servers := peerAddFwdServer s.servers p code } :=
  ⟨⟨rfl, rfl, rfl, rfl, rfl, rfl, rfl, [{ _peer := p, code := code }], rfl, by simpa using h⟩,
    rfl, rfl, rfl, rfl⟩

theorem quiet_ping (s : ps_state) (p : ping_data) : Quiet s { s with ping := p } :=
  ⟨⟨rfl, rfl, rfl, rfl, rfl, rfl, rfl, [], by simp, by simp⟩, rfl, rfl, rfl, rfl⟩

theorem quiet_pingEvent (s : ps_state) (b : Bool) : Quiet s { s with pingEvent := b } :=
  ⟨⟨rfl, rfl, rfl, rfl, rfl, rfl, rfl, [], by simp, by simp⟩, rfl, rfl, rfl, rfl⟩

theorem quiet_peerSelectPinned (env : Env) (s : ps_state) : Quiet s (peerSelectPinned env s) := by
  unfold peerSelectPinned
  repeat' (first | split | dsimp only)
  all_goals first
    | exact quiet_refl _
    | (refine (quiet_addServer _ _ _ ?_).qtrans (quiet_setPingStatus _ _); decide)

theorem quiet_peerGetSomeNeighbor (cfg : SquidConfig) (env : Env) (s : ps_state) :
    Quiet s (peerGetSomeNeighbor cfg env s) := by
  unfold peerGetSomeNeighbor
  repeat' (first | split | dsimp only)
  all_goals first
    | exact quiet_refl _
    | exact quiet_setPingStatus _ _
    | (refine (quiet_addServer _ _ _ ?_).qtrans (quiet_setPingStatus _ _); decide)
    | exact (quiet_ping _ _).qtrans (quiet_setPingStatus _ _)
    | exact (quiet_ping _ _).qtrans ((quiet_setPingStatus _ _).qtrans (quiet_pingEvent _ _))

theorem quiet_peerGetSomeNeighborReplies (cfg : SquidConfig) (env : Env) (s : ps_state) :
    Quiet s (peerGetSomeNeighborReplies cfg env s) := by
  rw [peerGetSomeNeighborReplies_eq cfg env s]
  refine ⟨⟨rfl, rfl, rfl, rfl, rfl, rfl, rfl, _, rfl, ?_⟩, rfl, rfl, rfl, rfl⟩
  intro fs hfs
  unfold neighborReplyChoice at hfs
  repeat' split at hfs
  all_goals (simp at hfs)
  all_goals first
    | (subst hfs; simp)
    | (obtain ⟨p, -, rfl⟩ := hfs; simp)

theorem quiet_peerGetSomeDirect (s : ps_state) : Quiet s (peerGetSomeDirect s) := by
  unfold peerGetSomeDirect
  repeat' (first | split | dsimp only)
  all_goals first
    | exact quiet_refl _
    | (refine quiet_addServer _ _ _ ?_; decide)

theorem peerGetSomeParentChoice_code (env : Env) (request : HttpRequest) (p : CachePeer)
    (code : hier_code) (h : peerGetSomeParentChoice env request = some (p, code)) :
    code ≠ hier_code.ORIGINAL_DST ∧ code ≠ hier_code.HIER_DIRECT := by
  unfold peerGetSomeParentChoice at h
  repeat' split at h
  all_goals (simp at h)
  all_goals (obtain ⟨-, rfl⟩ := h; decide)

theorem quiet_peerGetSomeParent (env : Env) (s : ps_state) : Quiet s (peerGetSomeParent env s) := by
  unfold peerGetSomeParent
  split
  · exact quiet_refl _
  · split
    · rename_i p code h
      exact quiet_addServer _ _ _ (peerGetSomeParentChoice_code env s.request p code h).1
    · exact quiet_refl _

theorem peerGetAllParentsLoop_eq (env : Env) (request : HttpRequest) (peers : List CachePeer)
    (servers : List FwdServer) :
    peerGetAllParentsLoop env request peers servers
      = servers ++ (peers.filter (fun p => env.neighborType p request == peer_t.PEER_PARENT
                                    && env.peerHTTPOkay p request)).map
          (fun p => { _peer := some p, code := hier_code.ANY_OLD_PARENT }) := by
  induction peers generalizing servers with
  | nil => simp [peerGetAllParentsLoop]
  | cons p t ih =>
    unfold peerGetAllParentsLoop
    by_cases h1 : env.neighborType p request = peer_t.PEER_PARENT
    · by_cases h2 : env.peerHTTPOkay p request = true
      · simp [h1, h2, ih, peerAddFwdServer]
      · simp [h1, h2, ih]
    · simp [h1, ih]

theorem peerGetAllParents_eq (cfg : SquidConfig) (env : Env) (s : ps_state) :
    peerGetAllParents cfg env s
      = { s with servers := s.servers
            ++ ((cfg.peers.filter (fun p => env.neighborType p s.request == peer_t.PEER_PARENT
                                    && env.peerHTTPOkay p s.request)).map
                  (fun p => { _peer := some p, code := hier_code.ANY_OLD_PARENT })
                ++ (match env.getDefaultParent s.request with
                    | some p => [{ _peer := some p, code := hier_code.DEFAULT_PARENT }]
                    | none => [])) } := by
  unfold peerGetAllParents
  rw [peerGetAllParentsLoop_eq]
  cases env.getDefaultParent s.request <;> simp [peerAddFwdServer]

theorem quiet_peerGetAllParents (cfg : SquidConfig) (env : Env) (s : ps_state) :
    Quiet s (peerGetAllParents cfg env s) := by
  rw [peerGetAllParents_eq]
  refine ⟨⟨rfl, rfl, rfl, rfl, rfl, rfl, rfl, _, rfl, ?_⟩, rfl, rfl, rfl, rfl⟩
  intro fs hfs
  rcases List.mem_append.mp hfs with h | h
  · obtain ⟨p, -, rfl⟩ := List.mem_map.mp h
    simp
  · cases hd : env.getDefaultParent s.request with
    | none => simp [hd] at h
    | some p =>
      simp [hd] at h
      subst h
      simp

theorem quiet_peerSelectFooSwitch (cfg : SquidConfig) (env : Env) (s : ps_state) :
    Quiet s (peerSelectFooSwitch cfg env s) := by
  unfold peerSelectFooSwitch
  split
  · exact quiet_peerGetSomeDirect s
  · exact (quiet_peerGetSomeParent env s).qtrans (quiet_peerGetAllParents cfg env _)
  · dsimp only
    have hp : ∀ t : ps_state, Quiet t (peerGetAllParents cfg env (peerGetSomeParent env t)) :=
      fun t => (quiet_peerGetSomeParent env t).qtrans (quiet_peerGetAllParents cfg env _)
    cases cfg.prefer_direct <;> cases cfg.nonhierarchical_direct <;>
      cases hh : (peerGetSomeDirect s).request.flags.hierarchical <;>
      cases hh2 : s.request.flags.hierarchical <;>
      simp only [hh, hh2, Bool.false_eq_true, if_false, if_true, Bool.not_true, Bool.not_false,
        Bool.or_false, Bool.or_true, Bool.false_or, Bool.true_or]
    all_goals first
      | exact quiet_peerGetSomeDirect _
      | exact (hp _).qtrans (quiet_peerGetSomeDirect _)
      | exact (quiet_peerGetSomeDirect _).qtrans (hp _)

theorem quiet_peerSelectFooNeighbors (cfg : SquidConfig) (env : Env) (s : ps_state) :
    Quiet s (peerSelectFooNeighbors cfg env s).1 := by
  unfold peerSelectFooNeighbors
  have hpin : Quiet s (if (s.entry.isNone || s.pingStatusIs ping_status_t.PING_NONE) = true
      then peerSelectPinned env s else s) := by
    split
    · exact quiet_peerSelectPinned env s
    · exact quiet_refl _
  dsimp only
  generalize (if (s.entry.isNone || s.pingStatusIs ping_status_t.PING_NONE) = true
      then peerSelectPinned env s else s) = t at hpin
  repeat' (first | split | dsimp only)
  all_goals first
    | exact hpin
    | exact hpin.qtrans (quiet_peerGetSomeNeighbor cfg env t)
    | exact hpin.qtrans ((quiet_peerGetSomeNeighborReplies cfg env t).qtrans
        (quiet_setPingStatus _ _))

theorem peerGetSomeDirect_eq (s : ps_state) (h : s.direct ≠ direct_t.DIRECT_NO) :
    peerGetSomeDirect s = { s with servers := s.servers ++ directDestination s.request } := by
  unfold peerGetSomeDirect directDestination peerAddFwdServer
  by_cases hw : s.request.url_scheme = ProtocolType.PROTO_WAIS <;> simp [h, hw]

theorem peerGetSomeParent_eq (env : Env) (s : ps_state) (h : s.direct ≠ direct_t.DIRECT_YES) :
    peerGetSomeParent env s
      = { s with servers := s.servers
            ++ (match peerGetSomeParentChoice env s.request with
                | some (p, code) => [{ _peer := some p, code := code }]
                | none => []) } := by
  unfold peerGetSomeParent peerAddFwdServer
  cases hc : peerGetSomeParentChoice env s.request with
  | none => simp [h, hc]
  | some pc => obtain ⟨p, code⟩ := pc; simp [h, hc]

theorem peerGetParents_eq (cfg : SquidConfig) (env : Env) (s : ps_state)
    (h : s.direct ≠ direct_t.DIRECT_YES) :
    peerGetAllParents cfg env (peerGetSomeParent env s)
      = { s with servers := s.servers ++ parentDestinations cfg env s.request } := by
  rw [peerGetSomeParent_eq env s h, peerGetAllParents_eq]
  unfold parentDestinations
  cases hc : peerGetSomeParentChoice env s.request <;> simp [List.append_assoc]

theorem peerSelectFooSwitch_maybe (cfg : SquidConfig) (env : Env) (s : ps_state)
    (h : s.direct = direct_t.DIRECT_MAYBE) :
    peerSelectFooSwitch cfg env s
      = { s with servers := s.servers ++ maybeOrder cfg env s.request } := by
  have hno : s.direct ≠ direct_t.DIRECT_NO := by rw [h]; decide
  have hyes : s.direct ≠ direct_t.DIRECT_YES := by rw [h]; decide
  unfold peerSelectFooSwitch maybeOrder
  rw [h]
  dsimp only
  cases hp : cfg.prefer_direct <;> cases hn : cfg.nonhierarchical_direct <;>
    cases hh : s.request.flags.hierarchical <;>
    simp [hh, peerGetSomeDirect_eq, peerGetParents_eq, hno, hyes, h, List.append_assoc]

/-- C5, as stated, fails: for a non-hierarchical request with `nonhierarchical_direct`
enabled (and `prefer_direct` off) the claim lists the parents before the direct
destination, but `peerSelectFoo` adds the direct destination only. -/
theorem peerSelectFoo_maybe_order_claim_fails :
    (oneParentConfig 10).nonhierarchical_direct = true
    ∧ maybeStart.request.flags.hierarchical = false
    ∧ maybeOrderClaimed (oneParentConfig 10) oneParent maybeStart.request
        = [{ _peer := some exampleParent, code := hier_code.FIRSTUP_PARENT },
           { _peer := some exampleParent, code := hier_code.ANY_OLD_PARENT },
           { _peer := none, code := hier_code.HIER_DIRECT }]
    ∧ (peerSelectFooSwitch (oneParentConfig 10) oneParent maybeStart).servers
        = [{ _peer := none, code := hier_code.HIER_DIRECT }]
    ∧ (peerSelectFooSwitch (oneParentConfig 10) oneParent maybeStart).servers
        ≠ maybeStart.servers ++ maybeOrderClaimed (oneParentConfig 10) oneParent maybeStart.request
    ∧ (peerSelectFoo (oneParentConfig 10) oneParent maybeStart).dnsLookups
        = ["origin.example"] := by
  decide

/-- C5, amended: when the direct-disposition is Maybe, `peerSelectFoo` appends to the
destination list, in this order: the direct destination (HIER_DIRECT; none for a WAIS
URL) if `prefer_direct` is on; then the parent destinations exactly when the request is
hierarchical or `nonhierarchical_direct` is disabled; then the direct destination if
`prefer_direct` is off. The list so extended is the one handed to `peerSelectDnsPaths`,
unless the selection stops to wait for ping replies. -/
theorem peerSelectFoo_maybe_order (cfg : SquidConfig) (env : Env) (s : ps_state)
    (h : s.direct = direct_t.DIRECT_MAYBE) :
    peerSelectFooSwitch cfg env s
      = { s with servers := s.servers ++ maybeOrder cfg env s.request }
    ∧ (s.interestedInitiator = true → (peerSelectFooNeighbors cfg env s).2 = false →
        peerSelectFoo cfg env s
          = peerSelectDnsPaths cfg env
              { (peerSelectFooNeighbors cfg env s).1 with
                servers := (peerSelectFooNeighbors cfg env s).1.servers
                  ++ maybeOrder cfg env s.request }) := by
  refine ⟨peerSelectFooSwitch_maybe cfg env s h, ?_⟩
  intro hi hn
  have hq := quiet_peerSelectFooNeighbors cfg env s
  have hd : (peerSelectFooNeighbors cfg env s).1.direct = direct_t.DIRECT_MAYBE := by
    rw [hq.direct, h]
  have hfd : peerSelectFooDirect cfg env s = s := by
    unfold peerSelectFooDirect
    simp [h]
  unfold peerSelectFoo
  simp only [hi, h, hfd, hn]
  rw [peerSelectFooSwitch_maybe cfg env _ hd, hq.request]
  simp

/-- Witness for C5: a hierarchical request with one alive parent and the default
options has its parent (twice, as FIRSTUP_PARENT and as ANY_OLD_PARENT) before the direct
destination. -/
theorem peerSelectFoo_maybe_order_witness :
    ({ maybeStart with request := exampleRequest { noFlags with hierarchical := true } }
        : ps_state).direct = direct_t.DIRECT_MAYBE
    ∧ (peerSelectFooSwitch (oneParentConfig 10) oneParent
        { maybeStart with request := exampleRequest { noFlags with hierarchical := true } }).servers
      = [{ _peer := some exampleParent, code := hier_code.FIRSTUP_PARENT },
         { _peer := some exampleParent, code := hier_code.ANY_OLD_PARENT },
         { _peer := none, code := hier_code.HIER_DIRECT }] := by
  refine ⟨rfl, ?_⟩
  rw [(peerSelectFoo_maybe_order (oneParentConfig 10) oneParent
    { maybeStart with request := exampleRequest { noFlags with hierarchical := true } } rfl).1]
  decide

/-! ## The DNS phase -/

theorem destroy_fields (s : ps_state) :
    s.destroy.request = s.request ∧ s.destroy.direct = s.direct
    ∧ s.destroy.always_direct = s.always_direct ∧ s.destroy.never_direct = s.never_direct
    ∧ s.destroy.initiator_ = s.initiator_ ∧ s.destroy.calls = s.calls
    ∧ s.destroy.foundPaths = s.foundPaths ∧ s.destroy.dnsLookups = s.dnsLookups
    ∧ s.destroy.deleted = true ∧ s.destroy.servers = [] ∧ s.destroy.acl_checklist = none
    ∧ s.destroy.lastError = none
    ∧ s.destroy.closest_parent_miss = s.closest_parent_miss
    ∧ s.destroy.ping = s.ping := by
  unfold ps_state.destroy ps_state.setPingStatus
  dsimp only
  split <;> simp

theorem destroy_interested (s : ps_state) :
    s.destroy.interestedInitiator = s.interestedInitiator := by
  unfold ps_state.interestedInitiator
  rw [(destroy_fields s).2.2.2.2.1]

theorem handlePath_eq (s : ps_state) (path : Comm.Connection) (fs : FwdServer)
    (hi : s.interestedInitiator = true) :
    s.handlePath path fs
      = { s with foundPaths := s.foundPaths + 1,
                 calls := s.calls ++ [InitiatorCall.noteDestination
                   { path with peerType := fs.code, peer := fs._peer }] } := by
  unfold ps_state.handlePath
  have : ({ s with foundPaths := s.foundPaths + 1 } : ps_state).interestedInitiator = true := hi
  simp [this]

theorem peerSelectDnsPathsDone_outcome (cfg : SquidConfig) (env : Env) (s : ps_state)
    (hi : s.interestedInitiator = true) :
    DnsOutcome cfg s (peerSelectDnsPathsDone env s) := by
  have hd := destroy_fields
  unfold peerSelectDnsPathsDone
  dsimp only
  split
  · split
    · refine ⟨?_, ?_, ?_, ?_, ?_, ?_, ?_, [], by simp, ?_, Or.inr ⟨?_, ?_, none, ?_⟩⟩
      all_goals (simp [hd])
    · rename_i h
      exact absurd hi h
  · split
    · refine ⟨?_, ?_, ?_, ?_, ?_, ?_, ?_, [], by simp, ?_, Or.inr ⟨?_, ?_, s.lastError, ?_⟩⟩
      all_goals (simp [hd])
    · rename_i h
      exact absurd hi h

theorem peerSelectDnsPathsFrom_cons (cfg : SquidConfig) (env : Env) (fs : FwdServer)
    (next : List FwdServer) (s : ps_state) (hi : s.interestedInitiator = true) :
    peerSelectDnsPathsFrom cfg env (fs :: next) s =
      if usesOriginalDst cfg s.request fs = true then
        peerSelectDnsPathsFrom cfg env next
          { (match s.request.clientConnectionManager with
              | some clientLocal =>
                s.handlePath { remote := clientLocal, peerType := hier_code.HIER_NONE, peer := none }
                  { fs with code := hier_code.ORIGINAL_DST }
              | none => s) with servers := next }
      else if s.wantsMoreDestinations cfg = true then
        { s with dnsLookups := s.dnsLookups ++ [match fs._peer with
                                                | some peer => peer.host
                                                | none => s.request.url_host] }
      else peerSelectDnsPathsDone env s := by
  rw [peerSelectDnsPathsFrom]
  simp only [hi, Bool.not_true, Bool.false_eq_true, if_false]
  rfl

theorem peerSelectDnsPathsFrom_outcome (cfg : SquidConfig) (env : Env) :
    ∀ (servers : List FwdServer) (s : ps_state), s.servers = servers →
      s.interestedInitiator = true → s.deleted = false →
      DnsOutcome cfg s (peerSelectDnsPathsFrom cfg env servers s) := by
  intro servers
  induction servers with
  | nil =>
    intro s _ hi _
    rw [peerSelectDnsPathsFrom]
    simp only [hi, Bool.not_true, Bool.false_eq_true, if_false]
    exact peerSelectDnsPathsDone_outcome cfg env s hi
  | cons fs next ih =>
    intro s hs hi hd
    rw [peerSelectDnsPathsFrom_cons cfg env fs next s hi]
    by_cases hu : usesOriginalDst cfg s.request fs = true
    · simp only [hu, if_true]
      cases hm : s.request.clientConnectionManager with
      | none =>
        simp only []
        have h2 := ih { s with servers := next } rfl hi hd
        obtain ⟨paths, hp, hf, ho⟩ := h2.outcome
        refine ⟨h2.request, h2.direct, h2.always_direct, h2.never_direct, h2.initiator,
          h2.acl_checklist, ?_, paths, hp, hf, ho⟩
        intro x hx
        rw [hs]
        exact List.mem_cons_of_mem _ (h2.servers x hx)
      | some clientLocal =>
        simp only []
        rw [handlePath_eq s _ _ hi]
        have h2 := ih { s with foundPaths := s.foundPaths + 1,
                               calls := s.calls ++ [InitiatorCall.noteDestination
                                 { remote := clientLocal, peerType := hier_code.ORIGINAL_DST,
                                   peer := fs._peer }],
                               servers := next } rfl hi hd
        obtain ⟨paths, hp, hf, ho⟩ := h2.outcome
        refine ⟨h2.request, h2.direct, h2.always_direct, h2.never_direct, h2.initiator,
          h2.acl_checklist, ?_, { remote := clientLocal, peerType := hier_code.ORIGINAL_DST,
                                   peer := fs._peer } :: paths, ?_, ?_, ?_⟩
        · intro x hx
          rw [hs]
          exact List.mem_cons_of_mem _ (h2.servers x hx)
        · intro p hp2
          rcases List.mem_cons.mp hp2 with h | h
          · subst h
            exact ⟨rfl, hm⟩
          · exact hp p h
        · rw [hf]
          simp only [List.length_cons]
          omega
        · rcases ho with ⟨h1, h2c, h3, h4⟩ | ⟨h1, h2c, err, h3⟩
          · left
            refine ⟨h1, ?_, h3, h4⟩
            rw [h2c]
            simp
          · right
            refine ⟨h1, h2c, err, ?_⟩
            rw [h3]
            simp
    · simp only [hu, Bool.false_eq_true, if_false]
      by_cases hw : s.wantsMoreDestinations cfg = true
      · simp only [hw, if_true]
        refine ⟨rfl, rfl, rfl, rfl, rfl, fun h => h, fun x hx => hx, [], by simp, by simp,
          Or.inl ⟨hd, by simp, hw, fs, next, _, hs, by simpa using hu, rfl⟩⟩
      · simp only [hw, Bool.false_eq_true, if_false]
        exact peerSelectDnsPathsDone_outcome cfg env s hi

/-! ## The invariant of a run -/

theorem interested_congr {s t : ps_state} (h : t.initiator_ = s.initiator_) :
    t.interestedInitiator = s.interestedInitiator := by
  unfold ps_state.interestedInitiator
  rw [h]

theorem runInv_frame {cfg : SquidConfig} {req : HttpRequest} {s t : ps_state}
    (h : RunInv cfg req s) (hl : s.deleted = false) (hf : Frame s t) : RunInv cfg req t := by
  obtain ⟨extra, hse, hce⟩ := hf.servers
  refine ⟨⟨hf.request.trans h.request, ?_, ?_, ?_, ?_, ?_, ?_⟩, ?_⟩
  rotate_right
  · intro _ hdns
    rw [hf.dnsLookups] at hdns
    obtain ⟨fs, rest, hs, hu⟩ := h.head hl hdns
    exact ⟨fs, rest ++ extra, by rw [hse, hs]; rfl, hu⟩
  · intro fs hfs
    rw [hse] at hfs
    rcases List.mem_append.mp hfs with h1 | h1
    · exact h.servers fs h1
    · exact hce fs h1
  · intro p hp
    rw [hf.calls] at hp
    exact h.paths p hp
  · intro _
    rw [hf.calls]
    exact h.live hl
  · intro hd
    rw [hf.deleted, hl] at hd
    exact absurd hd (by decide)
  · rw [hf.calls, hf.foundPaths]
    exact h.found
  · rw [hf.calls]
    exact h.capped

theorem runInv_destroy {cfg : SquidConfig} {req : HttpRequest} {s : ps_state}
    (h : RunCore cfg req s) (hl : s.deleted = false) (hi : s.interestedInitiator = false) :
    RunInv cfg req s.destroy := by
  obtain ⟨h1, h2, h3, h4, h5, h6, h7, h8, h9, h10, h11, h12, -, -⟩ := destroy_fields s
  refine ⟨⟨h1.trans h.request, ?_, ?_, ?_, ?_, ?_, ?_⟩, ?_⟩
  rotate_right
  · intro hd; rw [h9] at hd; exact absurd hd (by decide)
  · rw [h10]; simp
  · intro p hp; rw [h6] at hp; exact h.paths p hp
  · intro hd; rw [h9] at hd; exact absurd hd (by decide)
  · intro _
    rw [h6, destroy_interested, hi, h.live hl]
    rfl
  · rw [h6, h7]; exact h.found
  · rw [h6]; exact h.capped

theorem countEnd_append (a b : List InitiatorCall) :
    countNoteDestinationsEnd (a ++ b)
      = countNoteDestinationsEnd a + countNoteDestinationsEnd b := by
  unfold countNoteDestinationsEnd
  exact List.countP_append _ _ _

theorem countDest_append (a b : List InitiatorCall) :
    countNoteDestination (a ++ b) = countNoteDestination a + countNoteDestination b := by
  unfold countNoteDestination
  exact List.countP_append _ _ _

theorem countDns_append (a b : List InitiatorCall) :
    countDnsPaths (a ++ b) = countDnsPaths a + countDnsPaths b := by
  unfold countDnsPaths
  exact List.countP_append _ _ _

theorem countEnd_paths (paths : List Comm.Connection) :
    countNoteDestinationsEnd (paths.map InitiatorCall.noteDestination) = 0 := by
  unfold countNoteDestinationsEnd
  rw [List.countP_eq_zero]
  intro c hc
  obtain ⟨p, -, rfl⟩ := List.mem_map.mp hc
  simp

theorem countDest_paths (paths : List Comm.Connection) :
    countNoteDestination (paths.map InitiatorCall.noteDestination) = paths.length := by
  unfold countNoteDestination
  rw [List.countP_eq_length.mpr, List.length_map]
  intro c hc
  obtain ⟨p, -, rfl⟩ := List.mem_map.mp hc
  simp

theorem countDns_paths (req : HttpRequest) (paths : List Comm.Connection)
    (hp : ∀ p ∈ paths, IsOriginalDstPath req p) :
    countDnsPaths (paths.map InitiatorCall.noteDestination) = 0 := by
  unfold countDnsPaths
  rw [List.countP_eq_zero]
  intro c hc
  obtain ⟨p, hpm, rfl⟩ := List.mem_map.mp hc
  simp [(hp p hpm).1]

theorem countEnd_append_paths (calls : List InitiatorCall) (paths : List Comm.Connection) :
    countNoteDestinationsEnd (calls ++ paths.map InitiatorCall.noteDestination)
      = countNoteDestinationsEnd calls := by
  rw [countEnd_append, countEnd_paths]
  rfl

theorem countDest_append_paths (calls : List InitiatorCall) (paths : List Comm.Connection) :
    countNoteDestination (calls ++ paths.map InitiatorCall.noteDestination)
      = countNoteDestination calls + paths.length := by
  rw [countDest_append, countDest_paths]

theorem countDns_append_paths (req : HttpRequest) (calls : List InitiatorCall)
    (paths : List Comm.Connection) (hp : ∀ p ∈ paths, IsOriginalDstPath req p) :
    countDnsPaths (calls ++ paths.map InitiatorCall.noteDestination) = countDnsPaths calls := by
  rw [countDns_append, countDns_paths req paths hp]
  rfl

theorem runInv_dnsOutcome {cfg : SquidConfig} {req : HttpRequest} {s t : ps_state}
    (h : RunCore cfg req s) (hl : s.deleted = false) (hi : s.interestedInitiator = true)
    (ho : DnsOutcome cfg s t) : RunInv cfg req t := by
  obtain ⟨paths, hp, hfound, hcase⟩ := ho.outcome
  have hti : t.interestedInitiator = true := (interested_congr ho.initiator).trans hi
  have hpaths : ∀ calls : List InitiatorCall, ∀ e : List InitiatorCall,
      (∀ p, InitiatorCall.noteDestination p ∉ e) →
      t.calls = s.calls ++ paths.map InitiatorCall.noteDestination ++ e →
      ∀ p, InitiatorCall.noteDestination p ∈ t.calls →
        IsOriginalDstPath req p
          ∨ (p.peerType ≠ hier_code.ORIGINAL_DST
              ∧ usesOriginalDst cfg req { _peer := p.peer, code := p.peerType } = false) := by
    intro _ e he hc p hpm
    rw [hc] at hpm
    rcases List.mem_append.mp hpm with h1 | h1
    · rcases List.mem_append.mp h1 with h2 | h2
      · exact h.paths p h2
      · obtain ⟨q, hq, hqe⟩ := List.mem_map.mp h2
        injection hqe with hqe
        subst hqe
        left
        rw [← h.request]
        exact hp q hq
    · exact absurd h1 (he p)
  rcases hcase with ⟨hdel, hcalls, hw, fs, rest, host, hs, hu, hdns⟩ | ⟨hdel, hdns, err, hcalls⟩
  · refine ⟨⟨ho.request.trans h.request, ?_, ?_, ?_, ?_, ?_, ?_⟩, ?_⟩
    rotate_right
    · intro _ _
      exact ⟨fs, rest, hs, by rw [← h.request]; exact hu⟩
    · intro x hx
      exact h.servers x (ho.servers x hx)
    · exact hpaths [] [] (by simp) (by rw [hcalls]; simp)
    · intro _
      rw [hcalls, countEnd_append_paths]
      exact h.live hl
    · intro hd
      rw [hdel] at hd
      exact absurd hd (by decide)
    · rw [hcalls, countDest_append_paths, hfound]
      have := h.found
      omega
    · rw [hcalls, countDns_append_paths s.request _ _ hp]
      exact h.capped
  · refine ⟨⟨ho.request.trans h.request, ?_, ?_, ?_, ?_, ?_, ?_⟩, ?_⟩
    rotate_right
    · intro hd
      rw [hdel] at hd
      exact absurd hd (by decide)
    · intro x hx
      exact h.servers x (ho.servers x hx)
    · exact hpaths [] [InitiatorCall.noteDestinationsEnd err] (by simp) hcalls
    · intro hd
      rw [hdel] at hd
      exact absurd hd (by decide)
    · intro _
      rw [hti, hcalls, countEnd_append, countEnd_append_paths, h.live hl]
      rfl
    · rw [hcalls, countDest_append, countDest_append_paths, hfound]
      have h1 := h.found
      have h2 : countNoteDestination [InitiatorCall.noteDestinationsEnd err] = 0 := rfl
      omega
    · rw [hcalls, countDns_append, countDns_append_paths s.request _ _ hp]
      have h2 : countDnsPaths [InitiatorCall.noteDestinationsEnd err] = 0 := rfl
      rw [h2]
      exact h.capped

theorem peerSelectDnsPathsFrom_aborted (cfg : SquidConfig) (env : Env)
    (servers : List FwdServer) (s : ps_state) (hi : s.interestedInitiator = false) :
    peerSelectDnsPathsFrom cfg env servers s = s.destroy := by
  cases servers <;> rw [peerSelectDnsPathsFrom] <;> simp [hi]

theorem runInv_peerSelectDnsPaths {cfg : SquidConfig} {req : HttpRequest} {s : ps_state}
    (env : Env) (h : RunCore cfg req s) (hl : s.deleted = false) :
    RunInv cfg req (peerSelectDnsPaths cfg env s) := by
  unfold peerSelectDnsPaths
  cases hi : s.interestedInitiator with
  | false =>
    rw [peerSelectDnsPathsFrom_aborted cfg env _ s hi]
    exact runInv_destroy h hl hi
  | true =>
    exact runInv_dnsOutcome h hl hi (peerSelectDnsPathsFrom_outcome cfg env _ s rfl hi hl)

theorem frame_peerSelectFooDirect (cfg : SquidConfig) (env : Env) (s : ps_state) :
    Frame s (peerSelectFooDirect cfg env s) := by
  unfold peerSelectFooDirect
  repeat' split
  all_goals exact ⟨rfl, rfl, rfl, rfl, rfl, rfl, rfl, [], by simp, by simp⟩

theorem runInv_ite {cfg : SquidConfig} {req : HttpRequest} {c : Prop} [Decidable c]
    {a b : ps_state} (ha : RunInv cfg req a) (hb : RunInv cfg req b) :
    RunInv cfg req (if c then a else b) := by
  split <;> assumption

theorem frame_ite {s : ps_state} {c : Prop} [Decidable c] {a b : ps_state}
    (ha : Frame s a) (hb : Frame s b) : Frame s (if c then a else b) := by
  split <;> assumption

theorem runInv_peerSelectFoo {cfg : SquidConfig} {req : HttpRequest} {s : ps_state}
    (env : Env) (h : RunInv cfg req s) (hl : s.deleted = false) :
    RunInv cfg req (peerSelectFoo cfg env s) := by
  unfold peerSelectFoo
  cases hi : s.interestedInitiator with
  | false =>
    simp only [Bool.not_false, if_true]
    exact runInv_destroy h.toRunCore hl hi
  | true =>
    simp only [Bool.not_true, Bool.false_eq_true, if_false]
    have f1 := frame_peerSelectFooDirect cfg env s
    have f2 := (quiet_peerSelectFooNeighbors cfg env (peerSelectFooDirect cfg env s)).toFrame
    have f3 := (quiet_peerSelectFooSwitch cfg env
      (peerSelectFooNeighbors cfg env (peerSelectFooDirect cfg env s)).1).toFrame
    have f := f1.ftrans (f2.ftrans f3)
    refine runInv_ite ?_ (runInv_ite ?_ (runInv_ite ?_ ?_))
    · exact runInv_frame h hl ⟨rfl, rfl, rfl, rfl, rfl, rfl, rfl, [], by simp, by simp⟩
    · exact runInv_frame h hl ⟨rfl, rfl, rfl, rfl, rfl, rfl, rfl, [], by simp, by simp⟩
    · exact runInv_frame h hl (f1.ftrans f2)
    · exact runInv_peerSelectDnsPaths env (runInv_frame h hl f).toRunCore (f.deleted.trans hl)

theorem frame_peerParentMissFirst (env : Env) (p : CachePeer) (s : ps_state) :
    Frame s (peerParentMissFirst env p s) := by
  unfold peerParentMissFirst
  repeat' (first | split | dsimp only)
  all_goals exact ⟨rfl, rfl, rfl, rfl, rfl, rfl, rfl, [], by simp, by simp⟩

theorem frame_peerIcpParentMiss (cfg : SquidConfig) (env : Env) (p : CachePeer)
    (header : icp_common_t) (s : ps_state) : Frame s (peerIcpParentMiss cfg env p header s) := by
  unfold peerIcpParentMiss
  refine Frame.ftrans ?_ (frame_peerParentMissFirst env p _)
  repeat' (first | split | dsimp only)
  all_goals exact ⟨rfl, rfl, rfl, rfl, rfl, rfl, rfl, [], by simp, by simp⟩

theorem frame_peerHtcpParentMiss (cfg : SquidConfig) (env : Env) (p : CachePeer)
    (htcp : HtcpReplyData) (s : ps_state) : Frame s (peerHtcpParentMiss cfg env p htcp s) := by
  unfold peerHtcpParentMiss
  refine Frame.ftrans ?_ (frame_peerParentMissFirst env p _)
  repeat' (first | split | dsimp only)
  all_goals exact ⟨rfl, rfl, rfl, rfl, rfl, rfl, rfl, [], by simp, by simp⟩

theorem runInv_peerHandleIcpReply {cfg : SquidConfig} {req : HttpRequest} {s : ps_state}
    (env : Env) (p : CachePeer) (type : peer_t) (header : icp_common_t)
    (h : RunInv cfg req s) (hl : s.deleted = false) :
    RunInv cfg req (peerHandleIcpReply cfg env p type header s) := by
  unfold peerHandleIcpReply
  have f0 : ∀ pd : ping_data, Frame s { s with ping := pd } :=
    fun _ => ⟨rfl, rfl, rfl, rfl, rfl, rfl, rfl, [], by simp, by simp⟩
  have f1 : Frame s (if ((header.opcode == icp_opcode.ICP_MISS
        || header.opcode == icp_opcode.ICP_DECHO) && type == peer_t.PEER_PARENT) = true
      then peerIcpParentMiss cfg env p header
        { s with ping := { s.ping with n_recv := s.ping.n_recv + 1 } }
      else { s with ping := { s.ping with n_recv := s.ping.n_recv + 1 } }) :=
    frame_ite ((f0 _).ftrans (frame_peerIcpParentMiss cfg env p header _)) (f0 _)
  refine runInv_ite ?_ (runInv_ite ?_ ?_)
  · exact runInv_peerSelectFoo env
      (runInv_frame h hl ⟨rfl, rfl, rfl, rfl, rfl, rfl, rfl, [], by simp, by simp⟩) hl
  · exact runInv_frame h hl f1
  · exact runInv_peerSelectFoo env (runInv_frame h hl f1) (f1.deleted.trans hl)

theorem runInv_peerHandleHtcpReply {cfg : SquidConfig} {req : HttpRequest} {s : ps_state}
    (env : Env) (p : CachePeer) (type : peer_t) (htcp : HtcpReplyData)
    (h : RunInv cfg req s) (hl : s.deleted = false) :
    RunInv cfg req (peerHandleHtcpReply cfg env p type htcp s) := by
  unfold peerHandleHtcpReply
  have f0 : ∀ pd : ping_data, Frame s { s with ping := pd } :=
    fun _ => ⟨rfl, rfl, rfl, rfl, rfl, rfl, rfl, [], by simp, by simp⟩
  have f1 : Frame s (if (type == peer_t.PEER_PARENT) = true
      then peerHtcpParentMiss cfg env p htcp
        { s with ping := { s.ping with n_recv := s.ping.n_recv + 1 } }
      else { s with ping := { s.ping with n_recv := s.ping.n_recv + 1 } }) :=
    frame_ite ((f0 _).ftrans (frame_peerHtcpParentMiss cfg env p htcp _)) (f0 _)
  refine runInv_ite ?_ (runInv_ite ?_ ?_)
  · exact runInv_peerSelectFoo env
      (runInv_frame h hl ⟨rfl, rfl, rfl, rfl, rfl, rfl, rfl, [], by simp, by simp⟩) hl
  · exact runInv_frame h hl f1
  · exact runInv_peerSelectFoo env (runInv_frame h hl f1) (f1.deleted.trans hl)

theorem runInv_aclDone {cfg : SquidConfig} {req : HttpRequest} {s : ps_state}
    (env : Env) (answer : allow_t) (h : RunInv cfg req s) (hl : s.deleted = false) :
    RunInv cfg req (peerCheckAlwaysDirectDone cfg env answer s)
    ∧ RunInv cfg req (peerCheckNeverDirectDone cfg env answer s) := by
  unfold peerCheckAlwaysDirectDone peerCheckNeverDirectDone
  constructor
  · dsimp only
    split <;>
      exact runInv_peerSelectFoo env
        (runInv_frame h hl ⟨rfl, rfl, rfl, rfl, rfl, rfl, rfl, [], by simp, by simp⟩) hl
  · dsimp only
    split <;>
      exact runInv_peerSelectFoo env
        (runInv_frame h hl ⟨rfl, rfl, rfl, rfl, rfl, rfl, rfl, [], by simp, by simp⟩) hl

theorem runInv_peerPingTimeout {cfg : SquidConfig} {req : HttpRequest} {s : ps_state}
    (env : Env) (h : RunInv cfg req s) (hl : s.deleted = false) :
    RunInv cfg req (peerPingTimeout cfg env s) := by
  unfold peerPingTimeout
  dsimp only
  have f0 := (quiet_setPingStatus s ping_status_t.PING_DONE).toFrame
  have h0 := runInv_frame h hl f0
  have hl0 := f0.deleted.trans hl
  cases hi : (s.setPingStatus ping_status_t.PING_DONE).interestedInitiator with
  | false =>
    simp only [Bool.not_false, if_true]
    exact runInv_destroy h0.toRunCore hl0 hi
  | true =>
    simp only [Bool.not_true, Bool.false_eq_true, if_false]
    exact runInv_peerSelectFoo env
      (runInv_frame h0 hl0 ⟨rfl, rfl, rfl, rfl, rfl, rfl, rfl, [], by simp, by simp⟩) hl0

theorem countDns_le_countDest (calls : List InitiatorCall) :
    countDnsPaths calls ≤ countNoteDestination calls := by
  unfold countDnsPaths countNoteDestination
  apply List.countP_mono_left
  intro c _ hc
  cases c with
  | noteDestination p => rfl
  | noteDestinationsEnd e => simp at hc

theorem runInv_noteIp {cfg : SquidConfig} {req : HttpRequest} {s : ps_state}
    (ip : Ip.Address) (h : RunInv cfg req s) (hl : s.deleted = false)
    (hdns : s.dnsLookups ≠ []) : RunInv cfg req (s.noteIp cfg ip) := by
  unfold ps_state.noteIp
  cases hi : s.interestedInitiator with
  | false =>
    simp only [Bool.not_false, if_true]
    exact runInv_destroy h.toRunCore hl hi
  | true =>
    simp only [Bool.not_true, Bool.false_eq_true, if_false]
    cases hw : s.wantsMoreDestinations cfg with
    | false => simpa using h
    | true =>
      simp only [Bool.not_true, Bool.false_eq_true, if_false]
      obtain ⟨fs, rest, hs, hu⟩ := h.head hl hdns
      rw [hs]
      dsimp only
      refine runInv_ite h ?_
      rw [handlePath_eq s _ _ hi]
      have hcode : fs.code ≠ hier_code.ORIGINAL_DST := h.servers fs (by rw [hs]; simp)
      unfold ps_state.wantsMoreDestinations at hw
      simp only [Bool.and_eq_true, decide_eq_true_eq] at hw
      refine ⟨⟨h.request, h.servers, ?_, ?_, ?_, ?_, ?_⟩, h.head⟩
      · intro p hp
        rcases List.mem_append.mp hp with h1 | h1
        · exact h.paths p h1
        · simp only [List.mem_singleton] at h1
          injection h1 with h1
          subst h1
          right
          exact ⟨hcode, hu⟩
      · intro _
        show countNoteDestinationsEnd (s.calls ++ _) = 0
        rw [countEnd_append, h.live hl]
        rfl
      · intro hd
        exact absurd (hl.symm.trans hd) (by decide)
      · show countNoteDestination (s.calls ++ _) ≤ s.foundPaths + 1
        rw [countDest_append]
        have := h.found
        have h1 : ∀ c : Comm.Connection,
            countNoteDestination [InitiatorCall.noteDestination c] = 1 := fun _ => rfl
        rw [h1]
        omega
      · show (countDnsPaths (s.calls ++ _) : Int) ≤ _
        rw [countDns_append]
        have h1 := h.found
        have h2 := countDns_le_countDest s.calls
        have h3 : ∀ c : Comm.Connection,
            countDnsPaths [InitiatorCall.noteDestination c] ≤ 1 := by
          intro c
          unfold countDnsPaths
          exact (List.countP_le_length _).trans (by simp)
        have h5 : cfg.forward_max_tries ≤ max cfg.forward_max_tries 0 := le_max_left _ _
        have key : ∀ n : Nat, n ≤ 1 →
            ((countDnsPaths s.calls + n : Nat) : Int) ≤ max cfg.forward_max_tries 0 := by
          intro n hn
          push_cast
          omega
        exact key _ (h3 _)

theorem runInv_noteIps {cfg : SquidConfig} {req : HttpRequest} {s : ps_state}
    (env : Env) (ia : Bool) (dnsError : String) (rest : List String)
    (h : RunInv cfg req s) (hl : s.deleted = false) (hdns : s.dnsLookups ≠ []) :
    RunInv cfg req (ps_state.noteIps cfg env { s with dnsLookups := rest } ia dnsError) := by
  obtain ⟨fs, next, hs, hu⟩ := h.head hl hdns
  have hcore : ∀ (e : Option ErrorState) (l : List FwdServer), (∀ x ∈ l, x ∈ s.servers) →
      RunCore cfg req { s with dnsLookups := rest, lastError := e, servers := l } :=
    fun e l hsub => ⟨h.request, fun x hx => h.servers x (hsub x hx), h.paths, h.live, h.ended,
      h.found, h.capped⟩
  have hsub : ∀ x ∈ next, x ∈ s.servers := by
    intro x hx
    rw [hs]
    exact List.mem_cons_of_mem _ hx
  unfold ps_state.noteIps
  cases hi : s.interestedInitiator with
  | false =>
    have hi2 : ({ s with dnsLookups := rest } : ps_state).interestedInitiator = false := hi
    simp only [hi2, Bool.not_false, if_true]
    have := hcore s.lastError s.servers (fun x hx => hx)
    exact runInv_destroy this hl hi2
  | true =>
    have hi2 : ({ s with dnsLookups := rest } : ps_state).interestedInitiator = true := hi
    simp only [hi2, Bool.not_true, Bool.false_eq_true, if_false]
    simp only [hs]
    cases ia with
    | true =>
      simp only [Bool.not_true, Bool.false_eq_true, if_false]
      exact runInv_peerSelectDnsPaths env (hcore s.lastError next hsub) hl
    | false =>
      simp only [Bool.not_false, if_true]
      split
      · exact runInv_peerSelectDnsPaths env (hcore _ next hsub) hl
      · exact runInv_peerSelectDnsPaths env (hcore _ next hsub) hl

theorem runInv_step {cfg : SquidConfig} {req : HttpRequest} {s : ps_state}
    (env : Env) (ev : Event) (h : RunInv cfg req s) : RunInv cfg req (step cfg env s ev) := by
  unfold step
  by_cases hd : s.deleted = true
  · rw [if_pos hd]
    exact h
  · have hl : s.deleted = false := by simpa using hd
    rw [if_neg hd]
    cases ev with
    | aclAnswer answer =>
      dsimp only
      split
      · exact (runInv_aclDone env answer h hl).1
      · exact (runInv_aclDone env answer h hl).2
      · exact h
    | icpReply p type header =>
      exact runInv_ite (runInv_peerHandleIcpReply env p type header h hl) h
    | htcpReply p type htcp =>
      exact runInv_ite (runInv_peerHandleHtcpReply env p type htcp h hl) h
    | pingTimeout =>
      refine runInv_ite ?_ h
      exact runInv_peerPingTimeout env
        (runInv_frame h hl ⟨rfl, rfl, rfl, rfl, rfl, rfl, rfl, [], by simp, by simp⟩) hl
    | noteIp ip =>
      dsimp only
      split
      · exact h
      · rename_i x y hxy
        exact runInv_noteIp ip h hl (by rw [hxy]; simp)
    | noteIps ia dnsError =>
      dsimp only
      split
      · exact h
      · rename_i x y hxy
        exact runInv_noteIps env ia dnsError _ h hl (by rw [hxy]; simp)
    | initiatorUnsubscribes =>
      dsimp only
      refine ⟨⟨h.request, h.servers, h.paths, h.live, ?_, h.found, h.capped⟩, h.head⟩
      intro hd
      exact absurd (hl.symm.trans hd) (by decide)
    | initiatorGone =>
      dsimp only
      refine ⟨⟨h.request, h.servers, h.paths, h.live, ?_, h.found, h.capped⟩, h.head⟩
      intro hd
      exact absurd (hl.symm.trans hd) (by decide)

theorem runInv_run {cfg : SquidConfig} {req : HttpRequest} (env : Env) (events : List Event) :
    ∀ s : ps_state, RunInv cfg req s → RunInv cfg req (run cfg env s events) := by
  unfold run
  induction events with
  | nil => intro s h; exact h
  | cons ev t ih =>
    intro s h
    rw [List.foldl_cons]
    exact ih _ (runInv_step env ev h)

theorem runInv_init (cfg : SquidConfig) (initiator : PeerSelectionInitiator)
    (request : HttpRequest) (entry : Option StoreEntry) :
    RunInv cfg request (ps_state.init cfg initiator request entry) := by
  refine ⟨⟨rfl, ?_, ?_, ?_, ?_, ?_, ?_⟩, ?_⟩
  · intro fs hfs; simp [ps_state.init] at hfs
  · intro p hp; simp [ps_state.init] at hp
  · intro _; rfl
  · intro hd; simp [ps_state.init] at hd
  · simp [ps_state.init, countNoteDestination]
  · simp [ps_state.init, countDnsPaths]
  · intro _ hd; simp [ps_state.init] at hd

theorem runInv_peerSelect (cfg : SquidConfig) (env : Env) (request : HttpRequest)
    (entry : Option StoreEntry) (events : List Event) :
    RunInv cfg request (run cfg env (peerSelect cfg env request entry) events) := by
  apply runInv_run
  unfold peerSelect
  exact runInv_peerSelectFoo env (runInv_init cfg _ request entry) rfl

/-! ## Peer selection: runs -/

/-- C1 (the code at the failing input): with `forward_max_tries = 2`, one alive parent
and an intercepted request that failed host verification, the destinations are the parent
(FIRSTUP_PARENT), the parent again (ANY_OLD_PARENT) and the origin (HIER_DIRECT); DNS
gives one address for each parent lookup, and the ORIGINAL_DST branch of
`peerSelectDnsPaths` then hands over a third path without asking
`wantsMoreDestinations`: `noteDestination` is called 3 times. With
`forward_max_tries = 0` and no neighbors it is called once. In every run the paths that
came from DNS number at most `forward_max_tries` (at most 0 when it is negative), and every
other path is an ORIGINAL_DST path. -/
theorem noteDestination_exceeds_forward_max_tries :
    (oneParentConfig 2).forward_max_tries = 2
    ∧ countNoteDestination
        (run (oneParentConfig 2) oneParent
          (peerSelect (oneParentConfig 2) oneParent interceptedRequest none)
          [Event.noteIp (Ip.Address.ofOctets 198 51 100 1 0), Event.noteIps true "",
           Event.noteIp (Ip.Address.ofOctets 198 51 100 1 0), Event.noteIps true ""]).calls = 3
    ∧ (run (oneParentConfig 2) oneParent
          (peerSelect (oneParentConfig 2) oneParent interceptedRequest none)
          [Event.noteIp (Ip.Address.ofOctets 198 51 100 1 0), Event.noteIps true "",
           Event.noteIp (Ip.Address.ofOctets 198 51 100 1 0), Event.noteIps true ""]).calls
        = [InitiatorCall.noteDestination
             { remote := Ip.Address.ofOctets 198 51 100 1 3128,
               peerType := hier_code.FIRSTUP_PARENT, peer := some exampleParent },
           InitiatorCall.noteDestination
             { remote := Ip.Address.ofOctets 198 51 100 1 3128,
               peerType := hier_code.ANY_OLD_PARENT, peer := some exampleParent },
           InitiatorCall.noteDestination
             { remote := Ip.Address.ofOctets 203 0 113 5 80,
               peerType := hier_code.ORIGINAL_DST, peer := none },
           InitiatorCall.noteDestinationsEnd none]
    ∧ (defaultConfig 0).forward_max_tries = 0
    ∧ countNoteDestination
        (peerSelect (defaultConfig 0) noNeighbors interceptedRequest none).calls = 1
    ∧ (∀ (cfg : SquidConfig) (env : Env) (request : HttpRequest) (entry : Option StoreEntry)
        (events : List Event),
        (countDnsPaths (run cfg env (peerSelect cfg env request entry) events).calls : Int)
          ≤ max cfg.forward_max_tries 0) := by
  refine ⟨rfl, by decide, by decide, rfl, by decide, ?_⟩
  intro cfg env request entry events
  exact (runInv_peerSelect cfg env request entry events).capped

/-- C3, as stated, fails, in two ways. An intercepted request that failed host
verification but was redirected is not sent down the ORIGINAL_DST branch: its HIER_DIRECT
destination is looked up and the path carries the DNS address 198.51.100.7, not the
client's local address 203.0.113.5. And for an intercepted request that failed host
verification, the origin chosen as CLOSEST_DIRECT after a parent's ICP miss is looked up
as well. -/
theorem originalDst_claim_fails :
    (redirectedRequest.flags.intercepted = true ∧ redirectedRequest.flags.hostVerified = false
      ∧ (run (defaultConfig 10) noNeighbors
            (peerSelect (defaultConfig 10) noNeighbors redirectedRequest none)
            [Event.noteIp (Ip.Address.ofOctets 198 51 100 7 0), Event.noteIps true ""]).calls
          = [InitiatorCall.noteDestination
               { remote := Ip.Address.ofOctets 198 51 100 7 80,
                 peerType := hier_code.HIER_DIRECT, peer := none },
             InitiatorCall.noteDestinationsEnd none])
    ∧ (interceptedRequest.flags.intercepted = true
      ∧ interceptedRequest.flags.hostVerified = false
      ∧ interceptedRequest.flags.redirected = false
      ∧ (run icmpConfig farHost (peerSelect icmpConfig farHost interceptedRequest (some newEntry))
            [Event.icpReply exampleParent peer_t.PEER_PARENT (icpMiss 600),
             Event.noteIp (Ip.Address.ofOctets 198 51 100 7 0)]).calls
          = [InitiatorCall.noteDestination
               { remote := Ip.Address.ofOctets 198 51 100 7 80,
                 peerType := hier_code.CLOSEST_DIRECT, peer := none }]) := by
  refine ⟨⟨rfl, rfl, by decide⟩, rfl, rfl, rfl, by decide!⟩

/-- C3, amended: for every request that is intercepted (or TPROXY-intercepted), was not
redirected and failed host verification, in every run of peer selection: no HIER_DIRECT
destination is sent to DNS (while a lookup is outstanding the destination at the head of
the list is not HIER_DIRECT), no path with code HIER_DIRECT is handed to the initiator,
and every path with code ORIGINAL_DST, the code given to the paths of HIER_DIRECT
destinations, has the local address of the client connection as remote address. -/
theorem originalDst_for_intercepted (cfg : SquidConfig) (env : Env) (request : HttpRequest)
    (entry : Option StoreEntry) (events : List Event)
    (hint : (request.flags.intercepted || request.flags.interceptTproxy) = true)
    (hred : request.flags.redirected = false)
    (hver : request.flags.hostVerified = false) :
    (∀ p, InitiatorCall.noteDestination p
        ∈ (run cfg env (peerSelect cfg env request entry) events).calls →
      p.peerType ≠ hier_code.HIER_DIRECT
      ∧ (p.peerType = hier_code.ORIGINAL_DST →
          request.clientConnectionManager = some p.remote))
    ∧ ((run cfg env (peerSelect cfg env request entry) events).deleted = false →
        (run cfg env (peerSelect cfg env request entry) events).dnsLookups ≠ [] →
        ∃ fs rest, (run cfg env (peerSelect cfg env request entry) events).servers = fs :: rest
          ∧ fs.code ≠ hier_code.HIER_DIRECT) := by
  have h := runInv_peerSelect cfg env request entry events
  generalize run cfg env (peerSelect cfg env request entry) events = s at h
  have huse : ∀ fs : FwdServer, usesOriginalDst cfg request fs = false →
      fs.code ≠ hier_code.HIER_DIRECT := by
    intro fs hu hc
    simp [usesOriginalDst, hint, hred, hver, hc] at hu
  constructor
  · intro p hp
    rcases h.paths p hp with ⟨h1, h2⟩ | ⟨h1, h2⟩
    · exact ⟨by rw [h1]; decide, fun _ => h2⟩
    · exact ⟨huse _ h2, fun hc => absurd hc h1⟩
  · intro hl hdns
    obtain ⟨fs, rest, hs, hu⟩ := h.head hl hdns
    exact ⟨fs, rest, hs, huse fs hu⟩

/-- Witness for C3: the intercepted request of scenario 6, received on 203.0.113.5:80,
goes direct and its only path is 203.0.113.5:80 with code ORIGINAL_DST. -/
theorem originalDst_for_intercepted_witness :
    (peerSelect (defaultConfig 10) noNeighbors interceptedRequest none).calls
      = [InitiatorCall.noteDestination
           { remote := Ip.Address.ofOctets 203 0 113 5 80, peerType := hier_code.ORIGINAL_DST,
             peer := none },
         InitiatorCall.noteDestinationsEnd none]
    ∧ interceptedRequest.clientConnectionManager = some (Ip.Address.ofOctets 203 0 113 5 80) :=
  ⟨by decide,
    ((originalDst_for_intercepted (defaultConfig 10) noNeighbors interceptedRequest none []
        (by decide) (by decide) (by decide)).1
      { remote := Ip.Address.ofOctets 203 0 113 5 80, peerType := hier_code.ORIGINAL_DST,
        peer := none } (by decide)).2 rfl⟩

theorem peerParentMissFirst_closest (env : Env) (p : CachePeer) (s : ps_state) :
    (peerParentMissFirst env p s).ping.p_rtt = s.ping.p_rtt
    ∧ (peerParentMissFirst env p s).closest_parent_miss = s.closest_parent_miss := by
  unfold peerParentMissFirst
  repeat' (first | split | dsimp only)
  all_goals exact ⟨rfl, rfl⟩

theorem peerIcpParentMiss_closest_step (cfg : SquidConfig) (env : Env) (p : CachePeer)
    (header : icp_common_t) (s : ps_state) (hq : cfg.query_icmp = true)
    (hf : header.flags &&& ICP_FLAG_SRC_RTT ≠ 0) :
    ((icpRtt header ≠ 0 ∧ (s.ping.p_rtt = 0 ∨ icpRtt header < s.ping.p_rtt)) →
      (peerIcpParentMiss cfg env p header s).ping.p_rtt = icpRtt header
      ∧ (peerIcpParentMiss cfg env p header s).closest_parent_miss = p.in_addr)
    ∧ (¬ (icpRtt header ≠ 0 ∧ (s.ping.p_rtt = 0 ∨ icpRtt header < s.ping.p_rtt)) →
      (peerIcpParentMiss cfg env p header s).ping.p_rtt = s.ping.p_rtt
      ∧ (peerIcpParentMiss cfg env p header s).closest_parent_miss = s.closest_parent_miss) := by
  unfold peerIcpParentMiss
  have hf2 : (header.flags &&& ICP_FLAG_SRC_RTT != 0) = true := by simpa using hf
  simp only [hq, if_true, hf2]
  constructor
  · intro hc
    have hc2 : (((header.pad &&& 0xFFFF : Nat) : Int) != 0
        && (s.ping.p_rtt == 0 || decide (((header.pad &&& 0xFFFF : Nat) : Int) < s.ping.p_rtt)))
        = true := by
      unfold icpRtt at hc
      simpa using hc
    rw [(peerParentMissFirst_closest env p _).1, (peerParentMissFirst_closest env p _).2]
    split <;> simp [hc2, icpRtt]
  · intro hc
    have hc2 : (((header.pad &&& 0xFFFF : Nat) : Int) != 0
        && (s.ping.p_rtt == 0 || decide (((header.pad &&& 0xFFFF : Nat) : Int) < s.ping.p_rtt)))
        = false := by
      unfold icpRtt at hc
      rw [Bool.eq_false_iff]
      intro h
      apply hc
      simpa using h
    rw [(peerParentMissFirst_closest env p _).1, (peerParentMissFirst_closest env p _).2]
    split <;> simp [hc2]

theorem peerIcpParentMissAll_closest (cfg : SquidConfig) (env : Env)
    (hq : cfg.query_icmp = true) :
    ∀ (replies seen : List (CachePeer × icp_common_t)) (s : ps_state),
      (∀ r ∈ replies, r.2.flags &&& ICP_FLAG_SRC_RTT ≠ 0) →
      ((s.ping.p_rtt = 0 ∧ ∀ r ∈ seen, icpRtt r.2 = 0)
        ∨ (s.ping.p_rtt ≠ 0 ∧ (∀ r ∈ seen, icpRtt r.2 ≠ 0 → s.ping.p_rtt ≤ icpRtt r.2)
            ∧ ∃ r ∈ seen, icpRtt r.2 = s.ping.p_rtt ∧ s.closest_parent_miss = r.1.in_addr)) →
      (((peerIcpParentMissAll cfg env replies s).ping.p_rtt = 0
          ∧ ∀ r ∈ seen ++ replies, icpRtt r.2 = 0)
        ∨ ((peerIcpParentMissAll cfg env replies s).ping.p_rtt ≠ 0
            ∧ (∀ r ∈ seen ++ replies, icpRtt r.2 ≠ 0 →
                (peerIcpParentMissAll cfg env replies s).ping.p_rtt ≤ icpRtt r.2)
            ∧ ∃ r ∈ seen ++ replies,
                icpRtt r.2 = (peerIcpParentMissAll cfg env replies s).ping.p_rtt
                ∧ (peerIcpParentMissAll cfg env replies s).closest_parent_miss
                    = r.1.in_addr)) := by
  intro replies
  induction replies with
  | nil =>
    intro seen s _ h
    simpa [peerIcpParentMissAll] using h
  | cons r t ih =>
    intro seen s hflag h
    have hstep := peerIcpParentMiss_closest_step cfg env r.1 r.2 s hq
      (hflag r (List.mem_cons_self _ _))
    have hrec := ih (seen ++ [r]) (peerIcpParentMiss cfg env r.1 r.2 s)
      (fun x hx => hflag x (List.mem_cons_of_mem _ hx))
    have hfold : peerIcpParentMissAll cfg env (r :: t) s
        = peerIcpParentMissAll cfg env t (peerIcpParentMiss cfg env r.1 r.2 s) := rfl
    rw [hfold]
    have happ : seen ++ r :: t = (seen ++ [r]) ++ t := by simp
    rw [happ]
    apply hrec
    by_cases hc : icpRtt r.2 ≠ 0 ∧ (s.ping.p_rtt = 0 ∨ icpRtt r.2 < s.ping.p_rtt)
    · obtain ⟨h1, h2⟩ := hstep.1 hc
      right
      rw [h1, h2]
      refine ⟨hc.1, ?_, r, by simp, rfl, rfl⟩
      intro x hx hx0
      rcases List.mem_append.mp hx with hx1 | hx1
      · rcases h with ⟨_, hz⟩ | ⟨hnz, hmin, _⟩
        · exact absurd (hz x hx1) hx0
        · rcases hc.2 with h0 | hlt
          · exact absurd h0 hnz
          · exact le_trans (le_of_lt hlt) (hmin x hx1 hx0)
      · simp only [List.mem_singleton] at hx1
        rw [hx1]
    · obtain ⟨h1, h2⟩ := hstep.2 hc
      rw [h1, h2]
      rcases h with ⟨h0, hz⟩ | ⟨hnz, hmin, w, hw, hw1, hw2⟩
      · left
        refine ⟨h0, ?_⟩
        intro x hx
        rcases List.mem_append.mp hx with hx1 | hx1
        · exact hz x hx1
        · simp only [List.mem_singleton] at hx1
          rw [hx1]
          by_contra hne
          exact hc ⟨hne, Or.inl h0⟩
      · right
        refine ⟨hnz, ?_, w, List.mem_append_left _ hw, hw1, hw2⟩
        intro x hx hx0
        rcases List.mem_append.mp hx with hx1 | hx1
        · exact hmin x hx1 hx0
        · simp only [List.mem_singleton] at hx1
          rw [hx1] at hx0 ⊢
          by_contra hlt
          exact hc ⟨hx0, Or.inr (lt_of_not_le hlt)⟩

/-- C7: with `query_icmp` on, after `peerIcpParentMiss` has processed any sequence of
replies that carry SRC_RTT, at least one of them with a non-zero RTT, starting from
`ping.p_rtt = 0`: `ping.p_rtt` is the minimum of the non-zero reported RTTs (it is
reported by some reply and no non-zero reported RTT is smaller), and
`closest_parent_miss` is the address of a parent whose reply reported that minimum.
The arrival order is any: the statement holds for every list. -/
theorem peerIcpParentMiss_closest (cfg : SquidConfig) (env : Env)
    (replies : List (CachePeer × icp_common_t)) (s : ps_state)
    (hq : cfg.query_icmp = true)
    (hflag : ∀ r ∈ replies, r.2.flags &&& ICP_FLAG_SRC_RTT ≠ 0)
    (h0 : s.ping.p_rtt = 0)
    (hne : ∃ r ∈ replies, icpRtt r.2 ≠ 0) :
    (∀ r ∈ replies, icpRtt r.2 ≠ 0 →
        (peerIcpParentMissAll cfg env replies s).ping.p_rtt ≤ icpRtt r.2)
    ∧ (∃ r ∈ replies, icpRtt r.2 ≠ 0
        ∧ icpRtt r.2 = (peerIcpParentMissAll cfg env replies s).ping.p_rtt
        ∧ (peerIcpParentMissAll cfg env replies s).closest_parent_miss = r.1.in_addr) := by
  have h := peerIcpParentMissAll_closest cfg env hq replies [] s hflag
    (Or.inl ⟨h0, by simp⟩)
  simp only [List.nil_append] at h
  rcases h with ⟨_, hz⟩ | ⟨hnz, hmin, w, hw, hw1, hw2⟩
  · obtain ⟨r, hr, hr0⟩ := hne
    exact absurd (hz r hr) hr0
  · exact ⟨hmin, w, hw, by rw [hw1]; exact hnz, hw1, hw2⟩

/-- Witness for C7: parents A and B answer an ICP query with misses that report 50 ms
and 30 ms. In either arrival order `ping.p_rtt` is 30 and `closest_parent_miss` is the
address of B; the selector then queues B first, as CLOSEST_PARENT_MISS, and NetDB has
received two `netdbUpdatePeer` calls. -/
theorem peerIcpParentMiss_closest_witness :
    ((peerIcpParentMissAll twoParentsConfig twoParents
        [(parentA, icpMiss 50), (parentB, icpMiss 30)] waitingForReplies).ping.p_rtt = 30
      ∧ (peerIcpParentMissAll twoParentsConfig twoParents
        [(parentA, icpMiss 50), (parentB, icpMiss 30)] waitingForReplies).closest_parent_miss
          = parentB.in_addr)
    ∧ ((peerIcpParentMissAll twoParentsConfig twoParents
        [(parentB, icpMiss 30), (parentA, icpMiss 50)] waitingForReplies).ping.p_rtt = 30
      ∧ (peerIcpParentMissAll twoParentsConfig twoParents
        [(parentB, icpMiss 30), (parentA, icpMiss 50)] waitingForReplies).closest_parent_miss
          = parentB.in_addr)
    ∧ ((run twoParentsConfig twoParents waitingForReplies
          [Event.icpReply parentA peer_t.PEER_PARENT (icpMiss 50),
           Event.icpReply parentB peer_t.PEER_PARENT (icpMiss 30)]).servers.head?
        = some { _peer := some parentB, code := hier_code.CLOSEST_PARENT_MISS }
      ∧ (run twoParentsConfig twoParents waitingForReplies
          [Event.icpReply parentB peer_t.PEER_PARENT (icpMiss 30),
           Event.icpReply parentA peer_t.PEER_PARENT (icpMiss 50)]).servers.head?
        = some { _peer := some parentB, code := hier_code.CLOSEST_PARENT_MISS }
      ∧ (run twoParentsConfig twoParents waitingForReplies
          [Event.icpReply parentA peer_t.PEER_PARENT (icpMiss 50),
           Event.icpReply parentB peer_t.PEER_PARENT (icpMiss 30)]).netdbUpdatePeerCalls.length
        = 2)
    ∧ (∀ r ∈ [(parentA, icpMiss 50), (parentB, icpMiss 30)], icpRtt r.2 ≠ 0 →
        (peerIcpParentMissAll twoParentsConfig twoParents
          [(parentA, icpMiss 50), (parentB, icpMiss 30)] waitingForReplies).ping.p_rtt
          ≤ icpRtt r.2) :=
  ⟨by decide, by decide, by decide,
    (peerIcpParentMiss_closest twoParentsConfig twoParents
      [(parentA, icpMiss 50), (parentB, icpMiss 30)] waitingForReplies
      (by decide) (by decide) (by decide) (by decide)).1⟩

/-! ## Peer selection: the direct-disposition -/

theorem peerSelectFooDirect_direct (cfg : SquidConfig) (env : Env) (s : ps_state) :
    (s.direct ≠ direct_t.DIRECT_UNKNOWN → peerSelectFooDirect cfg env s = s)
    ∧ (s.direct = direct_t.DIRECT_UNKNOWN →
        (peerSelectFooDirect cfg env s).direct
          = directReference allow_t.ACCESS_DENIED allow_t.ACCESS_DENIED
              s.request.flags.noDirect s.request.flags.loopDetected
              (peerCheckNetdbDirect cfg env s)
        ∧ (peerSelectFooDirect cfg env s).direct ≠ direct_t.DIRECT_UNKNOWN) := by
  unfold peerSelectFooDirect directReference
  constructor
  · intro h
    simp [h]
  · intro h
    cases s.request.flags.noDirect <;> cases s.request.flags.loopDetected <;>
      cases peerCheckNetdbDirect cfg env s <;> simp [h]

theorem peerCheckAlwaysDirectDone_eq (cfg : SquidConfig) (env : Env) (a : allow_t)
    (s : ps_state) :
    (a = allow_t.ACCESS_ALLOWED → peerCheckAlwaysDirectDone cfg env a s
      = peerSelectFoo cfg env { s with acl_checklist := none, always_direct := a,
                                       direct := direct_t.DIRECT_YES })
    ∧ (a ≠ allow_t.ACCESS_ALLOWED → peerCheckAlwaysDirectDone cfg env a s
      = peerSelectFoo cfg env { s with acl_checklist := none, always_direct := a }) := by
  constructor
  · intro h; subst h; rfl
  · intro h; cases a <;> first | rfl | exact absurd rfl h

theorem peerCheckNeverDirectDone_eq (cfg : SquidConfig) (env : Env) (a : allow_t)
    (s : ps_state) :
    (a = allow_t.ACCESS_ALLOWED → peerCheckNeverDirectDone cfg env a s
      = peerSelectFoo cfg env { s with acl_checklist := none, never_direct := a,
                                       direct := direct_t.DIRECT_NO })
    ∧ (a ≠ allow_t.ACCESS_ALLOWED → peerCheckNeverDirectDone cfg env a s
      = peerSelectFoo cfg env { s with acl_checklist := none, never_direct := a }) := by
  constructor
  · intro h; subst h; rfl
  · intro h; cases a <;> first | rfl | exact absurd rfl h

theorem waits_of_deleted {t : ps_state} (h : t.deleted = true) : Waits t :=
  ⟨fun hl => absurd (hl.symm.trans h) (by decide), fun hl => absurd (hl.symm.trans h) (by decide)⟩

theorem waits_same {s t : ps_state} (h : Same s t) (hw : Waits s) : Waits t := by
  have hp : t.pingStatusIs ping_status_t.PING_WAITING
      = s.pingStatusIs ping_status_t.PING_WAITING := by
    unfold ps_state.pingStatusIs
    rw [h.entry]
  constructor
  · intro hl hd
    rw [h.deleted] at hl
    rw [h.direct] at hd
    rw [h.dnsLookups, h.acl_checklist, h.always_direct, h.never_direct]
    exact hw.undecided hl hd
  · intro hl hd
    rw [h.deleted] at hl
    rw [h.direct] at hd
    rw [h.dnsLookups, h.acl_checklist, hp]
    exact hw.decided hl hd

theorem same_refl (s : ps_state) : Same s s := ⟨rfl, rfl, rfl, rfl, rfl, rfl, rfl⟩

theorem Same.strans {a b c : ps_state} (h1 : Same a b) (h2 : Same b c) : Same a c :=
  ⟨h2.deleted.trans h1.deleted, h2.direct.trans h1.direct,
    h2.always_direct.trans h1.always_direct, h2.never_direct.trans h1.never_direct,
    h2.acl_checklist.trans h1.acl_checklist, h2.dnsLookups.trans h1.dnsLookups,
    h2.entry.trans h1.entry⟩

theorem same_ite {s : ps_state} {c : Prop} [Decidable c] {a b : ps_state}
    (ha : Same s a) (hb : Same s b) : Same s (if c then a else b) := by
  split <;> assumption

theorem same_peerParentMissFirst (env : Env) (p : CachePeer) (s : ps_state) :
    Same s (peerParentMissFirst env p s) := by
  unfold peerParentMissFirst
  repeat' (first | split | dsimp only)
  all_goals exact ⟨rfl, rfl, rfl, rfl, rfl, rfl, rfl⟩

theorem same_peerIcpParentMiss (cfg : SquidConfig) (env : Env) (p : CachePeer)
    (header : icp_common_t) (s : ps_state) : Same s (peerIcpParentMiss cfg env p header s) := by
  unfold peerIcpParentMiss
  refine Same.strans ?_ (same_peerParentMissFirst env p _)
  repeat' (first | split | dsimp only)
  all_goals exact ⟨rfl, rfl, rfl, rfl, rfl, rfl, rfl⟩

theorem same_peerHtcpParentMiss (cfg : SquidConfig) (env : Env) (p : CachePeer)
    (htcp : HtcpReplyData) (s : ps_state) : Same s (peerHtcpParentMiss cfg env p htcp s) := by
  unfold peerHtcpParentMiss
  refine Same.strans ?_ (same_peerParentMissFirst env p _)
  repeat' (first | split | dsimp only)
  all_goals exact ⟨rfl, rfl, rfl, rfl, rfl, rfl, rfl⟩

theorem neighbors_waiting (cfg : SquidConfig) (env : Env) (s : ps_state)
    (h : (peerSelectFooNeighbors cfg env s).2 = true) :
    (peerSelectFooNeighbors cfg env s).1.pingStatusIs ping_status_t.PING_WAITING = true := by
  unfold peerSelectFooNeighbors at h ⊢
  dsimp only at h ⊢
  repeat' split at h
  all_goals simp_all

theorem peerSelectFooDirect_fields (cfg : SquidConfig) (env : Env) (s : ps_state) :
    (peerSelectFooDirect cfg env s).acl_checklist = s.acl_checklist
    ∧ (peerSelectFooDirect cfg env s).deleted = s.deleted
    ∧ (peerSelectFooDirect cfg env s).initiator_ = s.initiator_
    ∧ (peerSelectFooDirect cfg env s).dnsLookups = s.dnsLookups
    ∧ (peerSelectFooDirect cfg env s).always_direct = s.always_direct
    ∧ (peerSelectFooDirect cfg env s).never_direct = s.never_direct
    ∧ (peerSelectFooDirect cfg env s).entry = s.entry
    ∧ (peerSelectFooDirect cfg env s).direct ≠ direct_t.DIRECT_UNKNOWN := by
  refine ⟨?_, ?_, ?_, ?_, ?_, ?_, ?_, ?_⟩
  rotate_right
  · by_cases h : s.direct = direct_t.DIRECT_UNKNOWN
    · exact ((peerSelectFooDirect_direct cfg env s).2 h).2
    · rw [(peerSelectFooDirect_direct cfg env s).1 h]
      exact h
  all_goals
    unfold peerSelectFooDirect
    repeat' split
  all_goals rfl

theorem peerSelectFoo_through (cfg : SquidConfig) (env : Env) (s : ps_state)
    (hi : s.interestedInitiator = true)
    (c1 : ¬ (s.direct = direct_t.DIRECT_UNKNOWN ∧ s.always_direct = allow_t.ACCESS_DUNNO))
    (c2 : ¬ (s.direct = direct_t.DIRECT_UNKNOWN ∧ s.never_direct = allow_t.ACCESS_DUNNO)) :
    peerSelectFoo cfg env s
      = if (peerSelectFooNeighbors cfg env (peerSelectFooDirect cfg env s)).2 = true then
          (peerSelectFooNeighbors cfg env (peerSelectFooDirect cfg env s)).1
        else peerSelectDnsPaths cfg env (peerSelectFooSwitch cfg env
          (peerSelectFooNeighbors cfg env (peerSelectFooDirect cfg env s)).1) := by
  have hc1 : (s.direct == direct_t.DIRECT_UNKNOWN && s.always_direct == allow_t.ACCESS_DUNNO)
      = false := by
    rw [Bool.eq_false_iff]
    intro h
    apply c1
    simpa using h
  have hc2 : (s.direct == direct_t.DIRECT_UNKNOWN && s.never_direct == allow_t.ACCESS_DUNNO)
      = false := by
    rw [Bool.eq_false_iff]
    intro h
    apply c2
    simpa using h
  unfold peerSelectFoo
  simp only [hi, hc1, hc2, Bool.not_true, Bool.false_eq_true, if_false]

theorem peerSelectFoo_always (cfg : SquidConfig) (env : Env) (s : ps_state)
    (hi : s.interestedInitiator = true)
    (c1 : s.direct = direct_t.DIRECT_UNKNOWN ∧ s.always_direct = allow_t.ACCESS_DUNNO) :
    peerSelectFoo cfg env s = { s with acl_checklist := some AclList.AlwaysDirect } := by
  unfold peerSelectFoo
  simp [hi, c1.1, c1.2]

theorem peerSelectFoo_never (cfg : SquidConfig) (env : Env) (s : ps_state)
    (hi : s.interestedInitiator = true)
    (c1 : ¬ (s.direct = direct_t.DIRECT_UNKNOWN ∧ s.always_direct = allow_t.ACCESS_DUNNO))
    (c2 : s.direct = direct_t.DIRECT_UNKNOWN ∧ s.never_direct = allow_t.ACCESS_DUNNO) :
    peerSelectFoo cfg env s = { s with acl_checklist := some AclList.NeverDirect } := by
  have hc1 : s.always_direct ≠ allow_t.ACCESS_DUNNO := fun h => c1 ⟨c2.1, h⟩
  unfold peerSelectFoo
  simp [hi, c2.1, c2.2, hc1]

theorem peerSelectFoo_gone (cfg : SquidConfig) (env : Env) (s : ps_state)
    (hi : s.interestedInitiator = false) : peerSelectFoo cfg env s = s.destroy := by
  unfold peerSelectFoo
  simp [hi]

theorem waits_peerSelectFoo (cfg : SquidConfig) (env : Env) {s : ps_state} (h : FooPre s) :
    Waits (peerSelectFoo cfg env s)
    ∧ (peerSelectFoo cfg env s).initiator_ = s.initiator_
    ∧ (peerSelectFoo cfg env s).always_direct = s.always_direct
    ∧ (peerSelectFoo cfg env s).never_direct = s.never_direct := by
  cases hi : s.interestedInitiator with
  | false =>
    rw [peerSelectFoo_gone cfg env s hi]
    have hd := destroy_fields s
    exact ⟨waits_of_deleted hd.2.2.2.2.2.2.2.2.1, hd.2.2.2.2.1, hd.2.2.1, hd.2.2.2.1⟩
  | true =>
    by_cases c1 : s.direct = direct_t.DIRECT_UNKNOWN ∧ s.always_direct = allow_t.ACCESS_DUNNO
    · rw [peerSelectFoo_always cfg env s hi c1]
      refine ⟨⟨fun _ _ => ⟨h.lookups c1.1, Or.inl ⟨rfl, c1.2⟩⟩, fun _ hd => absurd c1.1 hd⟩,
        rfl, rfl, rfl⟩
    · by_cases c2 : s.direct = direct_t.DIRECT_UNKNOWN ∧ s.never_direct = allow_t.ACCESS_DUNNO
      · rw [peerSelectFoo_never cfg env s hi c1 c2]
        refine ⟨⟨fun _ _ => ⟨h.lookups c2.1, Or.inr ⟨rfl, c2.2⟩⟩, fun _ hd => absurd c2.1 hd⟩,
          rfl, rfl, rfl⟩
      · have hacl : s.acl_checklist = none := by
          rcases h.acl with h1 | ⟨h1, h2 | h2⟩
          · exact h1
          · exact absurd ⟨h1, h2⟩ c1
          · exact absurd ⟨h1, h2⟩ c2
        rw [peerSelectFoo_through cfg env s hi c1 c2]
        obtain ⟨d1, d2, d3, d4, d5, d6, d7, d8⟩ := peerSelectFooDirect_fields cfg env s
        have q1 := quiet_peerSelectFooNeighbors cfg env (peerSelectFooDirect cfg env s)
        have q2 := q1.qtrans (quiet_peerSelectFooSwitch cfg env
          (peerSelectFooNeighbors cfg env (peerSelectFooDirect cfg env s)).1)
        split
        · rename_i hr
          refine ⟨⟨fun _ hd => ?_, fun _ _ => ⟨?_, Or.inl (neighbors_waiting cfg env _ hr)⟩⟩,
            q1.initiator.trans d3, q1.always_direct.trans d5, q1.never_direct.trans d6⟩
          · rw [q1.direct] at hd
            exact absurd hd d8
          · rw [q1.acl_checklist, d1, hacl]
        · have ho := peerSelectDnsPathsFrom_outcome cfg env _
            (peerSelectFooSwitch cfg env
              (peerSelectFooNeighbors cfg env (peerSelectFooDirect cfg env s)).1) rfl
            ((interested_congr (q2.initiator.trans d3)).trans hi)
            ((q2.deleted.trans d2).trans h.live)
          refine ⟨⟨fun _ hd => ?_, fun hl _ => ⟨?_, Or.inr ?_⟩⟩,
            ho.initiator.trans (q2.initiator.trans d3),
            ho.always_direct.trans (q2.always_direct.trans d5),
            ho.never_direct.trans (q2.never_direct.trans d6)⟩
          · have : (peerSelectDnsPaths cfg env (peerSelectFooSwitch cfg env
                (peerSelectFooNeighbors cfg env (peerSelectFooDirect cfg env s)).1)).direct
                = (peerSelectFooDirect cfg env s).direct := ho.direct.trans q2.direct
            rw [this] at hd
            exact absurd hd d8
          · exact ho.acl_checklist ((q2.acl_checklist.trans d1).trans hacl)
          · obtain ⟨paths, _, _, hcase⟩ := ho.outcome
            rcases hcase with ⟨_, _, _, fs, rest, host, _, _, hdns⟩ | ⟨hdel, _⟩
            · intro hnil
              have hnil2 : (peerSelectDnsPaths cfg env (peerSelectFooSwitch cfg env
                (peerSelectFooNeighbors cfg env (peerSelectFooDirect cfg env s)).1)).dnsLookups
                = [] := hnil
              unfold peerSelectDnsPaths at hnil2
              rw [hdns] at hnil2
              simp at hnil2
            · exact absurd (hl.symm.trans hdel) (by decide)

theorem peerSelectDnsPathsFrom_length (cfg : SquidConfig) (env : Env) :
    ∀ (servers : List FwdServer) (s : ps_state), s.servers = servers →
      s.interestedInitiator = true →
      (peerSelectDnsPathsFrom cfg env servers s).servers.length ≤ servers.length := by
  have hdone : ∀ s : ps_state, (peerSelectDnsPathsDone env s).servers = [] := by
    intro s
    unfold peerSelectDnsPathsDone
    exact (destroy_fields _).2.2.2.2.2.2.2.2.2.1
  intro servers
  induction servers with
  | nil =>
    intro s _ hi
    rw [peerSelectDnsPathsFrom]
    simp only [hi, Bool.not_true, Bool.false_eq_true, if_false]
    rw [hdone]
  | cons fs next ih =>
    intro s hs hi
    rw [peerSelectDnsPathsFrom_cons cfg env fs next s hi]
    by_cases hu : usesOriginalDst cfg s.request fs = true
    · simp only [hu, if_true]
      have hstep : ∀ x : ps_state, x.interestedInitiator = true →
          (peerSelectDnsPathsFrom cfg env next { x with servers := next }).servers.length
            ≤ (fs :: next).length := by
        intro x hx
        have := ih { x with servers := next } rfl hx
        simp only [List.length_cons]
        omega
      cases hm : s.request.clientConnectionManager with
      | none => exact hstep s hi
      | some clientLocal =>
        simp only []
        rw [handlePath_eq s _ _ hi]
        exact hstep _ hi
    · simp only [hu, Bool.false_eq_true, if_false]
      by_cases hw : s.wantsMoreDestinations cfg = true
      · simp only [hw, if_true]
        rw [hs]
      · simp only [hw, Bool.false_eq_true, if_false]
        rw [hdone]
        simp

theorem fooPre_of_waits {s x : ps_state} (hw : Waits s) (hl : s.deleted = false)
    (h1 : x.deleted = s.deleted) (h2 : x.direct = s.direct)
    (h3 : x.always_direct = s.always_direct) (h4 : x.never_direct = s.never_direct)
    (h5 : x.acl_checklist = s.acl_checklist) (h6 : x.dnsLookups = s.dnsLookups) :
    FooPre x := by
  refine ⟨h1.trans hl, ?_, ?_⟩
  · intro hd
    rw [h2] at hd
    rw [h6]
    exact (hw.undecided hl hd).1
  · by_cases hd : s.direct = direct_t.DIRECT_UNKNOWN
    · right
      rw [h2, h3, h4]
      refine ⟨hd, ?_⟩
      rcases (hw.undecided hl hd).2 with h | h
      · exact Or.inl h.2
      · exact Or.inr h.2
    · left
      rw [h5]
      exact (hw.decided hl hd).1

theorem fooPre_same {s x : ps_state} (hw : Waits s) (hl : s.deleted = false) (h : Same s x) :
    FooPre x :=
  fooPre_of_waits hw hl h.deleted h.direct h.always_direct h.never_direct h.acl_checklist
    h.dnsLookups

theorem waits_peerSelectDnsPaths (cfg : SquidConfig) (env : Env) {y : ps_state}
    (hl : y.deleted = false) (hi : y.interestedInitiator = true)
    (hd : y.direct ≠ direct_t.DIRECT_UNKNOWN) (ha : y.acl_checklist = none) :
    Waits (peerSelectDnsPaths cfg env y)
    ∧ (peerSelectDnsPaths cfg env y).initiator_ = y.initiator_
    ∧ ((peerSelectDnsPaths cfg env y).deleted = true
      ∨ ((peerSelectDnsPaths cfg env y).dnsLookups ≠ []
        ∧ (peerSelectDnsPaths cfg env y).servers.length ≤ y.servers.length)) := by
  have ho := peerSelectDnsPathsFrom_outcome cfg env y.servers y rfl hi hl
  have hlk : (peerSelectDnsPaths cfg env y).deleted = false →
      (peerSelectDnsPaths cfg env y).dnsLookups ≠ [] := by
    intro hl2
    obtain ⟨paths, _, _, hcase⟩ := ho.outcome
    rcases hcase with ⟨_, _, _, fs, rest, host, _, _, hdns⟩ | ⟨hdel, _⟩
    · intro hnil
      unfold peerSelectDnsPaths at hnil
      rw [hdns] at hnil
      simp at hnil
    · exact absurd (hl2.symm.trans hdel) (by decide)
  refine ⟨⟨fun _ hd2 => ?_, fun hl2 _ => ⟨ho.acl_checklist ha, Or.inr (hlk hl2)⟩⟩,
    ho.initiator, ?_⟩
  · have : (peerSelectDnsPaths cfg env y).direct = y.direct := ho.direct
    rw [this] at hd2
    exact absurd hd2 hd
  · cases hdel : (peerSelectDnsPaths cfg env y).deleted with
    | true => exact Or.inl rfl
    | false => exact Or.inr ⟨hlk hdel, peerSelectDnsPathsFrom_length cfg env y.servers y rfl hi⟩

theorem keeps_ite {s : ps_state} {c : Prop} [Decidable c] {a b : ps_state}
    (ha : Keeps s a) (hb : Keeps s b) : Keeps s (if c then a else b) := by
  split <;> assumption

theorem keeps_foo (cfg : SquidConfig) (env : Env) {s x : ps_state} (hp : FooPre x)
    (hi : x.initiator_ = s.initiator_) : Keeps s (peerSelectFoo cfg env x) :=
  ⟨(waits_peerSelectFoo cfg env hp).1, (waits_peerSelectFoo cfg env hp).2.1.trans hi⟩

theorem keeps_destroy (s x : ps_state) (hi : x.initiator_ = s.initiator_) : Keeps s x.destroy :=
  ⟨waits_of_deleted (destroy_fields x).2.2.2.2.2.2.2.2.1, (destroy_fields x).2.2.2.2.1.trans hi⟩

theorem keeps_peerHandleIcpReply (cfg : SquidConfig) (env : Env) (p : CachePeer) (type : peer_t)
    (header : icp_common_t) {s : ps_state} (hw : Waits s) (hl : s.deleted = false) :
    Keeps s (peerHandleIcpReply cfg env p type header s) := by
  unfold peerHandleIcpReply
  have s0 : ∀ pd : ping_data, Same s { s with ping := pd } :=
    fun _ => ⟨rfl, rfl, rfl, rfl, rfl, rfl, rfl⟩
  have f0 : ∀ pd : ping_data, Frame s { s with ping := pd } :=
    fun _ => ⟨rfl, rfl, rfl, rfl, rfl, rfl, rfl, [], by simp, by simp⟩
  have s1 : Same s (if ((header.opcode == icp_opcode.ICP_MISS
        || header.opcode == icp_opcode.ICP_DECHO) && type == peer_t.PEER_PARENT) = true
      then peerIcpParentMiss cfg env p header
        { s with ping := { s.ping with n_recv := s.ping.n_recv + 1 } }
      else { s with ping := { s.ping with n_recv := s.ping.n_recv + 1 } }) :=
    same_ite ((s0 _).strans (same_peerIcpParentMiss cfg env p header _)) (s0 _)
  have f1 : Frame s (if ((header.opcode == icp_opcode.ICP_MISS
        || header.opcode == icp_opcode.ICP_DECHO) && type == peer_t.PEER_PARENT) = true
      then peerIcpParentMiss cfg env p header
        { s with ping := { s.ping with n_recv := s.ping.n_recv + 1 } }
      else { s with ping := { s.ping with n_recv := s.ping.n_recv + 1 } }) :=
    frame_ite ((f0 _).ftrans (frame_peerIcpParentMiss cfg env p header _)) (f0 _)
  refine keeps_ite ?_ (keeps_ite ?_ ?_)
  · exact keeps_foo cfg env (fooPre_of_waits hw hl rfl rfl rfl rfl rfl rfl) rfl
  · exact ⟨waits_same s1 hw, f1.initiator⟩
  · exact keeps_foo cfg env (fooPre_same hw hl s1) f1.initiator

theorem keeps_peerHandleHtcpReply (cfg : SquidConfig) (env : Env) (p : CachePeer) (type : peer_t)
    (htcp : HtcpReplyData) {s : ps_state} (hw : Waits s) (hl : s.deleted = false) :
    Keeps s (peerHandleHtcpReply cfg env p type htcp s) := by
  unfold peerHandleHtcpReply
  have s0 : ∀ pd : ping_data, Same s { s with ping := pd } :=
    fun _ => ⟨rfl, rfl, rfl, rfl, rfl, rfl, rfl⟩
  have f0 : ∀ pd : ping_data, Frame s { s with ping := pd } :=
    fun _ => ⟨rfl, rfl, rfl, rfl, rfl, rfl, rfl, [], by simp, by simp⟩
  have s1 : Same s (if (type == peer_t.PEER_PARENT) = true
      then peerHtcpParentMiss cfg env p htcp
        { s with ping := { s.ping with n_recv := s.ping.n_recv + 1 } }
      else { s with ping := { s.ping with n_recv := s.ping.n_recv + 1 } }) :=
    same_ite ((s0 _).strans (same_peerHtcpParentMiss cfg env p htcp _)) (s0 _)
  have f1 : Frame s (if (type == peer_t.PEER_PARENT) = true
      then peerHtcpParentMiss cfg env p htcp
        { s with ping := { s.ping with n_recv := s.ping.n_recv + 1 } }
      else { s with ping := { s.ping with n_recv := s.ping.n_recv + 1 } }) :=
    frame_ite ((f0 _).ftrans (frame_peerHtcpParentMiss cfg env p htcp _)) (f0 _)
  refine keeps_ite ?_ (keeps_ite ?_ ?_)
  · exact keeps_foo cfg env (fooPre_of_waits hw hl rfl rfl rfl rfl rfl rfl) rfl
  · exact ⟨waits_same s1 hw, f1.initiator⟩
  · exact keeps_foo cfg env (fooPre_same hw hl s1) f1.initiator

theorem keeps_aclDone (cfg : SquidConfig) (env : Env) (a : allow_t) {s : ps_state}
    (hw : Waits s) (hl : s.deleted = false) (hacl : s.acl_checklist ≠ none) :
    Keeps s (peerCheckAlwaysDirectDone cfg env a s)
    ∧ Keeps s (peerCheckNeverDirectDone cfg env a s) := by
  have hd : s.direct = direct_t.DIRECT_UNKNOWN := by
    by_contra hd
    exact hacl (hw.decided hl hd).1
  have hlk := (hw.undecided hl hd).1
  constructor
  · by_cases hA : a = allow_t.ACCESS_ALLOWED
    · rw [(peerCheckAlwaysDirectDone_eq cfg env a s).1 hA]
      exact keeps_foo cfg env ⟨hl, fun _ => hlk, Or.inl rfl⟩ rfl
    · rw [(peerCheckAlwaysDirectDone_eq cfg env a s).2 hA]
      exact keeps_foo cfg env ⟨hl, fun _ => hlk, Or.inl rfl⟩ rfl
  · by_cases hA : a = allow_t.ACCESS_ALLOWED
    · rw [(peerCheckNeverDirectDone_eq cfg env a s).1 hA]
      exact keeps_foo cfg env ⟨hl, fun _ => hlk, Or.inl rfl⟩ rfl
    · rw [(peerCheckNeverDirectDone_eq cfg env a s).2 hA]
      exact keeps_foo cfg env ⟨hl, fun _ => hlk, Or.inl rfl⟩ rfl

theorem keeps_peerPingTimeout (cfg : SquidConfig) (env : Env) {s : ps_state}
    (hw : Waits s) (hl : s.deleted = false) :
    Keeps s (peerPingTimeout cfg env { s with pingEvent := false }) := by
  unfold peerPingTimeout
  refine keeps_ite ?_ ?_
  · exact keeps_destroy s _ rfl
  · exact keeps_foo cfg env (fooPre_of_waits hw hl rfl rfl rfl rfl rfl rfl) rfl

theorem keeps_noteIp (cfg : SquidConfig) (ip : Ip.Address) {s : ps_state} (hw : Waits s) :
    Keeps s (s.noteIp cfg ip) := by
  unfold ps_state.noteIp
  refine keeps_ite (keeps_destroy s s rfl) (keeps_ite ⟨hw, rfl⟩ ?_)
  split
  · exact ⟨hw, rfl⟩
  · dsimp only
    refine keeps_ite ⟨hw, rfl⟩ ?_
    unfold ps_state.handlePath
    dsimp only
    refine keeps_ite ?_ ?_
    · exact ⟨waits_same (s := s) ⟨rfl, rfl, rfl, rfl, rfl, rfl, rfl⟩ hw, rfl⟩
    · exact ⟨waits_same (s := s) ⟨rfl, rfl, rfl, rfl, rfl, rfl, rfl⟩ hw, rfl⟩

theorem keeps_noteIps {cfg : SquidConfig} {req : HttpRequest} (env : Env) (ia : Bool)
    (dnsError : String) (rest : List String) {s : ps_state}
    (h : RunInv cfg req s) (hw : Waits s) (hl : s.deleted = false) (hdns : s.dnsLookups ≠ []) :
    Keeps s (ps_state.noteIps cfg env { s with dnsLookups := rest } ia dnsError)
    ∧ ((ps_state.noteIps cfg env { s with dnsLookups := rest } ia dnsError).deleted = true
      ∨ ((ps_state.noteIps cfg env { s with dnsLookups := rest } ia dnsError).dnsLookups ≠ []
        ∧ (ps_state.noteIps cfg env { s with dnsLookups := rest } ia dnsError).servers.length
            < s.servers.length)) := by
  obtain ⟨fs, next, hs, _⟩ := h.head hl hdns
  have hd : s.direct ≠ direct_t.DIRECT_UNKNOWN := by
    intro hd
    exact hdns (hw.undecided hl hd).1
  have hacl := (hw.decided hl hd).1
  unfold ps_state.noteIps
  cases hi : s.interestedInitiator with
  | false =>
    have hi2 : ({ s with dnsLookups := rest } : ps_state).interestedInitiator = false := hi
    simp only [hi2, Bool.not_false, if_true]
    exact ⟨keeps_destroy s _ rfl, Or.inl (destroy_fields _).2.2.2.2.2.2.2.2.1⟩
  | true =>
    have hi2 : ({ s with dnsLookups := rest } : ps_state).interestedInitiator = true := hi
    simp only [hi2, Bool.not_true, Bool.false_eq_true, if_false]
    simp only [hs]
    have key : ∀ e : Option ErrorState,
        Keeps s (peerSelectDnsPaths cfg env
          { s with dnsLookups := rest, lastError := e, servers := next })
        ∧ ((peerSelectDnsPaths cfg env
              { s with dnsLookups := rest, lastError := e, servers := next }).deleted = true
          ∨ ((peerSelectDnsPaths cfg env
                { s with dnsLookups := rest, lastError := e, servers := next }).dnsLookups ≠ []
            ∧ (peerSelectDnsPaths cfg env
                { s with dnsLookups := rest, lastError := e, servers := next }).servers.length
                < (fs :: next).length)) := by
      intro e
      obtain ⟨k1, k2, k3⟩ := waits_peerSelectDnsPaths cfg env
        (y := { s with dnsLookups := rest, lastError := e, servers := next }) hl hi hd hacl
      refine ⟨⟨k1, k2⟩, ?_⟩
      rcases k3 with k3 | ⟨k3, k4⟩
      · exact Or.inl k3
      · refine Or.inr ⟨k3, ?_⟩
        simp only [List.length_cons]
        exact Nat.lt_succ_of_le k4
    cases ia with
    | true =>
      simp only [Bool.not_true, Bool.false_eq_true, if_false]
      exact key s.lastError
    | false =>
      simp only [Bool.not_false, if_true]
      split
      · exact key _
      · exact key _

theorem keeps_step {cfg : SquidConfig} {req : HttpRequest} {s : ps_state} (env : Env)
    (ev : Event) (h1 : ev ≠ Event.initiatorUnsubscribes) (h2 : ev ≠ Event.initiatorGone)
    (h : RunInv cfg req s) (hw : Waits s) : Keeps s (step cfg env s ev) := by
  unfold step
  by_cases hd : s.deleted = true
  · rw [if_pos hd]
    exact ⟨hw, rfl⟩
  · have hl : s.deleted = false := by simpa using hd
    rw [if_neg hd]
    cases ev with
    | aclAnswer answer =>
      dsimp only
      split
      · rename_i hacl
        exact (keeps_aclDone cfg env answer hw hl (by rw [hacl]; simp)).1
      · rename_i hacl
        exact (keeps_aclDone cfg env answer hw hl (by rw [hacl]; simp)).2
      · exact ⟨hw, rfl⟩
    | icpReply p type header =>
      exact keeps_ite (keeps_peerHandleIcpReply cfg env p type header hw hl) ⟨hw, rfl⟩
    | htcpReply p type htcp =>
      exact keeps_ite (keeps_peerHandleHtcpReply cfg env p type htcp hw hl) ⟨hw, rfl⟩
    | pingTimeout =>
      exact keeps_ite (keeps_peerPingTimeout cfg env hw hl) ⟨hw, rfl⟩
    | noteIp ip =>
      dsimp only
      split
      · exact ⟨hw, rfl⟩
      · exact keeps_noteIp cfg ip hw
    | noteIps ia dnsError =>
      dsimp only
      split
      · exact ⟨hw, rfl⟩
      · rename_i x y hxy
        exact (keeps_noteIps env ia dnsError _ h hw hl (by rw [hxy]; simp)).1
    | initiatorUnsubscribes => exact absurd rfl h1
    | initiatorGone => exact absurd rfl h2

theorem waits_step {cfg : SquidConfig} {req : HttpRequest} {s : ps_state} (env : Env)
    (ev : Event) (h : RunInv cfg req s) (hw : Waits s) : Waits (step cfg env s ev) := by
  by_cases h1 : ev = Event.initiatorUnsubscribes
  · subst h1
    unfold step
    split
    · exact hw
    · exact waits_same (s := s) ⟨rfl, rfl, rfl, rfl, rfl, rfl, rfl⟩ hw
  · by_cases h2 : ev = Event.initiatorGone
    · subst h2
      unfold step
      split
      · exact hw
      · exact waits_same (s := s) ⟨rfl, rfl, rfl, rfl, rfl, rfl, rfl⟩ hw
    · exact (keeps_step env ev h1 h2 h hw).1

theorem waits_run {cfg : SquidConfig} {req : HttpRequest} (env : Env) (events : List Event) :
    ∀ s : ps_state, RunInv cfg req s → Waits s → Waits (run cfg env s events) := by
  unfold run
  induction events with
  | nil => intro s _ hw; exact hw
  | cons ev t ih =>
    intro s h hw
    rw [List.foldl_cons]
    exact ih _ (runInv_step env ev h) (waits_step env ev h hw)

theorem waits_peerSelect (cfg : SquidConfig) (env : Env) (request : HttpRequest)
    (entry : Option StoreEntry) (events : List Event) :
    Waits (run cfg env (peerSelect cfg env request entry) events) := by
  apply waits_run env events _
    (runInv_peerSelectFoo env (runInv_init cfg _ request entry) rfl)
  exact (waits_peerSelectFoo cfg env ⟨rfl, fun _ => rfl, Or.inl rfl⟩).1

theorem step_aclAnswer_idle (cfg : SquidConfig) (env : Env) (s : ps_state) (a : allow_t)
    (h : s.deleted = true ∨ s.acl_checklist = none) :
    step cfg env s (Event.aclAnswer a) = s := by
  unfold step
  by_cases hd : s.deleted = true
  · rw [if_pos hd]
  · rw [if_neg hd]
    rcases h with h | h
    · exact absurd h hd
    · simp [h]

theorem step_aclAnswer_pending (cfg : SquidConfig) (env : Env) {s : ps_state} (a : allow_t)
    (hw : Waits s) (hl : s.deleted = false) (hd : s.direct = direct_t.DIRECT_UNKNOWN)
    (ha : a ≠ allow_t.ACCESS_DUNNO) :
    ((step cfg env s (Event.aclAnswer a)).always_direct ≠ allow_t.ACCESS_DUNNO
      ∧ (s.never_direct ≠ allow_t.ACCESS_DUNNO →
          (step cfg env s (Event.aclAnswer a)).never_direct ≠ allow_t.ACCESS_DUNNO)
      ∧ s.acl_checklist = some AclList.AlwaysDirect)
    ∨ ((step cfg env s (Event.aclAnswer a)).never_direct ≠ allow_t.ACCESS_DUNNO
      ∧ (s.always_direct ≠ allow_t.ACCESS_DUNNO →
          (step cfg env s (Event.aclAnswer a)).always_direct ≠ allow_t.ACCESS_DUNNO)
      ∧ s.acl_checklist = some AclList.NeverDirect) := by
  have hlk := (hw.undecided hl hd).1
  rcases (hw.undecided hl hd).2 with ⟨hacl, _⟩ | ⟨hacl, _⟩
  · left
    have hstep : step cfg env s (Event.aclAnswer a) = peerCheckAlwaysDirectDone cfg env a s := by
      unfold step
      simp [hl, hacl]
    rw [hstep]
    by_cases hA : a = allow_t.ACCESS_ALLOWED
    · rw [(peerCheckAlwaysDirectDone_eq cfg env a s).1 hA]
      obtain ⟨_, _, k3, k4⟩ := waits_peerSelectFoo cfg env
        (s := { s with acl_checklist := none, always_direct := a,
                       direct := direct_t.DIRECT_YES })
        ⟨hl, fun _ => hlk, Or.inl rfl⟩
      rw [k3, k4]
      exact ⟨ha, fun h => h, hacl⟩
    · rw [(peerCheckAlwaysDirectDone_eq cfg env a s).2 hA]
      obtain ⟨_, _, k3, k4⟩ := waits_peerSelectFoo cfg env
        (s := { s with acl_checklist := none, always_direct := a })
        ⟨hl, fun _ => hlk, Or.inl rfl⟩
      rw [k3, k4]
      exact ⟨ha, fun h => h, hacl⟩
  · right
    have hstep : step cfg env s (Event.aclAnswer a) = peerCheckNeverDirectDone cfg env a s := by
      unfold step
      simp [hl, hacl]
    rw [hstep]
    by_cases hA : a = allow_t.ACCESS_ALLOWED
    · rw [(peerCheckNeverDirectDone_eq cfg env a s).1 hA]
      obtain ⟨_, _, k3, k4⟩ := waits_peerSelectFoo cfg env
        (s := { s with acl_checklist := none, never_direct := a,
                       direct := direct_t.DIRECT_NO })
        ⟨hl, fun _ => hlk, Or.inl rfl⟩
      rw [k3, k4]
      exact ⟨ha, fun h => h, hacl⟩
    · rw [(peerCheckNeverDirectDone_eq cfg env a s).2 hA]
      obtain ⟨_, _, k3, k4⟩ := waits_peerSelectFoo cfg env
        (s := { s with acl_checklist := none, never_direct := a })
        ⟨hl, fun _ => hlk, Or.inl rfl⟩
      rw [k3, k4]
      exact ⟨ha, fun h => h, hacl⟩

theorem settled_of_answers {s : ps_state} (hw : Waits s)
    (h1 : s.always_direct ≠ allow_t.ACCESS_DUNNO) (h2 : s.never_direct ≠ allow_t.ACCESS_DUNNO) :
    s.deleted = true ∨ s.direct ≠ direct_t.DIRECT_UNKNOWN := by
  cases hl : s.deleted with
  | true => exact Or.inl rfl
  | false =>
    right
    intro hd
    rcases (hw.undecided hl hd).2 with ⟨_, h⟩ | ⟨_, h⟩
    · exact h1 h
    · exact h2 h

theorem acl_answers_settle {cfg : SquidConfig} {req : HttpRequest} (env : Env) {s : ps_state}
    (a1 a2 : allow_t) (ha1 : a1 ≠ allow_t.ACCESS_DUNNO) (ha2 : a2 ≠ allow_t.ACCESS_DUNNO)
    (h : RunInv cfg req s) (hw : Waits s) :
    (step cfg env (step cfg env s (Event.aclAnswer a1)) (Event.aclAnswer a2)).deleted = true
    ∨ (step cfg env (step cfg env s (Event.aclAnswer a1)) (Event.aclAnswer a2)).direct
        ≠ direct_t.DIRECT_UNKNOWN := by
  have idle : ∀ (t : ps_state) (a : allow_t), Waits t →
      (t.deleted = true ∨ t.direct ≠ direct_t.DIRECT_UNKNOWN) →
      step cfg env t (Event.aclAnswer a) = t := by
    intro t a hwt ht
    apply step_aclAnswer_idle
    cases hl : t.deleted with
    | true => exact Or.inl rfl
    | false =>
      rcases ht with ht | ht
      · exact absurd (hl.symm.trans ht) (by decide)
      · exact Or.inr (hwt.decided hl ht).1
  by_cases hs : s.deleted = true ∨ s.direct ≠ direct_t.DIRECT_UNKNOWN
  · rw [idle s a1 hw hs, idle s a2 hw hs]
    exact hs
  · have hl : s.deleted = false := by
      cases hl : s.deleted with
      | true => exact absurd (Or.inl hl) hs
      | false => rfl
    have hd : s.direct = direct_t.DIRECT_UNKNOWN := by
      by_contra hd
      exact hs (Or.inr hd)
    have h1 := runInv_step env (Event.aclAnswer a1) h
    have hw1 := waits_step env (Event.aclAnswer a1) h hw
    have hw2 := waits_step env (Event.aclAnswer a2) h1 hw1
    have p1 := step_aclAnswer_pending cfg env a1 hw hl hd ha1
    by_cases hs1 : (step cfg env s (Event.aclAnswer a1)).deleted = true
        ∨ (step cfg env s (Event.aclAnswer a1)).direct ≠ direct_t.DIRECT_UNKNOWN
    · rw [idle _ a2 hw1 hs1]
      exact hs1
    · have hl1 : (step cfg env s (Event.aclAnswer a1)).deleted = false := by
        cases hl1 : (step cfg env s (Event.aclAnswer a1)).deleted with
        | true => exact absurd (Or.inl hl1) hs1
        | false => rfl
      have hd1 : (step cfg env s (Event.aclAnswer a1)).direct = direct_t.DIRECT_UNKNOWN := by
        by_contra hd1
        exact hs1 (Or.inr hd1)
      have p2 := step_aclAnswer_pending cfg env a2 hw1 hl1 hd1 ha2
      have hwait := (hw1.undecided hl1 hd1).2
      apply settled_of_answers hw2
      · rcases p2 with ⟨r1, _, _⟩ | ⟨_, r2, r3⟩
        · exact r1
        · rcases p1 with ⟨q1, _, _⟩ | ⟨q1, _, _⟩
          · exact r2 q1
          · rcases hwait with ⟨w1, _⟩ | ⟨_, w2⟩
            · rw [r3] at w1
              exact absurd w1 (by decide)
            · exact absurd w2 q1
      · rcases p2 with ⟨_, r2, r3⟩ | ⟨r1, _, _⟩
        · rcases p1 with ⟨q1, _, _⟩ | ⟨q1, _, _⟩
          · rcases hwait with ⟨_, w2⟩ | ⟨w1, _⟩
            · exact absurd w2 q1
            · rw [r3] at w1
              exact absurd w1 (by decide)
          · exact r2 q1
        · exact r1

theorem neighbors_after_waiting (cfg : SquidConfig) (env : Env) (s : ps_state)
    (h : s.pingStatusIs ping_status_t.PING_WAITING = true) :
    (peerSelectFooNeighbors cfg env s).2 = false := by
  unfold ps_state.pingStatusIs at h
  cases he : s.entry with
  | none => rw [he] at h; exact absurd h (by decide)
  | some e =>
    rw [he] at h
    have hst : e.ping_status = ping_status_t.PING_WAITING := by simpa using h
    unfold peerSelectFooNeighbors ps_state.pingStatusIs
    simp [he, hst]

theorem peerSelectFoo_after_waiting (cfg : SquidConfig) (env : Env) (x : ps_state)
    (hl : x.deleted = false) (hdir : x.direct ≠ direct_t.DIRECT_UNKNOWN)
    (hacl : x.acl_checklist = none)
    (hp : x.pingStatusIs ping_status_t.PING_WAITING = true) :
    (peerSelectFoo cfg env x).deleted = true ∨ (peerSelectFoo cfg env x).dnsLookups ≠ [] := by
  cases hi : x.interestedInitiator with
  | false =>
    rw [peerSelectFoo_gone cfg env x hi]
    exact Or.inl (destroy_fields _).2.2.2.2.2.2.2.2.1
  | true =>
    rw [peerSelectFoo_through cfg env x hi (fun h => hdir h.1) (fun h => hdir h.1)]
    rw [(peerSelectFooDirect_direct cfg env x).1 hdir]
    rw [neighbors_after_waiting cfg env x hp]
    simp only [Bool.false_eq_true, if_false]
    have q := (quiet_peerSelectFooNeighbors cfg env x).qtrans
      (quiet_peerSelectFooSwitch cfg env _)
    exact (waits_peerSelectDnsPaths cfg env (q.deleted.trans hl)
      ((interested_congr q.initiator).trans hi) (by rw [q.direct]; exact hdir)
      (q.acl_checklist.trans hacl)).2.2.imp id (fun h => h.1)

theorem hit_starts_dns (cfg : SquidConfig) (env : Env) {s : ps_state}
    (p : CachePeer) (type : peer_t) (fl pad : Nat)
    (hw : Waits s) (hs : s.deleted = true ∨ s.direct ≠ direct_t.DIRECT_UNKNOWN) :
    (step cfg env s (Event.icpReply p type
        { opcode := icp_opcode.ICP_HIT, flags := fl, pad := pad })).deleted = true
    ∨ (step cfg env s (Event.icpReply p type
        { opcode := icp_opcode.ICP_HIT, flags := fl, pad := pad })).dnsLookups ≠ [] := by
  unfold step
  by_cases hd : s.deleted = true
  · rw [if_pos hd]
    exact Or.inl hd
  · have hl : s.deleted = false := by simpa using hd
    rw [if_neg hd]
    have hdir : s.direct ≠ direct_t.DIRECT_UNKNOWN := by
      rcases hs with h | h
      · exact absurd h hd
      · exact h
    obtain ⟨hacl, hwait⟩ := hw.decided hl hdir
    dsimp only
    by_cases hp : s.pingStatusIs ping_status_t.PING_WAITING = true
    · rw [if_pos hp]
      unfold peerHandleIcpReply
      simp only [beq_self_eq_true, if_true]
      refine peerSelectFoo_after_waiting cfg env _ ?_ ?_ ?_ ?_
      · exact hl
      · exact hdir
      · exact hacl
      · exact hp
    · rw [if_neg hp]
      rcases hwait with h | h
      · exact absurd h hp
      · exact Or.inr h

theorem run_deleted (cfg : SquidConfig) (env : Env) (events : List Event) :
    ∀ s : ps_state, s.deleted = true → run cfg env s events = s := by
  unfold run
  induction events with
  | nil => intro s _; rfl
  | cons ev t ih =>
    intro s hd
    have hstep : step cfg env s ev = s := by
      unfold step
      rw [if_pos hd]
    rw [List.foldl_cons, hstep]
    exact ih s hd

theorem dns_answers_end {cfg : SquidConfig} {req : HttpRequest} (env : Env) (ia : Bool)
    (dnsError : String) :
    ∀ (n : Nat) (s : ps_state), RunInv cfg req s → Waits s →
      (s.deleted = true ∨ s.dnsLookups ≠ []) → (s.deleted = false → s.servers.length ≤ n) →
      (run cfg env s (List.replicate n (Event.noteIps ia dnsError))).deleted = true := by
  intro n
  induction n with
  | zero =>
    intro s h _ hs hn
    cases hl : s.deleted with
    | true => exact hl
    | false =>
      rcases hs with hs | hs
      · exact absurd (hl.symm.trans hs) (by decide)
      · obtain ⟨fs, rest, hsv, _⟩ := h.head hl hs
        have hn2 := hn hl
        rw [hsv] at hn2
        simp at hn2
  | succ n ih =>
    intro s h hw hs hn
    cases hl : s.deleted with
    | true =>
      rw [run_deleted cfg env _ s hl]
      exact hl
    | false =>
      have hdns : s.dnsLookups ≠ [] := by
        rcases hs with hs | hs
        · exact absurd (hl.symm.trans hs) (by decide)
        · exact hs
      have h1 := runInv_step env (Event.noteIps ia dnsError) h
      have hw1 := waits_step env (Event.noteIps ia dnsError) h hw
      have key : (step cfg env s (Event.noteIps ia dnsError)).deleted = true
          ∨ ((step cfg env s (Event.noteIps ia dnsError)).dnsLookups ≠ []
            ∧ (step cfg env s (Event.noteIps ia dnsError)).servers.length
                < s.servers.length) := by
        have hd : ¬ s.deleted = true := by rw [hl]; decide
        unfold step
        rw [if_neg hd]
        dsimp only
        split
        · rename_i hnil
          exact absurd hnil hdns
        · exact (keeps_noteIps env ia dnsError _ h hw hl hdns).2
      have hrun : run cfg env s (List.replicate (n + 1) (Event.noteIps ia dnsError))
          = run cfg env (step cfg env s (Event.noteIps ia dnsError))
              (List.replicate n (Event.noteIps ia dnsError)) := by
        unfold run
        rw [List.replicate_succ, List.foldl_cons]
      rw [hrun]
      apply ih _ h1 hw1
      · exact key.imp id (fun k => k.1)
      · intro hlt
        have hn2 := hn hl
        rcases key with k | k
        · exact absurd (hlt.symm.trans k) (by decide)
        · omega

theorem initiator_run {cfg : SquidConfig} {req : HttpRequest} (env : Env) :
    ∀ (events : List Event) (s : ps_state), RunInv cfg req s → Waits s →
      (∀ ev ∈ events, ev ≠ Event.initiatorUnsubscribes ∧ ev ≠ Event.initiatorGone) →
      (run cfg env s events).initiator_ = s.initiator_ := by
  unfold run
  intro events
  induction events with
  | nil => intro s _ _ _; rfl
  | cons ev t ih =>
    intro s h hw hev
    rw [List.foldl_cons]
    have h1 := hev ev (List.mem_cons_self _ _)
    rw [ih _ (runInv_step env ev h) (waits_step env ev h hw)
      (fun e he => hev e (List.mem_cons_of_mem _ he))]
    exact (keeps_step env ev h1.1 h1.2 h hw).2

theorem selection_ends (cfg : SquidConfig) (env : Env) (request : HttpRequest)
    (entry : Option StoreEntry) (events : List Event) (a1 a2 : allow_t) (p : CachePeer)
    (type : peer_t) (ia : Bool) (dnsError : String)
    (ha1 : a1 ≠ allow_t.ACCESS_DUNNO) (ha2 : a2 ≠ allow_t.ACCESS_DUNNO)
    (hi : (run cfg env (peerSelect cfg env request entry) events).interestedInitiator = true) :
    ∃ n : Nat,
      (run cfg env (peerSelect cfg env request entry)
        (events ++ [Event.aclAnswer a1, Event.aclAnswer a2,
            Event.icpReply p type { opcode := icp_opcode.ICP_HIT, flags := 0, pad := 0 }]
          ++ List.replicate n (Event.noteIps ia dnsError))).deleted = true
      ∧ countNoteDestinationsEnd
          (run cfg env (peerSelect cfg env request entry)
            (events ++ [Event.aclAnswer a1, Event.aclAnswer a2,
                Event.icpReply p type { opcode := icp_opcode.ICP_HIT, flags := 0, pad := 0 }]
              ++ List.replicate n (Event.noteIps ia dnsError))).calls = 1 := by
  have h := runInv_peerSelect cfg env request entry events
  have hw := waits_peerSelect cfg env request entry events
  have hall : ∀ n : Nat, ∀ ev ∈ [Event.aclAnswer a1, Event.aclAnswer a2,
      Event.icpReply p type { opcode := icp_opcode.ICP_HIT, flags := 0, pad := 0 }]
        ++ List.replicate n (Event.noteIps ia dnsError),
      ev ≠ Event.initiatorUnsubscribes ∧ ev ≠ Event.initiatorGone := by
    intro n ev hev
    rcases List.mem_append.mp hev with hev | hev
    · simp only [List.mem_cons, List.mem_singleton, List.not_mem_nil, or_false] at hev
      rcases hev with hev | hev | hev <;> subst hev <;> exact ⟨by simp, by simp⟩
    · rw [List.eq_of_mem_replicate hev]
      exact ⟨by simp, by simp⟩
  have hsplit : ∀ n : Nat, run cfg env (peerSelect cfg env request entry)
      (events ++ [Event.aclAnswer a1, Event.aclAnswer a2,
          Event.icpReply p type { opcode := icp_opcode.ICP_HIT, flags := 0, pad := 0 }]
        ++ List.replicate n (Event.noteIps ia dnsError))
      = run cfg env (run cfg env (peerSelect cfg env request entry) events)
          ([Event.aclAnswer a1, Event.aclAnswer a2,
              Event.icpReply p type { opcode := icp_opcode.ICP_HIT, flags := 0, pad := 0 }]
            ++ List.replicate n (Event.noteIps ia dnsError)) := by
    intro n
    unfold run
    rw [List.append_assoc, List.foldl_append]
  generalize run cfg env (peerSelect cfg env request entry) events = s at h hw hi hsplit
  have h1 := runInv_step env (Event.aclAnswer a1) h
  have hw1 := waits_step env (Event.aclAnswer a1) h hw
  have h2 := runInv_step env (Event.aclAnswer a2) h1
  have hw2 := waits_step env (Event.aclAnswer a2) h1 hw1
  have h3 := runInv_step env
    (Event.icpReply p type { opcode := icp_opcode.ICP_HIT, flags := 0, pad := 0 }) h2
  have hw3 := waits_step env
    (Event.icpReply p type { opcode := icp_opcode.ICP_HIT, flags := 0, pad := 0 }) h2 hw2
  have hdns := hit_starts_dns cfg env p type 0 0 hw2
    (acl_answers_settle env a1 a2 ha1 ha2 h hw)
  obtain ⟨n, hn⟩ : ∃ n : Nat,
      (step cfg env (step cfg env (step cfg env s (Event.aclAnswer a1)) (Event.aclAnswer a2))
        (Event.icpReply p type { opcode := icp_opcode.ICP_HIT, flags := 0, pad := 0 })).servers.length
        ≤ n := ⟨_, Nat.le_refl _⟩
  have hend := dns_answers_end env ia dnsError n _ h3 hw3 hdns (fun _ => hn)
  refine ⟨n, ?_, ?_⟩
  · rw [hsplit]
    exact hend
  · have hfin := runInv_run env ([Event.aclAnswer a1, Event.aclAnswer a2,
        Event.icpReply p type { opcode := icp_opcode.ICP_HIT, flags := 0, pad := 0 }]
      ++ List.replicate n (Event.noteIps ia dnsError)) s h
    have hini := initiator_run env _ s h hw (hall n)
    rw [hsplit, hfin.ended hend, interested_congr hini, hi]
    rfl

/-- C2, as stated, fails: the initiator loses interest while the DNS lookup for the origin
is outstanding; when the lookup ends the selection state is deleted and
`noteDestinationsEnd` has not been called. -/
theorem noteDestinationsEnd_claim_fails :
    (run (defaultConfig 10) noNeighbors
        (peerSelect (defaultConfig 10) noNeighbors (exampleRequest noFlags) none)
        [Event.initiatorUnsubscribes, Event.noteIps true ""]).deleted = true
    ∧ countNoteDestinationsEnd
        (run (defaultConfig 10) noNeighbors
          (peerSelect (defaultConfig 10) noNeighbors (exampleRequest noFlags) none)
          [Event.initiatorUnsubscribes, Event.noteIps true ""]).calls = 0 := by
  decide

/-- C2, amended: in every run of peer selection on one request, `noteDestinationsEnd` is
never called twice and is not called while the selection state exists; once the state is
deleted it has been called exactly once if the initiator was still interested, and not at
all if the initiator was gone or had unsubscribed (the selection was aborted). And a run
whose initiator is still interested does come to that end: after two answers other than
DUNNO to the ACL checks, an ICP hit from a neighbor and the end of enough DNS lookups, the
state is deleted and `noteDestinationsEnd` has been called exactly once. -/
theorem noteDestinationsEnd_once (cfg : SquidConfig) (env : Env) (request : HttpRequest)
    (entry : Option StoreEntry) (events : List Event) :
    countNoteDestinationsEnd (run cfg env (peerSelect cfg env request entry) events).calls ≤ 1
    ∧ ((run cfg env (peerSelect cfg env request entry) events).deleted = false →
        countNoteDestinationsEnd
          (run cfg env (peerSelect cfg env request entry) events).calls = 0)
    ∧ ((run cfg env (peerSelect cfg env request entry) events).deleted = true →
        (run cfg env (peerSelect cfg env request entry) events).interestedInitiator = true →
        countNoteDestinationsEnd
          (run cfg env (peerSelect cfg env request entry) events).calls = 1)
    ∧ ((run cfg env (peerSelect cfg env request entry) events).deleted = true →
        (run cfg env (peerSelect cfg env request entry) events).interestedInitiator = false →
        countNoteDestinationsEnd
          (run cfg env (peerSelect cfg env request entry) events).calls = 0)
    ∧ ((run cfg env (peerSelect cfg env request entry) events).interestedInitiator = true →
        ∀ (a1 a2 : allow_t) (p : CachePeer) (type : peer_t) (ia : Bool) (dnsError : String),
          a1 ≠ allow_t.ACCESS_DUNNO → a2 ≠ allow_t.ACCESS_DUNNO →
          ∃ n : Nat,
            (run cfg env (peerSelect cfg env request entry)
              (events ++ [Event.aclAnswer a1, Event.aclAnswer a2,
                  Event.icpReply p type { opcode := icp_opcode.ICP_HIT, flags := 0, pad := 0 }]
                ++ List.replicate n (Event.noteIps ia dnsError))).deleted = true
            ∧ countNoteDestinationsEnd
                (run cfg env (peerSelect cfg env request entry)
                  (events ++ [Event.aclAnswer a1, Event.aclAnswer a2,
                      Event.icpReply p type
                        { opcode := icp_opcode.ICP_HIT, flags := 0, pad := 0 }]
                    ++ List.replicate n (Event.noteIps ia dnsError))).calls = 1) := by
  refine ⟨?_, ?_, ?_, ?_, ?_⟩
  rotate_right
  · intro hi a1 a2 p type ia dnsError ha1 ha2
    exact selection_ends cfg env request entry events a1 a2 p type ia dnsError ha1 ha2 hi
  all_goals
    have h := runInv_peerSelect cfg env request entry events
    generalize run cfg env (peerSelect cfg env request entry) events = s at h
  · cases hd : s.deleted with
    | false => rw [h.live hd]; omega
    | true =>
      rw [h.ended hd]
      split <;> omega
  · exact h.live
  · intro hd hi
    rw [h.ended hd, hi]
    rfl
  · intro hd hi
    rw [h.ended hd, hi]
    rfl

/-- Witness for C2: a plain request without neighbors; the origin is looked up, DNS gives
one address, and when the lookup ends the state is deleted after exactly one
`noteDestinationsEnd`, the last call made. And the selection of a hierarchical request
that waits for the answer of `always_direct`, with two parents to ping, comes to its end
with one `noteDestinationsEnd`. -/
theorem noteDestinationsEnd_once_witness :
    (run (defaultConfig 10) noNeighbors
        (peerSelect (defaultConfig 10) noNeighbors (exampleRequest noFlags) none)
        [Event.noteIp (Ip.Address.ofOctets 198 51 100 7 0), Event.noteIps true ""]).deleted = true
    ∧ (run (defaultConfig 10) noNeighbors
        (peerSelect (defaultConfig 10) noNeighbors (exampleRequest noFlags) none)
        [Event.noteIp (Ip.Address.ofOctets 198 51 100 7 0), Event.noteIps true ""]).calls
      = [InitiatorCall.noteDestination
           { remote := Ip.Address.ofOctets 198 51 100 7 80, peerType := hier_code.HIER_DIRECT,
             peer := none },
         InitiatorCall.noteDestinationsEnd none]
    ∧ countNoteDestinationsEnd
        (run (defaultConfig 10) noNeighbors
          (peerSelect (defaultConfig 10) noNeighbors (exampleRequest noFlags) none)
          [Event.noteIp (Ip.Address.ofOctets 198 51 100 7 0), Event.noteIps true ""]).calls = 1
    ∧ (run aclConfig twoParents
        (peerSelect aclConfig twoParents
          (exampleRequest { noFlags with hierarchical := true }) (some newEntry))
        []).interestedInitiator = true
    ∧ ∃ n : Nat,
        (run aclConfig twoParents
          (peerSelect aclConfig twoParents
          (exampleRequest { noFlags with hierarchical := true }) (some newEntry))
          ([] ++ [Event.aclAnswer allow_t.ACCESS_DENIED, Event.aclAnswer allow_t.ACCESS_DENIED,
              Event.icpReply parentA peer_t.PEER_PARENT
                { opcode := icp_opcode.ICP_HIT, flags := 0, pad := 0 }]
            ++ List.replicate n (Event.noteIps true ""))).deleted = true
        ∧ countNoteDestinationsEnd
            (run aclConfig twoParents
              (peerSelect aclConfig twoParents
          (exampleRequest { noFlags with hierarchical := true }) (some newEntry))
              ([] ++ [Event.aclAnswer allow_t.ACCESS_DENIED,
                  Event.aclAnswer allow_t.ACCESS_DENIED,
                  Event.icpReply parentA peer_t.PEER_PARENT
                    { opcode := icp_opcode.ICP_HIT, flags := 0, pad := 0 }]
                ++ List.replicate n (Event.noteIps true ""))).calls = 1 :=
  ⟨by decide, by decide,
    (noteDestinationsEnd_once (defaultConfig 10) noNeighbors (exampleRequest noFlags) none
      [Event.noteIp (Ip.Address.ofOctets 198 51 100 7 0), Event.noteIps true ""]).2.2.1
      (by decide) (by decide),
    by decide,
    (noteDestinationsEnd_once aclConfig twoParents
          (exampleRequest { noFlags with hierarchical := true })
      (some newEntry) []).2.2.2.2 (by decide) allow_t.ACCESS_DENIED allow_t.ACCESS_DENIED
      parentA peer_t.PEER_PARENT true "" (by decide) (by decide)⟩

/-! ## NetDB: the exchange record -/

theorem truncToInt_floor {q : ℚ} (h : 0 ≤ q) : truncToInt q = ⌊q⌋ := by
  unfold truncToInt
  rw [Rat.floor_def, Int.tdiv_eq_ediv (Rat.num_nonneg.mpr h) (Int.ofNat_nonneg _)]

theorem truncToInt_ceil {q : ℚ} (h : q ≤ 0) : truncToInt q = ⌈q⌉ := by
  have h1 : truncToInt q = -truncToInt (-q) := by
    unfold truncToInt
    rw [Rat.neg_num, Rat.neg_den, Int.neg_tdiv, neg_neg]
  rw [h1, truncToInt_floor (neg_nonneg.mpr h), Int.floor_neg, neg_neg]

theorem ntohl_htonlBytes (j : Int) :
    ∃ b0 b1 b2 b3 : Nat, htonlBytes j = [b0, b1, b2, b3]
      ∧ ((ntohl b0 b1 b2 b3 : Nat) : Int) = j % 2 ^ 32 := by
  obtain ⟨b0, b1, b2, b3, hb, h0, h1, h2, h3, hv⟩ := htonlBytes_value j
  refine ⟨b0, b1, b2, b3, hb, ?_⟩
  unfold ntohl
  rw [Nat.mod_eq_of_lt h0, Nat.mod_eq_of_lt h1, Nat.mod_eq_of_lt h2, Nat.mod_eq_of_lt h3]
  exact hv

theorem fieldValues_writeRecord (n : netdbEntry) :
    ((rttFieldValue (netdbWriteRecord [] n) : Nat) : Int)
        = truncToInt (toDouble (n.rtt * 1000)) % 2 ^ 32
    ∧ ((hopsFieldValue (netdbWriteRecord [] n) : Nat) : Int)
        = truncToInt (toDouble (n.hops * 1000)) % 2 ^ 32 := by
  obtain ⟨r0, r1, r2, r3, hr, hrv⟩ := ntohl_htonlBytes (truncToInt (toDouble (n.rtt * 1000)))
  obtain ⟨h0, h1, h2, h3, hh, hhv⟩ := ntohl_htonlBytes (truncToInt (toDouble (n.hops * 1000)))
  have hrec : netdbWriteRecord [] n
      = [NETDB_EX_NETWORK, n.network.bits / 2 ^ 24 % 256, n.network.bits / 2 ^ 16 % 256,
          n.network.bits / 2 ^ 8 % 256, n.network.bits % 256,
          NETDB_EX_RTT, r0, r1, r2, r3, NETDB_EX_HOPS, h0, h1, h2, h3] := by
    simp [netdbWriteRecord, inAddrBytes, hr, hh]
  rw [hrec]
  exact ⟨hrv, hhv⟩

/-- The integer part of the double product `q`, for `0 <= q <= 2 ^ 31`, as the field of a
record carries it. -/
theorem truncToInt_toDouble_field {q : ℚ} (h0 : 0 ≤ q) (h1 : q ≤ 2 ^ 31) :
    truncToInt (toDouble q) % 2 ^ 32 = ⌊toDouble q⌋
    ∧ ⌊q⌋ ≤ ⌊toDouble q⌋ ∧ ⌊toDouble q⌋ ≤ ⌊q⌋ + 1
    ∧ (toDouble q = q → ⌊toDouble q⌋ = ⌊q⌋) := by
  have hd0 : 0 ≤ toDouble q := toDouble_nonneg q h0
  have hlt : q < 2 ^ 53 := lt_of_le_of_lt h1 (by norm_num)
  have habs : |q| < 2 ^ 53 := by rwa [abs_of_nonneg h0]
  have hd1 : toDouble q ≤ ((2 ^ 31 : Int) : ℚ) :=
    toDouble_le_int q (2 ^ 31) habs (by push_cast; exact h1)
  obtain ⟨f1, f2, _⟩ := floor_toDouble q h0 hlt
  refine ⟨?_, f1, f2, fun he => by rw [he]⟩
  rw [truncToInt_floor hd0]
  have hf0 : 0 ≤ ⌊toDouble q⌋ := Int.floor_nonneg.mpr hd0
  have hf1 : ⌊toDouble q⌋ < 2 ^ 32 := by
    rw [Int.floor_lt]
    push_cast at hd1 ⊢
    exact lt_of_le_of_lt hd1 (by norm_num)
  exact Int.emod_eq_of_lt hf0 hf1

/-- C11, as stated, fails: the entry for 10.0.0.0 whose `rtt` and `hops` are the doubles
nearest to 5/3 and 8/3 is exported; the double products `rtt * 1000` and `hops * 1000`
are 1666.67 and 2666.67, which round to 1667 and 2667, and the record carries 1666 and
2666 (bytes `00 00 06 82` and `00 00 0A 6A`). -/
theorem netdbBinaryExchange_round_claim_fails :
    netdbExported thirdsEntry = true
    ∧ netdbBinaryExchange { addr_table := [thirdsEntry], host_table := [] }
        = [[0x01, 0x0A, 0x00, 0x00, 0x00, 0x02, 0x00, 0x00, 0x06, 0x82,
            0x03, 0x00, 0x00, 0x0A, 0x6A]]
    ∧ round (toDouble (thirdsEntry.rtt * 1000)) = 1667
    ∧ round (thirdsEntry.rtt * 1000) = 1667
    ∧ rttFieldValue (netdbWriteRecord [] thirdsEntry) = 1666
    ∧ round (toDouble (thirdsEntry.hops * 1000)) = 2667
    ∧ round (thirdsEntry.hops * 1000) = 2667
    ∧ hopsFieldValue (netdbWriteRecord [] thirdsEntry) = 2666 := by
  have r1 : thirdsEntry.rtt = 7505999378950827 / 4503599627370496 := by decide!
  have r2 : toDouble (thirdsEntry.rtt * 1000) = 7330077518506667 / 4398046511104 := by decide!
  have s1 : thirdsEntry.hops = 6004799503160661 / 2251799813685248 := by decide!
  have s2 : toDouble (thirdsEntry.hops * 1000) = 5864062014805333 / 2199023255552 := by decide!
  have e1 : truncToInt (toDouble (thirdsEntry.rtt * 1000)) = 1666 := by decide!
  have e2 : truncToInt (toDouble (thirdsEntry.hops * 1000)) = 2666 := by decide!
  have e3 : netdbExported thirdsEntry = true := by decide!
  have e4 : netdbWriteRecord [] thirdsEntry
      = [0x01, 0x0A, 0x00, 0x00, 0x00, 0x02, 0x00, 0x00, 0x06, 0x82,
          0x03, 0x00, 0x00, 0x0A, 0x6A] := by
    simp only [netdbWriteRecord, e1, e2]
    decide
  refine ⟨e3, ?_, ?_, ?_, ?_, ?_, ?_, ?_⟩
  · simp only [netdbBinaryExchange, List.foldl_cons, List.foldl_nil, netdbBinaryExchangeStep,
      e3, e4]
    decide
  · rw [r2, round_eq, Int.floor_eq_iff]
    norm_num
  · rw [r1, round_eq, Int.floor_eq_iff]
    norm_num
  · rw [e4]
    decide
  · rw [s2, round_eq, Int.floor_eq_iff]
    norm_num
  · rw [s1, round_eq, Int.floor_eq_iff]
    norm_num
  · rw [e4]
    decide

/-- C11, amended: the integer carried in the RTT field is `(int)(rtt * 1000)` and the one
in the HOPS field is `(int)(hops * 1000)`, as 32-bit numbers, where the product is a
double: the value is truncated toward zero, not rounded. For an exported entry with
positive `rtt` the RTT field carries the floor of the double product `rtt * 1000`, which
is the floor of the exact product or, when the double product is rounded up to the next
integer, that integer; the HOPS field likewise when `hops * 1000` is not negative and
below `2^31`. -/
theorem netdbBinaryExchange_truncates (n : netdbEntry) :
    ((rttFieldValue (netdbWriteRecord [] n) : Nat) : Int)
        = truncToInt (toDouble (n.rtt * 1000)) % 2 ^ 32
    ∧ ((hopsFieldValue (netdbWriteRecord [] n) : Nat) : Int)
        = truncToInt (toDouble (n.hops * 1000)) % 2 ^ 32
    ∧ (∀ q : ℚ, (0 ≤ q → truncToInt q = ⌊q⌋) ∧ (q ≤ 0 → truncToInt q = ⌈q⌉))
    ∧ (netdbExported n = true → 0 < n.rtt →
        ((rttFieldValue (netdbWriteRecord [] n) : Nat) : Int) = ⌊toDouble (n.rtt * 1000)⌋
        ∧ ⌊n.rtt * 1000⌋ ≤ ⌊toDouble (n.rtt * 1000)⌋
        ∧ ⌊toDouble (n.rtt * 1000)⌋ ≤ ⌊n.rtt * 1000⌋ + 1
        ∧ (toDouble (n.rtt * 1000) = n.rtt * 1000 →
            ((rttFieldValue (netdbWriteRecord [] n) : Nat) : Int) = ⌊n.rtt * 1000⌋))
    ∧ (0 ≤ n.hops → n.hops * 1000 < 2 ^ 31 →
        ((hopsFieldValue (netdbWriteRecord [] n) : Nat) : Int) = ⌊toDouble (n.hops * 1000)⌋
        ∧ ⌊n.hops * 1000⌋ ≤ ⌊toDouble (n.hops * 1000)⌋
        ∧ ⌊toDouble (n.hops * 1000)⌋ ≤ ⌊n.hops * 1000⌋ + 1
        ∧ (toDouble (n.hops * 1000) = n.hops * 1000 →
            ((hopsFieldValue (netdbWriteRecord [] n) : Nat) : Int) = ⌊n.hops * 1000⌋)) := by
  obtain ⟨hr, hh⟩ := fieldValues_writeRecord n
  refine ⟨hr, hh, fun q => ⟨truncToInt_floor, truncToInt_ceil⟩, ?_, ?_⟩
  · intro hx hpos
    have hle : n.rtt ≤ 60000 := by
      unfold netdbExported at hx
      by_contra hgt
      have hgt2 : n.rtt > 60000 := lt_of_not_ge hgt
      simp [hgt2] at hx
    have h0 : (0 : ℚ) ≤ n.rtt * 1000 := by positivity
    have h1 : n.rtt * 1000 ≤ 2 ^ 31 := by
      have : n.rtt * 1000 ≤ 60000 * 1000 := by linarith
      exact this.trans (by norm_num)
    obtain ⟨f0, f1, f2, f3⟩ := truncToInt_toDouble_field h0 h1
    rw [hr, f0]
    exact ⟨rfl, f1, f2, f3⟩
  · intro h0 hlt
    have h0' : (0 : ℚ) ≤ n.hops * 1000 := by positivity
    obtain ⟨f0, f1, f2, f3⟩ := truncToInt_toDouble_field h0' hlt.le
    rw [hh, f0]
    exact ⟨rfl, f1, f2, f3⟩

/-- Witness for C11: the exported entry whose `rtt` is the double nearest to 6/5 carries
1200 in its RTT field: the exact product is a little below 1200, with floor 1199, and
the double product is 1200. -/
theorem netdbBinaryExchange_truncates_witness :
    netdbExported fifthsEntry = true ∧ 0 < fifthsEntry.rtt
    ∧ ((rttFieldValue (netdbWriteRecord [] fifthsEntry) : Nat) : Int)
        = ⌊toDouble (fifthsEntry.rtt * 1000)⌋
    ∧ toDouble (fifthsEntry.rtt * 1000) = 1200
    ∧ ⌊fifthsEntry.rtt * 1000⌋ = 1199 := by
  have e3 : netdbExported fifthsEntry = true := by decide!
  have e0 : 0 < fifthsEntry.rtt := by decide!
  have r1 : fifthsEntry.rtt = 5404319552844595 / 4503599627370496 := by decide!
  refine ⟨e3, e0, ((netdbBinaryExchange_truncates fifthsEntry).2.2.2.1 e3 e0).1, by decide!, ?_⟩
  rw [r1, Int.floor_eq_iff]
  norm_num

theorem records_short {p : List Nat} (h : p.length < rec_sz) : records p = [] := by
  unfold records
  rw [Nat.div_eq_of_lt h]
  rfl

theorem records_long {p : List Nat} (h : rec_sz ≤ p.length) :
    records p = p.take rec_sz :: records (p.drop rec_sz) := by
  unfold records
  have h1 : p.length / rec_sz = (p.drop rec_sz).length / rec_sz + 1 := by
    rw [List.length_drop]
    unfold rec_sz at h ⊢
    omega
  rw [h1]
  rfl

theorem trailing_short {p : List Nat} (h : p.length < rec_sz) : trailing p = p := by
  unfold trailing
  rw [Nat.div_eq_of_lt h]
  simp

theorem trailing_long {p : List Nat} (h : rec_sz ≤ p.length) :
    trailing p = trailing (p.drop rec_sz) := by
  unfold trailing
  rw [List.drop_drop, List.length_drop]
  congr 1
  unfold rec_sz at h ⊢
  omega

theorem netdbParseLoop_eq (cfg : Netdb) (squid_curtime : Int) :
    ∀ (fuel : Nat) (p : List Nat) (db : NetDB) (ex : netdbExchangeState),
      p.length ≤ rec_sz * fuel →
      (netdbParseLoop cfg squid_curtime fuel p (db, ex)).1
          = applyUpdates cfg squid_curtime ex.p db (exchangeUpdates (records p))
      ∧ (netdbParseLoop cfg squid_curtime fuel p (db, ex)).2.1
          = { ex with updates := ex.updates ++ exchangeUpdates (records p),
                      deleted := ex.deleted || corruptRecords (records p) }
      ∧ (netdbParseLoop cfg squid_curtime fuel p (db, ex)).2.2
          = if corruptRecords (records p) then none else some (trailing p) := by
  intro fuel
  induction fuel with
  | zero =>
    intro p db ex hlen
    have hp : p = [] := List.eq_nil_of_length_eq_zero (by omega)
    subst hp
    simp [netdbParseLoop, records_short, rec_sz, exchangeUpdates, corruptRecords, trailing,
      applyUpdates]
  | succ fuel ih =>
    intro p db ex hlen
    by_cases hge : rec_sz ≤ p.length
    · have hdrop : (p.drop rec_sz).length ≤ rec_sz * fuel := by
        rw [List.length_drop]
        unfold rec_sz at hge hlen ⊢
        omega
      rw [records_long hge, trailing_long hge]
      rw [netdbParseLoop]
      simp only [ge_iff_le, hge, if_true]
      cases hparse : netdbParseFields (p.take rec_sz) ExchangeRecord.init with
      | none =>
        simp [exchangeUpdates, corruptRecords, hparse, applyUpdates]
      | some r =>
        simp only []
        by_cases ha : r.applied = true
        · have hc : (!r.addr.isAnyAddr && decide (r.rtt > 0)) = true := ha
          simp only [hc, if_true]
          obtain ⟨h1, h2, h3⟩ := ih (p.drop rec_sz)
            (netdbExchangeUpdatePeer cfg squid_curtime db r.addr ex.p r.rtt r.hops)
            { ex with updates := ex.updates ++ [r] } hdrop
          rw [h1, h2, h3]
          simp [exchangeUpdates, corruptRecords, hparse, ha, applyUpdates]
        · have hc : (!r.addr.isAnyAddr && decide (r.rtt > 0)) = false := by
            simpa [ExchangeRecord.applied] using ha
          simp only [hc, Bool.false_eq_true, if_false]
          obtain ⟨h1, h2, h3⟩ := ih (p.drop rec_sz) db ex hdrop
          rw [h1, h2, h3]
          simp [exchangeUpdates, corruptRecords, hparse, ha, applyUpdates]
    · have hlt : p.length < rec_sz := Nat.lt_of_not_le hge
      rw [records_short hlt, trailing_short hlt, netdbParseLoop]
      simp [hge, exchangeUpdates, corruptRecords, applyUpdates]

theorem netdbExchangeHandleReply_eq (cfg : Netdb) (squid_curtime : Int) (db : NetDB)
    (ex : netdbExchangeState) (d : ReceivedData)
    (hv : d.peerValid = true) (he : d.error = false)
    (hs : ex.connstateBody = true ∨ d.scode = 200) :
    (netdbExchangeHandleReply cfg squid_curtime db ex d).1
        = applyUpdates cfg squid_curtime ex.p db
            (exchangeUpdates (records (ex.parsingBuffer ++ d.data)))
    ∧ (netdbExchangeHandleReply cfg squid_curtime db ex d).2.updates
        = ex.updates ++ exchangeUpdates (records (ex.parsingBuffer ++ d.data))
    ∧ (netdbExchangeHandleReply cfg squid_curtime db ex d).2.deleted
        = (ex.deleted || corruptRecords (records (ex.parsingBuffer ++ d.data))
            || d.entryAborted || d.atEof)
    ∧ (netdbExchangeHandleReply cfg squid_curtime db ex d).2.copyRequests
        = (if corruptRecords (records (ex.parsingBuffer ++ d.data)) || d.entryAborted || d.atEof
            then ex.copyRequests else ex.copyRequests + 1)
    ∧ (netdbExchangeHandleReply cfg squid_curtime db ex d).2.p = ex.p
    ∧ (netdbExchangeHandleReply cfg squid_curtime db ex d).2.connstateBody = true
    ∧ (corruptRecords (records (ex.parsingBuffer ++ d.data)) = false →
        (netdbExchangeHandleReply cfg squid_curtime db ex d).2.parsingBuffer
          = trailing (ex.parsingBuffer ++ d.data)) := by
  have hc : (!ex.connstateBody && d.scode != 200) = false := by
    rcases hs with h | h
    · simp [h]
    · simp [h]
  obtain ⟨h1, h2, h3⟩ := netdbParseLoop_eq cfg squid_curtime (ex.parsingBuffer ++ d.data).length
    (ex.parsingBuffer ++ d.data) db
    { ex with connstateBody := true, parsingBuffer := ex.parsingBuffer ++ d.data }
    (by unfold rec_sz; omega)
  unfold netdbExchangeHandleReply
  simp only [hv, he, hc, Bool.not_true, Bool.false_eq_true, if_false]
  rw [h3]
  cases hcor : corruptRecords (records (ex.parsingBuffer ++ d.data)) with
  | true =>
    simp only [if_true]
    rw [h1, h2, hcor]
    simp
  | false =>
    simp only [Bool.false_eq_true, if_false]
    rw [h1, h2, hcor]
    cases d.entryAborted <;> cases d.atEof <;> simp

theorem netdbParseFields_one (t b0 b1 b2 b3 : Nat) (rest : List Nat) (r : ExchangeRecord) :
    netdbParseFields (t :: b0 :: b1 :: b2 :: b3 :: rest) r
      = if t = 1 then
          netdbParseFields rest { r with addr := { isIPv4 := true, bits := ntohl b0 b1 b2 b3,
                                                   port := 0 } }
        else if t = 2 then netdbParseFields rest { r with rtt := (ntohl b0 b1 b2 b3 : ℚ) / 1000 }
        else if t = 3 then netdbParseFields rest { r with hops := (ntohl b0 b1 b2 b3 : ℚ) / 1000 }
        else none := by
  rw [netdbParseFields]
  simp [NETDB_EX_NETWORK, NETDB_EX_RTT, NETDB_EX_HOPS]

theorem netdbParseFields_three (t0 a0 a1 a2 a3 t1 b0 b1 b2 b3 t2 c0 c1 c2 c3 : Nat) :
    ((netdbParseFields [t0, a0, a1, a2, a3, t1, b0, b1, b2, b3, t2, c0, c1, c2, c3]
        ExchangeRecord.init).isSome
      = (validTag t0 && validTag t1 && validTag t2))
    ∧ netdbParseFields [1, a0, a1, a2, a3, 2, b0, b1, b2, b3, 3, c0, c1, c2, c3]
        ExchangeRecord.init
      = some { addr := { isIPv4 := true, bits := ntohl a0 a1 a2 a3, port := 0 },
               rtt := (ntohl b0 b1 b2 b3 : ℚ) / 1000,
               hops := (ntohl c0 c1 c2 c3 : ℚ) / 1000 } := by
  have hend : ∀ r : ExchangeRecord, netdbParseFields [] r = some r := by
    intro r
    rw [netdbParseFields]
    intro tag b0 b1 b2 b3 rest h
    exact List.noConfusion h
  have hvalid : ∀ t : Nat, validTag t = (decide (t = 1) || decide (t = 2) || decide (t = 3)) := by
    intro t
    simp only [validTag, NETDB_EX_NETWORK, NETDB_EX_RTT, NETDB_EX_HOPS, beq_iff_eq,
      Nat.beq_eq_true_eq]
    by_cases h1 : t = 1 <;> by_cases h2 : t = 2 <;> by_cases h3 : t = 3 <;> simp [h1, h2, h3]
  refine ⟨?_, ?_⟩
  · simp only [netdbParseFields_one, hend, hvalid]
    by_cases h01 : t0 = 1 <;> by_cases h02 : t0 = 2 <;> by_cases h03 : t0 = 3 <;>
      by_cases h11 : t1 = 1 <;> by_cases h12 : t1 = 2 <;> by_cases h13 : t1 = 3 <;>
      by_cases h21 : t2 = 1 <;> by_cases h22 : t2 = 2 <;> by_cases h23 : t2 = 3 <;>
      simp [h01, h02, h03, h11, h12, h13, h21, h22, h23]
  · simp [netdbParseFields_one, hend, ExchangeRecord.init]

theorem recordsN_append (a b : Nat) :
    ∀ s : List Nat, recordsN (a + b) s = recordsN a s ++ recordsN b (s.drop (rec_sz * a)) := by
  induction a with
  | zero => intro s; simp [recordsN]
  | succ a ih =>
    intro s
    have h1 : a + 1 + b = (a + b) + 1 := by omega
    rw [h1, recordsN, recordsN, ih, List.drop_drop]
    have h2 : rec_sz + rec_sz * a = rec_sz * (a + 1) := by ring
    rw [h2]
    rfl

theorem recordsN_take (k : Nat) :
    ∀ s : List Nat, recordsN k (s.take (rec_sz * k)) = recordsN k s := by
  induction k with
  | zero => intro s; rfl
  | succ k ih =>
    intro s
    rw [recordsN, recordsN]
    have h1 : (s.take (rec_sz * (k + 1))).take rec_sz = s.take rec_sz := by
      rw [List.take_take]
      congr 1
      unfold rec_sz
      omega
    have h2 : (s.take (rec_sz * (k + 1))).drop rec_sz = (s.drop rec_sz).take (rec_sz * k) := by
      rw [List.drop_take]
      congr 1
    rw [h1, h2, ih]

theorem length_recordsN (k : Nat) : ∀ s : List Nat, (recordsN k s).length = k := by
  induction k with
  | zero => intro s; rfl
  | succ k ih => intro s; rw [recordsN, List.length_cons, ih]

theorem length_records (s : List Nat) : (records s).length = s.length / rec_sz :=
  length_recordsN _ s

theorem records_split (s : List Nat) (i : Nat) (h : rec_sz * i + rec_sz ≤ s.length) :
    ∃ more : List (List Nat),
      records s = records (s.take (rec_sz * i)) ++ ((s.drop (rec_sz * i)).take rec_sz) :: more := by
  obtain ⟨m, hk⟩ : ∃ m : Nat, s.length / rec_sz = i + (m + 1) := by
    have : i + 1 ≤ s.length / rec_sz := by
      rw [Nat.le_div_iff_mul_le (by unfold rec_sz; omega)]
      unfold rec_sz at h ⊢
      omega
    exact ⟨s.length / rec_sz - i - 1, by omega⟩
  have hlen : (s.take (rec_sz * i)).length / rec_sz = i := by
    rw [List.length_take, Nat.min_eq_left (by omega)]
    exact Nat.mul_div_cancel_left i (by unfold rec_sz; omega)
  refine ⟨recordsN m ((s.drop (rec_sz * i)).drop rec_sz), ?_⟩
  have e1 : records (s.take (rec_sz * i)) = recordsN i s := by
    unfold records
    rw [hlen, recordsN_take]
  rw [e1]
  unfold records
  rw [hk, recordsN_append, recordsN]

theorem exchangeUpdates_stop (bad : List Nat) (rest : List (List Nat))
    (h : netdbParseFields bad ExchangeRecord.init = none) :
    ∀ recs : List (List Nat),
      exchangeUpdates (recs ++ bad :: rest) = exchangeUpdates recs
      ∧ corruptRecords (recs ++ bad :: rest) = true := by
  intro recs
  induction recs with
  | nil => simp [exchangeUpdates, corruptRecords, h]
  | cons r t ih =>
    constructor
    · rw [List.cons_append, exchangeUpdates, exchangeUpdates]
      cases netdbParseFields r ExchangeRecord.init with
      | none => rfl
      | some x => simp only []; rw [ih.1]
    · have := ih.2
      unfold corruptRecords at this ⊢
      rw [List.cons_append, List.any_cons, this, Bool.or_true]

theorem length_exchangeUpdates (recs : List (List Nat)) :
    (exchangeUpdates recs).length ≤ recs.length := by
  induction recs with
  | nil => simp [exchangeUpdates]
  | cons r t ih =>
    rw [exchangeUpdates]
    cases netdbParseFields r ExchangeRecord.init with
    | none => simp
    | some x =>
      simp only []
      split <;> simp <;> omega

theorem cons_of_length_succ {l : List Nat} {n : Nat} (h : l.length = n + 1) :
    ∃ x t, l = x :: t ∧ t.length = n := by
  cases l with
  | nil => simp at h
  | cons x t => exact ⟨x, t, rfl, by simpa using h⟩

theorem netdbParseFields_valid (r : List Nat) (h : r.length = rec_sz) :
    (netdbParseFields r ExchangeRecord.init).isSome = validTags r := by
  have h15 : r.length = 14 + 1 := h
  obtain ⟨x0, l0, rfl, h14⟩ := cons_of_length_succ (n := 14) h15
  obtain ⟨x1, l1, rfl, h13⟩ := cons_of_length_succ (n := 13) h14
  obtain ⟨x2, l2, rfl, h12⟩ := cons_of_length_succ (n := 12) h13
  obtain ⟨x3, l3, rfl, h11⟩ := cons_of_length_succ (n := 11) h12
  obtain ⟨x4, l4, rfl, h10⟩ := cons_of_length_succ (n := 10) h11
  obtain ⟨x5, l5, rfl, h9⟩ := cons_of_length_succ (n := 9) h10
  obtain ⟨x6, l6, rfl, h8⟩ := cons_of_length_succ (n := 8) h9
  obtain ⟨x7, l7, rfl, h7⟩ := cons_of_length_succ (n := 7) h8
  obtain ⟨x8, l8, rfl, h6⟩ := cons_of_length_succ (n := 6) h7
  obtain ⟨x9, l9, rfl, h5⟩ := cons_of_length_succ (n := 5) h6
  obtain ⟨x10, l10, rfl, h4⟩ := cons_of_length_succ (n := 4) h5
  obtain ⟨x11, l11, rfl, h3⟩ := cons_of_length_succ (n := 3) h4
  obtain ⟨x12, l12, rfl, h2⟩ := cons_of_length_succ (n := 2) h3
  obtain ⟨x13, l13, rfl, h1⟩ := cons_of_length_succ (n := 1) h2
  obtain ⟨x14, l14, rfl, h0⟩ := cons_of_length_succ (n := 0) h1
  have hl : l14 = [] := List.eq_nil_of_length_eq_zero h0
  subst hl
  rw [(netdbParseFields_three x0 x1 x2 x3 x4 x5 x6 x7 x8 x9 x10 x11 x12 x13 x14).1]
  rfl

theorem getD_record (s : List Nat) (i j : Nat) (hj : j < rec_sz) :
    ((s.drop (rec_sz * i)).take rec_sz).getD j 0 = s.getD (rec_sz * i + j) 0 := by
  simp [List.getD_eq_getElem?_getD, List.getElem?_take, hj, List.getElem?_drop]

/-- C13: in a call of `netdbExchangeHandleReply` that gets to parse (valid peer, no error,
reply status 200), if the byte at a field-tag position (offset 0, 5 or 10) of the complete
record number `i` of the buffer is none of `0x01`, `0x02`, `0x03`, the exchange state is
deleted and no more data is asked for; the peer updates made are those of the records
before record `i`, at most `i` of them, up to the first corrupt record: none is made for
record `i` or a later record. -/
theorem netdbExchangeHandleReply_corrupt (cfg : Netdb) (squid_curtime : Int) (db : NetDB)
    (ex : netdbExchangeState) (d : ReceivedData)
    (hv : d.peerValid = true) (he : d.error = false)
    (hs : ex.connstateBody = true ∨ d.scode = 200) (i j : Nat)
    (hj : j = 0 ∨ j = 5 ∨ j = 10)
    (hrec : rec_sz * i + rec_sz ≤ (ex.parsingBuffer ++ d.data).length)
    (hbad : validTag ((ex.parsingBuffer ++ d.data).getD (rec_sz * i + j) 0) = false) :
    (netdbExchangeHandleReply cfg squid_curtime db ex d).2.deleted = true
    ∧ (netdbExchangeHandleReply cfg squid_curtime db ex d).2.copyRequests = ex.copyRequests
    ∧ (netdbExchangeHandleReply cfg squid_curtime db ex d).2.updates
        = ex.updates
          ++ exchangeUpdates (records ((ex.parsingBuffer ++ d.data).take (rec_sz * i)))
    ∧ (netdbExchangeHandleReply cfg squid_curtime db ex d).1
        = applyUpdates cfg squid_curtime ex.p db
            (exchangeUpdates (records ((ex.parsingBuffer ++ d.data).take (rec_sz * i))))
    ∧ (exchangeUpdates (records ((ex.parsingBuffer ++ d.data).take (rec_sz * i)))).length
        ≤ i := by
  obtain ⟨k1, k2, k3, k4, _, _, _⟩ :=
    netdbExchangeHandleReply_eq cfg squid_curtime db ex d hv he hs
  obtain ⟨more, hsplit⟩ := records_split (ex.parsingBuffer ++ d.data) i hrec
  have hlen : (((ex.parsingBuffer ++ d.data).drop (rec_sz * i)).take rec_sz).length
      = rec_sz := by
    rw [List.length_take, List.length_drop]
    omega
  have hinvalid : validTags (((ex.parsingBuffer ++ d.data).drop (rec_sz * i)).take rec_sz)
      = false := by
    unfold validTags
    rw [getD_record _ i 0 (by decide), getD_record _ i 5 (by decide),
      getD_record _ i 10 (by decide)]
    rcases hj with h | h | h <;> subst h <;> rw [hbad] <;> simp
  have hnone : netdbParseFields (((ex.parsingBuffer ++ d.data).drop (rec_sz * i)).take rec_sz)
      ExchangeRecord.init = none := by
    have := netdbParseFields_valid _ hlen
    rw [hinvalid] at this
    simpa using this
  obtain ⟨s1, s2⟩ := exchangeUpdates_stop _ more hnone
    (records ((ex.parsingBuffer ++ d.data).take (rec_sz * i)))
  rw [← hsplit] at s1 s2
  have hi : (records ((ex.parsingBuffer ++ d.data).take (rec_sz * i))).length = i := by
    rw [length_records, List.length_take, Nat.min_eq_left (by omega)]
    exact Nat.mul_div_cancel_left i (by decide)
  refine ⟨?_, ?_, ?_, ?_, ?_⟩
  · rw [k3, s2]
    simp
  · rw [k4, s2]
    simp
  · rw [k2, s1]
  · rw [k1, s1]
  · have := length_exchangeUpdates (records ((ex.parsingBuffer ++ d.data).take (rec_sz * i)))
    omega

/-- Witness for C13: a good record for 10.0.0.0 followed by a record that starts with the
byte `0x07`, delivered in one call: the update of the first record is made, none after it,
the exchange state is deleted and no more data is asked for. -/
theorem netdbExchangeHandleReply_corrupt_witness :
    (netdbExchangeHandleReply exampleNetdb 1000 emptyDB (netdbExchangeState.init exampleParent)
        (plainDelivery [0x01, 0x0A, 0x00, 0x00, 0x00, 0x02, 0x00, 0x00, 0xA4, 0x10,
                        0x03, 0x00, 0x00, 0x0B, 0xB8,
                        0x07, 0x0A, 0x00, 0x01, 0x00, 0x02, 0x00, 0x00, 0xA4, 0x10,
                        0x03, 0x00, 0x00, 0x0B, 0xB8])).2.deleted = true
    ∧ (netdbExchangeHandleReply exampleNetdb 1000 emptyDB
        (netdbExchangeState.init exampleParent)
        (plainDelivery [0x01, 0x0A, 0x00, 0x00, 0x00, 0x02, 0x00, 0x00, 0xA4, 0x10,
                        0x03, 0x00, 0x00, 0x0B, 0xB8,
                        0x07, 0x0A, 0x00, 0x01, 0x00, 0x02, 0x00, 0x00, 0xA4, 0x10,
                        0x03, 0x00, 0x00, 0x0B, 0xB8])).2.updates
      = [{ addr := Ip.Address.ofOctets 10 0 0 0 0, rtt := 42, hops := 3 }] := by
  refine ⟨(netdbExchangeHandleReply_corrupt exampleNetdb 1000 emptyDB
    (netdbExchangeState.init exampleParent)
    (plainDelivery [0x01, 0x0A, 0x00, 0x00, 0x00, 0x02, 0x00, 0x00, 0xA4, 0x10,
                    0x03, 0x00, 0x00, 0x0B, 0xB8,
                    0x07, 0x0A, 0x00, 0x01, 0x00, 0x02, 0x00, 0x00, 0xA4, 0x10,
                    0x03, 0x00, 0x00, 0x0B, 0xB8])
    rfl rfl (Or.inr rfl) 1 0 (Or.inl rfl) (by decide) (by decide)).1, ?_⟩
  decide!

theorem records_append : ∀ (n : Nat) (a b : List Nat), a.length ≤ rec_sz * n →
    records (a ++ b) = records a ++ records (trailing a ++ b)
    ∧ trailing (a ++ b) = trailing (trailing a ++ b) := by
  intro n
  induction n with
  | zero =>
    intro a b h
    have ha : a = [] := List.eq_nil_of_length_eq_zero (by omega)
    subst ha
    simp [records_short, trailing_short, rec_sz]
  | succ n ih =>
    intro a b h
    by_cases hge : rec_sz ≤ a.length
    · have hge2 : rec_sz ≤ (a ++ b).length := by rw [List.length_append]; omega
      have h1 : (a ++ b).take rec_sz = a.take rec_sz := List.take_append_of_le_length hge
      have h2 : (a ++ b).drop rec_sz = a.drop rec_sz ++ b := List.drop_append_of_le_length hge
      have hd : (a.drop rec_sz).length ≤ rec_sz * n := by
        rw [List.length_drop]
        unfold rec_sz at hge h ⊢
        omega
      obtain ⟨i1, i2⟩ := ih (a.drop rec_sz) b hd
      rw [records_long hge2, trailing_long hge2, h1, h2, i1, i2, records_long hge,
        trailing_long hge]
      exact ⟨rfl, rfl⟩
    · have hlt : a.length < rec_sz := Nat.lt_of_not_le hge
      rw [records_short hlt, trailing_short hlt]
      exact ⟨rfl, rfl⟩

theorem length_of_mem_recordsN (k : Nat) : ∀ (s : List Nat), rec_sz * k ≤ s.length →
    ∀ r ∈ recordsN k s, r.length = rec_sz := by
  induction k with
  | zero => intro s _ r hr; simp [recordsN] at hr
  | succ k ih =>
    intro s hs r hr
    rw [recordsN, List.mem_cons] at hr
    rcases hr with hr | hr
    · rw [hr, List.length_take]
      unfold rec_sz at hs ⊢
      omega
    · refine ih (s.drop rec_sz) ?_ r hr
      rw [List.length_drop]
      unfold rec_sz at hs ⊢
      omega

theorem length_of_mem_records (s : List Nat) : ∀ r ∈ records s, r.length = rec_sz :=
  length_of_mem_recordsN _ s (Nat.mul_div_le s.length rec_sz)

theorem corruptRecords_iff (recs : List (List Nat)) (hlen : ∀ r ∈ recs, r.length = rec_sz) :
    corruptRecords recs = false ↔ ∀ r ∈ recs, validTags r = true := by
  unfold corruptRecords
  rw [List.any_eq_false]
  constructor
  · intro h r hr
    have := h r hr
    rw [← netdbParseFields_valid r (hlen r hr)]
    cases hp : netdbParseFields r ExchangeRecord.init with
    | none => rw [hp] at this; simp at this
    | some x => rfl
  · intro h r hr
    have := h r hr
    rw [← netdbParseFields_valid r (hlen r hr)] at this
    cases hp : netdbParseFields r ExchangeRecord.init with
    | none => rw [hp] at this; simp at this
    | some x => simp

theorem wellTagged_iff (s : List Nat) : WellTagged s ↔ corruptRecords (records s) = false :=
  (corruptRecords_iff (records s) (length_of_mem_records s)).symm

theorem corruptRecords_append (a b : List (List Nat)) :
    corruptRecords (a ++ b) = (corruptRecords a || corruptRecords b) := by
  unfold corruptRecords
  rw [List.any_append]

theorem exchangeUpdates_append (a b : List (List Nat)) (h : corruptRecords a = false) :
    exchangeUpdates (a ++ b) = exchangeUpdates a ++ exchangeUpdates b := by
  induction a with
  | nil => simp [exchangeUpdates]
  | cons r t ih =>
    unfold corruptRecords at h ih
    rw [List.any_cons, Bool.or_eq_false_iff] at h
    rw [List.cons_append, exchangeUpdates, exchangeUpdates]
    cases hp : netdbParseFields r ExchangeRecord.init with
    | none => rw [hp] at h; simp at h
    | some x =>
      simp only []
      rw [ih h.2, List.append_assoc]

theorem applyUpdates_append (cfg : Netdb) (squid_curtime : Int) (p : CachePeer) (db : NetDB)
    (a b : List ExchangeRecord) :
    applyUpdates cfg squid_curtime p db (a ++ b)
      = applyUpdates cfg squid_curtime p (applyUpdates cfg squid_curtime p db a) b := by
  unfold applyUpdates
  rw [List.foldl_append]

theorem exchangeUpdates_filter (recs : List (List Nat)) (h : corruptRecords recs = false) :
    exchangeUpdates recs
      = (recs.filterMap (fun r => netdbParseFields r ExchangeRecord.init)).filter
          (fun x => x.applied) := by
  induction recs with
  | nil => simp [exchangeUpdates]
  | cons r t ih =>
    unfold corruptRecords at h ih
    rw [List.any_cons, Bool.or_eq_false_iff] at h
    rw [exchangeUpdates]
    cases hp : netdbParseFields r ExchangeRecord.init with
    | none => rw [hp] at h; simp at h
    | some x =>
      simp only []
      rw [ih h.2, List.filterMap_cons, hp]
      simp only [List.filter_cons]
      split <;> simp

theorem tracks_delivery (cfg : Netdb) (squid_curtime : Int) (db : NetDB) (p : CachePeer)
    (s c : List Nat) (eof : Bool) (st : NetDB × netdbExchangeState)
    (ht : Tracks cfg squid_curtime db p s st) (hw : WellTagged (s ++ c)) :
    (netdbExchangeHandleReply cfg squid_curtime st.1 st.2
        { plainDelivery c with atEof := eof }).1
      = applyUpdates cfg squid_curtime p db (exchangeUpdates (records (s ++ c)))
    ∧ (netdbExchangeHandleReply cfg squid_curtime st.1 st.2
        { plainDelivery c with atEof := eof }).2.updates = exchangeUpdates (records (s ++ c))
    ∧ (netdbExchangeHandleReply cfg squid_curtime st.1 st.2
        { plainDelivery c with atEof := eof }).2.parsingBuffer = trailing (s ++ c)
    ∧ (netdbExchangeHandleReply cfg squid_curtime st.1 st.2
        { plainDelivery c with atEof := eof }).2.deleted = eof
    ∧ (netdbExchangeHandleReply cfg squid_curtime st.1 st.2
        { plainDelivery c with atEof := eof }).2.p = p := by
  obtain ⟨r1, r2⟩ := records_append s.length s c (by unfold rec_sz; omega)
  have hcor := (wellTagged_iff (s ++ c)).mp hw
  rw [r1, corruptRecords_append, Bool.or_eq_false_iff] at hcor
  obtain ⟨k1, k2, k3, _, k5, _, k7⟩ := netdbExchangeHandleReply_eq cfg squid_curtime st.1 st.2
    { plainDelivery c with atEof := eof } rfl rfl (Or.inr rfl)
  have hbuf : st.2.parsingBuffer ++ ({ plainDelivery c with atEof := eof } : ReceivedData).data
      = trailing s ++ c := by
    rw [ht.parsingBuffer]
    rfl
  rw [hbuf] at k1 k2 k3 k7
  refine ⟨?_, ?_, ?_, ?_, ?_⟩
  · rw [k1, ht.db, ht.p, r1, exchangeUpdates_append _ _ hcor.1, applyUpdates_append]
  · rw [k2, ht.updates, r1, exchangeUpdates_append _ _ hcor.1]
  · rw [k7 hcor.2, r2]
  · rw [k3, ht.deleted, hcor.2]
    simp [plainDelivery]
  · rw [k5, ht.p]

theorem wellTagged_left (a b : List Nat) (h : WellTagged (a ++ b)) : WellTagged a := by
  obtain ⟨r1, _⟩ := records_append a.length a b (by unfold rec_sz; omega)
  intro r hr
  apply h
  rw [r1]
  exact List.mem_append_left _ hr

theorem tracks_chunks (cfg : Netdb) (squid_curtime : Int) (db : NetDB) (p : CachePeer) :
    ∀ (chunks : List (List Nat)) (s : List Nat) (st : NetDB × netdbExchangeState),
      Tracks cfg squid_curtime db p s st → WellTagged (s ++ chunks.flatten) →
      Tracks cfg squid_curtime db p (s ++ chunks.flatten)
        (chunks.foldl (fun st c =>
          if st.2.deleted then st
          else netdbExchangeHandleReply cfg squid_curtime st.1 st.2 (plainDelivery c)) st) := by
  intro chunks
  induction chunks with
  | nil =>
    intro s st ht _
    simpa using ht
  | cons c t ih =>
    intro s st ht hw
    rw [List.flatten_cons, ← List.append_assoc] at hw ⊢
    rw [List.foldl_cons]
    apply ih _ _ _ hw
    have hwc : WellTagged (s ++ c) := wellTagged_left _ _ hw
    obtain ⟨d1, d2, d3, d4, d5⟩ := tracks_delivery cfg squid_curtime db p s c false st ht hwc
    have hd : st.2.deleted = false := ht.deleted
    simp only [hd, Bool.false_eq_true, if_false]
    exact ⟨d1, d2, d3, d4, d5⟩

theorem tracks_init (cfg : Netdb) (squid_curtime : Int) (db : NetDB) (p : CachePeer) :
    Tracks cfg squid_curtime db p [] (db, netdbExchangeState.init p) :=
  ⟨rfl, rfl, rfl, rfl, rfl⟩

/-- C15: for every well-tagged byte stream cut into chunks that are delivered one per call
(the last call may find the store entry at its end), `netdbExchangeHandleReply` makes the
same peer updates, in the same order, as one call that delivers the whole stream, and
leaves the same tables: one update for each complete 15-byte record whose address is set
and whose `rtt` is positive, where the complete records are the first `length / 15` pieces
of 15 bytes. The bytes after the last complete record, fewer than 15, wait in the buffer
and make no update; at the end of the store entry the exchange state is deleted with
them. -/
theorem netdbExchangeRun_fragments (cfg : Netdb) (squid_curtime : Int) (db : NetDB)
    (p : CachePeer) (chunks : List (List Nat)) (last : List Nat) (eof : Bool)
    (hw : WellTagged (chunks.flatten ++ last)) :
    (netdbExchangeRun cfg squid_curtime db (netdbExchangeState.init p)
        (chunks.map plainDelivery ++ [{ plainDelivery last with atEof := eof }])).1
      = (netdbExchangeRun cfg squid_curtime db (netdbExchangeState.init p)
          [{ plainDelivery (chunks.flatten ++ last) with atEof := eof }]).1
    ∧ (netdbExchangeRun cfg squid_curtime db (netdbExchangeState.init p)
        (chunks.map plainDelivery ++ [{ plainDelivery last with atEof := eof }])).2.updates
      = (netdbExchangeRun cfg squid_curtime db (netdbExchangeState.init p)
          [{ plainDelivery (chunks.flatten ++ last) with atEof := eof }]).2.updates
    ∧ (netdbExchangeRun cfg squid_curtime db (netdbExchangeState.init p)
        (chunks.map plainDelivery ++ [{ plainDelivery last with atEof := eof }])).2.updates
      = ((records (chunks.flatten ++ last)).filterMap
          (fun r => netdbParseFields r ExchangeRecord.init)).filter (fun x => x.applied)
    ∧ (records (chunks.flatten ++ last)).length = (chunks.flatten ++ last).length / 15
    ∧ (netdbExchangeRun cfg squid_curtime db (netdbExchangeState.init p)
        (chunks.map plainDelivery ++ [{ plainDelivery last with atEof := eof }])).1
      = applyUpdates cfg squid_curtime p db (exchangeUpdates (records (chunks.flatten ++ last)))
    ∧ (netdbExchangeRun cfg squid_curtime db (netdbExchangeState.init p)
        (chunks.map plainDelivery ++ [{ plainDelivery last with atEof := eof }])).2.parsingBuffer
      = trailing (chunks.flatten ++ last)
    ∧ (trailing (chunks.flatten ++ last)).length < 15
    ∧ (netdbExchangeRun cfg squid_curtime db (netdbExchangeState.init p)
        (chunks.map plainDelivery ++ [{ plainDelivery last with atEof := eof }])).2.deleted
      = eof := by
  have hw1 : WellTagged ([] ++ chunks.flatten) := by
    rw [List.nil_append]
    exact wellTagged_left _ _ hw
  have ht := tracks_chunks cfg squid_curtime db p chunks [] _ (tracks_init cfg squid_curtime db p)
    hw1
  rw [List.nil_append] at ht
  have hd := ht.deleted
  obtain ⟨d1, d2, d3, d4, _⟩ := tracks_delivery cfg squid_curtime db p chunks.flatten last eof _
    ht hw
  have hfrag : netdbExchangeRun cfg squid_curtime db (netdbExchangeState.init p)
      (chunks.map plainDelivery ++ [{ plainDelivery last with atEof := eof }])
      = netdbExchangeHandleReply cfg squid_curtime
          (chunks.foldl (fun st c =>
            if st.2.deleted then st
            else netdbExchangeHandleReply cfg squid_curtime st.1 st.2 (plainDelivery c))
            (db, netdbExchangeState.init p)).1
          (chunks.foldl (fun st c =>
            if st.2.deleted then st
            else netdbExchangeHandleReply cfg squid_curtime st.1 st.2 (plainDelivery c))
            (db, netdbExchangeState.init p)).2
          { plainDelivery last with atEof := eof } := by
    unfold netdbExchangeRun
    rw [List.foldl_append, List.foldl_map, List.foldl_cons, List.foldl_nil]
    simp only [hd, Bool.false_eq_true, if_false]
  have hw2 : WellTagged ([] ++ (chunks.flatten ++ last)) := by
    rw [List.nil_append]
    exact hw
  obtain ⟨w1, w2, _, _, _⟩ := tracks_delivery cfg squid_curtime db p [] (chunks.flatten ++ last)
    eof _ (tracks_init cfg squid_curtime db p) hw2
  rw [List.nil_append] at w1 w2
  have hwhole : netdbExchangeRun cfg squid_curtime db (netdbExchangeState.init p)
      [{ plainDelivery (chunks.flatten ++ last) with atEof := eof }]
      = netdbExchangeHandleReply cfg squid_curtime db (netdbExchangeState.init p)
          { plainDelivery (chunks.flatten ++ last) with atEof := eof } := by
    unfold netdbExchangeRun
    rfl
  rw [hfrag, hwhole]
  refine ⟨?_, ?_, ?_, ?_, d1, d3, ?_, d4⟩
  · rw [d1, w1]
  · rw [d2, w2]
  · rw [d2]
    exact exchangeUpdates_filter _ ((wellTagged_iff _).mp hw)
  · exact length_records _
  · unfold trailing
    rw [List.length_drop]
    have := Nat.mod_lt (chunks.flatten ++ last).length (show 0 < rec_sz by decide)
    have h2 := Nat.div_add_mod (chunks.flatten ++ last).length rec_sz
    unfold rec_sz at this h2 ⊢
    omega

/-- Witness for C15: two records (for 10.0.0.0 and 10.0.1.0) and four more bytes, cut into
chunks of 7, 10, 9 and 8 bytes, the last one delivered at the end of the store entry: the
updates are those of one call on the 34 bytes, one for each of the two records. -/
theorem netdbExchangeRun_fragments_witness :
    WellTagged ([[0x01, 0x0A, 0x00, 0x00, 0x00, 0x02, 0x00],
                 [0x00, 0xA4, 0x10, 0x03, 0x00, 0x00, 0x0B, 0xB8, 0x01, 0x0A],
                 [0x00, 0x01, 0x00, 0x02, 0x00, 0x00, 0x27, 0x10, 0x03]].flatten
                ++ [0x00, 0x00, 0x07, 0xD0, 0x01, 0x0A, 0x00, 0x02])
    ∧ (netdbExchangeRun exampleNetdb 1000 emptyDB (netdbExchangeState.init exampleParent)
        ([[0x01, 0x0A, 0x00, 0x00, 0x00, 0x02, 0x00],
          [0x00, 0xA4, 0x10, 0x03, 0x00, 0x00, 0x0B, 0xB8, 0x01, 0x0A],
          [0x00, 0x01, 0x00, 0x02, 0x00, 0x00, 0x27, 0x10, 0x03]].map plainDelivery
          ++ [{ plainDelivery [0x00, 0x00, 0x07, 0xD0, 0x01, 0x0A, 0x00, 0x02] with
                atEof := true }])).2.updates
      = (netdbExchangeRun exampleNetdb 1000 emptyDB (netdbExchangeState.init exampleParent)
          [{ plainDelivery
              ([[0x01, 0x0A, 0x00, 0x00, 0x00, 0x02, 0x00],
                [0x00, 0xA4, 0x10, 0x03, 0x00, 0x00, 0x0B, 0xB8, 0x01, 0x0A],
                [0x00, 0x01, 0x00, 0x02, 0x00, 0x00, 0x27, 0x10, 0x03]].flatten
                ++ [0x00, 0x00, 0x07, 0xD0, 0x01, 0x0A, 0x00, 0x02]) with
             atEof := true }]).2.updates
    ∧ (netdbExchangeRun exampleNetdb 1000 emptyDB (netdbExchangeState.init exampleParent)
        ([[0x01, 0x0A, 0x00, 0x00, 0x00, 0x02, 0x00],
          [0x00, 0xA4, 0x10, 0x03, 0x00, 0x00, 0x0B, 0xB8, 0x01, 0x0A],
          [0x00, 0x01, 0x00, 0x02, 0x00, 0x00, 0x27, 0x10, 0x03]].map plainDelivery
          ++ [{ plainDelivery [0x00, 0x00, 0x07, 0xD0, 0x01, 0x0A, 0x00, 0x02] with
                atEof := true }])).2.updates
      = [{ addr := Ip.Address.ofOctets 10 0 0 0 0, rtt := 42, hops := 3 },
         { addr := Ip.Address.ofOctets 10 0 1 0 0, rtt := 10, hops := 2 }] :=
  ⟨by decide,
    (netdbExchangeRun_fragments exampleNetdb 1000 emptyDB exampleParent
      [[0x01, 0x0A, 0x00, 0x00, 0x00, 0x02, 0x00],
       [0x00, 0xA4, 0x10, 0x03, 0x00, 0x00, 0x0B, 0xB8, 0x01, 0x0A],
       [0x00, 0x01, 0x00, 0x02, 0x00, 0x00, 0x27, 0x10, 0x03]]
      [0x00, 0x00, 0x07, 0xD0, 0x01, 0x0A, 0x00, 0x02] true (by decide)).2.1,
    by decide!⟩

/-! ## NetDB: the LRU purge -/

theorem store_filter (db : NetDB) (x : netdbEntry) :
    (db.store x).addr_table.filter (fun e => !(e.network == x.network))
      = db.addr_table.filter (fun e => !(e.network == x.network)) := by
  unfold NetDB.store
  simp only
  induction db.addr_table with
  | nil => rfl
  | cons a t ih =>
    by_cases h : (a.network == x.network) = true
    · have hx : (x.network == x.network) = true := by simp
      simp only [List.map_cons, h, if_true, List.filter_cons, hx, Bool.not_true,
        Bool.false_eq_true, if_false]
      exact ih
    · have h' : (a.network == x.network) = false := by simpa using h
      simp only [List.map_cons, h', Bool.false_eq_true, if_false, List.filter_cons,
        Bool.not_false, if_true]
      rw [ih]

theorem netdbHostDelete_fold (hosts : List String) :
    ∀ (db : NetDB) (n : netdbEntry),
      (hosts.foldl (fun (st : NetDB × netdbEntry) x => netdbHostDelete st.1 st.2 x) (db, n)).2.network
          = n.network
      ∧ (hosts.foldl (fun (st : NetDB × netdbEntry) x => netdbHostDelete st.1 st.2 x)
            (db, n)).2.link_count = n.link_count - hosts.length
      ∧ (hosts.foldl (fun (st : NetDB × netdbEntry) x => netdbHostDelete st.1 st.2 x)
            (db, n)).1.addr_table.filter (fun e => !(e.network == n.network))
          = db.addr_table.filter (fun e => !(e.network == n.network)) := by
  induction hosts with
  | nil => intro db n; simp
  | cons h t ih =>
    intro db n
    rw [List.foldl_cons]
    obtain ⟨i1, i2, i3⟩ := ih (netdbHostDelete db n h).1 (netdbHostDelete db n h).2
    have e1 : (netdbHostDelete db n h).2.network = n.network := rfl
    have e2 : (netdbHostDelete db n h).2.link_count = n.link_count - 1 := rfl
    have e3 : (netdbHostDelete db n h).1.addr_table
        = (db.store { n with link_count := n.link_count - 1,
                             hosts := n.hosts.erase h }).addr_table := rfl
    rw [e1] at i1 i3
    rw [e2] at i2
    refine ⟨i1, ?_, ?_⟩
    · rw [i2, List.length_cons]
      push_cast
      ring
    · rw [i3, e3]
      exact store_filter db { n with link_count := n.link_count - 1, hosts := n.hosts.erase h }

theorem netdbRelease_addr_table (db : NetDB) (n : netdbEntry)
    (h : n.link_count = n.hosts.length) :
    (netdbRelease db n).addr_table = db.addr_table.filter (fun e => !(e.network == n.network)) := by
  obtain ⟨i1, i2, i3⟩ := netdbHostDelete_fold n.hosts db n
  unfold netdbRelease
  simp only
  have hz : ((n.hosts.foldl (fun (st : NetDB × netdbEntry) x => netdbHostDelete st.1 st.2 x)
      (db, n)).2.link_count == 0) = true := by
    rw [i2, h]
    simp
  rw [if_pos hz]
  unfold netdbHashDelete
  simp only
  rw [i1]
  have := store_filter
    (n.hosts.foldl (fun (st : NetDB × netdbEntry) x => netdbHostDelete st.1 st.2 x) (db, n)).1
    { (n.hosts.foldl (fun (st : NetDB × netdbEntry) x => netdbHostDelete st.1 st.2 x)
        (db, n)).2 with hosts := [], peers := [], n_peers_alloc := 0 }
  simp only [i1] at this
  rw [this, i3]

theorem withoutNetworks_nil (table : List netdbEntry) : withoutNetworks table [] = table := by
  simp [withoutNetworks]

theorem withoutNetworks_cons (table : List netdbEntry) (n : netdbEntry)
    (released : List netdbEntry) :
    withoutNetworks (table.filter (fun e => !(e.network == n.network))) released
      = withoutNetworks table (n :: released) := by
  unfold withoutNetworks
  rw [List.filter_filter]
  congr 1
  funext e
  simp only [List.any_cons, Bool.not_or]
  rw [Bool.and_comm]

theorem netdbPurgeLRULoop_eq (cfg : Netdb) :
    ∀ (l : List netdbEntry) (db : NetDB), (∀ n ∈ l, n.link_count = n.hosts.length) →
      ∃ k : Nat, k ≤ l.length
        ∧ (netdbPurgeLRULoop cfg l db).addr_table = withoutNetworks db.addr_table (l.take k)
        ∧ (k = l.length ∨ ((withoutNetworks db.addr_table (l.take k)).length : Int) < cfg.low)
        ∧ ∀ j : Nat, j < k →
            ¬ ((withoutNetworks db.addr_table (l.take j)).length : Int) < cfg.low := by
  intro l
  induction l with
  | nil =>
    intro db _
    refine ⟨0, Nat.le_refl _, ?_, Or.inl rfl, fun j hj => absurd hj (Nat.not_lt_zero j)⟩
    rw [netdbPurgeLRULoop, List.take_nil, withoutNetworks_nil]
  | cons n rest ih =>
    intro db hl
    rw [netdbPurgeLRULoop]
    by_cases hc : UseCount db < cfg.low
    · rw [if_pos hc]
      refine ⟨0, Nat.zero_le _, ?_, Or.inr ?_, fun j hj => absurd hj (Nat.not_lt_zero j)⟩
      · rw [List.take_zero, withoutNetworks_nil]
      · rw [List.take_zero, withoutNetworks_nil]
        exact hc
    · rw [if_neg hc]
      obtain ⟨k, hk, h1, h2, h3⟩ := ih (netdbRelease db n)
        (fun m hm => hl m (List.mem_cons_of_mem _ hm))
      rw [netdbRelease_addr_table db n (hl n (List.mem_cons_self _ _))] at h1 h2 h3
      simp only [withoutNetworks_cons] at h1 h2 h3
      refine ⟨k + 1, by simp only [List.length_cons]; omega, ?_, ?_, ?_⟩
      · rw [List.take_succ_cons]
        exact h1
      · rw [List.take_succ_cons]
        rcases h2 with h2 | h2
        · exact Or.inl (by rw [h2, List.length_cons])
        · exact Or.inr h2
      · intro j hj
        cases j with
        | zero =>
          rw [List.take_zero, withoutNetworks_nil]
          exact hc
        | succ j =>
          rw [List.take_succ_cons]
          exact h3 j (by omega)

theorem withoutNetworks_take (l : List netdbEntry) (j : Nat)
    (hn : (l.map (fun e => e.network)).Nodup) :
    withoutNetworks l (l.take j) = l.drop j := by
  have hsplit : l = l.take j ++ l.drop j := (List.take_append_drop j l).symm
  have hn2 := hn
  rw [hsplit, List.map_append, List.nodup_append] at hn2
  obtain ⟨_, _, hdis⟩ := hn2
  unfold withoutNetworks
  have h1 : (l.take j).filter
      (fun e => !((l.take j).any (fun r => e.network == r.network))) = [] := by
    rw [List.filter_eq_nil_iff]
    intro e he
    simp only [Bool.not_eq_true, Bool.not_eq_false_eq_eq_true, List.any_eq_true]
    exact ⟨e, he, by simp⟩
  have h2 : (l.drop j).filter
      (fun e => !((l.take j).any (fun r => e.network == r.network))) = l.drop j := by
    rw [List.filter_eq_self]
    intro e he
    simp only [Bool.not_eq_true', List.any_eq_false]
    intro r hr hre
    have hre2 : e.network = r.network := by simpa using hre
    exact hdis (List.mem_map_of_mem _ hr) (by rw [← hre2]; exact List.mem_map_of_mem _ he)
  have key : (l.take j ++ l.drop j).filter
      (fun e => !((l.take j).any (fun r => e.network == r.network))) = l.drop j := by
    rw [List.filter_append, h1, h2, List.nil_append]
  rw [List.take_append_drop] at key
  exact key

theorem withoutNetworks_perm {a b : List netdbEntry} (h : a.Perm b) (s : List netdbEntry) :
    (withoutNetworks a s).Perm (withoutNetworks b s) :=
  List.Perm.filter _ h

theorem qsortLRU_perm (l : List netdbEntry) : (qsortLRU l).Perm l :=
  List.perm_insertionSort _ l

theorem qsortLRU_sorted (l : List netdbEntry) :
    (qsortLRU l).Sorted (fun n1 n2 => n1.last_use_time ≤ n2.last_use_time) := by
  haveI : IsTotal netdbEntry (fun n1 n2 => n1.last_use_time ≤ n2.last_use_time) :=
    ⟨fun a b => le_total a.last_use_time b.last_use_time⟩
  haveI : IsTrans netdbEntry (fun n1 n2 => n1.last_use_time ≤ n2.last_use_time) :=
    ⟨fun a b c h1 h2 => le_trans h1 h2⟩
  exact List.sorted_insertionSort _ l

theorem netdbPurgeLRU_eq (cfg : Netdb) (db : NetDB)
    (hn : (db.addr_table.map (fun e => e.network)).Nodup)
    (hl : ∀ n ∈ db.addr_table, n.link_count = n.hosts.length) :
    ∃ k : Nat, k ≤ db.addr_table.length
      ∧ (netdbPurgeLRU cfg db).addr_table
          = withoutNetworks db.addr_table ((qsortLRU db.addr_table).take k)
      ∧ (netdbPurgeLRU cfg db).addr_table.length = db.addr_table.length - k
      ∧ (∀ e ∈ (netdbPurgeLRU cfg db).addr_table, e ∈ (qsortLRU db.addr_table).drop k)
      ∧ (∀ r ∈ (qsortLRU db.addr_table).take k, ∀ e ∈ (netdbPurgeLRU cfg db).addr_table,
          r.last_use_time ≤ e.last_use_time)
      ∧ (cfg.low ≤ UseCount db → UseCount (netdbPurgeLRU cfg db) = max (cfg.low - 1) 0)
      ∧ (UseCount db < cfg.low → (netdbPurgeLRU cfg db).addr_table = db.addr_table) := by
  have hperm := qsortLRU_perm db.addr_table
  have hlen : (qsortLRU db.addr_table).length = db.addr_table.length := hperm.length_eq
  have hn' : ((qsortLRU db.addr_table).map (fun e => e.network)).Nodup :=
    (List.Perm.nodup_iff (hperm.map _)).mpr hn
  have hl' : ∀ n ∈ qsortLRU db.addr_table, n.link_count = n.hosts.length :=
    fun n h => hl n (hperm.subset h)
  have hwn : ∀ j : Nat, (withoutNetworks db.addr_table ((qsortLRU db.addr_table).take j)).Perm
      ((qsortLRU db.addr_table).drop j) := by
    intro j
    have := withoutNetworks_perm hperm.symm ((qsortLRU db.addr_table).take j)
    rw [withoutNetworks_take _ j hn'] at this
    exact this
  have hcount : ∀ j : Nat,
      (withoutNetworks db.addr_table ((qsortLRU db.addr_table).take j)).length
        = db.addr_table.length - j := by
    intro j
    rw [(hwn j).length_eq, List.length_drop, hlen]
  obtain ⟨k, hk, h1, h2, h3⟩ := netdbPurgeLRULoop_eq cfg (qsortLRU db.addr_table) db hl'
  rw [hlen] at hk h2
  have e1 : (netdbPurgeLRU cfg db).addr_table
      = withoutNetworks db.addr_table ((qsortLRU db.addr_table).take k) := h1
  have e2 : (netdbPurgeLRU cfg db).addr_table.length = db.addr_table.length - k := by
    rw [e1, hcount]
  refine ⟨k, hk, e1, e2, ?_, ?_, ?_, ?_⟩
  · intro e he
    rw [e1] at he
    exact (hwn k).subset he
  · intro r hr e he
    rw [e1] at he
    have he2 := (hwn k).subset he
    have hs := qsortLRU_sorted db.addr_table
    rw [← List.take_append_drop k (qsortLRU db.addr_table)] at hs
    exact (List.pairwise_append.mp hs).2.2 r hr e he2
  · intro hlow
    unfold UseCount at hlow ⊢
    rw [e2]
    rw [hcount] at h2
    have h3' : ∀ j : Nat, j < k → ¬ ((db.addr_table.length - j : Nat) : Int) < cfg.low := by
      intro j hj
      have := h3 j hj
      rw [hcount] at this
      exact this
    rcases h2 with h2 | h2
    · subst h2
      by_cases hz : db.addr_table.length = 0
      · rw [hz] at hlow ⊢
        simp only [Nat.sub_self, Nat.cast_zero] at hlow ⊢
        rw [max_eq_right (by omega)]
      · have := h3' (db.addr_table.length - 1) (by omega)
        rw [Nat.sub_self, Nat.cast_zero, max_eq_right (by omega)]
    · by_cases hz : k = 0
      · subst hz
        simp only [Nat.sub_zero] at h2
        omega
      · have := h3' (k - 1) (by omega)
        rw [max_eq_left (by omega)]
        omega
  · intro hlow
    have hk0 : k = 0 := by
      by_contra hz
      have := h3 0 (by omega)
      rw [List.take_zero, withoutNetworks_nil] at this
      exact this hlow
    rw [e1, hk0, List.take_zero, withoutNetworks_nil]

/-- C17, as stated, fails: with `Netdb.high = 3` and `Netdb.low = 2`, `netdbAdd` finds four
entries, last used at times 40, 10, 30 and 20, and purges: the entries of times 10, 20 and
30 are released and one entry is left, not two, because the loop goes on while the count is
at least `Netdb.low`. The new entry that `netdbAdd` then inserts makes it two. -/
theorem netdbPurgeLRU_count_claim_fails :
    UseCount fourEntries = 4 ∧ smallNetdb.high = 3 ∧ smallNetdb.low = 2
    ∧ (netdbPurgeLRU smallNetdb fourEntries).addr_table = [usedEntry 1 "a.example" 40]
    ∧ UseCount (netdbPurgeLRU smallNetdb fourEntries) = 1
    ∧ UseCount (netdbPurgeLRU smallNetdb fourEntries) ≠ smallNetdb.low
    ∧ (netdbAdd smallNetdb fourEntries (Ip.Address.ofOctets 10 0 9 7 0)).1.addr_table
        = [usedEntry 1 "a.example" 40, netdbEntry.fresh (Ip.Address.ofOctets 10 0 9 0 0)] := by
  refine ⟨rfl, rfl, rfl, by decide, by decide, by decide, by decide⟩

/-- C17, amended: for a table with one entry per network whose link counts match their
host lists, `netdbPurgeLRU` releases the first `k` entries in ascending `last_use_time`
order (of a sorted permutation of the table), so every released entry was last used no
later than every entry kept, and it stops when the count has dropped below `Netdb.low`: a
purge that starts with at least `Netdb.low` entries, as every purge started by `netdbAdd`
with more than `Netdb.high >= Netdb.low` entries does, ends with `Netdb.low - 1` entries
(none when `Netdb.low` is not positive). When `netdbAdd` finds more than `Netdb.high`
entries it purges before it looks the address up. -/
theorem netdbPurgeLRU_ascending (cfg : Netdb) (db : NetDB)
    (hn : (db.addr_table.map (fun e => e.network)).Nodup)
    (hl : ∀ n ∈ db.addr_table, n.link_count = n.hosts.length) :
    (∃ k : Nat, k ≤ db.addr_table.length
      ∧ (netdbPurgeLRU cfg db).addr_table
          = withoutNetworks db.addr_table ((qsortLRU db.addr_table).take k)
      ∧ (netdbPurgeLRU cfg db).addr_table.length = db.addr_table.length - k
      ∧ (qsortLRU db.addr_table).Sorted (fun n1 n2 => n1.last_use_time ≤ n2.last_use_time)
      ∧ (qsortLRU db.addr_table).Perm db.addr_table
      ∧ (∀ r ∈ (qsortLRU db.addr_table).take k, ∀ e ∈ (netdbPurgeLRU cfg db).addr_table,
          r.last_use_time ≤ e.last_use_time))
    ∧ (cfg.low ≤ UseCount db → UseCount (netdbPurgeLRU cfg db) = max (cfg.low - 1) 0)
    ∧ (UseCount db < cfg.low → (netdbPurgeLRU cfg db).addr_table = db.addr_table)
    ∧ (cfg.low ≤ cfg.high → UseCount db > cfg.high → ∀ addr : Ip.Address,
        (netdbAdd cfg db addr).1.addr_table.length
          ≤ (netdbPurgeLRU cfg db).addr_table.length + 1
        ∧ UseCount (netdbPurgeLRU cfg db) = max (cfg.low - 1) 0) := by
  obtain ⟨k, hk, e1, e2, _, e4, e5, e6⟩ := netdbPurgeLRU_eq cfg db hn hl
  refine ⟨⟨k, hk, e1, e2, qsortLRU_sorted _, qsortLRU_perm _, e4⟩, e5, e6, ?_⟩
  intro hlh hhigh addr
  refine ⟨?_, e5 (by omega)⟩
  unfold netdbAdd
  simp only [hhigh, if_true]
  cases netdbLookupAddr (netdbPurgeLRU cfg db) addr with
  | some n => simp
  | none => simp

/-- Witness for C17: the table of four entries with water marks 3 and 2. -/
theorem netdbPurgeLRU_ascending_witness :
    (fourEntries.addr_table.map (fun e => e.network)).Nodup
    ∧ (∀ n ∈ fourEntries.addr_table, n.link_count = n.hosts.length)
    ∧ smallNetdb.low ≤ UseCount fourEntries
    ∧ UseCount (netdbPurgeLRU smallNetdb fourEntries) = max (smallNetdb.low - 1) 0 :=
  ⟨by decide, by decide, by decide,
    (netdbPurgeLRU_ascending smallNetdb fourEntries (by decide) (by decide)).2.1 (by decide)⟩

/-! ## NetDB: the closest parent -/

theorem netdbClosestParent_eq (cfg : SquidConfig) (env : Env) (request : HttpRequest) :
    netdbClosestParent cfg env request
      = match closestParentEntry env request with
        | none => none
        | some n =>
          if n.peers.length == 0 then none else netdbClosestParentLoop cfg env request n n.peers :=
  rfl

theorem findUsableParentAtHostname_some {cfg : SquidConfig} {env : Env} {hostname : String}
    {request : HttpRequest} {p : CachePeer}
    (h : findUsableParentAtHostname cfg env hostname request = some p) :
    p ∈ cfg.peers ∧ p.host.toLower = hostname.toLower
      ∧ env.neighborType p request = peer_t.PEER_PARENT ∧ env.peerHTTPOkay p request = true := by
  unfold findUsableParentAtHostname at h
  have h1 := List.mem_of_find?_eq_some h
  have h2 := List.find?_some h
  simp only [Bool.and_eq_true, beq_iff_eq] at h2
  exact ⟨h1, h2.1.1, h2.1.2, h2.2⟩

theorem findUsableParentAtHostname_none {cfg : SquidConfig} {env : Env} {hostname : String}
    {request : HttpRequest}
    (h : findUsableParentAtHostname cfg env hostname request = none) (p : CachePeer)
    (hp : p ∈ cfg.peers) (ht : env.neighborType p request = peer_t.PEER_PARENT)
    (ho : env.peerHTTPOkay p request = true) : p.host.toLower ≠ hostname.toLower := by
  unfold findUsableParentAtHostname at h
  rw [List.find?_eq_none] at h
  intro heq
  have := h p hp
  simp [heq, ht, ho] at this

theorem netdbClosestParentLoop_some (cfg : SquidConfig) (env : Env) (request : HttpRequest)
    (n : netdbEntry) (p : CachePeer) :
    ∀ l : List net_db_peer, netdbClosestParentLoop cfg env request n l = some p →
      (p ∈ cfg.peers ∧ env.neighborType p request = peer_t.PEER_PARENT
        ∧ env.peerHTTPOkay p request = true)
      ∧ ∃ slot : net_db_peer,
          l.find? (fun h => h.peername.toLower == p.host.toLower) = some slot
          ∧ ¬ (0 < n.rtt ∧ n.rtt < slot.rtt) := by
  intro l
  induction l with
  | nil => intro h; simp [netdbClosestParentLoop] at h
  | cons h rest ih =>
    intro hres
    rw [netdbClosestParentLoop] at hres
    by_cases hbreak : (decide (n.rtt > 0) && decide (n.rtt < h.rtt)) = true
    · rw [if_pos hbreak] at hres
      exact absurd hres (by simp)
    · rw [if_neg hbreak] at hres
      have hnb : ¬ (0 < n.rtt ∧ n.rtt < h.rtt) := by
        intro hc
        apply hbreak
        simp [hc.1, hc.2]
      cases hf : findUsableParentAtHostname cfg env h.peername request with
      | some q =>
        rw [hf] at hres
        have hq : q = p := by simpa using hres
        subst hq
        obtain ⟨f1, f2, f3, f4⟩ := findUsableParentAtHostname_some hf
        refine ⟨⟨f1, f3, f4⟩, h, ?_, hnb⟩
        rw [List.find?_cons]
        simp [f2]
      | none =>
        rw [hf] at hres
        obtain ⟨⟨f1, f3, f4⟩, slot, hs, hn⟩ := ih hres
        refine ⟨⟨f1, f3, f4⟩, slot, ?_, hn⟩
        have hne := findUsableParentAtHostname_none hf p f1 f3 f4
        rw [List.find?_cons]
        have : (h.peername.toLower == p.host.toLower) = false := by
          simp only [beq_eq_false_iff_ne, ne_eq]
          exact fun e => hne e.symm
        rw [this]
        exact hs

/-- C18: when `netdbClosestParent` returns a parent, the entry it worked on (that of the
request host, or of its cached address) has a peer slot with the parent's host name,
compared without case as `findUsableParentAtHostname` does, and the first such slot, the
one the parent was found by, has a recorded RTT that is not greater than the entry's own
`rtt` whenever that is positive; the parent is a configured peer of type PARENT that
passes `peerHTTPOkay`. It returns null when there is no entry and when the entry has no
peer slots. With own `rtt` 50, a parent recorded at 30 is returned and one recorded at 80
is not. -/
theorem netdbClosestParent_not_farther (cfg : SquidConfig) (env : Env) (request : HttpRequest) :
    (∀ p : CachePeer, netdbClosestParent cfg env request = some p →
      ∃ (n : netdbEntry) (slot : net_db_peer),
        closestParentEntry env request = some n
        ∧ n.peers.find? (fun h => h.peername.toLower == p.host.toLower) = some slot
        ∧ (0 < n.rtt → slot.rtt ≤ n.rtt)
        ∧ p ∈ cfg.peers ∧ env.neighborType p request = peer_t.PEER_PARENT
        ∧ env.peerHTTPOkay p request = true)
    ∧ (closestParentEntry env request = none → netdbClosestParent cfg env request = none)
    ∧ (∀ n : netdbEntry, closestParentEntry env request = some n → n.peers = [] →
        netdbClosestParent cfg env request = none)
    ∧ (netdbLookupHost env.netdb request.url_host = none →
        env.ipcache_gethostbyname request.url_host = none →
        netdbClosestParent cfg env request = none)
    ∧ netdbClosestParent (oneParentConfig 10) (measuredParent 30) (exampleRequest noFlags)
        = some exampleParent
    ∧ netdbClosestParent (oneParentConfig 10) (measuredParent 80) (exampleRequest noFlags)
        = none := by
  refine ⟨?_, ?_, ?_, ?_, by decide!, by decide!⟩
  · intro p hp
    rw [netdbClosestParent_eq] at hp
    cases he : closestParentEntry env request with
    | none => rw [he] at hp; simp at hp
    | some n =>
      rw [he] at hp
      simp only at hp
      by_cases hz : (n.peers.length == 0) = true
      · rw [if_pos hz] at hp
        exact absurd hp (by simp)
      · rw [if_neg hz] at hp
        obtain ⟨⟨f1, f3, f4⟩, slot, hs, hn⟩ :=
          netdbClosestParentLoop_some cfg env request n p n.peers hp
        refine ⟨n, slot, rfl, hs, ?_, f1, f3, f4⟩
        intro hpos
        by_contra hgt
        exact hn ⟨hpos, lt_of_not_ge hgt⟩
  · intro he
    rw [netdbClosestParent_eq, he]
  · intro n he hnil
    rw [netdbClosestParent_eq, he]
    simp [hnil]
  · intro h1 h2
    rw [netdbClosestParent_eq]
    unfold closestParentEntry
    rw [h1, h2]

/-! ## NetDB: per-peer measurements -/

theorem qsortPeerByRtt_perm (l : List net_db_peer) : (qsortPeerByRtt l).Perm l :=
  List.perm_insertionSort _ l

theorem qsortPeerByRtt_sorted (l : List net_db_peer) :
    (qsortPeerByRtt l).Sorted (fun p1 p2 => p1.rtt ≤ p2.rtt) := by
  haveI : IsTotal net_db_peer (fun p1 p2 => p1.rtt ≤ p2.rtt) :=
    ⟨fun a b => le_total a.rtt b.rtt⟩
  haveI : IsTrans net_db_peer (fun p1 p2 => p1.rtt ≤ p2.rtt) :=
    ⟨fun a b c h1 h2 => le_trans h1 h2⟩
  exact List.sorted_insertionSort _ l

theorem sorted_of_length_lt_two {l : List net_db_peer} (h : l.length < 2) :
    l.Sorted (fun p1 p2 => p1.rtt ≤ p2.rtt) := by
  cases l with
  | nil => exact List.sorted_nil
  | cons a t =>
    cases t with
    | nil => exact List.sorted_singleton a
    | cons b t =>
      simp only [List.length_cons] at h
      omega

theorem writePeerSlot_mem (peername : String) (rtt hops : ℚ) (expires : Int) :
    ∀ l : List net_db_peer, (∃ p ∈ l, p.peername = peername) →
      ({ peername := peername, hops := hops, rtt := rtt, expires := expires } : net_db_peer)
        ∈ writePeerSlot peername rtt hops expires l := by
  intro l
  induction l with
  | nil => intro h; obtain ⟨p, hp, _⟩ := h; simp at hp
  | cons a t ih =>
    intro h
    rw [writePeerSlot]
    by_cases ha : a.peername = peername
    · have hb : (a.peername == peername) = true := by simpa using ha
      rw [if_pos hb]
      subst ha
      exact List.mem_cons_self _ _
    · have hb : ¬ (a.peername == peername) = true := by simpa using ha
      rw [if_neg hb]
      obtain ⟨p, hp, hpn⟩ := h
      rcases List.mem_cons.mp hp with hpa | hpt
      · subst hpa
        exact absurd hpn ha
      · exact List.mem_cons_of_mem _ (ih ⟨p, hpt, hpn⟩)

theorem writePeerSlot_names (peername : String) (rtt hops : ℚ) (expires : Int) :
    ∀ l : List net_db_peer,
      (writePeerSlot peername rtt hops expires l).map (fun p => p.peername)
        = l.map (fun p => p.peername) := by
  intro l
  induction l with
  | nil => rfl
  | cons a t ih =>
    rw [writePeerSlot]
    split
    · rfl
    · simp only [List.map_cons, ih]

theorem find_of_nodup_names (slot : net_db_peer) :
    ∀ l : List net_db_peer, (l.map (fun p => p.peername)).Nodup → slot ∈ l →
      l.find? (fun p => p.peername == slot.peername) = some slot := by
  intro l
  induction l with
  | nil => intro _ hm; simp at hm
  | cons a t ih =>
    intro hn hm
    rw [List.map_cons, List.nodup_cons] at hn
    rw [List.find?_cons]
    rcases List.mem_cons.mp hm with h | h
    · subst h
      simp
    · have hne : a.peername ≠ slot.peername := by
        intro heq
        exact hn.1 (by rw [heq]; exact List.mem_map_of_mem _ h)
      have : (a.peername == slot.peername) = false := by simpa using hne
      rw [this]
      exact ih hn.2 h

theorem netdbPeerByName_of_nodup (n : netdbEntry) (slot : net_db_peer)
    (hn : (n.peers.map (fun p => p.peername)).Nodup) (hm : slot ∈ n.peers) :
    netdbPeerByName n slot.peername = some slot :=
  find_of_nodup_names slot n.peers hn hm

theorem sortPeers_eq (m : netdbEntry) (l : List net_db_peer) :
    (if l.length < 2 then ({ m with peers := l } : netdbEntry)
      else { m with peers := qsortPeerByRtt l }).peers.Sorted (fun p1 p2 => p1.rtt ≤ p2.rtt)
    ∧ (if l.length < 2 then ({ m with peers := l } : netdbEntry)
        else { m with peers := qsortPeerByRtt l }).peers.Perm l
    ∧ (if l.length < 2 then ({ m with peers := l } : netdbEntry)
        else { m with peers := qsortPeerByRtt l }).network = m.network := by
  split
  · rename_i hlt
    exact ⟨sorted_of_length_lt_two hlt, List.Perm.refl _, rfl⟩
  · exact ⟨qsortPeerByRtt_sorted _, qsortPeerByRtt_perm _, rfl⟩

theorem netdbPeerAdd_peers (n : netdbEntry) (e : CachePeer) :
    (netdbPeerAdd n e).peers
        = n.peers ++ [{ peername := e.host, hops := 0, rtt := 0, expires := 0 }]
    ∧ (netdbPeerAdd n e).network = n.network := by
  unfold netdbPeerAdd netdbPeerName
  dsimp only
  refine ⟨?_, ?_⟩
  · split <;> (try split) <;> rfl
  · split <;> (try split) <;> rfl

theorem netdbRecordPeer_eq (squid_curtime : Int) (n : netdbEntry) (e : CachePeer)
    (rtt hops : ℚ) :
    netdbRecordPeer squid_curtime n e rtt hops
      = (if (writePeerSlot e.host rtt hops (squid_curtime + 3600)
              (match netdbPeerByName n e.host with
                | some _ => n
                | none => netdbPeerAdd n e).peers).length < 2
          then { (match netdbPeerByName n e.host with
                  | some _ => n
                  | none => netdbPeerAdd n e) with
                 peers := writePeerSlot e.host rtt hops (squid_curtime + 3600)
                   (match netdbPeerByName n e.host with
                    | some _ => n
                    | none => netdbPeerAdd n e).peers }
          else { (match netdbPeerByName n e.host with
                  | some _ => n
                  | none => netdbPeerAdd n e) with
                 peers := qsortPeerByRtt (writePeerSlot e.host rtt hops (squid_curtime + 3600)
                   (match netdbPeerByName n e.host with
                    | some _ => n
                    | none => netdbPeerAdd n e).peers) }) := by
  unfold netdbRecordPeer
  rfl

theorem netdbRecordPeer_slot (squid_curtime : Int) (n : netdbEntry) (e : CachePeer)
    (rtt hops : ℚ) :
    (netdbRecordPeer squid_curtime n e rtt hops).peers.Sorted (fun p1 p2 => p1.rtt ≤ p2.rtt)
    ∧ ({ peername := e.host, hops := hops, rtt := rtt, expires := squid_curtime + 3600 }
        : net_db_peer) ∈ (netdbRecordPeer squid_curtime n e rtt hops).peers
    ∧ (netdbRecordPeer squid_curtime n e rtt hops).peers.Perm
        (writePeerSlot e.host rtt hops (squid_curtime + 3600)
          (match netdbPeerByName n e.host with
            | some _ => n.peers
            | none => n.peers ++ [{ peername := e.host, hops := 0, rtt := 0, expires := 0 }]))
    ∧ (netdbRecordPeer squid_curtime n e rtt hops).network = n.network := by
  rw [netdbRecordPeer_eq]
  cases hf : netdbPeerByName n e.host with
  | some p =>
    simp only []
    obtain ⟨s1, s2, s3⟩ := sortPeers_eq n
      (writePeerSlot e.host rtt hops (squid_curtime + 3600) n.peers)
    have hp : ∃ q ∈ n.peers, q.peername = e.host := by
      unfold netdbPeerByName at hf
      exact ⟨p, List.mem_of_find?_eq_some hf, by simpa using List.find?_some hf⟩
    have hmem := writePeerSlot_mem e.host rtt hops (squid_curtime + 3600) n.peers hp
    exact ⟨s1, s2.mem_iff.mpr hmem, s2, s3⟩
  | none =>
    simp only []
    obtain ⟨a1, a2⟩ := netdbPeerAdd_peers n e
    obtain ⟨s1, s2, s3⟩ := sortPeers_eq (netdbPeerAdd n e)
      (writePeerSlot e.host rtt hops (squid_curtime + 3600) (netdbPeerAdd n e).peers)
    have hp : ∃ q ∈ (netdbPeerAdd n e).peers, q.peername = e.host := by
      rw [a1]
      exact ⟨_, List.mem_append_right _ (List.mem_singleton_self _), rfl⟩
    have hmem := writePeerSlot_mem e.host rtt hops (squid_curtime + 3600) _ hp
    refine ⟨s1, s2.mem_iff.mpr hmem, ?_, s3.trans a2⟩
    rw [← a1]
    exact s2

theorem store_absent (db : NetDB) (x : netdbEntry) (k : Ip.Address)
    (h : ∀ m ∈ db.addr_table, m.network ≠ k) : ∀ m ∈ (db.store x).addr_table, m.network ≠ k := by
  intro m hm
  unfold NetDB.store at hm
  simp only [List.mem_map] at hm
  obtain ⟨a, ha, rfl⟩ := hm
  by_cases hc : (a.network == x.network) = true
  · rw [if_pos hc]
    have : a.network = x.network := by simpa using hc
    rw [← this]
    exact h a ha
  · rw [if_neg hc]
    exact h a ha

theorem netdbHostDelete_absent (db : NetDB) (n : netdbEntry) (hostname : String)
    (k : Ip.Address) (h : ∀ m ∈ db.addr_table, m.network ≠ k) :
    ∀ m ∈ (netdbHostDelete db n hostname).1.addr_table, m.network ≠ k :=
  store_absent db _ k h

theorem netdbHostDelete_fold_absent (k : Ip.Address) (hosts : List String) :
    ∀ (db : NetDB) (n : netdbEntry), (∀ m ∈ db.addr_table, m.network ≠ k) →
      ∀ m ∈ (hosts.foldl (fun (st : NetDB × netdbEntry) x => netdbHostDelete st.1 st.2 x)
              (db, n)).1.addr_table, m.network ≠ k := by
  induction hosts with
  | nil => intro db n h; exact h
  | cons x t ih =>
    intro db n h
    rw [List.foldl_cons]
    exact ih (netdbHostDelete db n x).1 (netdbHostDelete db n x).2
      (netdbHostDelete_absent db n x k h)

theorem netdbRelease_absent (db : NetDB) (n : netdbEntry) (k : Ip.Address)
    (h : ∀ m ∈ db.addr_table, m.network ≠ k) :
    ∀ m ∈ (netdbRelease db n).addr_table, m.network ≠ k := by
  have h1 := netdbHostDelete_fold_absent k n.hosts db n h
  unfold netdbRelease
  simp only
  split
  · unfold netdbHashDelete
    intro m hm
    simp only [List.mem_filter] at hm
    exact store_absent _ _ k h1 m hm.1
  · exact store_absent _ _ k h1

theorem netdbPurgeLRULoop_absent (cfg : Netdb) (k : Ip.Address) :
    ∀ (l : List netdbEntry) (db : NetDB), (∀ m ∈ db.addr_table, m.network ≠ k) →
      ∀ m ∈ (netdbPurgeLRULoop cfg l db).addr_table, m.network ≠ k := by
  intro l
  induction l with
  | nil => intro db h; rw [netdbPurgeLRULoop]; exact h
  | cons n rest ih =>
    intro db h
    rw [netdbPurgeLRULoop]
    split
    · exact h
    · exact ih (netdbRelease db n) (netdbRelease_absent db n k h)

theorem netdbLookupAddr_none_iff (db : NetDB) (addr : Ip.Address) :
    netdbLookupAddr db addr = none ↔ ∀ m ∈ db.addr_table, m.network ≠ networkFromInaddr addr := by
  unfold netdbLookupAddr
  rw [List.find?_eq_none]
  constructor
  · intro h m hm heq
    exact h m hm (by simpa using heq)
  · intro h m hm
    simpa using h m hm

theorem netdbAdd_unknown (cfg : Netdb) (db : NetDB) (addr : Ip.Address)
    (h : netdbLookupAddr db addr = none) :
    (netdbAdd cfg db addr).2 = netdbEntry.fresh (networkFromInaddr addr)
    ∧ (netdbAdd cfg db addr).1.addr_table
        = (if UseCount db > cfg.high then netdbPurgeLRU cfg db else db).addr_table
            ++ [netdbEntry.fresh (networkFromInaddr addr)]
    ∧ (netdbAdd cfg db addr).1.host_table
        = (if UseCount db > cfg.high then netdbPurgeLRU cfg db else db).host_table
    ∧ netdbLookupAddr (if UseCount db > cfg.high then netdbPurgeLRU cfg db else db) addr
        = none := by
  have hnone : netdbLookupAddr (if UseCount db > cfg.high then netdbPurgeLRU cfg db else db) addr
      = none := by
    split
    · rw [netdbLookupAddr_none_iff]
      exact netdbPurgeLRULoop_absent cfg _ _ db ((netdbLookupAddr_none_iff db addr).mp h)
    · exact h
  unfold netdbAdd
  simp only
  rw [hnone]
  exact ⟨rfl, rfl, rfl, rfl⟩

theorem netdbLookupHost_store (db : NetDB) (host : String) (n x : netdbEntry)
    (h : netdbLookupHost db host = some n) (hx : x.network = n.network) :
    netdbLookupHost (db.store x) host = some x := by
  unfold netdbLookupHost at h ⊢
  have ht : (db.store x).host_table = db.host_table := rfl
  rw [ht]
  cases hf : db.host_table.find? (fun y => y.key == host) with
  | none => rw [hf] at h; exact absurd h (by simp)
  | some y =>
    rw [hf] at h
    simp only at h ⊢
    have hn : n.network = y.net_db_entry := by simpa using List.find?_some h
    unfold NetDB.store
    simp only
    rw [hx, hn]
    exact find?_store _ _ n x (hx.trans hn) h

theorem netdbRecordPeer_found (squid_curtime : Int) (n : netdbEntry) (e : CachePeer)
    (rtt hops : ℚ) (hn : (n.peers.map (fun p => p.peername)).Nodup) :
    netdbPeerByName (netdbRecordPeer squid_curtime n e rtt hops) e.host
        = some { peername := e.host, hops := hops, rtt := rtt, expires := squid_curtime + 3600 }
    ∧ ((netdbRecordPeer squid_curtime n e rtt hops).peers.map (fun p => p.peername)).Nodup := by
  obtain ⟨_, p2, p3, _⟩ := netdbRecordPeer_slot squid_curtime n e rtt hops
  have hnames : ((netdbRecordPeer squid_curtime n e rtt hops).peers.map
      (fun p => p.peername)).Nodup := by
    refine (List.Perm.nodup_iff (p3.map (fun p => p.peername))).mpr ?_
    rw [writePeerSlot_names]
    cases hf : netdbPeerByName n e.host with
    | some p => exact hn
    | none =>
      simp only [List.map_append, List.map_cons, List.map_nil]
      refine List.Nodup.append hn (List.nodup_singleton _) ?_
      intro x hx hx2
      rw [List.mem_singleton] at hx2
      subst hx2
      obtain ⟨q, hq, hqn⟩ := List.mem_map.mp hx
      unfold netdbPeerByName at hf
      have := List.find?_eq_none.mp hf q hq
      simp at this
      exact this hqn
  exact ⟨netdbPeerByName_of_nodup _
    { peername := e.host, hops := hops, rtt := rtt, expires := squid_curtime + 3600 }
    hnames p2, hnames⟩

/-- C19: a `netdbUpdatePeer` call for a host that has an entry, and a
`netdbExchangeUpdatePeer` call for an IPv4 address, leave the entry of that host (of that
network) with a peer array that is sorted by ascending RTT, whatever the number of slots,
and that holds a slot with the name of the peer, the given `rtt` and `hops` and
`expires = squid_curtime + 3600`. When the slot names of the entry were distinct before
the call, they are distinct after it and `netdbPeerByName` finds that slot. -/
theorem netdbUpdatePeer_sorted (cfg : Netdb) (squid_curtime : Int) (db : NetDB)
    (e : CachePeer) :
    (∀ (host : String) (irtt ihops : Int) (n : netdbEntry),
        netdbLookupHost db host = some n →
        ∃ m : netdbEntry,
          netdbLookupHost (netdbUpdatePeer squid_curtime db host e irtt ihops) host = some m
          ∧ m.network = n.network
          ∧ m.peers.Sorted (fun p1 p2 => p1.rtt ≤ p2.rtt)
          ∧ ({ peername := e.host, hops := (ihops : ℚ), rtt := (irtt : ℚ),
               expires := squid_curtime + 3600 } : net_db_peer) ∈ m.peers
          ∧ ((n.peers.map (fun p => p.peername)).Nodup →
              netdbPeerByName m e.host
                  = some { peername := e.host, hops := (ihops : ℚ), rtt := (irtt : ℚ),
                           expires := squid_curtime + 3600 }
              ∧ (m.peers.map (fun p => p.peername)).Nodup))
    ∧ (∀ (addr : Ip.Address) (rtt hops : ℚ),
        addr.isIPv4 = true →
        ∃ m : netdbEntry,
          netdbLookupAddr (netdbExchangeUpdatePeer cfg squid_curtime db addr e rtt hops) addr
              = some m
          ∧ m.network = networkFromInaddr addr
          ∧ m.peers.Sorted (fun p1 p2 => p1.rtt ≤ p2.rtt)
          ∧ ({ peername := e.host, hops := hops, rtt := rtt,
               expires := squid_curtime + 3600 } : net_db_peer) ∈ m.peers
          ∧ ((∀ n, netdbLookupAddr db addr = some n → (n.peers.map (fun p => p.peername)).Nodup) →
              netdbPeerByName m e.host
                  = some { peername := e.host, hops := hops, rtt := rtt,
                           expires := squid_curtime + 3600 }
              ∧ (m.peers.map (fun p => p.peername)).Nodup)) := by
  constructor
  · intro host irtt ihops n hl
    obtain ⟨p1, p2, _, p4⟩ := netdbRecordPeer_slot squid_curtime n e (irtt : ℚ) (ihops : ℚ)
    refine ⟨netdbRecordPeer squid_curtime n e (irtt : ℚ) (ihops : ℚ), ?_, p4, p1, p2,
      fun hn => netdbRecordPeer_found squid_curtime n e _ _ hn⟩
    unfold netdbUpdatePeer
    simp only [hl]
    exact netdbLookupHost_store db host n _ hl p4
  · intro addr rtt hops h4
    unfold netdbExchangeUpdatePeer
    have h4b : ¬ (!addr.isIPv4) = true := by simp [h4]
    rw [if_neg h4b]
    cases hl : netdbLookupAddr db addr with
    | some n =>
      simp only
      obtain ⟨p1, p2, _, p4⟩ := netdbRecordPeer_slot squid_curtime n e rtt hops
      exact ⟨netdbRecordPeer squid_curtime n e rtt hops,
        netdbLookupAddr_store _ hl p4, p4.trans (netdbLookupAddr_network hl), p1, p2,
        fun hn => netdbRecordPeer_found squid_curtime n e _ _ (hn n rfl)⟩
    | none =>
      simp only
      obtain ⟨a1, a2, _, a4⟩ := netdbAdd_unknown cfg db addr hl
      obtain ⟨p1, p2, _, p4⟩ :=
        netdbRecordPeer_slot squid_curtime (netdbAdd cfg db addr).2 e rtt hops
      have hnet : (netdbAdd cfg db addr).2.network = networkFromInaddr addr := by
        rw [a1]
        rfl
      have hlook : netdbLookupAddr (netdbAdd cfg db addr).1 addr
          = some (netdbAdd cfg db addr).2 := by
        have hall := (netdbLookupAddr_none_iff _ addr).mp a4
        unfold netdbLookupAddr
        rw [a2, List.find?_append]
        have hnone := a4
        unfold netdbLookupAddr at hnone
        rw [hnone, a1]
        simp [netdbEntry.fresh]
      refine ⟨netdbRecordPeer squid_curtime (netdbAdd cfg db addr).2 e rtt hops,
        netdbLookupAddr_store _ hlook p4, p4.trans hnet, p1, p2, fun _ => ?_⟩
      refine netdbRecordPeer_found squid_curtime _ e _ _ ?_
      rw [a1]
      exact List.nodup_nil

theorem netdbUpdatePeer_sorted_witness :
    netdbLookupHost threePeersDB "origin.example" = some threePeersEntry
    ∧ ∃ m : netdbEntry,
        netdbLookupHost (netdbUpdatePeer 1000 threePeersDB "origin.example" exampleParent 80 7)
            "origin.example" = some m
        ∧ m.network = threePeersEntry.network
        ∧ m.peers.Sorted (fun p1 p2 => p1.rtt ≤ p2.rtt)
        ∧ ({ peername := exampleParent.host, hops := ((7 : Int) : ℚ), rtt := ((80 : Int) : ℚ),
             expires := 1000 + 3600 } : net_db_peer) ∈ m.peers
        ∧ ((threePeersEntry.peers.map (fun p => p.peername)).Nodup →
            netdbPeerByName m exampleParent.host
                = some { peername := exampleParent.host, hops := ((7 : Int) : ℚ),
                         rtt := ((80 : Int) : ℚ), expires := 1000 + 3600 }
            ∧ (m.peers.map (fun p => p.peername)).Nodup) :=
  ⟨by decide!,
   (netdbUpdatePeer_sorted exampleNetdb 1000 threePeersDB exampleParent).1
     "origin.example" 80 7 threePeersEntry (by decide!)⟩

theorem netdbUpdatePeer_example :
    (netdbLookupHost (netdbUpdatePeer 1000 threePeersDB "origin.example" exampleParent 80 7)
        "origin.example").map (fun m => m.peers.map (fun p => (p.peername, p.rtt, p.expires)))
      = some [("near.example", 10, 4000), ("far.example", 50, 4200),
              ("parent.example", 80, 4600)] := by
  decide!

theorem writePeerSlot_length (peername : String) (rtt hops : ℚ) (expires : Int)
    (l : List net_db_peer) : (writePeerSlot peername rtt hops expires l).length = l.length := by
  have h := congrArg List.length (writePeerSlot_names peername rtt hops expires l)
  simpa using h

theorem netdbRecordPeer_length (squid_curtime : Int) (n : netdbEntry) (e : CachePeer)
    (rtt hops : ℚ) :
    (netdbRecordPeer squid_curtime n e rtt hops).peers.length
      = if (netdbPeerByName n e.host).isSome then n.peers.length else n.peers.length + 1 := by
  obtain ⟨_, _, p3, _⟩ := netdbRecordPeer_slot squid_curtime n e rtt hops
  rw [p3.length_eq, writePeerSlot_length]
  cases netdbPeerByName n e.host with
  | some p => rfl
  | none => simp

theorem netdbRecordPeer_fresh (squid_curtime : Int) (network : Ip.Address) (e : CachePeer)
    (rtt hops : ℚ) :
    netdbRecordPeer squid_curtime (netdbEntry.fresh network) e rtt hops
      = { netdbEntry.fresh network with
          peers := [{ peername := e.host, hops := hops, rtt := rtt,
                      expires := squid_curtime + 3600 }],
          n_peers_alloc := 2 } := by
  simp [netdbRecordPeer, netdbPeerByName, netdbPeerAdd, netdbPeerName, netdbEntry.fresh,
    writePeerSlot]

/-- C20, the claim as stated fails: for a host without an entry, `netdbUpdatePeer` leaves
the tables as they were, while `netdbExchangeUpdatePeer` for an unknown network adds the
entry with the slot of the peer. -/
theorem netdbUpdatePeer_creates_claim_fails :
    netdbLookupHost threePeersDB "unknown.example" = none
    ∧ netdbUpdatePeer 1000 threePeersDB "unknown.example" exampleParent 30 3 = threePeersDB
    ∧ netdbLookupAddr threePeersDB (Ip.Address.ofOctets 198 51 100 7 0) = none
    ∧ netdbExchangeUpdatePeer exampleNetdb 1000 threePeersDB (Ip.Address.ofOctets 198 51 100 7 0)
          exampleParent 30 3
        = { addr_table :=
              [threePeersEntry,
               { netdbEntry.fresh (Ip.Address.ofOctets 198 51 100 0 0) with
                 peers := [{ peername := "parent.example", hops := 3, rtt := 30,
                             expires := 4600 }],
                 n_peers_alloc := 2 }],
            host_table := threePeersDB.host_table } := by
  decide!

/-- C20, amended: `netdbUpdatePeer` for a host without an entry changes nothing; for a
host with the entry `n` it records the measurement in `n`, adding a slot for the peer
when `n` has none with its name. `netdbExchangeUpdatePeer` for an IPv4 address of an
unknown network adds the entry of that network, whose only slot holds the measurement. -/
theorem netdbUpdatePeer_known_host (cfg : Netdb) (squid_curtime : Int) (db : NetDB)
    (e : CachePeer) :
    (∀ (host : String) (irtt ihops : Int),
        netdbLookupHost db host = none →
        netdbUpdatePeer squid_curtime db host e irtt ihops = db)
    ∧ (∀ (host : String) (irtt ihops : Int) (n : netdbEntry),
        netdbLookupHost db host = some n →
        netdbUpdatePeer squid_curtime db host e irtt ihops
            = db.store (netdbRecordPeer squid_curtime n e (irtt : ℚ) (ihops : ℚ))
        ∧ netdbLookupHost (netdbUpdatePeer squid_curtime db host e irtt ihops) host
            = some (netdbRecordPeer squid_curtime n e (irtt : ℚ) (ihops : ℚ))
        ∧ ({ peername := e.host, hops := (ihops : ℚ), rtt := (irtt : ℚ),
             expires := squid_curtime + 3600 } : net_db_peer)
            ∈ (netdbRecordPeer squid_curtime n e (irtt : ℚ) (ihops : ℚ)).peers
        ∧ (netdbRecordPeer squid_curtime n e (irtt : ℚ) (ihops : ℚ)).peers.length
            = if (netdbPeerByName n e.host).isSome then n.peers.length
              else n.peers.length + 1)
    ∧ (∀ (addr : Ip.Address) (rtt hops : ℚ),
        addr.isIPv4 = true → netdbLookupAddr db addr = none →
        netdbLookupAddr (netdbExchangeUpdatePeer cfg squid_curtime db addr e rtt hops) addr
          = some { netdbEntry.fresh (networkFromInaddr addr) with
                   peers := [{ peername := e.host, hops := hops, rtt := rtt,
                               expires := squid_curtime + 3600 }],
                   n_peers_alloc := 2 }) := by
  refine ⟨?_, ?_, ?_⟩
  · intro host irtt ihops hl
    unfold netdbUpdatePeer
    simp only [hl]
  · intro host irtt ihops n hl
    obtain ⟨_, p2, _, p4⟩ := netdbRecordPeer_slot squid_curtime n e (irtt : ℚ) (ihops : ℚ)
    have heq : netdbUpdatePeer squid_curtime db host e irtt ihops
        = db.store (netdbRecordPeer squid_curtime n e (irtt : ℚ) (ihops : ℚ)) := by
      unfold netdbUpdatePeer
      simp only [hl]
    refine ⟨heq, ?_, p2, netdbRecordPeer_length squid_curtime n e _ _⟩
    rw [heq]
    exact netdbLookupHost_store db host n _ hl p4
  · intro addr rtt hops h4 hl
    obtain ⟨a1, a2, _, a4⟩ := netdbAdd_unknown cfg db addr hl
    have hlook : netdbLookupAddr (netdbAdd cfg db addr).1 addr
        = some (netdbAdd cfg db addr).2 := by
      unfold netdbLookupAddr
      rw [a2, List.find?_append]
      have hnone := a4
      unfold netdbLookupAddr at hnone
      rw [hnone, a1]
      simp [netdbEntry.fresh]
    obtain ⟨_, _, _, p4⟩ :=
      netdbRecordPeer_slot squid_curtime (netdbAdd cfg db addr).2 e rtt hops
    have hstore := netdbLookupAddr_store _ hlook p4
    rw [a1, netdbRecordPeer_fresh] at hstore
    unfold netdbExchangeUpdatePeer
    have h4b : ¬ (!addr.isIPv4) = true := by simp [h4]
    rw [if_neg h4b]
    simp only [hl]
    rw [a1, netdbRecordPeer_fresh]
    exact hstore

theorem netdbUpdatePeer_known_host_witness :
    netdbUpdatePeer 1000 emptyDB "origin.example" exampleParent 30 3 = emptyDB
    ∧ netdbLookupAddr
        (netdbExchangeUpdatePeer exampleNetdb 1000 emptyDB (Ip.Address.ofOctets 203 0 113 7 0)
          exampleParent 30 3) (Ip.Address.ofOctets 203 0 113 7 0)
      = some { netdbEntry.fresh (networkFromInaddr (Ip.Address.ofOctets 203 0 113 7 0)) with
               peers := [{ peername := exampleParent.host, hops := 3, rtt := 30,
                           expires := 1000 + 3600 }],
               n_peers_alloc := 2 } :=
  ⟨(netdbUpdatePeer_known_host exampleNetdb 1000 emptyDB exampleParent).1
      "origin.example" 30 3 (by decide),
   (netdbUpdatePeer_known_host exampleNetdb 1000 emptyDB exampleParent).2.2
      (Ip.Address.ofOctets 203 0 113 7 0) 30 3 (by decide) (by decide)⟩

/-! ## NetDB: the state file -/

theorem digitChar_digit {d : Nat} (h : d < 10) :
    digitValue (digitChar d) = d ∧ isDigit (digitChar d) = true := by
  interval_cases d <;> exact ⟨by decide, by decide⟩

theorem isDigit_plain {c : Char} (h : isDigit c = true) :
    c ≠ chMinus ∧ c ≠ chPlus ∧ c ≠ chPoint ∧ c ≠ chNewline ∧ w_space.contains c = false := by
  refine ⟨?_, ?_, ?_, ?_, ?_⟩
  · rintro rfl; exact absurd h (by decide)
  · rintro rfl; exact absurd h (by decide)
  · rintro rfl; exact absurd h (by decide)
  · rintro rfl; exact absurd h (by decide)
  · cases hc : w_space.contains c with
    | false => rfl
    | true =>
      have hm : c ∈ w_space := by simpa using hc
      simp only [w_space, List.mem_cons, List.mem_singleton, List.not_mem_nil, or_false] at hm
      rcases hm with rfl | rfl | rfl | rfl <;> exact absurd h (by decide)

theorem decimalDigits_spec :
    ∀ (fuel n : Nat), n < fuel →
      decimalDigits fuel n ≠ [] ∧ (∀ d ∈ decimalDigits fuel n, d < 10)
      ∧ (decimalDigits fuel n).foldr (fun d acc => acc * 10 + d) 0 = n := by
  intro fuel
  induction fuel with
  | zero => intro n h; exact absurd h (Nat.not_lt_zero n)
  | succ k ih =>
    intro n h
    rw [decimalDigits]
    by_cases hn : n < 10
    · rw [if_pos hn]
      refine ⟨by simp, ?_, by simp⟩
      intro d hd
      rw [List.mem_singleton] at hd
      omega
    · rw [if_neg hn]
      obtain ⟨_, i2, i3⟩ := ih (n / 10) (by omega)
      refine ⟨by simp, ?_, ?_⟩
      · intro d hd
        rcases List.mem_cons.mp hd with rfl | hd
        · omega
        · exact i2 d hd
      · rw [List.foldr_cons, i3]
        omega

theorem foldl_digitChars :
    ∀ l : List Nat, (∀ d ∈ l, d < 10) →
      (l.reverse.map digitChar).foldl (fun acc c => acc * 10 + digitValue c) 0
        = l.foldr (fun d acc => acc * 10 + d) 0 := by
  intro l
  induction l with
  | nil => intro _; rfl
  | cons a t ih =>
    intro h
    rw [List.reverse_cons, List.map_append, List.foldl_append,
      ih (fun d hd => h d (List.mem_cons_of_mem _ hd))]
    simp only [List.map_cons, List.map_nil, List.foldl_cons, List.foldl_nil, List.foldr_cons]
    rw [(digitChar_digit (h a (List.mem_cons_self _ _))).1]

theorem printNat_digits (n : Nat) :
    (∀ c ∈ printNat n, isDigit c = true)
    ∧ (∃ c t, printNat n = c :: t)
    ∧ (printNat n).foldl (fun acc c => acc * 10 + digitValue c) 0 = n := by
  obtain ⟨h1, h2, h3⟩ := decimalDigits_spec (n + 1) n (Nat.lt_succ_self n)
  refine ⟨?_, ?_, ?_⟩
  · intro c hc
    unfold printNat at hc
    obtain ⟨d, hd, rfl⟩ := List.mem_map.mp hc
    exact (digitChar_digit (h2 d (List.mem_reverse.mp hd))).2
  · unfold printNat
    cases hl : (decimalDigits (n + 1) n).reverse.map digitChar with
    | nil =>
      have : decimalDigits (n + 1) n = [] := by simpa using hl
      exact absurd this h1
    | cons c t => exact ⟨c, t, rfl⟩
  · unfold printNat
    rw [foldl_digitChars _ h2, h3]

theorem takeWhile_digits {ds rest : List Char} (hd : ∀ c ∈ ds, isDigit c = true)
    (hr : EndsDigits rest) :
    (ds ++ rest).takeWhile isDigit = ds ∧ (ds ++ rest).dropWhile isDigit = rest := by
  rw [List.takeWhile_append_of_pos hd, List.dropWhile_append_of_pos hd]
  cases rest with
  | nil => simp
  | cons c t =>
    have hc : isDigit c = false := hr c (by simp)
    simp [List.takeWhile_cons, List.dropWhile_cons, hc]

theorem atoiNat_printNat (n : Nat) {rest : List Char} (hr : EndsDigits rest) :
    atoiNat (printNat n ++ rest) = n := by
  obtain ⟨h1, _, h3⟩ := printNat_digits n
  unfold atoiNat
  rw [(takeWhile_digits h1 hr).1, h3]

theorem endsDigits_nil : EndsDigits [] := by
  intro c hc
  simp at hc

theorem atoi_printInt (z : Int) : atoi (printInt z) = z := by
  unfold printInt
  by_cases hz : z < 0
  · rw [if_pos hz]
    have h := atoiNat_printNat z.natAbs endsDigits_nil
    rw [List.append_nil] at h
    simp only [atoi, if_true, h]
    omega
  · rw [if_neg hz]
    obtain ⟨h1, ⟨c, t, hct⟩, _⟩ := printNat_digits z.natAbs
    have h := atoiNat_printNat z.natAbs endsDigits_nil
    rw [List.append_nil] at h
    have hc := isDigit_plain (h1 c (by rw [hct]; exact List.mem_cons_self _ _))
    rw [hct] at h ⊢
    simp only [atoi, if_neg hc.1, if_neg hc.2.1, h]
    omega

theorem timeToInt_of_range {t : Int} (h0 : -2 ^ 31 ≤ t) (h1 : t < 2 ^ 31) : timeToInt t = t := by
  unfold timeToInt
  omega

theorem atoiNat_five {a b c d e : Nat} (ha : a < 10) (hb : b < 10) (hc : c < 10) (hd : d < 10)
    (he : e < 10) :
    atoiNat [digitChar a, digitChar b, digitChar c, digitChar d, digitChar e]
        = a * 10000 + b * 1000 + c * 100 + d * 10 + e
    ∧ ([digitChar a, digitChar b, digitChar c, digitChar d, digitChar e].takeWhile
        isDigit).length = 5 := by
  have hall : ∀ x ∈ [digitChar a, digitChar b, digitChar c, digitChar d, digitChar e],
      isDigit x = true := by
    intro x hx
    simp only [List.mem_cons, List.mem_singleton, List.not_mem_nil, or_false] at hx
    rcases hx with rfl | rfl | rfl | rfl | rfl
    · exact (digitChar_digit ha).2
    · exact (digitChar_digit hb).2
    · exact (digitChar_digit hc).2
    · exact (digitChar_digit hd).2
    · exact (digitChar_digit he).2
  have ht := List.takeWhile_eq_self_iff.mpr hall
  unfold atoiNat
  rw [ht]
  simp only [List.foldl_cons, List.foldl_nil, (digitChar_digit ha).1, (digitChar_digit hb).1,
    (digitChar_digit hc).1, (digitChar_digit hd).1, (digitChar_digit he).1, List.length_cons,
    List.length_nil]
  refine ⟨?_, ?_⟩
  · ring
  · trivial

theorem atofNat_fixed (m : Nat) :
    atofNat (printNat (m / 100000)
      ++ [chPoint, digitChar (m / 10000 % 10), digitChar (m / 1000 % 10),
          digitChar (m / 100 % 10), digitChar (m / 10 % 10), digitChar (m % 10)])
      = (m : ℚ) / 100000 := by
  have hends : EndsDigits [chPoint, digitChar (m / 10000 % 10), digitChar (m / 1000 % 10),
      digitChar (m / 100 % 10), digitChar (m / 10 % 10), digitChar (m % 10)] := by
    intro c hc
    simp only [List.head?_cons, Option.mem_def, Option.some.injEq] at hc
    subst hc
    decide
  obtain ⟨h1, _, _⟩ := printNat_digits (m / 100000)
  obtain ⟨f1, f2⟩ := atoiNat_five (Nat.mod_lt (m / 10000) (by decide : 0 < 10))
    (Nat.mod_lt (m / 1000) (by decide : 0 < 10)) (Nat.mod_lt (m / 100) (by decide : 0 < 10))
    (Nat.mod_lt (m / 10) (by decide : 0 < 10)) (Nat.mod_lt m (by decide : 0 < 10))
  unfold atofNat
  rw [(takeWhile_digits h1 hends).2]
  simp only [if_true]
  rw [atoiNat_printNat _ hends, f1, f2]
  have hm : m / 10000 % 10 * 10000 + m / 1000 % 10 * 1000 + m / 100 % 10 * 100
      + m / 10 % 10 * 10 + m % 10 = m % 100000 := by omega
  rw [hm]
  have hdm : (m : ℚ) = ((m / 100000 : Nat) : ℚ) * 100000 + ((m % 100000 : Nat) : ℚ) := by
    have := Nat.div_add_mod m 100000
    have h2 : ((100000 * (m / 100000) + m % 100000 : Nat) : ℚ) = (m : ℚ) := by rw [this]
    push_cast at h2
    linarith
  rw [hdm]
  ring

theorem atof_fixed5 (q : ℚ) : atof (fixed5 q) = toDouble (roundDecimals5 q) := by
  unfold fixed5 roundDecimals5
  by_cases hq : q < 0
  · simp only [if_pos hq, List.singleton_append, List.cons_append, List.nil_append, atoi, atof,
      if_true]
    rw [atofNat_fixed]
  · simp only [if_neg hq, List.nil_append]
    obtain ⟨h1, ⟨c, t, hct⟩, _⟩ := printNat_digits (roundedUnits q / 100000)
    have hc := isDigit_plain (h1 c (by rw [hct]; exact List.mem_cons_self _ _))
    have key := atofNat_fixed (roundedUnits q)
    rw [hct] at key ⊢
    simp only [List.cons_append, atof, if_neg hc.1, if_neg hc.2.1]
    rw [← key]
    rfl

theorem roundDecimals5_of_int {q : ℚ} {m : Int} (h : q * 100000 = (m : ℚ)) :
    roundDecimals5 q = q := by
  have ha : |q| * 100000 = ((|m| : Int) : ℚ) := by
    have : |q| * 100000 = |q * 100000| := by
      rw [abs_mul]
      norm_num
    rw [this, h]
    push_cast
    rfl
  have hu : roundedUnits q = m.natAbs := by
    unfold roundedUnits
    simp only [ha, Rat.intCast_num, Rat.intCast_den, Nat.mod_one, Nat.mul_zero, Nat.zero_lt_one,
      if_true, Nat.div_one]
    exact Int.natAbs_abs m
  unfold roundDecimals5
  rw [hu]
  have hnat : ((m.natAbs : Nat) : ℚ) = |q| * 100000 := by
    rw [ha]
    have h3 : ((m.natAbs : Nat) : Int) = |m| := Int.natCast_natAbs m
    rw [← h3]
    push_cast
    exact (Nat.cast_natAbs m).trans (by push_cast; rfl)
  rw [hnat]
  by_cases hq : q < 0
  · rw [if_pos hq, abs_of_neg hq]
    ring
  · rw [if_neg hq, abs_of_nonneg (not_lt.mp hq)]
    ring

theorem roundedUnits_near (q : ℚ) : |(roundedUnits q : ℚ) - |q| * 100000| ≤ 1 / 2 := by
  have ha0 : 0 ≤ |q| * 100000 := mul_nonneg (abs_nonneg q) (by norm_num)
  have hnum : 0 ≤ (|q| * 100000).num := Rat.num_nonneg.mpr ha0
  have hd0 : 0 < (|q| * 100000).den := Rat.den_pos _
  have hdq : (0 : ℚ) < ((|q| * 100000).den : ℚ) := by exact_mod_cast hd0
  have han : |q| * 100000 * ((|q| * 100000).den : ℚ) = (((|q| * 100000).num.natAbs : Nat) : ℚ) := by
    have h1 : (((|q| * 100000).num.natAbs : Nat) : Int) = (|q| * 100000).num :=
      Int.natAbs_of_nonneg hnum
    have h2 : (((|q| * 100000).num.natAbs : Nat) : ℚ) = (((|q| * 100000).num : Int) : ℚ) := by
      rw [Nat.cast_natAbs, abs_of_nonneg hnum]
    rw [h2]
    exact Rat.mul_den_eq_num _
  have hdm := Nat.div_add_mod (|q| * 100000).num.natAbs (|q| * 100000).den
  have hr := Nat.mod_lt (|q| * 100000).num.natAbs hd0
  have hcase : (roundedUnits q = (|q| * 100000).num.natAbs / (|q| * 100000).den
        ∧ 2 * ((|q| * 100000).num.natAbs % (|q| * 100000).den) ≤ (|q| * 100000).den)
      ∨ (roundedUnits q = (|q| * 100000).num.natAbs / (|q| * 100000).den + 1
        ∧ (|q| * 100000).den ≤ 2 * ((|q| * 100000).num.natAbs % (|q| * 100000).den)) := by
    unfold roundedUnits
    simp only
    split_ifs with c1 c2 c3
    · exact Or.inl ⟨rfl, Nat.le_of_lt c1⟩
    · exact Or.inr ⟨rfl, Nat.le_of_lt c2⟩
    · exact Or.inl ⟨rfl, not_lt.mp c2⟩
    · exact Or.inr ⟨rfl, not_lt.mp c1⟩
  generalize roundedUnits q = m at hcase ⊢
  generalize (|q| * 100000).num.natAbs = n at han hdm hr hcase
  generalize hden : (|q| * 100000).den = d at han hdm hr hdq hd0 hcase
  have hq2 : |q| * 100000 * (d : ℚ) = (d : ℚ) * ((n / d : Nat) : ℚ) + ((n % d : Nat) : ℚ) := by
    rw [han]
    exact_mod_cast congrArg (fun z : Nat => (z : ℚ)) hdm.symm
  rw [abs_le]
  rcases hcase with ⟨hm, hle⟩ | ⟨hm, hle⟩
  · rw [hm]
    have hle2 : (2 : ℚ) * ((n % d : Nat) : ℚ) ≤ (d : ℚ) := by exact_mod_cast hle
    have hr0 : (0 : ℚ) ≤ ((n % d : Nat) : ℚ) := Nat.cast_nonneg _
    constructor
    · rw [← sub_nonneg]
      have : 0 ≤ ((((n / d : Nat) : ℚ) - |q| * 100000) - (-(1 / 2))) * (d : ℚ) := by nlinarith
      exact nonneg_of_mul_nonneg_left this hdq
    · rw [← sub_nonneg]
      have : 0 ≤ (1 / 2 - (((n / d : Nat) : ℚ) - |q| * 100000)) * (d : ℚ) := by nlinarith
      exact nonneg_of_mul_nonneg_left this hdq
  · rw [hm]
    have hle2 : (d : ℚ) ≤ (2 : ℚ) * ((n % d : Nat) : ℚ) := by exact_mod_cast hle
    have hr1 : ((n % d : Nat) : ℚ) < (d : ℚ) := by exact_mod_cast hr
    push_cast
    constructor
    · rw [← sub_nonneg]
      have : 0 ≤ (((((n / d : Nat) : ℚ) + 1) - |q| * 100000) - (-(1 / 2))) * (d : ℚ) := by
        nlinarith
      exact nonneg_of_mul_nonneg_left this hdq
    · rw [← sub_nonneg]
      have : 0 ≤ (1 / 2 - ((((n / d : Nat) : ℚ) + 1) - |q| * 100000)) * (d : ℚ) := by nlinarith
      exact nonneg_of_mul_nonneg_left this hdq

theorem roundDecimals5_near (q : ℚ) : |roundDecimals5 q - q| ≤ 1 / 200000 := by
  have h := roundedUnits_near q
  rw [abs_le] at h ⊢
  unfold roundDecimals5
  by_cases hq : q < 0
  · rw [if_pos hq]
    rw [abs_of_neg hq] at h
    constructor <;> linarith [h.1, h.2]
  · rw [if_neg hq]
    rw [abs_of_nonneg (not_lt.mp hq)] at h
    constructor <;> linarith [h.1, h.2]

theorem isToken_printNat (n : Nat) : IsToken (printNat n) := by
  obtain ⟨h1, ⟨c, t, hct⟩, _⟩ := printNat_digits n
  exact ⟨by rw [hct]; simp, fun x hx => (isDigit_plain (h1 x hx)).2.2.2.2⟩

theorem isToken_printInt (z : Int) : IsToken (printInt z) := by
  unfold printInt
  split
  · refine ⟨by simp, ?_⟩
    intro c hc
    rcases List.mem_cons.mp hc with rfl | hc
    · decide
    · exact (isToken_printNat _).2 c hc
  · exact isToken_printNat _

theorem isToken_fixed5 (q : ℚ) : IsToken (fixed5 q) := by
  unfold fixed5
  refine ⟨by simp, ?_⟩
  intro c hc
  simp only [List.mem_append, List.mem_cons, List.mem_singleton, List.not_mem_nil, or_false] at hc
  have hmod : ∀ k : Nat, w_space.contains (digitChar (k % 10)) = false := fun k =>
    (isDigit_plain (digitChar_digit (Nat.mod_lt k (by decide : 0 < 10))).2).2.2.2.2
  rcases hc with (hc | hc) | hc
  · split at hc
    · rw [List.mem_singleton] at hc
      subst hc
      decide
    · simp at hc
  · exact (isToken_printNat _).2 c hc
  · rcases hc with rfl | rfl | rfl | rfl | rfl | rfl
    · decide
    · exact hmod _
    · exact hmod _
    · exact hmod _
    · exact hmod _
    · exact hmod _

theorem strtokAll_nil : strtokAll [] = [] := by
  decide

theorem strtokAll_space (c : Char) (hc : w_space.contains c = true) (rest : List Char) :
    strtokAll (c :: rest) = strtokAll rest := by
  unfold strtokAll
  rw [List.splitOnP_cons, if_pos hc, List.filter_cons]
  simp

theorem strtokAll_spaces (k : Nat) (rest : List Char) :
    strtokAll (List.replicate k chSpace ++ rest) = strtokAll rest := by
  induction k with
  | zero => rfl
  | succ k ih =>
    rw [List.replicate_succ, List.cons_append, strtokAll_space chSpace (by decide), ih]

theorem strtokAll_last {t : List Char} (ht : IsToken t) : strtokAll t = [t] := by
  unfold strtokAll
  rw [List.splitOnP_eq_single]
  · have : t.isEmpty = false := by
      cases t with
      | nil => exact absurd rfl ht.1
      | cons a l => rfl
    simp [List.filter_cons, this]
  · intro x hx
    simp only [ht.2 x hx, Bool.false_eq_true, not_false_eq_true]

theorem strtokAll_field {t : List Char} (ht : IsToken t) (c : Char)
    (hc : w_space.contains c = true) (rest : List Char) :
    strtokAll (t ++ c :: rest) = t :: strtokAll rest := by
  unfold strtokAll
  rw [List.splitOnP_first (fun c => w_space.contains c) t
    (fun x hx => by simp only [ht.2 x hx, Bool.false_eq_true, not_false_eq_true]) c hc rest]
  have : t.isEmpty = false := by
    cases t with
    | nil => exact absurd rfl ht.1
    | cons a l => rfl
  rw [List.filter_cons]
  simp [this]

theorem strtokAll_hosts :
    ∀ (hosts : List String), (∀ x ∈ hosts, IsToken x.data) → ∀ {t : List Char}, IsToken t →
      strtokAll (t ++ hosts.flatMap (fun x => chSpace :: x.data))
        = t :: hosts.map (fun x => x.data) := by
  intro hosts
  induction hosts with
  | nil =>
    intro _ t ht
    rw [List.flatMap_nil, List.append_nil, strtokAll_last ht]
    rfl
  | cons x rest ih =>
    intro hh t ht
    rw [List.flatMap_cons, List.cons_append, strtokAll_field ht chSpace (by decide),
      ih (fun y hy => hh y (List.mem_cons_of_mem _ hy)) (hh x (List.mem_cons_self _ _))]
    rfl

theorem strtokAll_saveLine (txt : AddressText) (n : netdbEntry)
    (hnet : IsToken (txt.toStr n.network)) (hhosts : ∀ x ∈ n.hosts, IsToken x.data) :
    strtokAll (netdbSaveFields txt n ++ n.hosts.flatMap (fun x => chSpace :: x.data))
      = txt.toStr n.network :: printInt n.pings_sent :: printInt n.pings_recv
          :: fixed5 n.hops :: fixed5 n.rtt :: printInt (timeToInt n.next_ping_time)
          :: printInt (timeToInt n.last_use_time) :: n.hosts.map (fun x => x.data) := by
  unfold netdbSaveFields printFixed5
  simp only [List.append_assoc, List.cons_append]
  rw [strtokAll_field hnet chSpace (by decide), strtokAll_field (isToken_printInt _) chSpace (by decide),
    strtokAll_field (isToken_printInt _) chSpace (by decide), strtokAll_spaces,
    strtokAll_field (isToken_fixed5 _) chSpace (by decide), strtokAll_spaces,
    strtokAll_field (isToken_fixed5 _) chSpace (by decide),
    strtokAll_field (isToken_printInt _) chSpace (by decide),
    strtokAll_hosts n.hosts hhosts (isToken_printInt _)]

theorem bufferLines_nil : bufferLines [] = [] := by
  decide

theorem bufferLines_cons {line : List Char} (h : ∀ c ∈ line, c ≠ chNewline)
    (rest : List Char) : bufferLines (line ++ chNewline :: rest) = line :: bufferLines rest := by
  unfold bufferLines
  rw [List.splitOnP_first (fun c => c == chNewline) line
    (fun x hx => by simpa using h x hx) chNewline (by simp) rest]
  exact List.dropLast_cons_of_ne_nil (List.splitOnP_ne_nil _ _)

theorem token_no_newline {t : List Char} (ht : IsToken t) : ∀ c ∈ t, c ≠ chNewline := by
  intro c hc heq
  have := ht.2 c hc
  rw [heq] at this
  exact absurd this (by decide)

theorem saveLine_no_newline (txt : AddressText) (n : netdbEntry)
    (hnet : IsToken (txt.toStr n.network)) (hhosts : ∀ x ∈ n.hosts, IsToken x.data) :
    ∀ c ∈ netdbSaveFields txt n ++ n.hosts.flatMap (fun x => chSpace :: x.data),
      c ≠ chNewline := by
  have hsp : chSpace ≠ chNewline := by decide
  intro c hc
  unfold netdbSaveFields printFixed5 at hc
  simp only [List.mem_append, List.mem_cons, List.mem_flatMap, List.mem_replicate] at hc
  rcases hc with (h | h | h | h | h | h | h | h | h | h | h | h | h) | h
  · exact token_no_newline hnet c h
  · rw [h]; exact hsp
  · exact token_no_newline (isToken_printInt _) c h
  · rw [h]; exact hsp
  · exact token_no_newline (isToken_printInt _) c h
  · rw [h]; exact hsp
  · rcases h with h | h
    · rw [h.2]; exact hsp
    · exact token_no_newline (isToken_fixed5 _) c h
  · rw [h]; exact hsp
  · rcases h with h | h
    · rw [h.2]; exact hsp
    · exact token_no_newline (isToken_fixed5 _) c h
  · rw [h]; exact hsp
  · exact token_no_newline (isToken_printInt _) c h
  · rw [h]; exact hsp
  · exact token_no_newline (isToken_printInt _) c h
  · obtain ⟨x, hx, h⟩ := h
    rcases h with h | h
    · rw [h]; exact hsp
    · exact token_no_newline (hhosts x hx) c h

theorem store_last (T : List netdbEntry) (H : List net_db_name) (m x : netdbEntry)
    (hT : ∀ e ∈ T, e.network ≠ m.network) (hx : x.network = m.network) :
    (NetDB.store { addr_table := T ++ [m], host_table := H } x).addr_table = T ++ [x] := by
  unfold NetDB.store
  simp only [List.map_append, List.map_cons, List.map_nil]
  have h1 : T.map (fun e => if (e.network == x.network) = true then x else e) = T := by
    conv_rhs => rw [← List.map_id T]
    apply List.map_congr_left
    intro e he
    have : (e.network == x.network) = false := by
      rw [hx]
      simpa using hT e he
    simp [this]
  have h2 : (m.network == x.network) = true := by simp [hx]
  rw [h1, h2]
  rfl

theorem netdbLookupHost_absent (db : NetDB) (x : String)
    (h : ∀ y ∈ db.host_table, y.key ≠ x) : netdbLookupHost db x = none := by
  unfold netdbLookupHost
  have : db.host_table.find? (fun y => y.key == x) = none := by
    rw [List.find?_eq_none]
    intro y hy
    simpa using h y hy
  rw [this]

theorem netdbReloadHosts_saved (T : List netdbEntry) :
    ∀ (hosts : List String) (H : List net_db_name) (m : netdbEntry),
      (∀ e ∈ T, e.network ≠ m.network) → hosts.Nodup →
      (∀ x ∈ hosts, ∀ y ∈ H, y.key ≠ x) →
      netdbReloadHosts (hosts.map (fun x => x.data))
          ({ addr_table := T ++ [m], host_table := H }, m)
        = ({ addr_table := T ++ [{ m with hosts := hosts.reverse ++ m.hosts,
                                          link_count := m.link_count + (hosts.length : Int) }],
             host_table := H ++ hosts.map (fun x => { key := x, net_db_entry := m.network }) },
           { m with hosts := hosts.reverse ++ m.hosts,
                    link_count := m.link_count + (hosts.length : Int) }) := by
  intro hosts
  induction hosts with
  | nil =>
    intro H m _ _ _
    simp [netdbReloadHosts]
  | cons x rest ih =>
    intro H m hT hnd hH
    rw [List.map_cons, netdbReloadHosts]
    have hx : String.mk x.data = x := rfl
    rw [hx, netdbLookupHost_absent _ x (hH x (List.mem_cons_self _ _))]
    simp only [Option.isSome_none, Bool.false_eq_true, if_false]
    have hins : netdbHostInsert { addr_table := T ++ [m], host_table := H } m x
        = ({ addr_table := T ++ [{ m with hosts := x :: m.hosts,
                                          link_count := m.link_count + 1 }],
             host_table := H ++ [{ key := x, net_db_entry := m.network }] },
           { m with hosts := x :: m.hosts, link_count := m.link_count + 1 }) := by
      unfold netdbHostInsert
      simp only
      rw [store_last T H m { m with hosts := x :: m.hosts, link_count := m.link_count + 1 }
        hT rfl]
      rfl
    rw [hins]
    have hnd2 := List.nodup_cons.mp hnd
    have key := ih (H ++ [({ key := x, net_db_entry := m.network } : net_db_name)])
      { m with hosts := x :: m.hosts, link_count := m.link_count + 1 } hT hnd2.2 ?_
    · rw [key]
      simp only [List.reverse_cons, List.append_assoc, List.singleton_append, List.length_cons,
        List.map_cons, List.cons_append, List.nil_append]
      have hl : m.link_count + 1 + (rest.length : Int) = m.link_count + ((rest.length + 1 : Nat) : Int) := by
        push_cast
        ring
      rw [hl]
    · intro z hz y hy
      rcases List.mem_append.mp hy with hy | hy
      · exact hH z (List.mem_cons_of_mem _ hz) y hy
      · rw [List.mem_singleton] at hy
        subst hy
        intro heq
        have h2 : x = z := heq
        exact hnd2.1 (by rw [h2]; exact hz)

theorem saveable_tail {txt : AddressText} {a : netdbEntry} {t : List netdbEntry}
    (h : Saveable txt (a :: t)) : Saveable txt t := by
  refine ⟨?_, fun n hn => h.normal n (List.mem_cons_of_mem _ hn),
    fun n hn => h.assigned n (List.mem_cons_of_mem _ hn),
    fun n hn => h.netToken n (List.mem_cons_of_mem _ hn),
    fun n hn => h.hostToken n (List.mem_cons_of_mem _ hn), ?_,
    fun n hn => h.nextRange n (List.mem_cons_of_mem _ hn),
    fun n hn => h.lastRange n (List.mem_cons_of_mem _ hn)⟩
  · have := h.networks
    rw [List.map_cons, List.nodup_cons] at this
    exact this.2
  · have := h.hostsNodup
    rw [List.flatMap_cons, List.nodup_append] at this
    exact this.2.1

theorem netdbReloadLine_saved (txt : AddressText) (db0 : NetDB) (n : netdbEntry)
    (hassign : txt.assign (txt.toStr n.network) = some n.network)
    (hnormal : networkFromInaddr n.network = n.network)
    (hnet : IsToken (txt.toStr n.network)) (hhosts : ∀ x ∈ n.hosts, IsToken x.data)
    (hrecv : n.pings_recv ≠ 0)
    (hnext : -2 ^ 31 ≤ n.next_ping_time ∧ n.next_ping_time < 2 ^ 31)
    (hlast : -2 ^ 31 ≤ n.last_use_time ∧ n.last_use_time < 2 ^ 31)
    (hnew : ∀ e ∈ db0.addr_table, e.network ≠ n.network)
    (hnd : n.hosts.Nodup) (hH : ∀ x ∈ n.hosts, ∀ y ∈ db0.host_table, y.key ≠ x) :
    netdbReloadLine txt db0
        (netdbSaveFields txt n ++ n.hosts.flatMap (fun x => chSpace :: x.data))
      = { addr_table := db0.addr_table ++ [reloadedEntry n],
          host_table := db0.host_table ++ namesOf n } := by
  have hlook : netdbLookupAddr db0 n.network = none := by
    rw [netdbLookupAddr_none_iff, hnormal]
    exact hnew
  have hz : (n.pings_recv == 0) = false := by simpa using hrecv
  unfold netdbReloadLine
  rw [strtokAll_saveLine txt n hnet hhosts]
  simp only [hassign, hlook, Option.isSome_none, Bool.false_eq_true, if_false, hz, atoi_printInt,
    atof_fixed5, timeToInt_of_range hnext.1 hnext.2, timeToInt_of_range hlast.1 hlast.2, hnormal]
  have key := netdbReloadHosts_saved db0.addr_table n.hosts db0.host_table
    { netdbEntry.fresh n.network with
      pings_sent := 1, pings_recv := 1, hops := toDouble (roundDecimals5 n.hops),
      rtt := toDouble (roundDecimals5 n.rtt), next_ping_time := n.next_ping_time,
      last_use_time := n.last_use_time } hnew hnd hH
  rw [key]
  simp [reloadedEntry, namesOf, netdbEntry.fresh]

theorem netdbReloadState_fold (txt : AddressText) :
    ∀ (l : List netdbEntry) (db0 : NetDB), Saveable txt l →
      (∀ n ∈ l, ∀ e ∈ db0.addr_table, e.network ≠ n.network) →
      (∀ n ∈ l, ∀ x ∈ n.hosts, ∀ y ∈ db0.host_table, y.key ≠ x) →
      netdbReloadState txt db0
          (l.flatMap (fun n => if n.pings_recv == 0 then [] else netdbSaveLine txt n))
        = { addr_table := db0.addr_table
              ++ (l.filter (fun n => !(n.pings_recv == 0))).map reloadedEntry,
            host_table := db0.host_table
              ++ (l.filter (fun n => !(n.pings_recv == 0))).flatMap namesOf } := by
  intro l
  induction l with
  | nil =>
    intro db0 _ _ _
    simp [netdbReloadState, bufferLines_nil]
  | cons a t ih =>
    intro db0 hs hA hH
    have hst := saveable_tail hs
    rw [List.flatMap_cons, List.filter_cons]
    by_cases hz : (a.pings_recv == 0) = true
    · simp only [hz, if_true, List.nil_append, Bool.not_true, Bool.false_eq_true, if_false]
      exact ih db0 hst (fun n hn => hA n (List.mem_cons_of_mem _ hn))
        (fun n hn => hH n (List.mem_cons_of_mem _ hn))
    · have hz2 : (a.pings_recv == 0) = false := by simpa using hz
      have hrecv : a.pings_recv ≠ 0 := by simpa using hz
      have ha := List.mem_cons_self a t
      have hnets := hs.networks
      rw [List.map_cons, List.nodup_cons] at hnets
      have hhostsnd := hs.hostsNodup
      rw [List.flatMap_cons, List.nodup_append] at hhostsnd
      have hline : netdbSaveLine txt a
          = (netdbSaveFields txt a ++ a.hosts.flatMap (fun x => chSpace :: x.data))
              ++ [chNewline] := rfl
      have hbuf : bufferLines (netdbSaveLine txt a
            ++ t.flatMap (fun n => if n.pings_recv == 0 then [] else netdbSaveLine txt n))
          = (netdbSaveFields txt a ++ a.hosts.flatMap (fun x => chSpace :: x.data))
            :: bufferLines
                (t.flatMap (fun n => if n.pings_recv == 0 then [] else netdbSaveLine txt n)) := by
        rw [hline, List.append_assoc, List.singleton_append,
          bufferLines_cons (saveLine_no_newline txt a (hs.netToken a ha) (hs.hostToken a ha))]
      have hstep := netdbReloadLine_saved txt db0 a (hs.assigned a ha) (hs.normal a ha)
        (hs.netToken a ha) (hs.hostToken a ha) hrecv (hs.nextRange a ha) (hs.lastRange a ha)
        (hA a ha) hhostsnd.1 (hH a ha)
      have hrest := ih { addr_table := db0.addr_table ++ [reloadedEntry a],
                         host_table := db0.host_table ++ namesOf a } hst ?_ ?_
      · simp only [hz2, Bool.false_eq_true, if_false, Bool.not_false, if_true, List.map_cons,
          List.flatMap_cons]
        unfold netdbReloadState at hrest ⊢
        rw [hbuf, List.foldl_cons, hstep, hrest]
        simp only [List.append_assoc, List.singleton_append]
      · intro n hn e he
        rcases List.mem_append.mp he with he | he
        · exact hA n (List.mem_cons_of_mem _ hn) e he
        · rw [List.mem_singleton] at he
          subst he
          intro heq
          have h2 : a.network = n.network := heq
          exact hnets.1 (by rw [h2]; exact List.mem_map_of_mem _ hn)
      · intro n hn x hx y hy
        rcases List.mem_append.mp hy with hy | hy
        · exact hH n (List.mem_cons_of_mem _ hn) x hx y hy
        · unfold namesOf at hy
          obtain ⟨z, hz3, rfl⟩ := List.mem_map.mp hy
          intro heq
          have h2 : z = x := heq
          subst h2
          exact hhostsnd.2.2 hz3 (List.mem_flatMap.mpr ⟨n, hn, hx⟩)

theorem find?_reloadedEntry (E : netdbEntry) :
    ∀ L : List netdbEntry, (L.map (fun n => n.network)).Nodup → E ∈ L →
      (L.map reloadedEntry).find? (fun m => m.network == E.network) = some (reloadedEntry E) := by
  intro L
  induction L with
  | nil => intro _ h; simp at h
  | cons a t ih =>
    intro hn hE
    rw [List.map_cons, List.nodup_cons] at hn
    rw [List.map_cons, List.find?_cons]
    have hnet : (reloadedEntry a).network = a.network := rfl
    rcases List.mem_cons.mp hE with rfl | hE
    · simp [hnet]
    · have hne : a.network ≠ E.network := by
        intro heq
        exact hn.1 (by rw [heq]; exact List.mem_map_of_mem _ hE)
      have hb : ((reloadedEntry a).network == E.network) = false := by
        rw [hnet]
        simpa using hne
      rw [hb]
      exact ih hn.2 hE

theorem netdbReloadState_saveState (txt : AddressText) (db : NetDB)
    (h : Saveable txt db.addr_table) :
    netdbReloadState txt emptyDB (netdbSaveState txt db)
      = { addr_table := (savedEntries db).map reloadedEntry,
          host_table := (savedEntries db).flatMap namesOf } := by
  have key := netdbReloadState_fold txt db.addr_table emptyDB h
    (fun _ _ e he => by simp [emptyDB] at he) (fun _ _ _ _ y hy => by simp [emptyDB] at hy)
  unfold netdbSaveState savedEntries
  rw [key]
  simp [emptyDB]

/-- C16, the claim as stated fails: an entry whose `rtt` is the double nearest to 5/3 is
printed with five decimals, as 1.66667, and comes back with the double nearest to 1.66667
as its `rtt`, and a `next_ping_time` of `2^31 + 300` is printed through `(int)` and comes
back as `-2^31 + 300`. -/
theorem netdbReloadState_same_claim_fails :
    Saveable dottedQuad savedDB.addr_table
    ∧ (savedDB.addr_table.map (fun n => (n.pings_recv, n.rtt))
        = [(3, 7505999378950827 / 4503599627370496), (0, 0)])
    ∧ (netdbReloadState dottedQuad emptyDB (netdbSaveState dottedQuad savedDB)).addr_table.map
          (fun m => (m.network, m.rtt))
        = [(Ip.Address.ofOctets 10 0 1 0 0, 7506014390949585 / 4503599627370496)]
    ∧ (7506014390949585 / 4503599627370496 : ℚ) ≠ 7505999378950827 / 4503599627370496
    ∧ (netdbReloadState dottedQuad emptyDB (netdbSaveState dottedQuad lateDB)).addr_table.map
          (fun m => (m.network, m.next_ping_time))
        = [(Ip.Address.ofOctets 10 0 1 0 0, -2147483348)] := by
  refine ⟨⟨by decide!, by decide!, by decide!, by decide!, by decide!, by decide!, by decide!,
    by decide!⟩, by decide!, by decide!, by norm_num, by decide!⟩

/-- C16, amended: for a table that satisfies `Saveable`, `netdbSaveState` followed by
`netdbReloadState` into empty tables gives, for every entry `E` whose `pings_recv` is not
zero, an entry with the network, `next_ping_time` and `last_use_time` of `E`, with `hops`
and `rtt` rounded to five decimals and read back as the nearest double (the rounding
to five decimals is never farther than 1/200000 from the value, the double read is the
nearest to the decimal, and the result is the same double when that has no more than five
decimals), with `pings_sent = pings_recv = 1` and with the names of `E`, in reverse order;
an entry whose `pings_recv` is zero gives no entry. -/
theorem netdbReloadState_roundtrip (txt : AddressText) (db : NetDB)
    (h : Saveable txt db.addr_table) (E : netdbEntry) (hE : E ∈ db.addr_table) :
    netdbReloadState txt emptyDB (netdbSaveState txt db)
        = { addr_table := (savedEntries db).map reloadedEntry,
            host_table := (savedEntries db).flatMap namesOf }
    ∧ (E.pings_recv ≠ 0 →
        ∃ m : netdbEntry,
          netdbLookupAddr (netdbReloadState txt emptyDB (netdbSaveState txt db)) E.network
              = some m
          ∧ m.network = E.network
          ∧ m.hops = atof (fixed5 E.hops) ∧ m.rtt = atof (fixed5 E.rtt)
          ∧ m.hops = toDouble (roundDecimals5 E.hops) ∧ m.rtt = toDouble (roundDecimals5 E.rtt)
          ∧ |roundDecimals5 E.hops - E.hops| ≤ 1 / 200000
          ∧ |roundDecimals5 E.rtt - E.rtt| ≤ 1 / 200000
          ∧ |m.hops - roundDecimals5 E.hops|
              ≤ max (|roundDecimals5 E.hops| / 2 ^ 53) (1 / 2 ^ 1075)
          ∧ |m.rtt - roundDecimals5 E.rtt|
              ≤ max (|roundDecimals5 E.rtt| / 2 ^ 53) (1 / 2 ^ 1075)
          ∧ (∀ k : Int, E.hops * 100000 = (k : ℚ) → toDouble E.hops = E.hops →
              m.hops = E.hops)
          ∧ (∀ k : Int, E.rtt * 100000 = (k : ℚ) → toDouble E.rtt = E.rtt → m.rtt = E.rtt)
          ∧ m.next_ping_time = E.next_ping_time ∧ m.last_use_time = E.last_use_time
          ∧ m.pings_sent = 1 ∧ m.pings_recv = 1
          ∧ m.hosts = E.hosts.reverse ∧ m.link_count = (E.hosts.length : Int)
          ∧ m.peers = [])
    ∧ (E.pings_recv = 0 →
        netdbLookupAddr (netdbReloadState txt emptyDB (netdbSaveState txt db)) E.network
          = none) := by
  have hstate := netdbReloadState_saveState txt db h
  have hnd : ((savedEntries db).map (fun n => n.network)).Nodup :=
    List.Nodup.sublist ((List.filter_sublist _).map _) h.networks
  refine ⟨hstate, ?_, ?_⟩
  · intro hrecv
    have hmem : E ∈ savedEntries db := by
      unfold savedEntries
      rw [List.mem_filter]
      exact ⟨hE, by simpa using hrecv⟩
    refine ⟨reloadedEntry E, ?_, rfl, (atof_fixed5 _).symm, (atof_fixed5 _).symm, rfl, rfl,
      roundDecimals5_near _, roundDecimals5_near _, toDouble_near _, toDouble_near _,
      fun k hk hd => ?_, fun k hk hd => ?_,
      rfl, rfl, rfl, rfl, rfl, rfl, rfl⟩
    · rw [hstate]
      unfold netdbLookupAddr
      rw [h.normal E hE]
      exact find?_reloadedEntry E _ hnd hmem
    · show toDouble (roundDecimals5 E.hops) = E.hops
      rw [roundDecimals5_of_int hk, hd]
    · show toDouble (roundDecimals5 E.rtt) = E.rtt
      rw [roundDecimals5_of_int hk, hd]
  · intro hrecv
    rw [hstate, netdbLookupAddr_none_iff, h.normal E hE]
    intro m hm
    obtain ⟨n, hn, rfl⟩ := List.mem_map.mp hm
    unfold savedEntries at hn
    rw [List.mem_filter] at hn
    intro heq
    have hnet : n.network = E.network := heq
    have hnE : n = E :=
      List.inj_on_of_nodup_map h.networks hn.1 hE hnet
    rw [hnE, hrecv] at hn
    simp at hn

/-- Witness for C16: the table of `measuredEntry` and `silentEntry`; the first comes back
with the double nearest to 1.66667 as its `rtt`, the second does not come back. -/
theorem netdbReloadState_roundtrip_witness :
    Saveable dottedQuad savedDB.addr_table
    ∧ measuredEntry.pings_recv = 3
    ∧ (∃ m : netdbEntry,
        netdbLookupAddr (netdbReloadState dottedQuad emptyDB (netdbSaveState dottedQuad savedDB))
            measuredEntry.network = some m
        ∧ m.network = measuredEntry.network
        ∧ m.hops = atof (fixed5 measuredEntry.hops) ∧ m.rtt = atof (fixed5 measuredEntry.rtt)
        ∧ m.hops = toDouble (roundDecimals5 measuredEntry.hops)
        ∧ m.rtt = toDouble (roundDecimals5 measuredEntry.rtt)
        ∧ |roundDecimals5 measuredEntry.hops - measuredEntry.hops| ≤ 1 / 200000
        ∧ |roundDecimals5 measuredEntry.rtt - measuredEntry.rtt| ≤ 1 / 200000
        ∧ |m.hops - roundDecimals5 measuredEntry.hops|
            ≤ max (|roundDecimals5 measuredEntry.hops| / 2 ^ 53) (1 / 2 ^ 1075)
        ∧ |m.rtt - roundDecimals5 measuredEntry.rtt|
            ≤ max (|roundDecimals5 measuredEntry.rtt| / 2 ^ 53) (1 / 2 ^ 1075)
        ∧ (∀ k : Int, measuredEntry.hops * 100000 = (k : ℚ) →
            toDouble measuredEntry.hops = measuredEntry.hops → m.hops = measuredEntry.hops)
        ∧ (∀ k : Int, measuredEntry.rtt * 100000 = (k : ℚ) →
            toDouble measuredEntry.rtt = measuredEntry.rtt → m.rtt = measuredEntry.rtt)
        ∧ m.next_ping_time = measuredEntry.next_ping_time
        ∧ m.last_use_time = measuredEntry.last_use_time
        ∧ m.pings_sent = 1 ∧ m.pings_recv = 1
        ∧ m.hosts = measuredEntry.hosts.reverse
        ∧ m.link_count = (measuredEntry.hosts.length : Int)
        ∧ m.peers = [])
    ∧ netdbLookupAddr (netdbReloadState dottedQuad emptyDB (netdbSaveState dottedQuad savedDB))
        silentEntry.network = none :=
  ⟨⟨by decide!, by decide!, by decide!, by decide!, by decide!, by decide!, by decide!,
     by decide!⟩,
   rfl,
   (netdbReloadState_roundtrip dottedQuad savedDB
     ⟨by decide!, by decide!, by decide!, by decide!, by decide!, by decide!, by decide!,
      by decide!⟩
     measuredEntry (by decide!)).2.1 (by decide),
   (netdbReloadState_roundtrip dottedQuad savedDB
     ⟨by decide!, by decide!, by decide!, by decide!, by decide!, by decide!, by decide!,
      by decide!⟩
     silentEntry (by decide!)).2.2 rfl⟩

theorem netdbSaveState_example :
    String.mk (netdbSaveState dottedQuad savedDB)
      = "10.0.1.0 4 3    2.50000    1.66667 1700000300 1700000000 b.example a.example\n"
    ∧ netdbReloadState dottedQuad emptyDB (netdbSaveState dottedQuad savedDB)
      = { addr_table :=
            [{ netdbEntry.fresh (Ip.Address.ofOctets 10 0 1 0 0) with
               pings_sent := 1, pings_recv := 1, hops := 5 / 2,
               rtt := 7506014390949585 / 4503599627370496,
               next_ping_time := 1700000300, last_use_time := 1700000000, link_count := 2,
               hosts := ["a.example", "b.example"] }],
          host_table :=
            [{ key := "b.example", net_db_entry := Ip.Address.ofOctets 10 0 1 0 0 },
             { key := "a.example", net_db_entry := Ip.Address.ofOctets 10 0 1 0 0 }] } := by
  constructor <;> decide!

/-! ## NetDB: what the exchange exports -/

theorem netdbExported_iff (n : netdbEntry) :
    netdbExported n = true ↔ n.rtt ≠ 0 ∧ n.rtt ≤ 60000 ∧ n.network.isIPv4 = true := by
  unfold netdbExported
  by_cases h0 : n.rtt = 0
  · simp [h0]
  · by_cases h1 : n.rtt > 60000
    · have : ¬ n.rtt ≤ 60000 := not_le.mpr h1
      simp [h0, h1, this]
    · have h2 : n.rtt ≤ 60000 := not_lt.mp h1
      cases h4 : n.network.isIPv4 <;> simp [h0, h1, h2, h4]

theorem length_netdbWriteRecord (n : netdbEntry) : (netdbWriteRecord [] n).length = rec_sz := by
  simp [netdbWriteRecord, inAddrBytes, htonlBytes, rec_sz]

theorem records_flatten :
    ∀ l : List (List Nat), (∀ r ∈ l, r.length = rec_sz) →
      records l.flatten = l ∧ trailing l.flatten = [] := by
  intro l
  induction l with
  | nil => intro _; exact ⟨rfl, rfl⟩
  | cons a t ih =>
    intro h
    have ha : a.length = rec_sz := h a (List.mem_cons_self _ _)
    obtain ⟨i1, i2⟩ := ih (fun r hr => h r (List.mem_cons_of_mem _ hr))
    have hlen : rec_sz ≤ (a :: t).flatten.length := by
      rw [List.flatten_cons, List.length_append, ha]
      exact Nat.le_add_right _ _
    have htake : (a :: t).flatten.take rec_sz = a := by
      rw [List.flatten_cons, ← ha, List.take_left]
    have hdrop : (a :: t).flatten.drop rec_sz = t.flatten := by
      rw [List.flatten_cons, ← ha, List.drop_left]
    rw [records_long hlen, trailing_long hlen, htake, hdrop, i1, i2]
    exact ⟨rfl, rfl⟩

/-- C22: `netdbBinaryExchange` passes the tests at the head of its loop for an entry
exactly when its `rtt` is not 0 and not above 60000 and its network is IPv4, and the bytes
it appends are, in table order, one 15-byte record for each such entry and nothing
else. -/
theorem netdbBinaryExchange_exported (db : NetDB) :
    (∀ n : netdbEntry,
        netdbExported n = true ↔ n.rtt ≠ 0 ∧ n.rtt ≤ 60000 ∧ n.network.isIPv4 = true)
    ∧ records (netdbBinaryExchange db).flatten
        = (db.addr_table.filter netdbExported).map (netdbWriteRecord [])
    ∧ trailing (netdbBinaryExchange db).flatten = []
    ∧ (records (netdbBinaryExchange db).flatten).length
        = db.addr_table.countP
            (fun n => decide (n.rtt ≠ 0 ∧ n.rtt ≤ 60000 ∧ n.network.isIPv4 = true))
    ∧ (∀ n ∈ db.addr_table, netdbExported n = false →
        (netdbBinaryExchangeStep ([], []) n) = ([], []))
    ∧ (netdbBinaryExchange
          { addr_table := [exampleEntry, netdbEntry.fresh (Ip.Address.ofOctets 10 0 1 0 0),
                           { exampleEntry with rtt := 60001 },
                           { exampleEntry with network := ⟨false, 2 ^ 64, 0⟩ }],
            host_table := [] }
        = [netdbWriteRecord [] exampleEntry]) := by
  have hflat : (netdbBinaryExchange db).flatten
      = ((db.addr_table.filter netdbExported).map (netdbWriteRecord [])).flatten := by
    have h := netdbBinaryExchange_foldl db.addr_table ([], [])
    simp only [List.flatten_nil, List.append_nil, List.nil_append] at h
    rw [← List.flatMap_def, ← h]
    unfold netdbBinaryExchange
    simp only
    split
    · rw [List.flatten_append]
      simp
    · rename_i hz
      have : (db.addr_table.foldl netdbBinaryExchangeStep ([], [])).1 = [] := by
        cases hl : (db.addr_table.foldl netdbBinaryExchangeStep ([], [])).1 with
        | nil => rfl
        | cons a t => rw [hl] at hz; simp at hz
      rw [this, List.append_nil]
  have hall : ∀ r ∈ (db.addr_table.filter netdbExported).map (netdbWriteRecord []),
      r.length = rec_sz := by
    intro r hr
    obtain ⟨n, _, rfl⟩ := List.mem_map.mp hr
    exact length_netdbWriteRecord n
  obtain ⟨r1, r2⟩ := records_flatten _ hall
  refine ⟨netdbExported_iff, ?_, ?_, ?_, ?_, by decide!⟩
  · rw [hflat, r1]
  · rw [hflat, r2]
  · rw [hflat, r1, List.length_map, ← List.countP_eq_length_filter]
    congr 1
    funext n
    have := netdbExported_iff n
    by_cases hx : netdbExported n = true
    · simp only [hx]
      exact (decide_eq_true (this.mp hx)).symm
    · have hx2 : netdbExported n = false := by simpa using hx
      rw [hx2]
      exact (decide_eq_false (fun hc => hx (this.mpr hc))).symm
  · intro n _ hx
    unfold netdbBinaryExchangeStep
    simp [hx]

/-! ## NetDB: the lengths of the exchange appends -/

theorem netdbBinaryExchangeStep_lengths (st : List Nat × List (List Nat)) (n : netdbEntry)
    (h1 : st.1.length % rec_sz = 0) (h2 : st.1.length + rec_sz ≤ 4096)
    (h3 : ∀ a ∈ st.2, 0 < a.length ∧ a.length % rec_sz = 0 ∧ a.length ≤ 4096) :
    (netdbBinaryExchangeStep st n).1.length % rec_sz = 0
    ∧ (netdbBinaryExchangeStep st n).1.length + rec_sz ≤ 4096
    ∧ ∀ a ∈ (netdbBinaryExchangeStep st n).2,
        0 < a.length ∧ a.length % rec_sz = 0 ∧ a.length ≤ 4096 := by
  have hlen : (netdbWriteRecord st.1 n).length = st.1.length + rec_sz := by
    rw [netdbWriteRecord_append, List.length_append, length_netdbWriteRecord]
  unfold netdbBinaryExchangeStep
  by_cases hx : netdbExported n = true
  · simp only [hx, Bool.not_true, Bool.false_eq_true, if_false]
    by_cases hfull : (netdbWriteRecord st.1 n).length + rec_sz > 4096
    · rw [if_pos hfull]
      refine ⟨rfl, by unfold rec_sz; simp, ?_⟩
      intro a ha
      rcases List.mem_append.mp ha with ha | ha
      · exact h3 a ha
      · rw [List.mem_singleton] at ha
        subst ha
        rw [hlen]
        unfold rec_sz at h1 h2 ⊢
        omega
    · rw [if_neg hfull]
      rw [hlen] at hfull ⊢
      refine ⟨?_, ?_, h3⟩
      · unfold rec_sz at h1 ⊢
        omega
      · unfold rec_sz at hfull ⊢
        omega
  · have hx2 : netdbExported n = false := by simpa using hx
    simp only [hx2, Bool.not_false, if_true]
    exact ⟨h1, h2, h3⟩

theorem netdbBinaryExchange_fold_lengths :
    ∀ (l : List netdbEntry) (st : List Nat × List (List Nat)),
      st.1.length % rec_sz = 0 → st.1.length + rec_sz ≤ 4096 →
      (∀ a ∈ st.2, 0 < a.length ∧ a.length % rec_sz = 0 ∧ a.length ≤ 4096) →
      (l.foldl netdbBinaryExchangeStep st).1.length % rec_sz = 0
      ∧ (l.foldl netdbBinaryExchangeStep st).1.length + rec_sz ≤ 4096
      ∧ ∀ a ∈ (l.foldl netdbBinaryExchangeStep st).2,
          0 < a.length ∧ a.length % rec_sz = 0 ∧ a.length ≤ 4096 := by
  intro l
  induction l with
  | nil => intro st h1 h2 h3; exact ⟨h1, h2, h3⟩
  | cons n t ih =>
    intro st h1 h2 h3
    obtain ⟨s1, s2, s3⟩ := netdbBinaryExchangeStep_lengths st n h1 h2 h3
    rw [List.foldl_cons]
    exact ih _ s1 s2 s3

/-- C23: every append that `netdbBinaryExchange` makes has a length that is positive, a
multiple of 15 and at most 4096 (in fact at most 4095); and at the head of every pass of
its loop, after any number `k` of entries, the write index `i` leaves room for a whole
record, `i + 15 <= 4096`, so no byte is written past the end of the 4096-byte buffer. -/
theorem netdbBinaryExchange_appends (db : NetDB) :
    (∀ a ∈ netdbBinaryExchange db, 0 < a.length ∧ a.length % 15 = 0 ∧ a.length ≤ 4096)
    ∧ (∀ a ∈ netdbBinaryExchange db, a.length ≤ 4095)
    ∧ (∀ k : Nat,
        ((db.addr_table.take k).foldl netdbBinaryExchangeStep ([], [])).1.length % 15 = 0
        ∧ ((db.addr_table.take k).foldl netdbBinaryExchangeStep ([], [])).1.length + 15 ≤ 4096)
    ∧ (∀ (k : Nat) (n : netdbEntry),
        (netdbWriteRecord ((db.addr_table.take k).foldl netdbBinaryExchangeStep ([], [])).1
          n).length ≤ 4096) := by
  have hinit : ∀ l : List netdbEntry,
      (l.foldl netdbBinaryExchangeStep ([], [])).1.length % rec_sz = 0
      ∧ (l.foldl netdbBinaryExchangeStep ([], [])).1.length + rec_sz ≤ 4096
      ∧ ∀ a ∈ (l.foldl netdbBinaryExchangeStep ([], [])).2,
          0 < a.length ∧ a.length % rec_sz = 0 ∧ a.length ≤ 4096 := by
    intro l
    refine netdbBinaryExchange_fold_lengths l ([], []) rfl (by unfold rec_sz; simp) ?_
    intro a ha
    simp at ha
  have hmem : ∀ a ∈ netdbBinaryExchange db,
      0 < a.length ∧ a.length % 15 = 0 ∧ a.length ≤ 4096 := by
    obtain ⟨s1, s2, s3⟩ := hinit db.addr_table
    intro a ha
    unfold netdbBinaryExchange at ha
    simp only at ha
    split at ha
    · rename_i hpos
      rcases List.mem_append.mp ha with ha | ha
      · exact s3 a ha
      · rw [List.mem_singleton] at ha
        subst ha
        unfold rec_sz at s1 s2
        exact ⟨hpos, s1, by omega⟩
    · exact s3 a ha
  refine ⟨hmem, ?_, ?_, ?_⟩
  · intro a ha
    obtain ⟨_, h2, h3⟩ := hmem a ha
    omega
  · intro k
    obtain ⟨s1, s2, _⟩ := hinit (db.addr_table.take k)
    exact ⟨s1, s2⟩
  · intro k n
    obtain ⟨_, s2, _⟩ := hinit (db.addr_table.take k)
    rw [netdbWriteRecord_append, List.length_append, length_netdbWriteRecord]
    exact s2
theorem netdbBinaryExchange_full_buffer :
    (netdbBinaryExchange
        { addr_table := List.replicate 274 exampleEntry, host_table := [] }).map List.length
      = [4095, 15] := by
  decide!

/-! ## The forwarding client: `completeForwarding` -/

namespace Client

theorem completeForwarding_eq (s : State) (hd : doneWithAdaptation s = true) :
    completeForwarding s
      = { s with
          doneWithFwd := some "completeForwarding()",
          calls := s.calls
            ++ [Call.completeForwardingCalled true s.startedAdaptation
                  s.receivedWholeAdaptedReply]
            ++ (match (if s.startedAdaptation then
                        (if s.receivedWholeAdaptedReply then some "receivedWholeAdaptedReply"
                         else none)
                      else s.markedParsedVirginReplyAsWhole) with
                | some reason => [Call.fwdMarkStoredReplyAsWhole reason]
                | none => [])
            ++ [Call.fwdComplete] } := by
  have hd2 : doneWithAdaptation
      (s.call (Call.completeForwardingCalled (doneWithAdaptation s) s.startedAdaptation
        s.receivedWholeAdaptedReply)) = true := hd
  unfold completeForwarding
  simp only [hd2, Bool.not_true, Bool.false_eq_true, if_false]
  rw [hd]
  cases hst : s.startedAdaptation <;> cases hr : s.receivedWholeAdaptedReply <;>
    cases hm : s.markedParsedVirginReplyAsWhole <;>
    simp [State.call, hst, hr, hm]

/-- C25: when `completeForwarding` runs (with `doneWithAdaptation()`, as it asserts), the
marker it gives to `fwd->markStoredReplyAsWhole` is `markedParsedVirginReplyAsWhole` when
adaptation was not started (no call when that is null); when adaptation was started it
is `"receivedWholeAdaptedReply"` if `receivedWholeAdaptedReply` is set and there is no
call if it is not, whatever `markedParsedVirginReplyAsWhole` holds. Then `fwd->complete()`
is called. -/
theorem completeForwarding_marker (s : State) (hd : doneWithAdaptation s = true) :
    (s.startedAdaptation = false →
      (∀ reason, s.markedParsedVirginReplyAsWhole = some reason →
        (completeForwarding s).calls
          = s.calls ++ [Call.completeForwardingCalled true false s.receivedWholeAdaptedReply,
                        Call.fwdMarkStoredReplyAsWhole reason, Call.fwdComplete])
      ∧ (s.markedParsedVirginReplyAsWhole = none →
        (completeForwarding s).calls
          = s.calls ++ [Call.completeForwardingCalled true false s.receivedWholeAdaptedReply,
                        Call.fwdComplete]))
    ∧ (s.startedAdaptation = true → s.receivedWholeAdaptedReply = true →
        (completeForwarding s).calls
          = s.calls ++ [Call.completeForwardingCalled true true true,
                        Call.fwdMarkStoredReplyAsWhole "receivedWholeAdaptedReply",
                        Call.fwdComplete])
    ∧ (s.startedAdaptation = true → s.receivedWholeAdaptedReply = false →
        (completeForwarding s).calls
          = s.calls ++ [Call.completeForwardingCalled true true false, Call.fwdComplete])
    ∧ (completeForwarding s).doneWithFwd = some "completeForwarding()"
    ∧ (completeForwarding s).failure = s.failure := by
  rw [completeForwarding_eq s hd]
  refine ⟨fun hst => ⟨fun reason hm => ?_, fun hm => ?_⟩, fun hst hr => ?_, fun hst hr => ?_,
    rfl, rfl⟩
  · simp [hst, hm]
  · simp [hst, hm]
  · simp [hst, hr]
  · simp [hst, hr]

theorem completeForwarding_marker_witness :
    (completeForwarding
        { freshJob with startedAdaptation := true, receivedWholeAdaptedReply := false,
                        markedParsedVirginReplyAsWhole := some "whole virgin reply" }).calls
      = [Call.completeForwardingCalled true true false, Call.fwdComplete] :=
  (completeForwarding_marker
    { freshJob with startedAdaptation := true, receivedWholeAdaptedReply := false,
                    markedParsedVirginReplyAsWhole := some "whole virgin reply" }
    (by decide)).2.2.1 rfl rfl

end Client
/-! ## The forwarding client: the end of a request body write -/

namespace Client

/-- C28, the claim as stated fails: a write completion with the error flag `COMM_ERROR`
that comes when the request body source is gone (the body was aborted while the write was
in flight) fails nothing and aborts nothing: the write token is dropped and no call is
made. -/
theorem sentRequestBody_error_claim_fails :
    freshJob.requestBodySource = none
    ∧ sentRequestBody filledEntry { freshJob with requestSender := true }
          { fd := 7, size := 0, flag := Flag.COMM_ERROR, xerrno := 32 }
        = freshJob
    ∧ freshJob.calls = [] := by
  decide

/-- C28, amended: a write completion whose flag is a real error (neither `OK` nor
`ERR_CLOSING`) and that finds the request body source still set fails the forward with
an `ERR_WRITE_ERROR` error of status 502 that carries the reported `xerrno` and then calls
`abortOnData` (`abortAll` in the base class); one that finds no request body source only
drops the write token. With the flag `ERR_CLOSING` the write token is dropped, the forward
is not failed and no more body is sent. In each case the bytes written are counted
first when `io.size > 0`. -/
theorem sentRequestBody_error (o : Obs) (s : State) (io : CommIoCbParams) :
    (io.flag ≠ Flag.OK → io.flag ≠ Flag.ERR_CLOSING → s.requestBodySource.isSome = true →
      sentRequestBody o s io
        = { s with
            requestSender := false,
            calls := s.calls ++ (if io.size > 0 then [Call.fdBytes io.fd io.size] else [])
              ++ [Call.notePeerWrite,
                  Call.fwdFail { type := err_type.ERR_WRITE_ERROR, httpStatus := 502,
                                 xerrno := io.xerrno, detail := none },
                  Call.abortAll "I/O error while sending request body"] })
    ∧ (io.flag ≠ Flag.ERR_CLOSING → s.requestBodySource = none →
      sentRequestBody o s io
        = { s with
            requestSender := false,
            calls := s.calls ++ (if io.size > 0 then [Call.fdBytes io.fd io.size] else []) })
    ∧ (io.flag = Flag.ERR_CLOSING →
      sentRequestBody o s io
        = { s with
            requestSender := false,
            calls := s.calls ++ (if io.size > 0 then [Call.fdBytes io.fd io.size] else []) }) := by
  refine ⟨?_, ?_, ?_⟩
  · intro h1 h2 h3
    cases hp : s.requestBodySource with
    | none => rw [hp] at h3; simp at h3
    | some pipe =>
      by_cases hz : io.size > 0 <;>
        simp [sentRequestBody, h1, h2, hp, hz, State.call, abortOnData, scBadGateway]
  · intro h2 hp
    by_cases hz : io.size > 0 <;> simp [sentRequestBody, h2, hp, hz, State.call]
  · intro h2
    by_cases hz : io.size > 0 <;> simp [sentRequestBody, h2, hz, State.call]

theorem sentRequestBody_error_witness :
    sentRequestBody filledEntry sendingBody
        { fd := 7, size := 0, flag := Flag.COMM_ERROR, xerrno := 32 }
      = { sendingBody with
          requestSender := false,
          calls := [Call.notePeerWrite,
                    Call.fwdFail { type := err_type.ERR_WRITE_ERROR, httpStatus := 502,
                                   xerrno := 32, detail := none },
                    Call.abortAll "I/O error while sending request body"] } :=
  (sentRequestBody_error filledEntry sendingBody
    { fd := 7, size := 0, flag := Flag.COMM_ERROR, xerrno := 32 }).1
    (by decide) (by decide) (by decide)

end Client
/-! ## The forwarding client: a late adaptation abort -/

namespace Client

theorem cleanAdaptation_done (s : State) (hd : doneWithAdaptation s = true) :
    cleanAdaptation s = s := by
  unfold doneWithAdaptation at hd
  simp only [Bool.and_eq_true, Bool.not_eq_true', Option.isNone_iff_eq_none] at hd
  obtain ⟨⟨⟨h1, h2⟩, h3⟩, h4⟩ := hd
  unfold cleanAdaptation
  simp [h1, h2, h3, h4, doneWithAdaptation]

theorem handleAdaptationCompleted_calls (o : Obs) (s : State)
    (hd : doneWithAdaptation s = true) (hf : s.failure = none) :
    (handleAdaptationCompleted o s).calls
      = s.calls ++ (if o.mayReadVirginReplyBody then [Call.closeServer] else [])
          ++ [Call.completeForwardingCalled true s.startedAdaptation
                s.receivedWholeAdaptedReply]
          ++ (match (if s.startedAdaptation then
                      (if s.receivedWholeAdaptedReply then some "receivedWholeAdaptedReply"
                       else none)
                    else s.markedParsedVirginReplyAsWhole) with
              | some reason => [Call.fwdMarkStoredReplyAsWhole reason]
              | none => [])
          ++ [Call.fwdComplete]
    ∧ (handleAdaptationCompleted o s).failure = none
    ∧ (handleAdaptationCompleted o s).adaptedReplyAborted = s.adaptedReplyAborted := by
  unfold handleAdaptationCompleted
  rw [cleanAdaptation_done s hd]
  cases hm : o.mayReadVirginReplyBody
  · simp only [hf, Option.isSome_none, Bool.false_eq_true, if_false]
    rw [completeForwarding_eq s hd]
    simp [hf]
  · have hd2 : doneWithAdaptation (closeServer s) = true := hd
    simp only [hf, Option.isSome_none, Bool.false_eq_true, if_false, if_true]
    rw [completeForwarding_eq _ hd2]
    simp [closeServer, State.call, hf]

/-- C29, the claim as stated fails: an `akError` answer that finds an accepting store
entry with bytes attaches the detail `ICAP_RESPMOD_LATE` and then calls
`abortAll("adaptation failure with a filled entry")`. -/
theorem handleAdaptationAborted_late_claim_fails :
    filledEntry.entryAccepting = true ∧ filledEntry.entryEmpty = false
    ∧ noteAdaptationAnswer sampleLib filledEntry { freshJob with adaptedHeadSource := true }
          { kind := AnswerKind.akError, message := none, final := true,
            denyInfoPage := err_type.ERR_NONE }
        = { freshJob with
            calls := [Call.requestDetailError err_type.ERR_ICAP_FAILURE "ICAP_RESPMOD_LATE",
                      Call.abortAll "adaptation failure with a filled entry"] } := by
  decide

/-- C29, amended: with an accepting store entry that holds bytes, an `akError` answer
attaches the detail `ICAP_RESPMOD_LATE` to the request (when it is set) and then calls
`abortAll`. An abort of the adapted body producer (before the whole adapted reply was
received) sets `adaptedReplyAborted`; when the adapted body pipe is exhausted it attaches
the same detail and calls no `abortAll`, and when the pipe still holds bytes it makes no
call at all. -/
theorem handleAdaptationAborted_late (lib : UriLib) (o : Obs) (s : State)
    (ha : o.entryAccepting = true) (he : o.entryEmpty = false) :
    (∀ answer : Answer, answer.kind = AnswerKind.akError →
      noteAdaptationAnswer lib o s answer
        = { s with
            adaptedHeadSource := false,
            calls := s.calls
              ++ (if o.hasRequest then
                    [Call.requestDetailError err_type.ERR_ICAP_FAILURE "ICAP_RESPMOD_LATE"]
                  else [])
              ++ [Call.abortAll "adaptation failure with a filled entry"] })
    ∧ (∀ pipe : BodyPipe, s.adaptedBodySource = some pipe →
        s.receivedWholeAdaptedReply = false → s.failure = none →
        (pipe.exhausted = false →
          noteBodyProducerAborted o s PipeRef.adaptedBody
            = { s with adaptedReplyAborted := true })
        ∧ (pipe.exhausted = true →
          (noteBodyProducerAborted o s PipeRef.adaptedBody).adaptedReplyAborted = true
          ∧ (noteBodyProducerAborted o s PipeRef.adaptedBody).calls.take
                (s.calls.length + (if o.hasRequest then 1 else 0))
              = s.calls
                ++ (if o.hasRequest then
                      [Call.requestDetailError err_type.ERR_ICAP_FAILURE "ICAP_RESPMOD_LATE"]
                    else [])
          ∧ ∀ reason : String,
              Call.abortAll reason
                ∉ (noteBodyProducerAborted o s PipeRef.adaptedBody).calls.drop
                    s.calls.length)) := by
  refine ⟨?_, ?_⟩
  · intro answer hk
    cases hr : o.hasRequest <;>
      simp [noteAdaptationAnswer, hk, handleAdaptationAborted, abortOnBadEntry, ha, he, hr,
        handledEarlyAdaptationAbort, State.call]
  · intro pipe hp hrw hf
    have hfirst : noteBodyProducerAborted o s PipeRef.adaptedBody
        = handleAdaptedBodyProducerAborted o s := by
      simp [noteBodyProducerAborted, hp]
    rw [hfirst]
    refine ⟨?_, ?_⟩
    · intro hx
      simp [handleAdaptedBodyProducerAborted, abortOnBadEntry, ha, hrw, hp, hx]
    · intro hx
      have key : ∀ s1 : State,
          s1.calls = s.calls
            ++ (if o.hasRequest then
                  [Call.requestDetailError err_type.ERR_ICAP_FAILURE "ICAP_RESPMOD_LATE"]
                else []) →
          s1.failure = none → s1.adaptedReplyAborted = true →
          (if doneWithAdaptation s1 then handleAdaptationCompleted o s1
            else s1).adaptedReplyAborted = true
          ∧ (if doneWithAdaptation s1 then handleAdaptationCompleted o s1 else s1).calls.take
                (s.calls.length + (if o.hasRequest then 1 else 0))
              = s.calls
                ++ (if o.hasRequest then
                      [Call.requestDetailError err_type.ERR_ICAP_FAILURE "ICAP_RESPMOD_LATE"]
                    else [])
          ∧ ∀ reason : String,
              Call.abortAll reason
                ∉ (if doneWithAdaptation s1 then handleAdaptationCompleted o s1
                    else s1).calls.drop s.calls.length := by
        intro s1 hc1 hf1 ha1
        by_cases hd : doneWithAdaptation s1 = true
        · rw [if_pos hd]
          obtain ⟨hc, _, hab⟩ := handleAdaptationCompleted_calls o s1 hd hf1
          rw [hc1] at hc
          simp only [List.append_assoc] at hc
          refine ⟨hab.trans ha1, ?_, ?_⟩
          · rw [hc, List.take_append]
            cases o.hasRequest <;> simp
          · intro reason hmem
            rw [hc, List.drop_left] at hmem
            revert hmem
            cases o.hasRequest <;> cases o.mayReadVirginReplyBody <;>
              cases s1.startedAdaptation <;> cases s1.receivedWholeAdaptedReply <;>
              cases s1.markedParsedVirginReplyAsWhole <;> simp
        · rw [if_neg hd]
          refine ⟨ha1, ?_, ?_⟩
          · rw [hc1, List.take_append]
            cases o.hasRequest <;> simp
          · intro reason hmem
            rw [hc1, List.drop_left] at hmem
            revert hmem
            cases o.hasRequest <;> simp
      have hform : handleAdaptedBodyProducerAborted o s
          = (if doneWithAdaptation
                { s with
                  adaptedReplyAborted := true,
                  adaptedBodySource := none,
                  calls := s.calls
                    ++ (if o.hasRequest then
                          [Call.requestDetailError err_type.ERR_ICAP_FAILURE
                            "ICAP_RESPMOD_LATE"]
                        else []) }
             then handleAdaptationCompleted o
                { s with
                  adaptedReplyAborted := true,
                  adaptedBodySource := none,
                  calls := s.calls
                    ++ (if o.hasRequest then
                          [Call.requestDetailError err_type.ERR_ICAP_FAILURE
                            "ICAP_RESPMOD_LATE"]
                        else []) }
             else
                { s with
                  adaptedReplyAborted := true,
                  adaptedBodySource := none,
                  calls := s.calls
                    ++ (if o.hasRequest then
                          [Call.requestDetailError err_type.ERR_ICAP_FAILURE
                            "ICAP_RESPMOD_LATE"]
                        else []) }) := by
        cases hr : o.hasRequest <;>
          simp [handleAdaptedBodyProducerAborted, abortOnBadEntry, ha, hrw, hp, hx,
            handledEarlyAdaptationAbort, he, hr, checkAdaptationWithBodyCompletion, State.call]
      rw [hform]
      exact key _ rfl hf rfl

theorem handleAdaptationAborted_late_witness :
    noteBodyProducerAborted filledEntry
        { freshJob with
          startedAdaptation := true,
          adaptedBodySource :=
            some { buf := [1, 2, 3], potentialSpaceSize := 4093, productionEnded := true } }
        PipeRef.adaptedBody
      = { freshJob with
          startedAdaptation := true,
          adaptedReplyAborted := true,
          adaptedBodySource :=
            some { buf := [1, 2, 3], potentialSpaceSize := 4093, productionEnded := true } } :=
  ((handleAdaptationAborted_late sampleLib filledEntry
      { freshJob with
        startedAdaptation := true,
        adaptedBodySource :=
          some { buf := [1, 2, 3], potentialSpaceSize := 4093, productionEnded := true } }
      rfl rfl).2
    { buf := [1, 2, 3], potentialSpaceSize := 4093, productionEnded := true } rfl rfl rfl).1 rfl

end Client
/-! ## The forwarding client: a blocked adaptation -/

namespace Client

/-- C30: on an `akBlock` answer with an accepting store entry, an empty entry makes the
forward fail with an error of status 403 whose page id is the deny-info page of the
answer, or `ERR_ACCESS_DENIED` when there is none, then retries are disabled and
`abortOnData` is called; an entry that is not empty gets no error page: the request gets
the detail `RESPMOD_BLOCK_LATE` (when it is set) and `abortAll` is called. -/
theorem handleAdaptationBlocked_page (lib : UriLib) (o : Obs) (s : State) (answer : Answer)
    (hk : answer.kind = AnswerKind.akBlock) (ha : o.entryAccepting = true) :
    (o.entryEmpty = true →
      noteAdaptationAnswer lib o s answer
        = { s with
            adaptedHeadSource := false,
            calls := s.calls
              ++ [Call.fwdFail
                    { type := if answer.denyInfoPage = err_type.ERR_NONE
                              then err_type.ERR_ACCESS_DENIED else answer.denyInfoPage,
                      httpStatus := 403, xerrno := 0, detail := some "RESPMOD_BLOCK_EARLY" },
                  Call.fwdDontRetry true,
                  Call.abortAll "timely adaptation block"] })
    ∧ (o.entryEmpty = false →
      noteAdaptationAnswer lib o s answer
        = { s with
            adaptedHeadSource := false,
            calls := s.calls
              ++ (if o.hasRequest then
                    [Call.requestDetailError err_type.ERR_ICAP_FAILURE "RESPMOD_BLOCK_LATE"]
                  else [])
              ++ [Call.abortAll "late adaptation block"] })
    ∧ (o.entryEmpty = false →
      ∀ err, Call.fwdFail err ∉ (noteAdaptationAnswer lib o s answer).calls.drop s.calls.length)
    := by
  have hlate : o.entryEmpty = false →
      noteAdaptationAnswer lib o s answer
        = { s with
            adaptedHeadSource := false,
            calls := s.calls
              ++ (if o.hasRequest then
                    [Call.requestDetailError err_type.ERR_ICAP_FAILURE "RESPMOD_BLOCK_LATE"]
                  else [])
              ++ [Call.abortAll "late adaptation block"] } := by
    intro he
    cases hr : o.hasRequest <;>
      simp [noteAdaptationAnswer, hk, handleAdaptationBlocked, abortOnBadEntry, ha, he, hr,
        State.call]
  refine ⟨?_, hlate, ?_⟩
  · intro he
    by_cases hp : answer.denyInfoPage = err_type.ERR_NONE <;>
      simp [noteAdaptationAnswer, hk, handleAdaptationBlocked, abortOnBadEntry, ha, he, hp,
        State.call, abortOnData, scForbidden]
  · intro he err
    rw [hlate he]
    cases hr : o.hasRequest <;> simp

theorem handleAdaptationBlocked_page_witness :
    noteAdaptationAnswer sampleLib emptyEntry { freshJob with adaptedHeadSource := true }
        { kind := AnswerKind.akBlock, message := none, final := true,
          denyInfoPage := err_type.ERR_NONE }
      = { freshJob with
          calls := [Call.fwdFail { type := err_type.ERR_ACCESS_DENIED, httpStatus := 403,
                                   xerrno := 0, detail := some "RESPMOD_BLOCK_EARLY" },
                    Call.fwdDontRetry true,
                    Call.abortAll "timely adaptation block"] } :=
  (handleAdaptationBlocked_page sampleLib emptyEntry { freshJob with adaptedHeadSource := true }
    { kind := AnswerKind.akBlock, message := none, final := true,
      denyInfoPage := err_type.ERR_NONE } rfl rfl).1 rfl

end Client

/-! ## The forwarding client: the whole-reply marker of an adapted reply -/

namespace Client

theorem marksAdapted_nil : MarksAdapted [] := by
  intro pre post d st r h
  simp at h

theorem marksAdapted_of_none {l : List Call}
    (h : ∀ d st r, Call.completeForwardingCalled d st r ∉ l) : MarksAdapted l := by
  intro pre post d st r hl
  exact absurd (by rw [hl]; simp) (h d st r)

theorem marksAdapted_append {a b : List Call} (ha : MarksAdapted a) (hb : MarksAdapted b) :
    MarksAdapted (a ++ b) := by
  intro pre post d st r h hd hr
  rcases List.append_eq_append_iff.mp h with ⟨a', h1, h2⟩ | ⟨c', h1, h2⟩
  · exact hb a' post d st r h2 hd hr
  · cases c' with
    | nil =>
      rw [List.nil_append] at h2
      exact hb [] post d st r (by rw [List.nil_append]; exact h2.symm) hd hr
    | cons g c'' =>
      rw [List.cons_append] at h2
      injection h2 with hg hpost
      subst hg
      obtain ⟨tail, ht⟩ := ha pre c'' d st r h1 hd hr
      exact ⟨tail ++ b, by rw [hpost, ht, List.cons_append]⟩

theorem follows_refl (s : State) : Follows s s :=
  fun h => ⟨h, [], by simp, marksAdapted_nil⟩

theorem Follows.then {a b c : State} (h1 : Follows a b) (h2 : Follows b c) : Follows a c := by
  intro ha
  obtain ⟨hb, e1, he1, hm1⟩ := h1 ha
  obtain ⟨hc, e2, he2, hm2⟩ := h2 hb
  exact ⟨hc, e1 ++ e2, by rw [he2, he1, List.append_assoc], marksAdapted_append hm1 hm2⟩

theorem follows_same {s t : State} (hc : t.calls = s.calls) (h : Started s → Started t) :
    Follows s t :=
  fun hs => ⟨h hs, [], by simp [hc], marksAdapted_nil⟩

theorem follows_call (s : State) (c : Call) (hc : c.isGhost = false) :
    Follows s (s.call c) := by
  intro hs
  refine ⟨hs, [c], rfl, marksAdapted_of_none ?_⟩
  intro d st r hmem
  rw [List.mem_singleton] at hmem
  subst hmem
  cases hc

theorem follows_fail (s : State) (what : String) : Follows s (s.fail what) :=
  follows_same rfl (fun _ hf => absurd hf (by simp [State.fail]))

theorem follows_ite {s a b : State} {c : Prop} [Decidable c] (ha : Follows s a)
    (hb : Follows s b) : Follows s (if c then a else b) := by
  split
  · exact ha
  · exact hb

theorem started_of_flag {t : State} (h : t.startedAdaptation = true) : Started t :=
  fun _ => ⟨fun _ => h, fun _ => h, fun _ => h⟩

theorem follows_closeServer (s : State) : Follows s (closeServer s) :=
  (follows_same (s := s) (t := { s with doneWithServer := true }) rfl (fun h => h)).then
    (follows_call _ _ (by rfl))

theorem follows_abortOnData (s : State) (reason : String) : Follows s (abortOnData s reason) :=
  follows_call _ _ (by rfl)

theorem follows_abortOnBadEntry (o : Obs) (s : State) (reason : String) :
    Follows s (abortOnBadEntry o s reason).1 := by
  unfold abortOnBadEntry
  split
  · exact follows_refl s
  · exact follows_abortOnData s reason

theorem abortOnBadEntry_false {o : Obs} {s : State} {reason : String}
    (h : (abortOnBadEntry o s reason).2 = false) : o.entryAccepting = true := by
  unfold abortOnBadEntry at h
  cases ha : o.entryAccepting
  · rw [ha] at h
    simp at h
  · rfl

theorem follows_completeForwarding (s : State) (hf : s.failure = none) :
    Follows s (completeForwarding s) := by
  intro hs
  by_cases hd : doneWithAdaptation s = true
  · rw [completeForwarding_eq s hd]
    refine ⟨fun hf2 => hs hf2, _, by rw [List.append_assoc, List.append_assoc], ?_⟩
    intro pre post d st r h hdt hr
    cases pre with
    | nil =>
      simp only [List.nil_append, List.cons_append, List.cons.injEq,
        Call.completeForwardingCalled.injEq] at h
      obtain ⟨⟨_, hst, hrr⟩, hpost⟩ := h
      have hrec : s.receivedWholeAdaptedReply = true := by rw [hrr]; exact hr
      have hsa : s.startedAdaptation = true := (hs hf).2.2 hrec
      rw [hsa, hrec] at hpost
      exact ⟨_, hpost.symm⟩
    | cons g pre' =>
      exfalso
      simp only [List.cons_append, List.cons.injEq] at h
      obtain ⟨_, h2⟩ := h
      rw [List.nil_append] at h2
      have hmem : Call.completeForwardingCalled d st r
          ∈ pre' ++ Call.completeForwardingCalled d st r :: post := by simp
      rw [← h2] at hmem
      revert hmem
      cases s.startedAdaptation <;> cases s.receivedWholeAdaptedReply <;>
        cases s.markedParsedVirginReplyAsWhole <;> simp
  · have hd2 : doneWithAdaptation s = false := by simpa using hd
    have hform : completeForwarding s
        = (s.call (Call.completeForwardingCalled false s.startedAdaptation
            s.receivedWholeAdaptedReply)).fail "Assure(doneWithAdaptation())" := by
      have hd3 : doneWithAdaptation
          (s.call (Call.completeForwardingCalled (doneWithAdaptation s) s.startedAdaptation
            s.receivedWholeAdaptedReply)) = false := hd2
      unfold completeForwarding
      simp only [hd3, Bool.not_false, if_true]
      rw [hd2]
    rw [hform]
    refine ⟨fun hf2 => absurd hf2 (by simp [State.fail]), _, rfl, ?_⟩
    intro pre post d st r h hdt hr
    cases pre with
    | nil =>
      simp only [List.nil_append, List.cons.injEq, Call.completeForwardingCalled.injEq] at h
      rw [← h.1.1] at hdt
      cases hdt
    | cons g pre' =>
      simp at h

theorem follows_done_then_complete (s : State) (hf : s.failure = none) :
    Follows s (if !doneWithAdaptation s then s else completeForwarding s) :=
  follows_ite (follows_refl s) (follows_completeForwarding s hf)

theorem follows_serverComplete2 (s : State) (hf : s.failure = none) :
    Follows s (serverComplete2 s) := by
  have h1 : Follows s
      (if s.virginBodyDestination.isSome then { s with virginBodyDestination := none } else s) :=
    follows_ite (follows_same rfl (fun h => h)) (follows_refl s)
  have hf1 : (if s.virginBodyDestination.isSome
      then { s with virginBodyDestination := none } else s).failure = none := by
    split <;> exact hf
  exact h1.then (follows_done_then_complete _ hf1)

theorem follows_serverComplete (s : State) (hf : s.failure = none) :
    Follows s (serverComplete s) := by
  have h1 : Follows s (if !s.doneWithServer then closeServer s else s) :=
    follows_ite (follows_closeServer s) (follows_refl s)
  have hf1 : (if !s.doneWithServer then closeServer s else s).failure = none := by
    split <;> exact hf
  unfold serverComplete
  simp only
  generalize (if !s.doneWithServer then closeServer s else s) = s1 at h1 hf1
  have h3 : Follows s1
      (if s1.requestBodySource.isSome
        then { s1 with completed := true, requestBodySource := none }
        else { s1 with completed := true }) :=
    follows_ite (follows_same rfl (fun h => h)) (follows_same rfl (fun h => h))
  have hf3 : (if s1.requestBodySource.isSome
        then { s1 with completed := true, requestBodySource := none }
        else { s1 with completed := true }).failure = none := by
    split <;> exact hf1
  exact h1.then (h3.then (follows_ite (follows_refl _) (follows_serverComplete2 _ hf3)))


theorem follows_doneSendingRequestBody (s : State) : Follows s (doneSendingRequestBody s) :=
  follows_ite (follows_fail _ _) (follows_same rfl (fun h => h))

theorem follows_sendMoreRequestBody (o : Obs) (s : State) :
    Follows s (sendMoreRequestBody o s) := by
  unfold sendMoreRequestBody
  cases hp : s.requestBodySource with
  | none => exact follows_fail _ _
  | some pipe =>
    exact follows_ite (follows_fail _ _) (follows_ite (follows_refl _)
      (follows_ite ((follows_same rfl (fun h => h)).then (follows_call _ _ (by rfl)))
        (follows_same rfl (fun h => h))))

theorem follows_handleMoreRequestBodyAvailable (o : Obs) (s : State) :
    Follows s (handleMoreRequestBodyAvailable o s) :=
  follows_ite (follows_sendMoreRequestBody o s) (follows_refl s)

theorem follows_handleRequestBodyProductionEnded (s : State) :
    Follows s (handleRequestBodyProductionEnded s) :=
  (follows_same (s := s) (t := { s with receivedWholeRequestBody := true }) rfl (fun h => h)).then
    (follows_ite (follows_doneSendingRequestBody _) (follows_refl _))

theorem follows_handleRequestBodyProducerAborted (s : State) :
    Follows s (handleRequestBodyProducerAborted s) :=
  (follows_call s _ (by rfl)).then (follows_same rfl (fun h => h))

theorem follows_sentRequestBody (o : Obs) (s : State) (io : CommIoCbParams) :
    Follows s (sentRequestBody o s io) := by
  have h1 : Follows s
      (if io.size > 0 then ({ s with requestSender := false } : State).call
          (Call.fdBytes io.fd io.size)
        else { s with requestSender := false }) :=
    (follows_same (s := s) (t := { s with requestSender := false }) rfl (fun h => h)).then
      (follows_ite (follows_call _ _ (by rfl)) (follows_refl _))
  unfold sentRequestBody
  simp only
  generalize (if io.size > 0 then ({ s with requestSender := false } : State).call
          (Call.fdBytes io.fd io.size)
        else { s with requestSender := false }) = s1 at h1
  refine h1.then (follows_ite (follows_refl _) ?_)
  cases hp : s1.requestBodySource with
  | none => exact follows_refl _
  | some pipe =>
    refine (follows_call s1 Call.notePeerWrite rfl).then ?_
    exact follows_ite ((follows_call _ _ (by rfl)).then (follows_abortOnData _ _))
      (follows_ite (follows_abortOnData _ _)
        (follows_ite (follows_sendMoreRequestBody _ _)
          (follows_ite (follows_doneSendingRequestBody _) (follows_refl _))))

theorem follows_foldl_calls (f : List Char → Call) (hf : ∀ u, (f u).isGhost = false) :
    ∀ (l : List (List Char)) (s : State),
      Follows s (l.foldl (fun st url => st.call (f url)) s) := by
  intro l
  induction l with
  | nil => intro s; exact follows_refl s
  | cons u t ih =>
    intro s
    rw [List.foldl_cons]
    exact (follows_call s (f u) (hf u)).then (ih _)

theorem foldl_calls_failure (f : List Char → Call) :
    ∀ (l : List (List Char)) (s : State),
      (l.foldl (fun st url => st.call (f url)) s).failure = s.failure := by
  intro l
  induction l with
  | nil => intro s; rfl
  | cons u t ih =>
    intro s
    rw [List.foldl_cons, ih]
    rfl

theorem follows_haveParsedReplyHeaders (lib : UriLib) (s : State) (rep : HttpReply) :
    Follows s (haveParsedReplyHeaders lib s rep) := by
  have h1 := follows_foldl_calls Call.purgeEntriesByUrl (fun _ => rfl)
    (maybePurgeOthers lib s.request rep) s
  unfold haveParsedReplyHeaders
  simp only
  generalize (maybePurgeOthers lib s.request rep).foldl
    (fun st url => st.call (Call.purgeEntriesByUrl url)) s = s1 at h1
  cases rep.contentRangeOffset with
  | none => exact h1.then (follows_same rfl (fun h => h))
  | some offset => exact h1.then (follows_same rfl (fun h => h))

theorem haveParsedReplyHeaders_failure (lib : UriLib) (s : State) (rep : HttpReply) :
    (haveParsedReplyHeaders lib s rep).failure = s.failure := by
  unfold haveParsedReplyHeaders
  simp only
  cases rep.contentRangeOffset <;> exact foldl_calls_failure _ _ _

theorem follows_setFinalReply (lib : UriLib) (o : Obs) (s : State) (rep : HttpReply) :
    Follows s (setFinalReply lib o s rep) := by
  unfold setFinalReply
  refine follows_ite (follows_fail _ _) ?_
  simp only
  refine (follows_same (s := s) (t := { s with theFinalReply := some rep }) rfl (fun h => h)).then ?_
  refine (follows_call _ (Call.entryReplaceHttpReply rep) rfl).then ?_
  refine (follows_haveParsedReplyHeaders lib _ rep).then ?_
  exact (follows_ite (follows_call _ _ (by rfl)) (follows_refl _)).then (follows_call _ _ (by rfl))

theorem follows_setVirginReply (s : State) (rep : HttpReply) :
    Follows s (setVirginReply s rep) :=
  follows_ite (follows_fail _ _) (follows_same rfl (fun h => h))

theorem follows_cleanAdaptation (s : State) : Follows s (cleanAdaptation s) := by
  have h1 : Follows s
      (if s.virginBodyDestination.isSome then { s with virginBodyDestination := none } else s) :=
    follows_ite (follows_same rfl (fun h => h)) (follows_refl s)
  unfold cleanAdaptation
  simp only
  generalize (if s.virginBodyDestination.isSome
    then { s with virginBodyDestination := none } else s) = s1 at h1
  have h2 : Follows s1
      (if s1.adaptedHeadSource then
        ({ s1 with adaptedHeadSource := false } : State).call Call.noteInitiatorAborted
       else s1) :=
    follows_ite ((follows_same (s := s1) (t := { s1 with adaptedHeadSource := false }) rfl
      (fun h hf => ⟨fun hh => absurd hh (by simp), (h hf).2.1, (h hf).2.2⟩)).then
        (follows_call _ _ (by rfl))) (follows_refl _)
  generalize (if s1.adaptedHeadSource then
        ({ s1 with adaptedHeadSource := false } : State).call Call.noteInitiatorAborted
       else s1) = s2 at h2
  have h3 : Follows s2
      (if s2.adaptedBodySource.isSome then { s2 with adaptedBodySource := none } else s2) :=
    follows_ite (follows_same rfl
      (fun h hf => ⟨(h hf).1, fun hb => absurd hb (by simp), (h hf).2.2⟩)) (follows_refl _)
  generalize (if s2.adaptedBodySource.isSome
    then { s2 with adaptedBodySource := none } else s2) = s3 at h3
  exact h1.then (h2.then (h3.then
    (follows_ite (follows_ite (follows_refl _) (follows_fail _ _)) (follows_refl _))))

theorem follows_handleAdaptationCompleted (o : Obs) (s : State) :
    Follows s (handleAdaptationCompleted o s) := by
  have h1 := follows_cleanAdaptation s
  unfold handleAdaptationCompleted
  simp only
  generalize cleanAdaptation s = s1 at h1
  cases hf : s1.failure with
  | some f => simpa [hf] using h1
  | none =>
    simp only [hf, Option.isSome_none, Bool.false_eq_true, if_false]
    have h2 : Follows s1 (if o.mayReadVirginReplyBody then closeServer s1 else s1) :=
      follows_ite (follows_closeServer s1) (follows_refl s1)
    have hf2 : (if o.mayReadVirginReplyBody then closeServer s1 else s1).failure = none := by
      split <;> exact hf
    exact h1.then (h2.then (follows_completeForwarding _ hf2))

theorem follows_checkAdaptationWithBodyCompletion (o : Obs) (s : State) :
    Follows s (checkAdaptationWithBodyCompletion o s) := by
  unfold checkAdaptationWithBodyCompletion
  cases hp : s.adaptedBodySource with
  | none => exact follows_refl s
  | some pipe =>
    refine follows_ite (follows_refl _) (follows_ite (follows_refl _) ?_)
    simp only
    refine (follows_same (s := s) (t := { s with adaptedBodySource := none }) rfl
      (fun h hf => ⟨(h hf).1, fun hb => absurd hb (by simp), (h hf).2.2⟩)).then ?_
    exact follows_ite (follows_handleAdaptationCompleted o _) (follows_refl _)

theorem follows_handleMoreAdaptedBodyAvailable (o : Obs) (s : State) :
    Follows s (handleMoreAdaptedBodyAvailable o s) := by
  unfold handleMoreAdaptedBodyAvailable
  refine follows_ite (follows_abortOnBadEntry o s _) ?_
  cases hp : s.adaptedBodySource with
  | none => exact follows_fail _ _
  | some pipe =>
    refine follows_ite (follows_refl _) ?_
    simp only
    have h1 : Follows s (if o.bytesWanted pipe.buf.length < pipe.buf.length
        then s.call Call.entryDeferProducer else s) :=
      follows_ite (follows_call s _ (by rfl)) (follows_refl s)
    have hb : (if o.bytesWanted pipe.buf.length < pipe.buf.length
        then s.call Call.entryDeferProducer else s).adaptedBodySource = some pipe := by
      split <;> exact hp
    generalize (if o.bytesWanted pipe.buf.length < pipe.buf.length
        then s.call Call.entryDeferProducer else s) = s1 at h1 hb
    refine h1.then (follows_ite (follows_refl _) ?_)
    refine Follows.then (b := s1.call (Call.entryWrite s1.currentOffset (pipe.buf.take
      (if o.bytesWanted pipe.buf.length < pipe.buf.length then o.bytesWanted pipe.buf.length
        else pipe.buf.length)))) (follows_call _ _ rfl) ?_
    refine follows_same rfl ?_
    intro h hf
    refine ⟨(h hf).1, fun _ => (h hf).2.1 ?_, (h hf).2.2⟩
    show s1.adaptedBodySource.isSome = true
    rw [hb]
    rfl


theorem follows_resumeBodyStorage (o : Obs) (s : State) :
    Follows s (resumeBodyStorage o s) := by
  unfold resumeBodyStorage
  refine follows_ite (follows_abortOnBadEntry o s _) (follows_ite (follows_refl _) ?_)
  exact (follows_handleMoreAdaptedBodyAvailable o s).then
    (follows_ite (follows_refl _) (follows_checkAdaptationWithBodyCompletion o _))

theorem follows_handleAdaptedBodyProductionEnded (o : Obs) (s : State)
    (hb : s.adaptedBodySource.isSome = true) :
    Follows s (handleAdaptedBodyProductionEnded o s) := by
  unfold handleAdaptedBodyProductionEnded
  refine follows_ite (follows_abortOnBadEntry o s _) (follows_ite (follows_fail _ _) ?_)
  refine Follows.then (b := { s with receivedWholeAdaptedReply := true }) ?_
    (follows_checkAdaptationWithBodyCompletion o _)
  refine follows_same rfl ?_
  intro h hf
  exact ⟨(h hf).1, (h hf).2.1, fun _ => (h hf).2.1 hb⟩

theorem follows_handledEarlyAdaptationAbort (o : Obs) (s : State) :
    Follows s (handledEarlyAdaptationAbort o s).1 := by
  unfold handledEarlyAdaptationAbort
  by_cases he : o.entryEmpty = true
  · rw [if_pos he]
    exact (follows_call s _ (by rfl)).then
      ((follows_call _ _ (by rfl)).then (follows_call _ _ (by rfl)))
  · rw [if_neg he]
    exact follows_ite (follows_call s _ (by rfl)) (follows_refl s)

theorem follows_handleAdaptedBodyProducerAborted (o : Obs) (s : State) :
    Follows s (handleAdaptedBodyProducerAborted o s) := by
  unfold handleAdaptedBodyProducerAborted
  refine follows_ite (follows_abortOnBadEntry o s _) (follows_ite (follows_fail _ _) ?_)
  have h1 : Follows s { s with adaptedReplyAborted := true } := follows_same rfl (fun h => h)
  generalize ({ s with adaptedReplyAborted := true } : State) = s1 at h1
  simp only
  refine h1.then ?_
  cases hp : s1.adaptedBodySource with
  | none => exact follows_fail _ _
  | some pipe =>
    refine follows_ite (follows_refl _) ?_
    exact follows_ite (follows_handledEarlyAdaptationAbort o _)
      ((follows_handledEarlyAdaptationAbort o _).then
        (follows_checkAdaptationWithBodyCompletion o _))

theorem follows_handleAdaptationAborted (o : Obs) (s : State) (bypassable : Bool) :
    Follows s (handleAdaptationAborted o s bypassable) := by
  unfold handleAdaptationAborted
  refine follows_ite (follows_abortOnBadEntry o s _) ?_
  exact follows_ite ((follows_handledEarlyAdaptationAbort o s).then (follows_call _ _ (by rfl)))
    (follows_handledEarlyAdaptationAbort o s)

theorem follows_handleAdaptationBlocked (o : Obs) (s : State) (answer : Answer) :
    Follows s (handleAdaptationBlocked o s answer) := by
  unfold handleAdaptationBlocked
  refine follows_ite (follows_abortOnBadEntry o s _) (follows_ite ?_ ?_)
  · exact (follows_ite (c := o.hasRequest = true) (follows_call s _ (by rfl))
      (follows_refl s)).then (follows_call _ _ (by rfl))
  · exact (follows_call s _ (by rfl)).then
      ((follows_call _ _ (by rfl)).then (follows_abortOnData _ _))

theorem foldl_calls_started (f : List Char → Call) :
    ∀ (l : List (List Char)) (s : State),
      (l.foldl (fun st url => st.call (f url)) s).startedAdaptation = s.startedAdaptation := by
  intro l
  induction l with
  | nil => intro s; rfl
  | cons u t ih =>
    intro s
    rw [List.foldl_cons, ih]
    rfl

theorem haveParsedReplyHeaders_started (lib : UriLib) (s : State) (rep : HttpReply) :
    (haveParsedReplyHeaders lib s rep).startedAdaptation = s.startedAdaptation := by
  unfold haveParsedReplyHeaders
  simp only
  cases rep.contentRangeOffset <;> exact foldl_calls_started _ _ _

theorem setFinalReply_started (lib : UriLib) (o : Obs) (s : State) (rep : HttpReply) :
    (setFinalReply lib o s rep).startedAdaptation = s.startedAdaptation := by
  unfold setFinalReply
  split
  · rfl
  · simp only
    split
    · show (haveParsedReplyHeaders lib _ rep).startedAdaptation = _
      rw [haveParsedReplyHeaders_started]
      rfl
    · show (haveParsedReplyHeaders lib _ rep).startedAdaptation = _
      rw [haveParsedReplyHeaders_started]
      rfl

theorem follows_handleAdaptedHeader (lib : UriLib) (o : Obs) (s : State)
    (msg : Option HttpReply) (hst : s.startedAdaptation = true) :
    Follows s (handleAdaptedHeader lib o s msg) := by
  unfold handleAdaptedHeader
  refine follows_ite ?_ ?_
  · cases msg with
    | none => exact (follows_abortOnBadEntry o s _).then (follows_fail _ _)
    | some rep =>
      exact (follows_abortOnBadEntry o s _).then
        (follows_ite (follows_call _ _ (by rfl)) (follows_refl _))
  · cases msg with
    | none => exact follows_fail _ _
    | some rep =>
      have h1 := follows_setFinalReply lib o s rep
      have hs1 : (setFinalReply lib o s rep).startedAdaptation = true := by
        rw [setFinalReply_started]
        exact hst
      simp only
      generalize setFinalReply lib o s rep = s1 at h1 hs1
      refine h1.then (follows_ite (follows_refl _) (follows_ite (follows_fail _ _) ?_))
      cases hbp : rep.body_pipe with
      | some pipe =>
        refine Follows.then (b := { s1 with adaptedBodySource := some pipe })
          (follows_same rfl (fun _ => started_of_flag hs1)) ?_
        exact follows_ite (follows_fail _ _) (follows_checkAdaptationWithBodyCompletion o _)
      | none =>
        refine follows_ite (follows_fail _ _) ?_
        refine Follows.then (b := { s1 with receivedWholeAdaptedReply := true })
          (follows_same rfl (fun _ => started_of_flag hs1)) ?_
        exact follows_ite (follows_handleAdaptationCompleted o _) (follows_refl _)

theorem follows_noteAdaptationAnswer (lib : UriLib) (o : Obs) (s : State) (answer : Answer)
    (hst : s.startedAdaptation = true) :
    Follows s (noteAdaptationAnswer lib o s answer) := by
  unfold noteAdaptationAnswer
  have h1 : Follows s { s with adaptedHeadSource := false } :=
    follows_same rfl (fun _ => started_of_flag hst)
  cases answer.kind with
  | akForward => exact h1.then (follows_handleAdaptedHeader lib o _ _ hst)
  | akBlock => exact h1.then (follows_handleAdaptationBlocked o _ _)
  | akError => exact h1.then (follows_handleAdaptationAborted o _ _)

theorem follows_storeReplyBody (s : State) (data : List Nat) :
    Follows s (storeReplyBody s data) :=
  (follows_call s _ (by rfl)).then (follows_same rfl (fun h => h))

theorem follows_adaptVirginReplyBody (s : State) (data : List Nat) :
    Follows s (adaptVirginReplyBody s data) := by
  unfold adaptVirginReplyBody
  refine follows_ite (follows_fail _ _) ?_
  cases hv : s.virginBodyDestination with
  | none => exact follows_refl s
  | some pipe =>
    cases hr : s.responseBodyBuffer with
    | some buffered =>
      refine follows_ite (follows_fail _ _) ?_
      exact follows_ite (follows_same rfl (fun h => h)) (follows_same rfl (fun h => h))
    | none =>
      refine follows_ite (follows_ite ?_ (follows_same rfl (fun h => h)))
        (follows_same rfl (fun h => h))
      exact Follows.then (b := { s with virginBodyDestination := some (pipe.putMoreData data).1 })
        (follows_same rfl (fun h => h)) (follows_fail _ _)

theorem follows_addVirginReplyBody (s : State) (data : List Nat) :
    Follows s (addVirginReplyBody s data) :=
  follows_ite (follows_fail _ _)
    (follows_ite (follows_adaptVirginReplyBody s data) (follows_storeReplyBody s data))

theorem follows_noteMoreBodySpaceAvailable (s : State) :
    Follows s (noteMoreBodySpaceAvailable s) := by
  unfold noteMoreBodySpaceAvailable
  refine follows_ite ?_ (follows_call s _ (by rfl))
  have h1 := follows_addVirginReplyBody s []
  simp only
  generalize addVirginReplyBody s [] = s1 at h1
  cases hf : s1.failure with
  | some f => simpa [hf] using h1
  | none =>
    simp only [Option.isSome_none, Bool.false_eq_true, if_false]
    exact h1.then (follows_ite (follows_serverComplete2 s1 hf) (follows_call _ _ (by rfl)))

theorem follows_noteBodyConsumerAborted (o : Obs) (s : State) :
    Follows s (noteBodyConsumerAborted o s) :=
  Follows.then (b := { s with virginBodyDestination := none }) (follows_same rfl (fun h => h))
    (follows_ite (follows_handleAdaptationCompleted o _) (follows_refl _))

theorem follows_startAdaptation (o : Obs) (s : State) (pipeSpace : Nat) :
    Follows s (startAdaptation o s pipeSpace) := by
  unfold startAdaptation
  refine follows_ite (follows_fail _ _) ?_
  cases hv : s.theVirginReply with
  | none => exact follows_fail _ _
  | some vrep =>
    refine follows_ite (follows_fail _ _) ?_
    cases o.virginBodyExpected with
    | none =>
      simp only
      by_cases hi : o.initiated = true
      · simp only [hi, Bool.not_true, Bool.false_eq_true, if_false]
        exact follows_same rfl (fun _ => started_of_flag rfl)
      · simp only [Bool.not_eq_true] at hi
        simp only [hi, Bool.not_false, if_true]
        exact follows_same rfl (fun _ hf => absurd hf (by simp [State.fail]))
    | some size =>
      simp only
      by_cases hi : o.initiated = true
      · simp only [hi, Bool.not_true, Bool.false_eq_true, if_false]
        exact follows_same rfl (fun _ => started_of_flag rfl)
      · simp only [Bool.not_eq_true] at hi
        simp only [hi, Bool.not_false, if_true]
        exact follows_same rfl (fun _ hf => absurd hf (by simp [State.fail]))

theorem follows_sendBodyIsTooLargeError (s : State) : Follows s (sendBodyIsTooLargeError s) :=
  (follows_call s _ (by rfl)).then ((follows_call _ _ (by rfl)).then (follows_abortOnData _ _))


theorem follows_noteAdaptationAclCheckDone (lib : UriLib) (o : Obs) (s : State)
    (group : Bool) (pipeSpace : Nat) :
    Follows s (noteAdaptationAclCheckDone lib o s group pipeSpace) := by
  unfold noteAdaptationAclCheckDone
  have h1 : Follows s { s with adaptationAccessCheckPending := false } :=
    follows_same rfl (fun h => h)
  generalize ({ s with adaptationAccessCheckPending := false } : State) = s1 at h1
  simp only
  refine h1.then (follows_ite (follows_abortOnBadEntry o s1 _) ?_)
  cases hv : s1.theVirginReply with
  | none => exact follows_fail _ _
  | some vrep =>
    refine follows_ite (follows_sendBodyIsTooLargeError s1) (follows_ite ?_ ?_)
    · exact (follows_setFinalReply lib o s1 vrep).then
        (follows_ite (follows_refl _) (follows_call _ _ (by rfl)))
    · exact (follows_startAdaptation o s1 pipeSpace).then
        (follows_ite (follows_refl _) (follows_call _ _ (by rfl)))

theorem follows_adaptOrFinalizeReply (lib : UriLib) (o : Obs) (s : State) :
    Follows s (adaptOrFinalizeReply lib o s) := by
  unfold adaptOrFinalizeReply
  split
  · exact follows_fail _ _
  · exact Follows.then (b := { s with adaptationAccessCheckPending := o.accessCheckStarted })
      (follows_same rfl (fun h => h)) (follows_ite (follows_refl _) (follows_setFinalReply lib o _ _))

theorem follows_startRequestBodyFlow (o : Obs) (s : State) (body_pipe : BodyPipe) :
    Follows s (startRequestBodyFlow o s body_pipe) :=
  follows_ite (follows_same rfl (fun h => h)) (follows_same rfl (fun h => h))

theorem follows_swanSong (s : State) : Follows s (swanSong s) := by
  unfold swanSong
  have h1 : Follows s
      (if s.requestBodySource.isSome then { s with requestBodySource := none } else s) :=
    follows_ite (follows_same rfl (fun h => h)) (follows_refl s)
  generalize (if s.requestBodySource.isSome then { s with requestBodySource := none } else s)
    = s1 at h1
  simp only
  have h2 := follows_cleanAdaptation s1
  generalize cleanAdaptation s1 = s2 at h2
  refine h1.then (h2.then (follows_ite (follows_refl _) ?_))
  have h3 : Follows s2 (if !s2.doneWithServer then closeServer s2 else s2) :=
    follows_ite (follows_closeServer s2) (follows_refl s2)
  generalize (if !s2.doneWithServer then closeServer s2 else s2) = s3 at h3
  refine h3.then (follows_ite ?_ (follows_refl _))
  exact Follows.then (b := { s3 with doneWithFwd := some "swanSong()" })
    (follows_same rfl (fun h => h)) (follows_call _ _ (by rfl))

theorem follows_noteMoreBodyDataAvailable (o : Obs) (s : State) (bp : PipeRef) :
    Follows s (noteMoreBodyDataAvailable o s bp) :=
  follows_ite (follows_handleMoreAdaptedBodyAvailable o s)
    (follows_ite (follows_handleMoreRequestBodyAvailable o s) (follows_refl s))

theorem follows_noteBodyProductionEnded (o : Obs) (s : State) (bp : PipeRef) :
    Follows s (noteBodyProductionEnded o s bp) := by
  unfold noteBodyProductionEnded
  by_cases h : s.adaptedBodySource.isSome = true ∧ bp = PipeRef.adaptedBody
  · rw [if_pos h]
    exact follows_handleAdaptedBodyProductionEnded o s h.1
  · rw [if_neg h]
    exact follows_ite (follows_handleRequestBodyProductionEnded s) (follows_refl s)

theorem follows_noteBodyProducerAborted (o : Obs) (s : State) (bp : PipeRef) :
    Follows s (noteBodyProducerAborted o s bp) :=
  follows_ite (follows_handleAdaptedBodyProducerAborted o s)
    (follows_ite (follows_handleRequestBodyProducerAborted s) (follows_refl s))

theorem follows_refresh (o : Obs) (s : State) : Follows s (refresh o s) := by
  refine follows_same rfl ?_
  intro h hf
  refine ⟨(h hf).1, fun hb => (h hf).2.1 ?_, (h hf).2.2⟩
  have hb2 : (s.adaptedBodySource.map (fun _ => o.adaptedBody)).isSome = true := hb
  revert hb2
  cases s.adaptedBodySource <;> simp

theorem follows_step (lib : UriLib) (s : State) (oe : Obs × Event) :
    Follows s (step lib s oe) := by
  unfold step
  by_cases hf : s.failure = none
  swap
  · have hsome : s.failure.isSome = true := by
      cases hx : s.failure with
      | none => exact absurd hx hf
      | some f => rfl
    rw [if_pos hsome]
    exact follows_refl s
  have hnone : ¬ s.failure.isSome = true := by simp [hf]
  rw [if_neg hnone]
  intro hs
  have h1 := follows_refresh oe.1 s
  have hf1 : (refresh oe.1 s).failure = none := hf
  simp only
  generalize refresh oe.1 s = s1 at h1 hf1
  have hs1 : Started s1 := (h1 hs).1
  refine (h1.then ?_) hs
  cases oe.2 with
  | startRequestBodyFlow body_pipe => exact follows_startRequestBodyFlow _ _ _
  | setVirginReply rep => exact follows_setVirginReply _ _
  | markParsedVirginReplyAsWhole reason => exact follows_same rfl (fun h => h)
  | adaptOrFinalizeReply => exact follows_adaptOrFinalizeReply _ _ _
  | addVirginReplyBody data => exact follows_addVirginReplyBody _ _
  | serverComplete => exact follows_serverComplete _ hf1
  | sentRequestBody io => exact follows_sentRequestBody _ _ _
  | noteMoreBodyDataAvailable bp => exact follows_noteMoreBodyDataAvailable _ _ _
  | noteBodyProductionEnded bp => exact follows_noteBodyProductionEnded _ _ _
  | noteBodyProducerAborted bp => exact follows_noteBodyProducerAborted _ _ _
  | noteMoreBodySpaceAvailable => exact follows_noteMoreBodySpaceAvailable _
  | noteBodyConsumerAborted => exact follows_noteBodyConsumerAborted _ _
  | noteAdaptationAclCheckDone group pipeSpace =>
    exact follows_ite (follows_noteAdaptationAclCheckDone _ _ _ _ _) (follows_refl _)
  | noteAdaptationAnswer answer =>
    by_cases hh : s1.adaptedHeadSource = true
    · simp only [hh, if_true]
      exact follows_noteAdaptationAnswer _ _ _ _ ((hs1 hf1).1 hh)
    · simp only [hh, if_false]
      exact follows_refl _
  | resumeBodyStorage => exact follows_resumeBodyStorage _ _
  | swanSong => exact follows_swanSong _


theorem follows_foldl_step (lib : UriLib) :
    ∀ (events : List (Obs × Event)) (s : State), Follows s (events.foldl (step lib) s) := by
  intro events
  induction events with
  | nil => intro s; exact follows_refl s
  | cons oe t ih =>
    intro s
    rw [List.foldl_cons]
    exact (follows_step lib s oe).then (ih _)

theorem started_init (request : HttpRequest) : Started (State.init request) :=
  fun _ => ⟨fun h => absurd h (by simp [State.init]), fun h => absurd h (by simp [State.init]),
    fun h => absurd h (by simp [State.init])⟩

theorem append_record_rest (a : List Call) (g : Call) (m c : List Call) :
    ∃ rest, a ++ [g] ++ m ++ c = a ++ g :: rest :=
  ⟨m ++ c, by simp⟩

/-- C24: in every job that the calls from outside can produce, each run of
`completeForwarding` that began with `doneWithAdaptation()` and
`receivedWholeAdaptedReply` set went on with
`fwd->markStoredReplyAsWhole("receivedWholeAdaptedReply")`; the record of a run holds the
values at its start; a job that has not failed has `receivedWholeAdaptedReply` set only
after adaptation started; and the job of `adaptedRun` makes such a run. -/
theorem completeForwarding_marks_adapted (lib : UriLib) (request : HttpRequest)
    (events : List (Obs × Event)) :
    (∀ (pre post : List Call) (d st r : Bool),
      (run lib request events).calls = pre ++ Call.completeForwardingCalled d st r :: post →
      d = true → r = true →
      ∃ tail, post = Call.fwdMarkStoredReplyAsWhole "receivedWholeAdaptedReply" :: tail)
    ∧ ((run lib request events).failure = none →
        (run lib request events).receivedWholeAdaptedReply = true →
        (run lib request events).startedAdaptation = true)
    ∧ (∀ s : State, ∃ rest, (completeForwarding s).calls
        = s.calls ++ Call.completeForwardingCalled (doneWithAdaptation s) s.startedAdaptation
            s.receivedWholeAdaptedReply :: rest)
    ∧ (run sampleLib putRequest adaptedRun).calls
        = [Call.processReplyBody,
           Call.closeServer,
           Call.entryReplaceHttpReply plainReply,
           Call.purgeEntriesByUrl "http://origin.example/dir/doc".data,
           Call.entryStartWriting,
           Call.completeForwardingCalled true true true,
           Call.fwdMarkStoredReplyAsWhole "receivedWholeAdaptedReply",
           Call.fwdComplete] := by
  obtain ⟨hs, extra, hc, hm⟩ := follows_foldl_step lib events (State.init request)
    (started_init request)
  refine ⟨?_, fun hf hr => (hs hf).2.2 hr, ?_, ?_⟩
  · intro pre post d st r h
    have hc2 : (run lib request events).calls = extra := by
      show (events.foldl (step lib) (State.init request)).calls = extra
      rw [hc]
      rfl
    rw [hc2] at h
    exact hm pre post d st r h
  · intro s
    by_cases hd : doneWithAdaptation s = true
    · have hc := congrArg State.calls (completeForwarding_eq s hd)
      rw [hc, hd]
      exact append_record_rest _ _ _ _
    · have hd2 : doneWithAdaptation
          (s.call (Call.completeForwardingCalled (doneWithAdaptation s) s.startedAdaptation
            s.receivedWholeAdaptedReply)) = false := by
        simpa using hd
      unfold completeForwarding
      simp only [hd2, Bool.not_false, if_true]
      exact ⟨[], rfl⟩
  · decide

end Client

/-! ## The forwarding client: the URLs purged for `Location` and `Content-Location` -/

namespace Client

theorem dropWhile_cons_pos {α : Type} (p : α → Bool) (x : α) (xs : List α) (h : p x = true) :
    (x :: xs).dropWhile p = xs.dropWhile p := by
  simp [List.dropWhile_cons, h]

theorem dropWhile_cons_neg {α : Type} (p : α → Bool) (x : α) (xs : List α) (h : p x = false) :
    (x :: xs).dropWhile p = x :: xs := by
  simp [List.dropWhile_cons, h]

theorem takeWhile_cons_pos {α : Type} (p : α → Bool) (x : α) (xs : List α) (h : p x = true) :
    (x :: xs).takeWhile p = x :: xs.takeWhile p := by
  simp [List.takeWhile_cons, h]

theorem takeWhile_cons_neg {α : Type} (p : α → Bool) (x : α) (xs : List α) (h : p x = false) :
    (x :: xs).takeWhile p = [] := by
  simp [List.takeWhile_cons, h]

theorem strchrColon_dropWhile (url : List Char) :
    strchrColon url
      = (match url.dropWhile (fun c => c != chColon) with
         | [] => none
         | c :: rest => some (c :: rest)) := by
  induction url with
  | nil => rfl
  | cons a t ih =>
    unfold strchrColon
    by_cases h : a = chColon
    · simp [h]
    · rw [if_neg h, ih]
      have h2 : (a != chColon) = true := by simpa using h
      rw [dropWhile_cons_pos (fun c => c != chColon) a t h2]

theorem specHostText_of_strchrColon {url host : List Char} (h : strchrColon url = some host) :
    specHostText url
      = some ((host.tail.dropWhile (fun c => c == chSlash)).takeWhile
          (fun c => c != chSlash && c != chNul)) := by
  rw [strchrColon_dropWhile] at h
  unfold specHostText
  cases hd : url.dropWhile (fun c => c != chColon) with
  | nil => rw [hd] at h; cases h
  | cons c rest =>
    rw [hd] at h
    simp only [Option.some.injEq] at h
    subst h
    rfl

theorem sameUntilSlash_head {a : Char} {r1 host2 : List Char}
    (h : sameUntilSlash (a :: r1) host2 = true) : a = cstrHead host2 := by
  unfold sameUntilSlash at h
  split at h
  · rename_i hc
    exact hc.2.2
  · simpa using h

theorem skipSchemeSlashes_dropWhile :
    ∀ (a b : List Char),
      cstrHead (skipSchemeSlashes a b).1 ≠ chNul →
      sameUntilSlash (skipSchemeSlashes a b).1 (skipSchemeSlashes a b).2 = true →
      a.dropWhile (fun c => c == chSlash) = (skipSchemeSlashes a b).1
      ∧ b.dropWhile (fun c => c == chSlash) = (skipSchemeSlashes a b).2
      ∧ cstrHead (skipSchemeSlashes a b).1 ≠ chSlash := by
  intro a
  induction a with
  | nil =>
    intro b h1 _
    exact absurd rfl h1
  | cons x r1 ih =>
    intro b h1 h2
    cases b with
    | nil =>
      have hs : skipSchemeSlashes (x :: r1) [] = (x :: r1, []) := rfl
      rw [hs] at h1 h2
      exact absurd (sameUntilSlash_head h2) h1
    | cons y r2 =>
      by_cases hc : x = chSlash ∧ y = chSlash
      · have hs : skipSchemeSlashes (x :: r1) (y :: r2) = skipSchemeSlashes r1 r2 := by
          rw [skipSchemeSlashes, if_pos hc]
        rw [hs] at h1 h2 ⊢
        obtain ⟨e1, e2, e3⟩ := ih r2 h1 h2
        refine ⟨?_, ?_, e3⟩
        · rw [dropWhile_cons_pos (fun c => c == chSlash) x r1 (by simp [hc.1])]
          exact e1
        · rw [dropWhile_cons_pos (fun c => c == chSlash) y r2 (by simp [hc.2])]
          exact e2
      · have hs : skipSchemeSlashes (x :: r1) (y :: r2) = (x :: r1, y :: r2) := by
          rw [skipSchemeSlashes, if_neg hc]
        rw [hs] at h1 h2 ⊢
        have hxy : x = y := sameUntilSlash_head h2
        have hx : x ≠ chSlash := fun hx => hc ⟨hx, hxy ▸ hx⟩
        have hy : y ≠ chSlash := hxy ▸ hx
        refine ⟨?_, ?_, hx⟩
        · rw [dropWhile_cons_neg (fun c => c == chSlash) x r1 (by simpa using hx)]
        · rw [dropWhile_cons_neg (fun c => c == chSlash) y r2 (by simpa using hy)]

theorem sameUntilSlash_takeWhile :
    ∀ (p1 p2 : List Char), sameUntilSlash p1 p2 = true →
      p1.takeWhile (fun c => c != chSlash && c != chNul)
        = p2.takeWhile (fun c => c != chSlash && c != chNul) := by
  intro p1
  induction p1 with
  | nil =>
    intro p2 h
    cases p2 with
    | nil => rfl
    | cons y r2 =>
      have hy : chNul = y := by simpa [sameUntilSlash, cstrHead] using h
      subst hy
      simp
  | cons x r1 ih =>
    intro p2 h
    have hx := sameUntilSlash_head h
    by_cases hc : x ≠ chNul ∧ x ≠ chSlash ∧ x = cstrHead p2
    · have h2 : sameUntilSlash r1 p2.tail = true := by
        rw [sameUntilSlash, if_pos hc] at h
        exact h
      cases p2 with
      | nil => exact absurd hx hc.1
      | cons y r2 =>
        have hxy : x = y := hx
        subst hxy
        have hp : (x != chSlash && x != chNul) = true := by simp [hc.1, hc.2.1]
        rw [takeWhile_cons_pos _ x r1 hp, takeWhile_cons_pos _ x r2 hp]
        exact congrArg _ (ih r2 h2)
    · have hstop : (x != chSlash && x != chNul) = false := by
        by_cases h0 : x = chNul
        · simp [h0]
        · by_cases h1 : x = chSlash
          · simp [h1]
          · exact absurd ⟨h0, h1, hx⟩ hc
      rw [takeWhile_cons_neg _ x r1 hstop]
      cases p2 with
      | nil => rfl
      | cons y r2 =>
        have hxy : x = y := hx
        subst hxy
        rw [takeWhile_cons_neg _ x r2 hstop]

theorem takeWhile_ne_nil {p : List Char} (h0 : cstrHead p ≠ chNul) (h1 : cstrHead p ≠ chSlash) :
    p.takeWhile (fun c => c != chSlash && c != chNul) ≠ [] := by
  cases p with
  | nil => exact absurd rfl h0
  | cons x r =>
    have hx0 : x ≠ chNul := h0
    have hx1 : x ≠ chSlash := h1
    rw [takeWhile_cons_pos _ x r (by simp [hx0, hx1])]
    exact List.cons_ne_nil _ _

theorem sameUrlHosts_specHostText {url1 url2 : List Char} (h : sameUrlHosts url1 url2 = true) :
    ∃ host, host ≠ [] ∧ specHostText url1 = some host ∧ specHostText url2 = some host := by
  unfold sameUrlHosts at h
  cases h1 : strchrColon url1 with
  | none => rw [h1] at h; cases h
  | some host1 =>
    cases h2 : strchrColon url2 with
    | none => rw [h1, h2] at h; cases h
    | some host2 =>
      rw [h1, h2] at h
      simp only at h
      by_cases hn : cstrHead (skipSchemeSlashes host1.tail host2.tail).1 = chNul
      · rw [if_pos hn] at h
        cases h
      · rw [if_neg hn] at h
        obtain ⟨e1, e2, e3⟩ := skipSchemeSlashes_dropWhile host1.tail host2.tail hn h
        refine ⟨_, ?_, specHostText_of_strchrColon h1, ?_⟩
        · rw [e1]
          exact takeWhile_ne_nil hn e3
        · rw [specHostText_of_strchrColon h2, e1, e2]
          exact congrArg some (sameUntilSlash_takeWhile _ _ h).symm

theorem purgeEntriesByHeader_target (lib : UriLib) (req : HttpRequest) (reqUrl hdr url : List Char)
    (hc : req.method ≠ Method.METHOD_CONNECT)
    (h : purgeEntriesByHeader lib req reqUrl (some hdr) = some url) :
    (lib.urlIsRelative hdr = true
      ∧ ∃ u : Uri, url = lib.absolute u ∧ u.scheme = req.url.scheme
          ∧ u.userInfo = req.url.userInfo ∧ u.host = req.url.host ∧ u.port = req.url.port)
    ∨ (lib.urlIsRelative hdr = false ∧ url = hdr
        ∧ ∃ host, host ≠ [] ∧ specHostText url = some host
            ∧ specHostText reqUrl = some host) := by
  unfold purgeEntriesByHeader at h
  simp only at h
  by_cases hr : lib.urlIsRelative hdr = true
  · rw [if_pos hr, if_neg hc] at h
    refine Or.inl ⟨hr, ?_⟩
    by_cases hu : req.url.scheme = UriScheme.PROTO_URN
    · rw [if_pos hu] at h
      exact ⟨req.url, (Option.some.inj h).symm, rfl, rfl, rfl, rfl⟩
    · rw [if_neg hu] at h
      by_cases hs : cstrHead hdr = chSlash
      · rw [if_pos hs] at h
        exact ⟨_, (Option.some.inj h).symm, rfl, rfl, rfl, rfl⟩
      · rw [if_neg hs] at h
        exact ⟨_, (Option.some.inj h).symm, rfl, rfl, rfl, rfl⟩
  · rw [if_neg hr] at h
    have hr2 : lib.urlIsRelative hdr = false := by simpa using hr
    by_cases hsame : sameUrlHosts reqUrl hdr = true
    · simp only [hsame, Bool.not_true, Bool.false_eq_true, if_false, Option.some.injEq] at h
      subst h
      obtain ⟨host, hne, e1, e2⟩ := sameUrlHosts_specHostText hsame
      exact Or.inr ⟨hr2, rfl, host, hne, e2, e1⟩
    · have hs2 : sameUrlHosts reqUrl hdr = false := by simpa using hsame
      simp [hs2] at h

theorem purgesOthers_not_connect {m : Method} (h : m.purgesOthers = true) :
    m ≠ Method.METHOD_CONNECT := by
  intro hm
  subst hm
  cases h

theorem maybePurgeOthers_eq (lib : UriLib) (req : HttpRequest) (rep : HttpReply)
    (hm : req.method.purgesOthers = true) (hs : rep.status < 400) :
    maybePurgeOthers lib req rep
      = req.effectiveRequestUri
        :: ((purgeEntriesByHeader lib req req.effectiveRequestUri rep.location).toList
          ++ (purgeEntriesByHeader lib req req.effectiveRequestUri rep.contentLocation).toList) := by
  unfold maybePurgeOthers
  have hs2 : ¬ rep.status ≥ 400 := by omega
  simp [hm, hs2]

/-- C26: for a reply with a status below 400 to a purging method, `maybePurgeOthers`
purges the request URL and then what `purgeEntriesByHeader` gives for `Location` and for
`Content-Location`; every URL purged for one of these headers is either the result of
`absolute()` on a URL that has the scheme, the user info, the host and the port of the
request URL (relative header value), or the header value itself, which is not relative
and whose host text is not empty and is the host text of the request URL. -/
theorem maybePurgeOthers_same_host (lib : UriLib) (req : HttpRequest) (rep : HttpReply)
    (hm : req.method.purgesOthers = true) (hs : rep.status < 400) :
    (maybePurgeOthers lib req rep).head? = some req.effectiveRequestUri
    ∧ ∀ url ∈ (maybePurgeOthers lib req rep).tail,
        ∃ hdr, (rep.location = some hdr ∨ rep.contentLocation = some hdr)
          ∧ purgeEntriesByHeader lib req req.effectiveRequestUri (some hdr) = some url
          ∧ ((lib.urlIsRelative hdr = true
              ∧ ∃ u : Uri, url = lib.absolute u ∧ u.scheme = req.url.scheme
                  ∧ u.userInfo = req.url.userInfo ∧ u.host = req.url.host
                  ∧ u.port = req.url.port)
            ∨ (lib.urlIsRelative hdr = false ∧ url = hdr
                ∧ ∃ host, host ≠ [] ∧ specHostText url = some host
                    ∧ specHostText req.effectiveRequestUri = some host)) := by
  rw [maybePurgeOthers_eq lib req rep hm hs]
  refine ⟨rfl, ?_⟩
  intro url hmem
  rw [List.tail_cons, List.mem_append] at hmem
  have hc := purgesOthers_not_connect hm
  rcases hmem with hmem | hmem
  · cases hl : rep.location with
    | none =>
      rw [hl] at hmem
      simp [purgeEntriesByHeader] at hmem
    | some hdr =>
      rw [hl] at hmem
      have hp : purgeEntriesByHeader lib req req.effectiveRequestUri (some hdr) = some url := by
        simpa [Option.mem_toList] using hmem
      exact ⟨hdr, Or.inl rfl, hp, purgeEntriesByHeader_target lib req _ hdr url hc hp⟩
  · cases hl : rep.contentLocation with
    | none =>
      rw [hl] at hmem
      simp [purgeEntriesByHeader] at hmem
    | some hdr =>
      rw [hl] at hmem
      have hp : purgeEntriesByHeader lib req req.effectiveRequestUri (some hdr) = some url := by
        simpa [Option.mem_toList] using hmem
      exact ⟨hdr, Or.inr rfl, hp, purgeEntriesByHeader_target lib req _ hdr url hc hp⟩

theorem maybePurgeOthers_same_host_witness :
    putRequest.method.purgesOthers = true ∧ createdReply.status < 400
    ∧ (maybePurgeOthers sampleLib putRequest createdReply).head?
        = some putRequest.effectiveRequestUri
    ∧ ∀ url ∈ (maybePurgeOthers sampleLib putRequest createdReply).tail,
        ∃ hdr, (createdReply.location = some hdr ∨ createdReply.contentLocation = some hdr)
          ∧ purgeEntriesByHeader sampleLib putRequest putRequest.effectiveRequestUri (some hdr)
              = some url
          ∧ ((sampleLib.urlIsRelative hdr = true
              ∧ ∃ u : Uri, url = sampleLib.absolute u ∧ u.scheme = putRequest.url.scheme
                  ∧ u.userInfo = putRequest.url.userInfo ∧ u.host = putRequest.url.host
                  ∧ u.port = putRequest.url.port)
            ∨ (sampleLib.urlIsRelative hdr = false ∧ url = hdr
                ∧ ∃ host, host ≠ [] ∧ specHostText url = some host
                    ∧ specHostText putRequest.effectiveRequestUri = some host)) :=
  ⟨by decide, by decide,
    maybePurgeOthers_same_host sampleLib putRequest createdReply (by decide) (by decide)⟩

theorem maybePurgeOthers_example :
    maybePurgeOthers sampleLib putRequest createdReply
      = ["http://origin.example/dir/doc".data, "http://origin.example/other".data,
         "http://origin.example/dir/http://origin.example/dir/doc".data]
    ∧ specHostText "http://origin.example/other".data = some "origin.example".data
    ∧ maybePurgeOthers sampleLib putRequest
        (locatedReply (some "http://other.example/dir/doc".data) none)
      = ["http://origin.example/dir/doc".data] := by
  decide

/-- C27: in a request that is neither CONNECT nor for a URN, a relative header value that
begins with `/` replaces the path of the request URL, and a relative header value that
does not begin with `/` is not read at all: the URL purged is `absolute()` of the request
URL after `addRelativePath(reqUrl)`, so two such values give the same purge target. -/
theorem purgeEntriesByHeader_relative_ignores_value (lib : UriLib) (req : HttpRequest)
    (reqUrl hdr1 hdr2 : List Char)
    (hc : req.method ≠ Method.METHOD_CONNECT) (hu : req.url.scheme ≠ UriScheme.PROTO_URN)
    (hr1 : lib.urlIsRelative hdr1 = true) (hr2 : lib.urlIsRelative hdr2 = true)
    (hs2 : cstrHead hdr2 ≠ chSlash) :
    (cstrHead hdr1 = chSlash →
      purgeEntriesByHeader lib req reqUrl (some hdr1)
        = some (lib.absolute (req.url.setPath hdr1)))
    ∧ (cstrHead hdr1 ≠ chSlash →
      purgeEntriesByHeader lib req reqUrl (some hdr1)
        = some (lib.absolute (req.url.addRelativePath lib reqUrl))
      ∧ purgeEntriesByHeader lib req reqUrl (some hdr1)
        = purgeEntriesByHeader lib req reqUrl (some hdr2)) := by
  have key : ∀ hdr, lib.urlIsRelative hdr = true →
      purgeEntriesByHeader lib req reqUrl (some hdr)
        = some (lib.absolute (if cstrHead hdr = chSlash then req.url.setPath hdr
            else req.url.addRelativePath lib reqUrl)) := by
    intro hdr hr
    unfold purgeEntriesByHeader
    simp only
    rw [if_pos hr, if_neg hc, if_neg hu]
  refine ⟨fun h1 => ?_, fun h1 => ⟨?_, ?_⟩⟩
  · rw [key hdr1 hr1, if_pos h1]
  · rw [key hdr1 hr1, if_neg h1]
  · rw [key hdr1 hr1, key hdr2 hr2, if_neg h1, if_neg hs2]

theorem purgeEntriesByHeader_relative_ignores_value_witness :
    "a.html".data ≠ "b.html".data
    ∧ purgeEntriesByHeader sampleLib putRequest putRequest.effectiveRequestUri
          (some "a.html".data)
        = some (sampleLib.absolute
            (putRequest.url.addRelativePath sampleLib putRequest.effectiveRequestUri))
    ∧ purgeEntriesByHeader sampleLib putRequest putRequest.effectiveRequestUri
          (some "a.html".data)
        = purgeEntriesByHeader sampleLib putRequest putRequest.effectiveRequestUri
          (some "b.html".data) :=
  ⟨by decide,
    (purgeEntriesByHeader_relative_ignores_value sampleLib putRequest
      putRequest.effectiveRequestUri "a.html".data "b.html".data (by decide) (by decide)
      (by decide) (by decide) (by decide)).2 (by decide)⟩

theorem purgeEntriesByHeader_relative_example :
    purgeEntriesByHeader sampleLib putRequest putRequest.effectiveRequestUri
        (some "a.html".data)
      = some "http://origin.example/dir/http://origin.example/dir/doc".data
    ∧ purgeEntriesByHeader sampleLib putRequest putRequest.effectiveRequestUri
        (some "b.html".data)
      = some "http://origin.example/dir/http://origin.example/dir/doc".data
    ∧ purgeEntriesByHeader sampleLib putRequest putRequest.effectiveRequestUri
        (some "/top.html".data)
      = some "http://origin.example/top.html".data := by
  decide

end Client

/-! ## NetDB: hostnames and link counts -/

theorem mem_store {db : NetDB} {n e : netdbEntry} :
    e ∈ (db.store n).addr_table
      ↔ (e ∈ db.addr_table ∧ e.network ≠ n.network)
        ∨ (e = n ∧ ∃ m ∈ db.addr_table, m.network = n.network) := by
  unfold NetDB.store
  simp only [List.mem_map]
  constructor
  · rintro ⟨a, ha, rfl⟩
    by_cases hc : (a.network == n.network) = true
    · rw [if_pos hc]
      exact Or.inr ⟨rfl, a, ha, by simpa using hc⟩
    · rw [if_neg hc]
      exact Or.inl ⟨ha, by simpa using hc⟩
  · rintro (⟨he, hne⟩ | ⟨rfl, m, hm, hmn⟩)
    · exact ⟨e, he, by simp [hne]⟩
    · exact ⟨m, hm, by simp [hmn]⟩

theorem networks_store (db : NetDB) (n : netdbEntry) :
    (db.store n).addr_table.map (fun e => e.network) = db.addr_table.map (fun e => e.network) := by
  unfold NetDB.store
  simp only [List.map_map]
  apply List.map_congr_left
  intro a _
  show (if (a.network == n.network) = true then n else a).network = a.network
  by_cases hc : (a.network == n.network) = true
  · rw [if_pos hc]
    exact (by simpa using hc : a.network = n.network).symm
  · rw [if_neg hc]

theorem HostsInv.network_unique {db : NetDB} (inv : HostsInv db) {m n : netdbEntry}
    (hm : m ∈ db.addr_table) (hn : n ∈ db.addr_table) (h : m.network = n.network) : m = n :=
  List.inj_on_of_nodup_map inv.networks hm hn h

theorem HostsInv.key_unique {db : NetDB} (inv : HostsInv db) {x y : net_db_name}
    (hx : x ∈ db.host_table) (hy : y ∈ db.host_table) (h : x.key = y.key) : x = y :=
  List.inj_on_of_nodup_map inv.keys hx hy h

theorem HostsInv.named {db : NetDB} (inv : HostsInv db) {n : netdbEntry} {y : net_db_name}
    (hn : n ∈ db.addr_table) (hy : y ∈ db.host_table) (h : y.net_db_entry = n.network) :
    y.key ∈ n.hosts := by
  obtain ⟨m, hm, hmn, hk⟩ := inv.owned y hy
  have : m = n := inv.network_unique hm hn (hmn.trans h)
  rw [← this]
  exact hk

theorem HostsInv.key_entry {db : NetDB} (inv : HostsInv db) {n : netdbEntry} {y : net_db_name}
    (hn : n ∈ db.addr_table) (hy : y ∈ db.host_table) (h : y.key ∈ n.hosts) :
    y.net_db_entry = n.network := by
  have h2 := inv.listed n hn y.key h
  have := inv.key_unique hy h2 rfl
  rw [this]

/-- Replacing the entry `n` by `m` of the same network and the host table by `H`, where
the names of `H` that point to `n` are the names of `m.hosts` and the other names are as
before, keeps the invariant. -/
theorem HostsInv.update {db : NetDB} (inv : HostsInv db) {n m : netdbEntry}
    (hn : n ∈ db.addr_table) (hnet : m.network = n.network)
    (hcount : m.link_count = (m.hosts.length : Int)) (hnodup : m.hosts.Nodup)
    {H : List net_db_name} (hkeys : (H.map (fun x => x.key)).Nodup)
    (hH : ∀ y, y ∈ H ↔ (y ∈ db.host_table ∧ y.net_db_entry ≠ n.network)
        ∨ (y.net_db_entry = n.network ∧ y.key ∈ m.hosts)) :
    HostsInv { addr_table := (db.store m).addr_table, host_table := H } := by
  refine ⟨?_, hkeys, ?_, ?_, ?_, ?_⟩
  · show ((db.store m).addr_table.map (fun e => e.network)).Nodup
    rw [networks_store]
    exact inv.networks
  · intro e he
    rcases mem_store.mp he with ⟨he, _⟩ | ⟨rfl, _⟩
    · exact inv.counts e he
    · exact hcount
  · intro e he
    rcases mem_store.mp he with ⟨he, _⟩ | ⟨rfl, _⟩
    · exact inv.hostsNodup e he
    · exact hnodup
  · intro e he h hh
    rcases mem_store.mp he with ⟨he, hne⟩ | ⟨rfl, _⟩
    · exact (hH _).mpr (Or.inl ⟨inv.listed e he h hh, by rw [← hnet]; exact hne⟩)
    · exact (hH _).mpr (Or.inr ⟨hnet, hh⟩)
  · intro y hy
    rcases (hH y).mp hy with ⟨hy, hne⟩ | ⟨heq, hk⟩
    · obtain ⟨e, he, hen, hek⟩ := inv.owned y hy
      exact ⟨e, mem_store.mpr (Or.inl ⟨he, by rw [hen, hnet]; exact hne⟩), hen, hek⟩
    · exact ⟨m, mem_store.mpr (Or.inr ⟨rfl, n, hn, hnet.symm⟩), hnet.trans heq.symm, hk⟩

theorem HostsInv.store_same {db : NetDB} (inv : HostsInv db) {n m : netdbEntry}
    (hn : n ∈ db.addr_table) (hnet : m.network = n.network) (hhosts : m.hosts = n.hosts)
    (hcount : m.link_count = n.link_count) : HostsInv (db.store m) := by
  refine inv.update hn hnet ?_ ?_ inv.keys ?_
  · rw [hcount, hhosts]
    exact inv.counts n hn
  · rw [hhosts]
    exact inv.hostsNodup n hn
  · intro y
    constructor
    · intro hy
      by_cases h : y.net_db_entry = n.network
      · exact Or.inr ⟨h, by rw [hhosts]; exact inv.named hn hy h⟩
      · exact Or.inl ⟨hy, h⟩
    · rintro (⟨hy, _⟩ | ⟨heq, hk⟩)
      · exact hy
      · rw [hhosts] at hk
        have := inv.listed n hn y.key hk
        rw [← heq] at this
        exact this

theorem mem_store_self {db : NetDB} {n m : netdbEntry} (hn : n ∈ db.addr_table)
    (hnet : m.network = n.network) : m ∈ (db.store m).addr_table :=
  mem_store.mpr (Or.inr ⟨rfl, n, hn, hnet.symm⟩)

theorem hostsInv_netdbHostInsert {db : NetDB} (inv : HostsInv db) {n : netdbEntry}
    (hn : n ∈ db.addr_table) {hostname : String}
    (hnew : ∀ x ∈ db.host_table, x.key ≠ hostname) :
    HostsInv (netdbHostInsert db n hostname).1
    ∧ (netdbHostInsert db n hostname).2 ∈ (netdbHostInsert db n hostname).1.addr_table := by
  have hnot : hostname ∉ n.hosts := fun h => hnew _ (inv.listed n hn hostname h) rfl
  refine ⟨?_, mem_store_self hn rfl⟩
  show HostsInv
    { addr_table :=
        (db.store { n with hosts := hostname :: n.hosts, link_count := n.link_count + 1 }).addr_table,
      host_table := db.host_table ++ [{ key := hostname, net_db_entry := n.network }] }
  refine HostsInv.update
    (m := { n with hosts := hostname :: n.hosts, link_count := n.link_count + 1 })
    inv hn rfl ?_ ?_ ?_ ?_
  · simp only [List.length_cons, Nat.cast_add, Nat.cast_one]
    rw [inv.counts n hn]
  · exact List.nodup_cons.mpr ⟨hnot, inv.hostsNodup n hn⟩
  · show ((db.host_table ++ [({ key := hostname, net_db_entry := n.network } : net_db_name)]).map
      (fun x => x.key)).Nodup
    rw [List.map_append, List.map_singleton]
    refine List.Nodup.append inv.keys (List.nodup_singleton _) ?_
    intro k hk1 hk2
    rw [List.mem_singleton] at hk2
    obtain ⟨x, hx, hxk⟩ := List.mem_map.mp hk1
    exact hnew x hx (hxk.trans hk2)
  · intro y
    show y ∈ db.host_table ++ [({ key := hostname, net_db_entry := n.network } : net_db_name)]
      ↔ _
    rw [List.mem_append, List.mem_singleton]
    constructor
    · rintro (hy | rfl)
      · by_cases h : y.net_db_entry = n.network
        · exact Or.inr ⟨h, List.mem_cons_of_mem _ (inv.named hn hy h)⟩
        · exact Or.inl ⟨hy, h⟩
      · exact Or.inr ⟨rfl, List.mem_cons_self _ _⟩
    · rintro (⟨hy, _⟩ | ⟨heq, hk⟩)
      · exact Or.inl hy
      · rcases List.mem_cons.mp hk with hk | hk
        · refine Or.inr ?_
          cases y
          simp only at heq hk
          rw [heq, hk]
        · have := inv.listed n hn y.key hk
          rw [← heq] at this
          exact Or.inl this

theorem hostsInv_netdbHostDelete {db : NetDB} (inv : HostsInv db) {n : netdbEntry}
    (hn : n ∈ db.addr_table) {hostname : String} (hmem : hostname ∈ n.hosts) :
    HostsInv (netdbHostDelete db n hostname).1
    ∧ (netdbHostDelete db n hostname).2 ∈ (netdbHostDelete db n hostname).1.addr_table
    ∧ (netdbHostDelete db n hostname).2.hosts = n.hosts.erase hostname := by
  refine ⟨?_, mem_store_self hn rfl, rfl⟩
  have hnd := inv.hostsNodup n hn
  show HostsInv
    { addr_table :=
        (db.store { n with link_count := n.link_count - 1,
                           hosts := n.hosts.erase hostname }).addr_table,
      host_table := db.host_table.filter (fun x => !(x.key == hostname)) }
  refine HostsInv.update
    (m := { n with link_count := n.link_count - 1, hosts := n.hosts.erase hostname })
    inv hn rfl ?_ ?_ ?_ ?_
  · simp only
    rw [inv.counts n hn, List.length_erase_of_mem hmem]
    have : 1 ≤ n.hosts.length := List.length_pos_of_mem hmem
    omega
  · exact hnd.erase _
  · show ((db.host_table.filter _).map (fun x => x.key)).Nodup
    exact inv.keys.sublist ((List.filter_sublist _).map _)
  · intro y
    show y ∈ db.host_table.filter _ ↔ _
    rw [List.mem_filter]
    simp only [Bool.not_eq_true', beq_eq_false_iff_ne, ne_eq]
    constructor
    · rintro ⟨hy, hk⟩
      by_cases h : y.net_db_entry = n.network
      · exact Or.inr ⟨h, (List.mem_erase_of_ne hk).mpr (inv.named hn hy h)⟩
      · exact Or.inl ⟨hy, h⟩
    · rintro (⟨hy, hne⟩ | ⟨heq, hk⟩)
      · refine ⟨hy, fun hk => hne ?_⟩
        exact inv.key_entry hn hy (hk ▸ hmem)
      · have hk2 := (hnd.mem_erase_iff.mp hk)
        have := inv.listed n hn y.key hk2.2
        rw [← heq] at this
        exact ⟨this, hk2.1⟩
theorem hostsInv_netdbHashDelete {db : NetDB} (inv : HostsInv db) (key : Ip.Address)
    (hempty : ∀ e ∈ db.addr_table, e.network = key → e.hosts = []) :
    HostsInv (netdbHashDelete db key) := by
  unfold netdbHashDelete
  refine ⟨?_, inv.keys, ?_, ?_, ?_, ?_⟩
  · exact inv.networks.sublist ((List.filter_sublist _).map _)
  · intro e he
    exact inv.counts e (List.mem_filter.mp he).1
  · intro e he
    exact inv.hostsNodup e (List.mem_filter.mp he).1
  · intro e he h hh
    exact inv.listed e (List.mem_filter.mp he).1 h hh
  · intro y hy
    obtain ⟨e, he, hen, hek⟩ := inv.owned y hy
    refine ⟨e, List.mem_filter.mpr ⟨he, ?_⟩, hen, hek⟩
    simp only [Bool.not_eq_true', beq_eq_false_iff_ne, ne_eq]
    intro hk
    rw [hempty e he hk] at hek
    cases hek

theorem hostsInv_append {db : NetDB} (inv : HostsInv db) (n : netdbEntry)
    (hnew : ∀ e ∈ db.addr_table, e.network ≠ n.network) (hhosts : n.hosts = [])
    (hcount : n.link_count = 0) :
    HostsInv { db with addr_table := db.addr_table ++ [n] } := by
  refine ⟨?_, inv.keys, ?_, ?_, ?_, ?_⟩
  · show ((db.addr_table ++ [n]).map (fun e => e.network)).Nodup
    rw [List.map_append, List.map_singleton]
    refine List.Nodup.append inv.networks (List.nodup_singleton _) ?_
    intro k hk1 hk2
    rw [List.mem_singleton] at hk2
    obtain ⟨e, he, hek⟩ := List.mem_map.mp hk1
    exact hnew e he (hek.trans hk2)
  · intro e he
    rcases List.mem_append.mp he with he | he
    · exact inv.counts e he
    · rw [List.mem_singleton] at he
      subst he
      rw [hcount, hhosts]
      rfl
  · intro e he
    rcases List.mem_append.mp he with he | he
    · exact inv.hostsNodup e he
    · rw [List.mem_singleton] at he
      subst he
      rw [hhosts]
      exact List.nodup_nil
  · intro e he h hh
    rcases List.mem_append.mp he with he | he
    · exact inv.listed e he h hh
    · rw [List.mem_singleton] at he
      subst he
      rw [hhosts] at hh
      cases hh
  · intro y hy
    obtain ⟨e, he, hen, hek⟩ := inv.owned y hy
    exact ⟨e, List.mem_append_left _ he, hen, hek⟩

theorem hostsInv_netdbHostDelete_fold :
    ∀ (hosts : List String) (db : NetDB) (n : netdbEntry), HostsInv db → n ∈ db.addr_table →
      n.hosts = hosts →
      HostsInv (hosts.foldl (fun (st : NetDB × netdbEntry) x => netdbHostDelete st.1 st.2 x)
        (db, n)).1
      ∧ (hosts.foldl (fun (st : NetDB × netdbEntry) x => netdbHostDelete st.1 st.2 x) (db, n)).2
          ∈ (hosts.foldl (fun (st : NetDB × netdbEntry) x => netdbHostDelete st.1 st.2 x)
              (db, n)).1.addr_table
      ∧ (hosts.foldl (fun (st : NetDB × netdbEntry) x => netdbHostDelete st.1 st.2 x)
          (db, n)).2.hosts = [] := by
  intro hosts
  induction hosts with
  | nil =>
    intro db n inv hn hh
    exact ⟨inv, hn, hh⟩
  | cons x t ih =>
    intro db n inv hn hh
    rw [List.foldl_cons]
    have hx : x ∈ n.hosts := by rw [hh]; exact List.mem_cons_self _ _
    obtain ⟨i1, i2, i3⟩ := hostsInv_netdbHostDelete inv hn hx
    refine ih _ _ i1 i2 ?_
    show (netdbHostDelete db n x).2.hosts = t
    rw [i3, hh]
    simp

theorem hostsInv_netdbRelease {db : NetDB} (inv : HostsInv db) {n : netdbEntry}
    (hn : n ∈ db.addr_table) : HostsInv (netdbRelease db n) := by
  obtain ⟨i1, i2, i3⟩ := hostsInv_netdbHostDelete_fold n.hosts db n inv hn rfl
  unfold netdbRelease
  simp only
  generalize n.hosts.foldl (fun (st : NetDB × netdbEntry) x => netdbHostDelete st.1 st.2 x)
    (db, n) = r at i1 i2 i3
  have i4 : HostsInv (r.1.store { r.2 with hosts := [], peers := [], n_peers_alloc := 0 }) :=
    i1.store_same i2 rfl i3.symm rfl
  split
  · refine hostsInv_netdbHashDelete i4 _ ?_
    intro e he hk
    rcases mem_store.mp he with ⟨_, hne⟩ | ⟨rfl, _⟩
    · exact absurd hk hne
    · rfl
  · exact i4

theorem netdbPurgeLRULoop_hostsInv (cfg : Netdb) :
    ∀ (l : List netdbEntry) (db : NetDB), HostsInv db →
      (l.map (fun n => n.network)).Nodup → (∀ n ∈ l, n ∈ db.addr_table) →
      HostsInv (netdbPurgeLRULoop cfg l db) := by
  intro l
  induction l with
  | nil =>
    intro db inv _ _
    rw [netdbPurgeLRULoop]
    exact inv
  | cons n rest ih =>
    intro db inv hnd hl
    rw [netdbPurgeLRULoop]
    split
    · exact inv
    · have hn : n ∈ db.addr_table := hl n (List.mem_cons_self _ _)
      rw [List.map_cons, List.nodup_cons] at hnd
      refine ih _ (hostsInv_netdbRelease inv hn) hnd.2 ?_
      intro m hm
      rw [netdbRelease_addr_table db n (inv.counts n hn), List.mem_filter]
      refine ⟨hl m (List.mem_cons_of_mem _ hm), ?_⟩
      simp only [Bool.not_eq_true', beq_eq_false_iff_ne, ne_eq]
      intro heq
      exact hnd.1 (List.mem_map.mpr ⟨m, hm, heq⟩)

theorem hostsInv_netdbPurgeLRU (cfg : Netdb) {db : NetDB} (inv : HostsInv db) :
    HostsInv (netdbPurgeLRU cfg db) := by
  unfold netdbPurgeLRU
  have hp : (qsortLRU db.addr_table).Perm db.addr_table := List.perm_insertionSort _ _
  refine netdbPurgeLRULoop_hostsInv cfg _ db inv ?_ ?_
  · exact (hp.map _).nodup_iff.mpr inv.networks
  · intro n hn
    exact hp.mem_iff.mp hn

theorem netdbLookupAddr_mem {db : NetDB} {addr : Ip.Address} {n : netdbEntry}
    (h : netdbLookupAddr db addr = some n) :
    n ∈ db.addr_table ∧ n.network = networkFromInaddr addr := by
  unfold netdbLookupAddr at h
  exact ⟨List.mem_of_find?_eq_some h, by simpa using List.find?_some h⟩

theorem hostsInv_netdbAdd (cfg : Netdb) {db : NetDB} (inv : HostsInv db) (addr : Ip.Address) :
    HostsInv (netdbAdd cfg db addr).1
    ∧ (netdbAdd cfg db addr).2 ∈ (netdbAdd cfg db addr).1.addr_table
    ∧ (netdbAdd cfg db addr).2.network = networkFromInaddr addr := by
  have inv1 : HostsInv (if UseCount db > cfg.high then netdbPurgeLRU cfg db else db) := by
    split
    · exact hostsInv_netdbPurgeLRU cfg inv
    · exact inv
  unfold netdbAdd
  simp only
  generalize (if UseCount db > cfg.high then netdbPurgeLRU cfg db else db) = db1 at inv1
  cases hl : netdbLookupAddr db1 addr with
  | some n => exact ⟨inv1, (netdbLookupAddr_mem hl).1, (netdbLookupAddr_mem hl).2⟩
  | none =>
    refine ⟨?_, List.mem_append_right _ (List.mem_singleton.mpr rfl), rfl⟩
    exact hostsInv_append inv1 _ ((netdbLookupAddr_none_iff db1 addr).mp hl) rfl rfl
theorem HostsInv.congr_hosts {T : List netdbEntry} {H H2 : List net_db_name}
    (inv : HostsInv { addr_table := T, host_table := H })
    (hkeys : (H2.map (fun x => x.key)).Nodup) (hmem : ∀ y, y ∈ H2 ↔ y ∈ H) :
    HostsInv { addr_table := T, host_table := H2 } :=
  ⟨inv.networks, hkeys, inv.counts, inv.hostsNodup,
    fun n hn h hh => (hmem _).mpr (inv.listed n hn h hh),
    fun y hy => inv.owned y ((hmem y).mp hy)⟩

theorem netdbLookupHost_some {db : NetDB} {hostname : String} {n : netdbEntry}
    (h : netdbLookupHost db hostname = some n) :
    n ∈ db.addr_table
    ∧ ∃ x ∈ db.host_table, x.key = hostname ∧ x.net_db_entry = n.network := by
  unfold netdbLookupHost at h
  cases hf : db.host_table.find? (fun x => x.key == hostname) with
  | none => rw [hf] at h; cases h
  | some x =>
    rw [hf] at h
    simp only at h
    refine ⟨List.mem_of_find?_eq_some h, x, List.mem_of_find?_eq_some hf, ?_, ?_⟩
    · simpa using List.find?_some hf
    · exact (by simpa using List.find?_some h : n.network = x.net_db_entry).symm

theorem HostsInv.lookupHost_none {db : NetDB} (inv : HostsInv db) {hostname : String}
    (h : netdbLookupHost db hostname = none) : ∀ x ∈ db.host_table, x.key ≠ hostname := by
  intro x hx hk
  unfold netdbLookupHost at h
  cases hf : db.host_table.find? (fun y => y.key == hostname) with
  | none =>
    rw [List.find?_eq_none] at hf
    exact hf x hx (by simpa using hk)
  | some y =>
    rw [hf] at h
    simp only at h
    obtain ⟨m, hm, hmn, _⟩ := inv.owned y (List.mem_of_find?_eq_some hf)
    rw [List.find?_eq_none] at h
    exact h m hm (by simpa using hmn)

theorem netdbHostDelete_fold_hosts_subset (hosts : List String) :
    ∀ (db : NetDB) (n : netdbEntry),
      ∀ x ∈ (hosts.foldl (fun (st : NetDB × netdbEntry) h => netdbHostDelete st.1 st.2 h)
              (db, n)).1.host_table, x ∈ db.host_table := by
  induction hosts with
  | nil => intro db n x hx; exact hx
  | cons h t ih =>
    intro db n x hx
    rw [List.foldl_cons] at hx
    have h1 := ih _ _ x hx
    exact (List.mem_filter.mp h1).1

theorem netdbRelease_hosts_subset (db : NetDB) (n : netdbEntry) :
    ∀ x ∈ (netdbRelease db n).host_table, x ∈ db.host_table := by
  intro x hx
  refine netdbHostDelete_fold_hosts_subset n.hosts db n x ?_
  unfold netdbRelease at hx
  simp only at hx
  split at hx
  · exact hx
  · exact hx

theorem netdbPurgeLRULoop_hosts_subset (cfg : Netdb) :
    ∀ (l : List netdbEntry) (db : NetDB),
      ∀ x ∈ (netdbPurgeLRULoop cfg l db).host_table, x ∈ db.host_table := by
  intro l
  induction l with
  | nil => intro db x hx; rw [netdbPurgeLRULoop] at hx; exact hx
  | cons n rest ih =>
    intro db x hx
    rw [netdbPurgeLRULoop] at hx
    split at hx
    · exact hx
    · exact netdbRelease_hosts_subset db n x (ih _ x hx)

theorem netdbAdd_hosts_subset (cfg : Netdb) (db : NetDB) (addr : Ip.Address) :
    ∀ x ∈ (netdbAdd cfg db addr).1.host_table, x ∈ db.host_table := by
  intro x hx
  have h1 : ∀ y ∈ (if UseCount db > cfg.high then netdbPurgeLRU cfg db else db).host_table,
      y ∈ db.host_table := by
    intro y hy
    split at hy
    · exact netdbPurgeLRULoop_hosts_subset cfg _ db y hy
    · exact hy
  unfold netdbAdd at hx
  simp only at hx
  generalize (if UseCount db > cfg.high then netdbPurgeLRU cfg db else db) = db1 at h1 hx
  cases hl : netdbLookupAddr db1 addr with
  | some n => rw [hl] at hx; exact h1 x hx
  | none => rw [hl] at hx; exact h1 x hx

theorem hostsInv_netdbSendPingNow (cfg : Netdb) (squid_curtime : Int) {db : NetDB}
    (inv : HostsInv db) {n : netdbEntry} (hn : n ∈ db.addr_table) :
    HostsInv (netdbSendPingNow cfg squid_curtime db n) := by
  unfold netdbSendPingNow
  split
  · exact inv.store_same hn rfl rfl rfl
  · exact inv

theorem netdbRetarget_keys (hostname : String) (network : Ip.Address) :
    ∀ H : List net_db_name,
      (netdbRetarget H hostname network).map (fun x => x.key) = H.map (fun x => x.key) := by
  intro H
  induction H with
  | nil => rfl
  | cons y rest ih =>
    rw [netdbRetarget]
    split
    · rfl
    · rw [List.map_cons, List.map_cons, ih]

theorem mem_netdbRetarget (hostname : String) (network : Ip.Address) :
    ∀ H : List net_db_name, (H.map (fun x => x.key)).Nodup →
      ∀ y, y ∈ netdbRetarget H hostname network
        ↔ (y ∈ H ∧ y.key ≠ hostname)
          ∨ (y = { key := hostname, net_db_entry := network } ∧ ∃ x ∈ H, x.key = hostname) := by
  intro H
  induction H with
  | nil =>
    intro _ y
    simp [netdbRetarget]
  | cons a rest ih =>
    intro hnd y
    rw [List.map_cons, List.nodup_cons] at hnd
    rw [netdbRetarget]
    by_cases ha : (a.key == hostname) = true
    · rw [if_pos ha]
      have hak : a.key = hostname := by simpa using ha
      have hrest : ∀ x ∈ rest, x.key ≠ hostname := by
        intro x hx hxk
        exact hnd.1 (List.mem_map.mpr ⟨x, hx, hxk.trans hak.symm⟩)
      rw [List.mem_cons]
      constructor
      · rintro (rfl | hy)
        · exact Or.inr ⟨by rw [hak], a, List.mem_cons_self _ _, hak⟩
        · exact Or.inl ⟨List.mem_cons_of_mem _ hy, hrest y hy⟩
      · rintro (⟨hy, hk⟩ | ⟨rfl, _⟩)
        · rcases List.mem_cons.mp hy with rfl | hy
          · exact absurd hak hk
          · exact Or.inr hy
        · exact Or.inl (by rw [hak])
    · rw [if_neg ha]
      have hak : a.key ≠ hostname := by simpa using ha
      rw [List.mem_cons, ih hnd.2 y]
      constructor
      · rintro (rfl | ⟨hy, hk⟩ | ⟨rfl, x, hx, hxk⟩)
        · exact Or.inl ⟨List.mem_cons_self _ _, hak⟩
        · exact Or.inl ⟨List.mem_cons_of_mem _ hy, hk⟩
        · exact Or.inr ⟨rfl, x, List.mem_cons_of_mem _ hx, hxk⟩
      · rintro (⟨hy, hk⟩ | ⟨rfl, x, hx, hxk⟩)
        · rcases List.mem_cons.mp hy with rfl | hy
          · exact Or.inl rfl
          · exact Or.inr (Or.inl ⟨hy, hk⟩)
        · rcases List.mem_cons.mp hx with rfl | hx
          · exact absurd hxk hak
          · exact Or.inr (Or.inr ⟨rfl, x, hx, hxk⟩)

theorem current_eq {db : NetDB} (hnd : (db.addr_table.map (fun e => e.network)).Nodup)
    {n m : netdbEntry} (hm : m ∈ db.addr_table) (h : m.network = n.network) :
    netdbEntry.current db n = m := by
  unfold netdbEntry.current
  cases hf : db.addr_table.find? (fun e => e.network == n.network) with
  | none =>
    rw [List.find?_eq_none] at hf
    exact absurd (by simpa using h) (hf m hm)
  | some e =>
    have he : e.network = n.network := by simpa using List.find?_some hf
    exact List.inj_on_of_nodup_map hnd (List.mem_of_find?_eq_some hf) hm (he.trans h.symm)

/-- The move of a hostname from the entry `n` to the entry `na` of another network. -/
theorem hostsInv_move {db : NetDB} (inv : HostsInv db) {n na : netdbEntry} {hostname : String}
    (hn : n ∈ db.addr_table) (hna : na ∈ db.addr_table) (hne : na.network ≠ n.network)
    (hmem : hostname ∈ n.hosts) :
    HostsInv
      { addr_table :=
          (NetDB.store
            { addr_table :=
                (db.store { n with hosts := n.hosts.erase hostname,
                                   link_count := n.link_count - 1 }).addr_table,
              host_table := netdbRetarget db.host_table hostname na.network }
            { na with hosts := hostname :: na.hosts,
                      link_count := na.link_count + 1 }).addr_table,
        host_table := netdbRetarget db.host_table hostname na.network }
    ∧ ({ na with hosts := hostname :: na.hosts, link_count := na.link_count + 1 } : netdbEntry)
        ∈ (NetDB.store
            { addr_table :=
                (db.store { n with hosts := n.hosts.erase hostname,
                                   link_count := n.link_count - 1 }).addr_table,
              host_table := netdbRetarget db.host_table hostname na.network }
            { na with hosts := hostname :: na.hosts,
                      link_count := na.link_count + 1 }).addr_table := by
  obtain ⟨i1, _, _⟩ := hostsInv_netdbHostDelete inv hn hmem
  have hna1 : na ∈ (netdbHostDelete db n hostname).1.addr_table :=
    mem_store.mpr (Or.inl ⟨hna, hne⟩)
  have habsent : ∀ x ∈ (netdbHostDelete db n hostname).1.host_table, x.key ≠ hostname := by
    intro x hx
    have := (List.mem_filter.mp hx).2
    simpa using this
  obtain ⟨i2, i3⟩ := hostsInv_netdbHostInsert i1 hna1 habsent
  refine ⟨?_, i3⟩
  refine HostsInv.congr_hosts i2 ?_ ?_
  · rw [netdbRetarget_keys]
    exact inv.keys
  · intro y
    rw [mem_netdbRetarget hostname na.network db.host_table inv.keys y]
    show _ ↔ y ∈ db.host_table.filter (fun x => !(x.key == hostname))
      ++ [({ key := hostname, net_db_entry := na.network } : net_db_name)]
    rw [List.mem_append, List.mem_singleton, List.mem_filter]
    simp only [Bool.not_eq_true', beq_eq_false_iff_ne, ne_eq]
    constructor
    · rintro (h | ⟨rfl, _⟩)
      · exact Or.inl h
      · exact Or.inr rfl
    · rintro (h | rfl)
      · exact Or.inl h
      · exact Or.inr ⟨rfl, _, inv.listed n hn hostname hmem, rfl⟩
theorem hostsInv_netdbMoveHost {db : NetDB} (inv : HostsInv db) {n m na : netdbEntry}
    {hostname : String} (hm : m ∈ db.addr_table) (hmn : m.network = n.network)
    (hna : na ∈ db.addr_table) (hne : na.network ≠ n.network) (hmem : hostname ∈ m.hosts) :
    HostsInv (netdbMoveHost db n na hostname).1
    ∧ (netdbMoveHost db n na hostname).2 ∈ (netdbMoveHost db n na hostname).1.addr_table := by
  have hne2 : na.network ≠ m.network := by rw [hmn]; exact hne
  have hc1 : netdbEntry.current db n = m := current_eq inv.networks hm hmn
  unfold netdbMoveHost
  simp only
  rw [hc1]
  have hc2 : netdbEntry.current
      { addr_table :=
          (db.store { m with hosts := m.hosts.erase hostname,
                             link_count := m.link_count - 1 }).addr_table,
        host_table := netdbRetarget
          (db.store { m with hosts := m.hosts.erase hostname,
                             link_count := m.link_count - 1 }).host_table hostname na.network }
      na = na := by
    refine current_eq ?_ (mem_store.mpr (Or.inl ⟨hna, hne2⟩)) rfl
    show ((db.store _).addr_table.map (fun e => e.network)).Nodup
    rw [networks_store]
    exact inv.networks
  rw [hc2]
  exact hostsInv_move inv hm hna hne2 hmem

theorem hostsInv_netdbSendPing (cfg : Netdb) (squid_curtime : Int) {db : NetDB}
    (inv : HostsInv db) (ia : Option Ip.Address) (hostname : String) :
    HostsInv (netdbSendPing cfg squid_curtime db ia hostname) := by
  unfold netdbSendPing
  cases ia with
  | none => exact inv
  | some addr =>
    simp only
    cases hl : netdbLookupHost db hostname with
    | none =>
      simp only
      obtain ⟨a1, a2, _⟩ := hostsInv_netdbAdd cfg inv addr
      have habsent : ∀ x ∈ (netdbAdd cfg db addr).1.host_table, x.key ≠ hostname :=
        fun x hx => inv.lookupHost_none hl x (netdbAdd_hosts_subset cfg db addr x hx)
      obtain ⟨i1, i2⟩ := hostsInv_netdbHostInsert a1 a2 habsent
      exact hostsInv_netdbSendPingNow cfg squid_curtime i1 i2
    | some n =>
      simp only
      obtain ⟨hn, x0, hx0, hx0k, hx0n⟩ := netdbLookupHost_some hl
      split
      · exact hostsInv_netdbSendPingNow cfg squid_curtime inv hn
      · rename_i hdiff
        have key : ∀ (a : NetDB × netdbEntry), HostsInv a.1 → a.2 ∈ a.1.addr_table →
            a.2.network ≠ n.network → (∀ x ∈ a.1.host_table, x ∈ db.host_table) →
            HostsInv
              (match a.1.host_table.find? (fun x => x.key == hostname) with
               | none => a.1
               | some _ =>
                 netdbSendPingNow cfg squid_curtime (netdbMoveHost a.1 n a.2 hostname).1
                   (netdbMoveHost a.1 n a.2 hostname).2) := by
          intro a ia1 ia2 hne hsub
          cases hf : a.1.host_table.find? (fun x => x.key == hostname) with
          | none => exact ia1
          | some x =>
            simp only
            have hx : x ∈ a.1.host_table := List.mem_of_find?_eq_some hf
            have hxk : x.key = hostname := by simpa using List.find?_some hf
            have hxx : x = x0 := inv.key_unique (hsub x hx) hx0 (hxk.trans hx0k.symm)
            obtain ⟨m, hm, hmn, hmk⟩ := ia1.owned x hx
            have hmn2 : m.network = n.network := by rw [hmn, hxx, hx0n]
            rw [hxk] at hmk
            obtain ⟨i1, i2⟩ := hostsInv_netdbMoveHost ia1 hm hmn2 ia2 hne hmk
            exact hostsInv_netdbSendPingNow cfg squid_curtime i1 i2
        cases hfound : netdbLookupAddr db addr with
        | some na =>
          rw [hfound] at hdiff
          refine key (db, na) inv (netdbLookupAddr_mem hfound).1 ?_ (fun x hx => hx)
          intro heq
          exact hdiff (congrArg some heq)
        | none =>
          obtain ⟨a1, a2, a3⟩ := hostsInv_netdbAdd cfg inv addr
          refine key (netdbAdd cfg db addr) a1 a2 ?_ (netdbAdd_hosts_subset cfg db addr)
          rw [a3]
          exact fun heq => (netdbLookupAddr_none_iff db addr).mp hfound n hn heq.symm

theorem netdbReloadHosts_hostsInv :
    ∀ (toks : List (List Char)) (st : NetDB × netdbEntry), HostsInv st.1 →
      st.2 ∈ st.1.addr_table → HostsInv (netdbReloadHosts toks st).1 := by
  intro toks
  induction toks with
  | nil =>
    intro st inv _
    rw [netdbReloadHosts]
    exact inv
  | cons q rest ih =>
    intro st inv hn
    rw [netdbReloadHosts]
    cases hl : netdbLookupHost st.1 (String.mk q) with
    | some m =>
      simp only [Option.isSome_some, if_true]
      exact ih st inv hn
    | none =>
      simp only [Option.isSome_none, Bool.false_eq_true, if_false]
      obtain ⟨i1, i2⟩ := hostsInv_netdbHostInsert inv hn (inv.lookupHost_none hl)
      exact ih _ i1 i2

theorem hostsInv_netdbReloadLine (txt : AddressText) {db : NetDB} (inv : HostsInv db)
    (line : List Char) : HostsInv (netdbReloadLine txt db line) := by
  unfold netdbReloadLine
  repeat' split
  all_goals first
    | exact inv
    | (refine netdbReloadHosts_hostsInv _ _ (hostsInv_append inv _ ?_ rfl rfl)
         (List.mem_append_right _ (List.mem_singleton.mpr rfl))
       show ∀ e ∈ db.addr_table, e.network ≠ networkFromInaddr _
       rw [← netdbLookupAddr_none_iff, ← Option.not_isSome_iff_eq_none]
       assumption)

theorem hostsInv_netdbReloadState (txt : AddressText) (buf : List Char) :
    ∀ {db : NetDB}, HostsInv db → HostsInv (netdbReloadState txt db buf) := by
  unfold netdbReloadState
  induction bufferLines buf with
  | nil => intro db inv; exact inv
  | cons line rest ih =>
    intro db inv
    rw [List.foldl_cons]
    exact ih (hostsInv_netdbReloadLine txt inv line)
theorem sum_link_count (T : List netdbEntry)
    (h : ∀ n ∈ T, n.link_count = (n.hosts.length : Int)) :
    (T.map (fun n => n.link_count)).sum
      = ((T.flatMap (fun n => n.hosts.map
          (fun x => ({ key := x, net_db_entry := n.network } : net_db_name)))).length : Int) := by
  induction T with
  | nil => rfl
  | cons a t ih =>
    rw [List.map_cons, List.sum_cons, List.flatMap_cons, List.length_append, List.length_map,
      Nat.cast_add, ih (fun n hn => h n (List.mem_cons_of_mem _ hn)),
      h a (List.mem_cons_self _ _)]

theorem HostsInv.linked {db : NetDB} (inv : HostsInv db) : HostsLinked db := by
  refine ⟨?_, inv.counts, ?_⟩
  · intro x hx
    obtain ⟨m, hm, hmn, hk⟩ := inv.owned x hx
    have hT : db.addr_table.Nodup := List.Nodup.of_map _ inv.networks
    rw [← List.count_eq_one_of_mem hT hm]
    unfold List.count
    apply List.countP_congr
    intro e he
    simp only [decide_eq_true_eq, beq_iff_eq]
    constructor
    · intro hek
      exact inv.network_unique he hm ((inv.key_entry he hx hek).symm.trans hmn.symm)
    · rintro rfl
      exact hk
  · rw [sum_link_count _ inv.counts]
    have hH : db.host_table.Nodup := List.Nodup.of_map _ inv.keys
    have hP : (db.addr_table.flatMap (fun n => n.hosts.map
        (fun x => ({ key := x, net_db_entry := n.network } : net_db_name)))).Nodup := by
      rw [List.nodup_flatMap]
      refine ⟨?_, ?_⟩
      · intro n hn
        refine (inv.hostsNodup n hn).map ?_
        intro a b hab
        exact congrArg net_db_name.key hab
      · have hpw : List.Pairwise (fun a b : netdbEntry => a.network ≠ b.network)
            db.addr_table := List.pairwise_map.mp inv.networks
        refine hpw.imp ?_
        intro a b hab y hya hyb
        obtain ⟨_, _, rfl⟩ := List.mem_map.mp hya
        obtain ⟨_, _, heq⟩ := List.mem_map.mp hyb
        exact hab (congrArg net_db_name.net_db_entry heq).symm
    have hperm := (List.perm_ext_iff_of_nodup hP hH).mpr (by
      intro y
      rw [List.mem_flatMap]
      constructor
      · rintro ⟨n, hn, hy⟩
        obtain ⟨h, hh, rfl⟩ := List.mem_map.mp hy
        exact inv.listed n hn h hh
      · intro hy
        obtain ⟨n, hn, hnn, hk⟩ := inv.owned y hy
        refine ⟨n, hn, List.mem_map.mpr ⟨y.key, hk, ?_⟩⟩
        rw [hnn])
    rw [hperm.length_eq]

theorem hostsInv_emptyDB : HostsInv emptyDB :=
  ⟨List.nodup_nil, List.nodup_nil, fun _ h => absurd h (List.not_mem_nil _),
    fun _ h => absurd h (List.not_mem_nil _), fun _ h => absurd h (List.not_mem_nil _),
    fun _ h => absurd h (List.not_mem_nil _)⟩

/-- C21: the invariant `HostsInv` holds of the empty tables and is kept by
`netdbHostInsert` (for an entry of the table and a name that is not yet a key of the host
table, which the function asserts), `netdbHostDelete` (for an entry of the table and a
name on its host list), `netdbRelease` (for an entry of the table), `netdbPurgeLRU`,
`netdbSendPing` (for every lookup result and hostname: new, unchanged or moved) and
`netdbReloadState` (for every text); and tables that satisfy it satisfy `HostsLinked`:
each hostname of the host table is on the host list of exactly one entry, each
`link_count` is the length of the host list, and the `link_count`s sum up to the size of
the host table. -/
theorem netdb_hosts_invariant (cfg : Netdb) (txt : AddressText) (db : NetDB)
    (inv : HostsInv db) :
    HostsLinked db
    ∧ (∀ n ∈ db.addr_table, ∀ hostname, (∀ x ∈ db.host_table, x.key ≠ hostname) →
        HostsInv (netdbHostInsert db n hostname).1
        ∧ HostsLinked (netdbHostInsert db n hostname).1)
    ∧ (∀ n ∈ db.addr_table, ∀ hostname ∈ n.hosts,
        HostsInv (netdbHostDelete db n hostname).1
        ∧ HostsLinked (netdbHostDelete db n hostname).1)
    ∧ (∀ n ∈ db.addr_table, HostsInv (netdbRelease db n) ∧ HostsLinked (netdbRelease db n))
    ∧ (HostsInv (netdbPurgeLRU cfg db) ∧ HostsLinked (netdbPurgeLRU cfg db))
    ∧ (∀ squid_curtime ia hostname,
        HostsInv (netdbSendPing cfg squid_curtime db ia hostname)
        ∧ HostsLinked (netdbSendPing cfg squid_curtime db ia hostname))
    ∧ (∀ buf, HostsInv (netdbReloadState txt db buf)
        ∧ HostsLinked (netdbReloadState txt db buf))
    ∧ HostsInv emptyDB := by
  refine ⟨inv.linked, ?_, ?_, ?_, ?_, ?_, ?_, hostsInv_emptyDB⟩
  · intro n hn hostname hnew
    have h := (hostsInv_netdbHostInsert inv hn hnew).1
    exact ⟨h, h.linked⟩
  · intro n hn hostname hmem
    have h := (hostsInv_netdbHostDelete inv hn hmem).1
    exact ⟨h, h.linked⟩
  · intro n hn
    have h := hostsInv_netdbRelease inv hn
    exact ⟨h, h.linked⟩
  · have h := hostsInv_netdbPurgeLRU cfg inv
    exact ⟨h, h.linked⟩
  · intro squid_curtime ia hostname
    have h := hostsInv_netdbSendPing cfg squid_curtime inv ia hostname
    exact ⟨h, h.linked⟩
  · intro buf
    have h := hostsInv_netdbReloadState txt buf inv
    exact ⟨h, h.linked⟩
theorem hostsInv_fourEntries : HostsInv fourEntries :=
  ⟨by decide, by decide, by decide, by decide, by decide, by decide⟩

theorem netdb_hosts_invariant_witness :
    HostsInv fourEntries
    ∧ HostsLinked fourEntries
    ∧ (∀ n ∈ fourEntries.addr_table, ∀ hostname,
        (∀ x ∈ fourEntries.host_table, x.key ≠ hostname) →
        HostsInv (netdbHostInsert fourEntries n hostname).1
        ∧ HostsLinked (netdbHostInsert fourEntries n hostname).1)
    ∧ (∀ n ∈ fourEntries.addr_table, ∀ hostname ∈ n.hosts,
        HostsInv (netdbHostDelete fourEntries n hostname).1
        ∧ HostsLinked (netdbHostDelete fourEntries n hostname).1)
    ∧ (∀ n ∈ fourEntries.addr_table,
        HostsInv (netdbRelease fourEntries n) ∧ HostsLinked (netdbRelease fourEntries n))
    ∧ (HostsInv (netdbPurgeLRU smallNetdb fourEntries)
        ∧ HostsLinked (netdbPurgeLRU smallNetdb fourEntries))
    ∧ (∀ squid_curtime ia hostname,
        HostsInv (netdbSendPing smallNetdb squid_curtime fourEntries ia hostname)
        ∧ HostsLinked (netdbSendPing smallNetdb squid_curtime fourEntries ia hostname))
    ∧ (∀ buf, HostsInv (netdbReloadState dottedQuad fourEntries buf)
        ∧ HostsLinked (netdbReloadState dottedQuad fourEntries buf))
    ∧ HostsInv emptyDB :=
  ⟨hostsInv_fourEntries,
    netdb_hosts_invariant smallNetdb dottedQuad fourEntries hostsInv_fourEntries⟩

/-- Examples of `netdbSendPing` on `fourEntries`: a new hostname in a new network, an
unchanged hostname, a hostname moved to a known network (host lists, link counts and the
host table), and a hostname moved to a new network while `netdbAdd` purges its old
entry, where the function returns after the purge. -/
theorem netdbSendPing_examples :
    ((netdbSendPing exampleNetdb 100 fourEntries (some (Ip.Address.ofOctets 10 0 9 7 0))
        "e.example").addr_table.map (fun n => (n.network, n.link_count, n.hosts))
      = [(Ip.Address.ofOctets 10 0 1 0 0, 1, ["a.example"]),
         (Ip.Address.ofOctets 10 0 2 0 0, 1, ["b.example"]),
         (Ip.Address.ofOctets 10 0 3 0 0, 1, ["c.example"]),
         (Ip.Address.ofOctets 10 0 4 0 0, 1, ["d.example"]),
         (Ip.Address.ofOctets 10 0 9 0 0, 1, ["e.example"])])
    ∧ ((netdbSendPing exampleNetdb 100 fourEntries (some (Ip.Address.ofOctets 10 0 1 7 0))
        "a.example").addr_table.map (fun n => (n.network, n.link_count, n.hosts))
      = fourEntries.addr_table.map (fun n => (n.network, n.link_count, n.hosts)))
    ∧ ((netdbSendPing exampleNetdb 100 fourEntries (some (Ip.Address.ofOctets 10 0 2 7 0))
        "a.example").addr_table.map (fun n => (n.network, n.link_count, n.hosts))
      = [(Ip.Address.ofOctets 10 0 1 0 0, 0, []),
         (Ip.Address.ofOctets 10 0 2 0 0, 2, ["a.example", "b.example"]),
         (Ip.Address.ofOctets 10 0 3 0 0, 1, ["c.example"]),
         (Ip.Address.ofOctets 10 0 4 0 0, 1, ["d.example"])])
    ∧ ((netdbSendPing exampleNetdb 100 fourEntries (some (Ip.Address.ofOctets 10 0 2 7 0))
        "a.example").host_table
      = [{ key := "a.example", net_db_entry := Ip.Address.ofOctets 10 0 2 0 0 },
         { key := "b.example", net_db_entry := Ip.Address.ofOctets 10 0 2 0 0 },
         { key := "c.example", net_db_entry := Ip.Address.ofOctets 10 0 3 0 0 },
         { key := "d.example", net_db_entry := Ip.Address.ofOctets 10 0 4 0 0 }])
    ∧ ((netdbSendPing smallNetdb 100 fourEntries (some (Ip.Address.ofOctets 10 0 9 7 0))
        "b.example").addr_table.map (fun n => (n.network, n.link_count, n.hosts))
      = [(Ip.Address.ofOctets 10 0 1 0 0, 1, ["a.example"]),
         (Ip.Address.ofOctets 10 0 9 0 0, 0, [])])
    ∧ ((netdbSendPing smallNetdb 100 fourEntries (some (Ip.Address.ofOctets 10 0 9 7 0))
        "b.example").host_table
      = [{ key := "a.example", net_db_entry := Ip.Address.ofOctets 10 0 1 0 0 }]) := by
  refine ⟨by decide!, by decide!, by decide!, by decide!, by decide!, by decide!⟩

/-! ## The forwarding client: the space to read into -/

namespace Client

theorem space_cases (s : State) (space : Nat) :
    (if s.responseBodyBuffer.isSome then 0
      else
        match s.virginBodyDestination with
        | some pipe => if pipe.potentialSpaceSize < space then pipe.potentialSpaceSize else space
        | none => space)
      = (match s.responseBodyBuffer, s.virginBodyDestination with
         | some _, _ => 0
         | none, some pipe => min space pipe.potentialSpaceSize
         | none, none => space) := by
  cases s.responseBodyBuffer with
  | some b => rfl
  | none =>
    cases s.virginBodyDestination with
    | none => rfl
    | some pipe =>
      simp only [Option.isSome_none, Bool.false_eq_true, if_false]
      by_cases h : pipe.potentialSpaceSize < space
      · rw [if_pos h, Nat.min_eq_right (Nat.le_of_lt h)]
      · rw [if_neg h, Nat.min_eq_left (Nat.le_of_not_lt h)]

/-- C31: `replyBodySpace` and `calcBufferSpaceToReserve` return 0 when the overflow
buffer `responseBodyBuffer` exists; otherwise, with a virgin body pipe, the minimum of
`s` and the `potentialSpaceSize` of the pipe, which is never more than that size;
otherwise `s`; where `s` is the available space, raised to the minimum of the wanted
space and the maximum (`readBuf.potentialSpaceSize()`, or `SBuf::maxSize`) when it is
below the wanted space. -/
theorem replyBodySpace_cases (s : State) (readBuf : ReadBuf) (maxSize space wanted : Nat) :
    (∀ buffered, s.responseBodyBuffer = some buffered →
      replyBodySpace s readBuf wanted = 0
      ∧ calcBufferSpaceToReserve s maxSize space wanted = 0)
    ∧ (∀ pipe, s.responseBodyBuffer = none → s.virginBodyDestination = some pipe →
      replyBodySpace s readBuf wanted
        = min (raisedSpace readBuf.spaceSize wanted readBuf.potentialSpaceSize)
            pipe.potentialSpaceSize
      ∧ calcBufferSpaceToReserve s maxSize space wanted
        = min (raisedSpace space wanted maxSize) pipe.potentialSpaceSize
      ∧ replyBodySpace s readBuf wanted ≤ pipe.potentialSpaceSize
      ∧ calcBufferSpaceToReserve s maxSize space wanted ≤ pipe.potentialSpaceSize)
    ∧ (s.responseBodyBuffer = none → s.virginBodyDestination = none →
      replyBodySpace s readBuf wanted
        = raisedSpace readBuf.spaceSize wanted readBuf.potentialSpaceSize
      ∧ calcBufferSpaceToReserve s maxSize space wanted = raisedSpace space wanted maxSize)
    ∧ replyBodySpace adaptingJob { spaceSize := 10, potentialSpaceSize := 4000 } 500 = 100
    ∧ replyBodySpace freshJob { spaceSize := 10, potentialSpaceSize := 4000 } 500 = 500
    ∧ replyBodySpace freshJob { spaceSize := 10, potentialSpaceSize := 300 } 500 = 300
    ∧ replyBodySpace { adaptingJob with responseBodyBuffer := some [1] }
        { spaceSize := 10, potentialSpaceSize := 4000 } 500 = 0 := by
  have h1 : replyBodySpace s readBuf wanted
      = (match s.responseBodyBuffer, s.virginBodyDestination with
         | some _, _ => 0
         | none, some pipe =>
           min (raisedSpace readBuf.spaceSize wanted readBuf.potentialSpaceSize)
             pipe.potentialSpaceSize
         | none, none => raisedSpace readBuf.spaceSize wanted readBuf.potentialSpaceSize) :=
    space_cases s _
  have h2 : calcBufferSpaceToReserve s maxSize space wanted
      = (match s.responseBodyBuffer, s.virginBodyDestination with
         | some _, _ => 0
         | none, some pipe => min (raisedSpace space wanted maxSize) pipe.potentialSpaceSize
         | none, none => raisedSpace space wanted maxSize) :=
    space_cases s _
  refine ⟨?_, ?_, ?_, by decide, by decide, by decide, by decide⟩
  · intro buffered hb
    rw [h1, h2, hb]
    exact ⟨rfl, rfl⟩
  · intro pipe hb hp
    rw [h1, h2, hb, hp]
    exact ⟨rfl, rfl, Nat.min_le_right _ _, Nat.min_le_right _ _⟩
  · intro hb hp
    rw [h1, h2, hb, hp]
    exact ⟨rfl, rfl⟩

end Client

/-! ## Callback parameters: `syncWithComm` -/

namespace CommCalls

/-- The assertions of `CommConnectCbParams::syncWithComm`: a connect callback with the flag
`ERR_CONNECT` whose connection is open fails `assert(!conn->isOpen())`, and a successful
one whose connection is not open fails `assert(conn->isOpen())`. Such a call is stopped by
the assertion and returns nothing. -/
theorem connectSyncWithComm_asserts :
    connectSyncWithComm closingSeven (paramsOn 5 Client.Flag.ERR_CONNECT) = none
    ∧ connectSyncWithComm closingSeven (paramsOn (-1) Client.Flag.OK) = none := by
  decide

theorem ioSyncWithComm_eq (closing : Int → Bool) (p : CommCommonCbParams) (conn : Connection)
    (h : p.conn = some conn) :
    ioSyncWithComm closing p
      = some (if conn.fd < 0 ∨ closing conn.fd = true
              then { p with flag := Client.Flag.ERR_CLOSING } else p, true) := by
  obtain ⟨c, f, x, d⟩ := p
  simp only at h
  subst h
  unfold ioSyncWithComm
  simp only
  by_cases hc : conn.fd < 0 ∨ closing conn.fd = true
  · have hc2 : (decide (conn.fd < 0) || closing conn.fd) = true := by simpa using hc
    rw [if_pos hc, hc2]
    by_cases hf : f = Client.Flag.ERR_CLOSING
    · subst hf
      rfl
    · have hf2 : (f != Client.Flag.ERR_CLOSING) = true := by simpa using hf
      rw [hf2]
      rfl
  · have hc2 : (decide (conn.fd < 0) || closing conn.fd) = false := by simpa using hc
    rw [if_neg hc, hc2]
    rfl

theorem connectSyncWithComm_eq (closing : Int → Bool) (p : CommCommonCbParams)
    (conn : Connection) (h : p.conn = some conn)
    (ha : conn.isOpen = true ↔ p.flag = Client.Flag.OK) :
    connectSyncWithComm closing p
      = some (if p.flag = Client.Flag.OK ∧ closing conn.fd = true
              then { p with conn := some { fd := -1 }, flag := Client.Flag.ERR_CLOSING }
              else p, true) := by
  by_cases hf : p.flag = Client.Flag.OK
  · have ho : conn.isOpen = true := ha.mpr hf
    have hn : conn.noteClosure = { fd := -1 } := by
      unfold Connection.noteClosure
      rw [if_pos ho]
    cases hc : closing conn.fd with
    | true => simp [connectSyncWithComm, h, hf, ho, hc, hn]
    | false => simp [connectSyncWithComm, h, hf, ho, hc]
  · have ho : conn.isOpen = false := by
      cases hx : conn.isOpen with
      | false => rfl
      | true => exact absurd (ha.mp hx) hf
    simp [connectSyncWithComm, h, hf, ho]

theorem connectSyncWithComm_some (closing : Int → Bool) (p : CommCommonCbParams)
    (r : CommCommonCbParams × Bool) (h : connectSyncWithComm closing p = some r) :
    ∃ conn, p.conn = some conn ∧ (conn.isOpen = true ↔ p.flag = Client.Flag.OK) := by
  unfold connectSyncWithComm at h
  cases hconn : p.conn with
  | none => rw [hconn] at h; cases h
  | some conn =>
    rw [hconn] at h
    simp only at h
    refine ⟨conn, rfl, ?_⟩
    by_cases hf : p.flag = Client.Flag.OK
    · rw [if_neg (not_not.mpr hf)] at h
      by_cases ho : conn.isOpen = true
      · exact ⟨fun _ => hf, fun _ => ho⟩
      · have ho2 : conn.isOpen = false := by simpa using ho
        rw [ho2] at h
        cases h
    · rw [if_pos hf] at h
      by_cases ho : conn.isOpen = true
      · rw [if_pos ho] at h
        cases h
      · exact ⟨fun h1 => absurd h1 ho, fun h1 => absurd h1 hf⟩

theorem ioSyncWithComm_some (closing : Int → Bool) (p : CommCommonCbParams)
    (r : CommCommonCbParams × Bool) (h : ioSyncWithComm closing p = some r) :
    ∃ conn, p.conn = some conn := by
  unfold ioSyncWithComm at h
  cases hconn : p.conn with
  | none => rw [hconn] at h; cases h
  | some conn => exact ⟨conn, rfl⟩

/-- C32: `CommIoCbParams::syncWithComm` on a parameter block with a connection returns
true and sets the flag to `ERR_CLOSING` whenever the descriptor is negative or closing;
`CommConnectCbParams::syncWithComm`, on a block that its assertions admit (the connection
is set, and it is open if and only if the flag is `OK`), returns true, and a successful
flag on a closing descriptor becomes `ERR_CLOSING` and the connection is marked closed.
When the descriptor is not closing, either call returns the block unchanged. Every call
that returns, returns true, and after it a callback whose descriptor was closing does not
carry the flag `OK`. A second call changes nothing more. -/
theorem syncWithComm_closing (closing : Int → Bool) (p : CommCommonCbParams) :
    (∀ conn, p.conn = some conn →
      ioSyncWithComm closing p
        = some (if conn.fd < 0 ∨ closing conn.fd = true
                then { p with flag := Client.Flag.ERR_CLOSING } else p, true))
    ∧ (∀ conn, p.conn = some conn → (conn.isOpen = true ↔ p.flag = Client.Flag.OK) →
      connectSyncWithComm closing p
        = some (if p.flag = Client.Flag.OK ∧ closing conn.fd = true
                then { p with conn := some { fd := -1 }, flag := Client.Flag.ERR_CLOSING }
                else p, true)
      ∧ (Connection.isOpen { fd := -1 }) = false)
    ∧ (∀ conn, p.conn = some conn → 0 ≤ conn.fd → closing conn.fd = false →
        ioSyncWithComm closing p = some (p, true))
    ∧ (∀ conn, p.conn = some conn → (conn.isOpen = true ↔ p.flag = Client.Flag.OK) →
        closing conn.fd = false → connectSyncWithComm closing p = some (p, true))
    ∧ (∀ r, ioSyncWithComm closing p = some r ∨ connectSyncWithComm closing p = some r →
        r.2 = true
        ∧ (∀ conn, p.conn = some conn → closing conn.fd = true →
            r.1.flag ≠ Client.Flag.OK))
    ∧ (ioSyncWithComm closing p).bind (fun r => ioSyncWithComm closing r.1)
        = ioSyncWithComm closing p
    ∧ (connectSyncWithComm closing p).bind (fun r => connectSyncWithComm closing r.1)
        = connectSyncWithComm closing p := by
  refine ⟨fun conn h => ioSyncWithComm_eq closing p conn h,
    fun conn h ha => ⟨connectSyncWithComm_eq closing p conn h ha, rfl⟩, ?_, ?_, ?_, ?_, ?_⟩
  · intro conn h h0 hc
    rw [ioSyncWithComm_eq closing p conn h, if_neg]
    rintro (h1 | h1)
    · omega
    · rw [hc] at h1
      cases h1
  · intro conn h ha hc
    rw [connectSyncWithComm_eq closing p conn h ha, if_neg]
    rintro ⟨_, h1⟩
    rw [hc] at h1
    cases h1
  · intro r hr
    rcases hr with hr | hr
    · obtain ⟨conn, hconn⟩ := ioSyncWithComm_some closing p r hr
      rw [ioSyncWithComm_eq closing p conn hconn] at hr
      have hr2 := (Option.some.inj hr).symm
      rw [hr2]
      refine ⟨rfl, ?_⟩
      intro conn2 hc2 hcl
      have : conn2 = conn := Option.some.inj (hc2.symm.trans hconn)
      subst this
      show (if conn2.fd < 0 ∨ closing conn2.fd = true
        then { p with flag := Client.Flag.ERR_CLOSING } else p).flag ≠ Client.Flag.OK
      rw [if_pos (Or.inr hcl)]
      intro hh
      cases hh
    · obtain ⟨conn, hconn, ha⟩ := connectSyncWithComm_some closing p r hr
      rw [connectSyncWithComm_eq closing p conn hconn ha] at hr
      have hr2 := (Option.some.inj hr).symm
      rw [hr2]
      refine ⟨rfl, ?_⟩
      intro conn2 hc2 hcl
      have : conn2 = conn := Option.some.inj (hc2.symm.trans hconn)
      subst this
      show (if p.flag = Client.Flag.OK ∧ closing conn2.fd = true
        then { p with conn := some { fd := -1 }, flag := Client.Flag.ERR_CLOSING }
        else p).flag ≠ Client.Flag.OK
      by_cases hf : p.flag = Client.Flag.OK
      · rw [if_pos ⟨hf, hcl⟩]
        intro hh
        cases hh
      · rw [if_neg (fun hh => hf hh.1)]
        exact hf
  · cases hr : ioSyncWithComm closing p with
    | none => rfl
    | some r =>
      obtain ⟨conn, hconn⟩ := ioSyncWithComm_some closing p r hr
      rw [ioSyncWithComm_eq closing p conn hconn] at hr
      have hr2 := (Option.some.inj hr).symm
      rw [hr2, Option.some_bind]
      show ioSyncWithComm closing (if conn.fd < 0 ∨ closing conn.fd = true
        then { p with flag := Client.Flag.ERR_CLOSING } else p) = _
      by_cases hc : conn.fd < 0 ∨ closing conn.fd = true
      · rw [if_pos hc,
          ioSyncWithComm_eq closing { p with flag := Client.Flag.ERR_CLOSING } conn hconn,
          if_pos hc]
      · rw [if_neg hc, ioSyncWithComm_eq closing p conn hconn, if_neg hc]
  · cases hr : connectSyncWithComm closing p with
    | none => rfl
    | some r =>
      obtain ⟨conn, hconn, ha⟩ := connectSyncWithComm_some closing p r hr
      have heq := connectSyncWithComm_eq closing p conn hconn ha
      rw [heq] at hr
      have hr2 := (Option.some.inj hr).symm
      rw [hr2, Option.some_bind]
      show connectSyncWithComm closing (if p.flag = Client.Flag.OK ∧ closing conn.fd = true
        then { p with conn := some { fd := -1 }, flag := Client.Flag.ERR_CLOSING }
        else p) = _
      by_cases hc : p.flag = Client.Flag.OK ∧ closing conn.fd = true
      · rw [if_pos hc]
        have h2 := connectSyncWithComm_eq closing
          { p with conn := some { fd := -1 }, flag := Client.Flag.ERR_CLOSING } { fd := -1 } rfl
          ⟨fun h => Bool.noConfusion h, fun h => Client.Flag.noConfusion h⟩
        rw [h2, if_neg (fun hh => Client.Flag.noConfusion hh.1)]
      · rw [if_neg hc, heq, if_neg hc]

theorem syncWithComm_examples :
    ioSyncWithComm closingSeven (paramsOn 7 Client.Flag.OK)
      = some (paramsOn 7 Client.Flag.ERR_CLOSING, true)
    ∧ ioSyncWithComm closingSeven (paramsOn (-1) Client.Flag.COMM_ERROR)
      = some (paramsOn (-1) Client.Flag.ERR_CLOSING, true)
    ∧ ioSyncWithComm closingSeven (paramsOn 5 Client.Flag.COMM_ERROR)
      = some (paramsOn 5 Client.Flag.COMM_ERROR, true)
    ∧ connectSyncWithComm closingSeven (paramsOn 7 Client.Flag.OK)
      = some ({ paramsOn 7 Client.Flag.ERR_CLOSING with conn := some { fd := -1 } }, true)
    ∧ connectSyncWithComm closingSeven (paramsOn 5 Client.Flag.OK)
      = some (paramsOn 5 Client.Flag.OK, true)
    ∧ connectSyncWithComm closingSeven (paramsOn (-1) Client.Flag.TIMEOUT)
      = some (paramsOn (-1) Client.Flag.TIMEOUT, true) := by
  decide

end CommCalls

/-! ## The forwarding client: `sameUrlHosts` -/

namespace Client

theorem strchrColon_none_iff (url : List Char) : strchrColon url = none ↔ chColon ∉ url := by
  induction url with
  | nil => simp [strchrColon]
  | cons a t ih =>
    unfold strchrColon
    by_cases h : a = chColon
    · simp [h]
    · rw [if_neg h, ih, List.mem_cons, not_or]
      exact ⟨fun ht => ⟨fun hc => h hc.symm, ht⟩, fun ht => ht.2⟩

theorem strchrColon_head {url host : List Char} (h : strchrColon url = some host) :
    ∃ rest, host = chColon :: rest := by
  induction url with
  | nil => simp [strchrColon] at h
  | cons a t ih =>
    unfold strchrColon at h
    by_cases hc : a = chColon
    · rw [if_pos hc] at h
      exact ⟨t, by rw [← Option.some.inj h, hc]⟩
    · rw [if_neg hc] at h
      exact ih h

theorem sameUntilSlashChecked_eq :
    ∀ host1 host2 : List Char,
      sameUntilSlashChecked host1 host2 = some (sameUntilSlash host1 host2) := by
  intro host1
  induction host1 with
  | nil => intro host2; rfl
  | cons a r1 ih =>
    intro host2
    unfold sameUntilSlashChecked sameUntilSlash
    by_cases hc : a ≠ chNul ∧ a ≠ chSlash ∧ a = cstrHead host2
    · rw [if_pos hc, if_pos hc]
      cases host2 with
      | nil => exact absurd hc.2.2 hc.1
      | cons b r2 => exact ih r2
    · rw [if_neg hc, if_neg hc]

theorem sameUrlHostsChecked_eq (url1 url2 : List Char) :
    sameUrlHostsChecked url1 url2 = some (sameUrlHosts url1 url2) := by
  unfold sameUrlHostsChecked sameUrlHosts
  cases h1 : strchrColon url1 with
  | none => rfl
  | some host1 =>
    cases h2 : strchrColon url2 with
    | none => rfl
    | some host2 =>
      obtain ⟨t1, rfl⟩ := strchrColon_head h1
      obtain ⟨t2, rfl⟩ := strchrColon_head h2
      simp only [cstrNext, List.tail_cons]
      split
      · rfl
      · exact sameUntilSlashChecked_eq _ _

theorem sameUrlHosts_colons {url1 url2 : List Char} (h : sameUrlHosts url1 url2 = true) :
    chColon ∈ url1 ∧ chColon ∈ url2 := by
  unfold sameUrlHosts at h
  constructor
  · by_contra hn
    rw [(strchrColon_none_iff url1).mpr hn] at h
    cases h
  · by_contra hn
    rw [(strchrColon_none_iff url2).mpr hn] at h
    cases hx : strchrColon url1 with
    | none => rw [hx] at h; cases h
    | some v => rw [hx] at h; cases h

/-- C36: `sameUrlHosts(url1, url2)` returns false when one of the two texts has no `:`,
when `url1` has no host after the `:` and the slashes, and when the host texts differ; a
true result implies that both have a `:` and that the text after the first `:` and the
slashes, up to the next `/` or the end, is not empty and the same in both. The scheme is
not compared and the comparison is exact in case. No pointer is moved past the
terminator of its string. -/
theorem sameUrlHosts_characterized (url1 url2 : List Char) :
    ((chColon ∉ url1 ∨ chColon ∉ url2) → sameUrlHosts url1 url2 = false)
    ∧ (specHostText url1 = some [] → sameUrlHosts url1 url2 = false)
    ∧ (specHostText url1 ≠ specHostText url2 → sameUrlHosts url1 url2 = false)
    ∧ (sameUrlHosts url1 url2 = true →
        chColon ∈ url1 ∧ chColon ∈ url2
        ∧ ∃ host, host ≠ [] ∧ specHostText url1 = some host ∧ specHostText url2 = some host)
    ∧ sameUrlHostsChecked url1 url2 = some (sameUrlHosts url1 url2)
    ∧ sameUrlHosts "http://origin.example/a".data "ftp://origin.example/b".data = true
    ∧ sameUrlHosts "http://origin.example/a".data "http://ORIGIN.example/a".data = false
    ∧ sameUrlHosts "http://origin.example/a".data "http://origin.example.net/a".data = false
    ∧ sameUrlHosts "http:///a".data "http:///a".data = true
    ∧ sameUrlHosts "http://".data "http://".data = false
    ∧ sameUrlHosts "origin.example/a".data "http://origin.example/a".data = false := by
  have key : sameUrlHosts url1 url2 = true →
      chColon ∈ url1 ∧ chColon ∈ url2
      ∧ ∃ host, host ≠ [] ∧ specHostText url1 = some host ∧ specHostText url2 = some host :=
    fun h => ⟨(sameUrlHosts_colons h).1, (sameUrlHosts_colons h).2, sameUrlHosts_specHostText h⟩
  refine ⟨?_, ?_, ?_, key, sameUrlHostsChecked_eq url1 url2, by decide, by decide, by decide,
    by decide, by decide, by decide⟩
  · intro hc
    cases hs : sameUrlHosts url1 url2 with
    | false => rfl
    | true =>
      rcases hc with hc | hc
      · exact absurd (key hs).1 hc
      · exact absurd (key hs).2.1 hc
  · intro hz
    cases hs : sameUrlHosts url1 url2 with
    | false => rfl
    | true =>
      obtain ⟨_, _, host, hne, e1, _⟩ := key hs
      rw [hz] at e1
      exact absurd (Option.some.inj e1).symm hne
  · intro hd
    cases hs : sameUrlHosts url1 url2 with
    | false => rfl
    | true =>
      obtain ⟨_, _, host, _, e1, e2⟩ := key hs
      exact absurd (e1.trans e2.symm) hd

end Client

/-! ## The forwarding client: the virgin body on its way to adaptation -/

namespace Client

theorem putMoreData_accepts (pipe : BodyPipe) (data : List Nat) :
    (pipe.putMoreData data).1.buf = pipe.buf ++ data.take (pipe.putMoreData data).2
    ∧ (pipe.putMoreData data).2 ≤ data.length
    ∧ (pipe.putMoreData data).2 ≤ pipe.potentialSpaceSize :=
  ⟨rfl, Nat.min_le_left _ _, Nat.min_le_right _ _⟩

/-- C37: a call `adaptVirginReplyBody(data, len)` in a job that has started adaptation,
with the virgin body pipe `pipe` and without exceeding the size limit of the overflow
buffer, does not fail; the pipe gets a first part `accepted` of the bytes of the overflow
buffer followed by `data`, the overflow buffer holds the other part afterwards, in the
same order, and it exists afterwards exactly when some byte was not accepted. Nothing
else changes. The size limit is that of `MemBuf`: the buffer that exists may not grow
beyond it, and a new one may not be longer. -/
theorem adaptVirginReplyBody_conserves (s : State) (data : List Nat) (pipe : BodyPipe)
    (hs : s.startedAdaptation = true) (hp : s.virginBodyDestination = some pipe)
    (hgrow : ∀ buffered, s.responseBodyBuffer = some buffered →
      (buffered ++ data).length ≤ responseBodyBufferMax)
    (hnew : s.responseBodyBuffer = none →
      data.length - pipe.potentialSpaceSize ≤ responseBodyBufferMax) :
    ∃ accepted rest : List Nat,
      accepted ++ rest = s.responseBodyBuffer.getD [] ++ data
      ∧ accepted.length = min (s.responseBodyBuffer.getD [] ++ data).length
          pipe.potentialSpaceSize
      ∧ adaptVirginReplyBody s data
          = { s with
              virginBodyDestination :=
                some { pipe with buf := pipe.buf ++ accepted,
                                 potentialSpaceSize := pipe.potentialSpaceSize - accepted.length },
              responseBodyBuffer := if rest = [] then none else some rest }
      ∧ (adaptVirginReplyBody s data).failure = s.failure
      ∧ (adaptVirginReplyBody s data).calls = s.calls
      ∧ ((adaptVirginReplyBody s data).responseBodyBuffer.isSome = true ↔ rest ≠ [])
      ∧ (adaptVirginReplyBody s data).responseBodyBuffer.getD [] = rest := by
  have hn : ∀ all : List Nat, (all.take (min all.length pipe.potentialSpaceSize)).length
      = min all.length pipe.potentialSpaceSize := by
    intro all
    rw [List.length_take]
    omega
  have hdrop : ∀ all : List Nat, (all.drop (min all.length pipe.potentialSpaceSize) = [])
      ↔ min all.length pipe.potentialSpaceSize = all.length := by
    intro all
    rw [List.drop_eq_nil_iff]
    omega
  refine ⟨(s.responseBodyBuffer.getD [] ++ data).take
      (min (s.responseBodyBuffer.getD [] ++ data).length pipe.potentialSpaceSize),
    (s.responseBodyBuffer.getD [] ++ data).drop
      (min (s.responseBodyBuffer.getD [] ++ data).length pipe.potentialSpaceSize),
    List.take_append_drop _ _, hn _, ?_⟩
  have key : adaptVirginReplyBody s data
      = { s with
          virginBodyDestination :=
            some { pipe with
              buf := pipe.buf ++ (s.responseBodyBuffer.getD [] ++ data).take
                (min (s.responseBodyBuffer.getD [] ++ data).length pipe.potentialSpaceSize),
              potentialSpaceSize := pipe.potentialSpaceSize
                - ((s.responseBodyBuffer.getD [] ++ data).take
                    (min (s.responseBodyBuffer.getD [] ++ data).length
                      pipe.potentialSpaceSize)).length },
          responseBodyBuffer :=
            if (s.responseBodyBuffer.getD [] ++ data).drop
                (min (s.responseBodyBuffer.getD [] ++ data).length pipe.potentialSpaceSize) = []
            then none
            else some ((s.responseBodyBuffer.getD [] ++ data).drop
                (min (s.responseBodyBuffer.getD [] ++ data).length
                  pipe.potentialSpaceSize)) } := by
    unfold adaptVirginReplyBody
    rw [hs, hp]
    simp only [Bool.not_true, Bool.false_eq_true, if_false]
    cases hb : s.responseBodyBuffer with
    | some buffered =>
      have hcap := hgrow buffered hb
      simp only [Option.getD_some]
      rw [if_neg (by omega)]
      simp only [BodyPipe.putMoreData]
      rw [hn]
      by_cases hall : min (buffered ++ data).length pipe.potentialSpaceSize
          = (buffered ++ data).length
      · rw [if_pos hall, if_pos ((hdrop _).mpr hall)]
      · rw [if_neg hall, if_neg (fun h => hall ((hdrop _).mp h))]
    | none =>
      have hcap := hnew hb
      simp only [Option.getD_none, List.nil_append]
      simp only [BodyPipe.putMoreData]
      rw [hn]
      by_cases hall : min data.length pipe.potentialSpaceSize = data.length
      · have hd := (hdrop data).mpr hall
        rw [if_pos hd, hd]
        simp only [List.length_nil, gt_iff_lt, Nat.lt_irrefl, if_false]
      · have hd : data.drop (min data.length pipe.potentialSpaceSize) ≠ [] :=
          fun h => hall ((hdrop data).mp h)
        have hpos : (data.drop (min data.length pipe.potentialSpaceSize)).length > 0 :=
          List.length_pos.mpr hd
        have hle : ¬ (data.drop (min data.length pipe.potentialSpaceSize)).length
            > responseBodyBufferMax := by
          rw [List.length_drop]
          omega
        rw [if_pos hpos, if_neg hle, if_neg hd]
  have hopt : ∀ R : List Nat,
      ((if R = [] then none else some R : Option (List Nat)).isSome = true ↔ R ≠ [])
      ∧ (if R = [] then none else some R : Option (List Nat)).getD [] = R := by
    intro R
    by_cases h : R = [] <;> simp [h]
  refine ⟨key, ?_, ?_, ?_, ?_⟩
  · rw [key]
  · rw [key]
  · rw [key]
    exact (hopt _).1
  · rw [key]
    exact (hopt _).2

theorem adaptVirginReplyBody_conserves_witness :
    narrowPipeJob.startedAdaptation = true
    ∧ narrowPipeJob.responseBodyBuffer = none
    ∧ [1, 2, 3, 4, 5].length - 3 ≤ responseBodyBufferMax
    ∧ ∃ accepted rest : List Nat,
      accepted ++ rest = narrowPipeJob.responseBodyBuffer.getD [] ++ [1, 2, 3, 4, 5]
      ∧ accepted.length
          = min (narrowPipeJob.responseBodyBuffer.getD [] ++ [1, 2, 3, 4, 5]).length 3
      ∧ adaptVirginReplyBody narrowPipeJob [1, 2, 3, 4, 5]
          = { narrowPipeJob with
              virginBodyDestination :=
                some { buf := [] ++ accepted, potentialSpaceSize := 3 - accepted.length,
                       productionEnded := false },
              responseBodyBuffer := if rest = [] then none else some rest }
      ∧ (adaptVirginReplyBody narrowPipeJob [1, 2, 3, 4, 5]).failure = narrowPipeJob.failure
      ∧ (adaptVirginReplyBody narrowPipeJob [1, 2, 3, 4, 5]).calls = narrowPipeJob.calls
      ∧ ((adaptVirginReplyBody narrowPipeJob [1, 2, 3, 4, 5]).responseBodyBuffer.isSome
            = true ↔ rest ≠ [])
      ∧ (adaptVirginReplyBody narrowPipeJob [1, 2, 3, 4, 5]).responseBodyBuffer.getD []
          = rest :=
  ⟨rfl, rfl, by decide,
    adaptVirginReplyBody_conserves narrowPipeJob [1, 2, 3, 4, 5]
      { buf := [], potentialSpaceSize := 3, productionEnded := false } rfl rfl
      (fun _ h => Option.noConfusion h) (fun _ => by decide)⟩

theorem adaptVirginReplyBody_examples :
    (adaptVirginReplyBody narrowPipeJob [1, 2, 3, 4, 5]).virginBodyDestination
      = some { buf := [1, 2, 3], potentialSpaceSize := 0, productionEnded := false }
    ∧ (adaptVirginReplyBody narrowPipeJob [1, 2, 3, 4, 5]).responseBodyBuffer = some [4, 5]
    ∧ (adaptVirginReplyBody { narrowPipeJob with responseBodyBuffer := some [1, 2] }
        [3, 4]).virginBodyDestination
      = some { buf := [1, 2, 3], potentialSpaceSize := 0, productionEnded := false }
    ∧ (adaptVirginReplyBody { narrowPipeJob with responseBodyBuffer := some [1, 2] }
        [3, 4]).responseBodyBuffer = some [4]
    ∧ (adaptVirginReplyBody { narrowPipeJob with responseBodyBuffer := some [1, 2] }
        [3]).responseBodyBuffer = none := by
  decide

end Client

/-! ## Peer selection: the same peer may be listed twice -/

theorem countPeer_append (a b : List FwdServer) (p : CachePeer) :
    countPeer (a ++ b) p = countPeer a p + countPeer b p := by
  unfold countPeer
  exact List.countP_append _ a b

theorem countPeer_pos_of_mem (l : List FwdServer) (p : CachePeer) (code : hier_code)
    (h : ({ _peer := some p, code := code } : FwdServer) ∈ l) : 1 ≤ countPeer l p := by
  unfold countPeer
  exact List.countP_pos_iff.mpr ⟨_, h, by simp⟩

/-- C34: `peerAddFwdServer` appends a new entry whatever the list holds already, so the
count of entries naming a peer grows with every call; and if the direct-disposition is
not Yes, a parent chosen by `peerGetSomeParent` that is also an alive parent of
`Config.peers` is listed at least twice after `peerGetAllParents`. -/
theorem peerAddFwdServer_lists_twice (cfg : SquidConfig) (env : Env) (s : ps_state)
    (p : CachePeer) (code : hier_code)
    (hd : s.direct ≠ direct_t.DIRECT_YES)
    (hc : peerGetSomeParentChoice env s.request = some (p, code))
    (hp : p ∈ cfg.peers)
    (ht : env.neighborType p s.request = peer_t.PEER_PARENT)
    (ho : env.peerHTTPOkay p s.request = true) :
    (∀ (FSVR : List FwdServer) (c : hier_code),
        peerAddFwdServer FSVR (some p) c = FSVR ++ [{ _peer := some p, code := c }]
        ∧ countPeer (peerAddFwdServer FSVR (some p) c) p = countPeer FSVR p + 1)
    ∧ countPeer s.servers p + 2
        ≤ countPeer (peerGetAllParents cfg env (peerGetSomeParent env s)).servers p := by
  constructor
  · intro FSVR c
    refine ⟨rfl, ?_⟩
    unfold peerAddFwdServer
    rw [countPeer_append]
    simp [countPeer]
  · rw [peerGetSomeParent_eq env s hd, peerGetAllParents_eq, hc]
    simp only [countPeer_append]
    have h1 : countPeer [({ _peer := some p, code := code } : FwdServer)] p = 1 := by
      simp [countPeer]
    have h2 : 1 ≤ countPeer
        ((cfg.peers.filter (fun q => env.neighborType q s.request == peer_t.PEER_PARENT
                                    && env.peerHTTPOkay q s.request)).map
          (fun q => ({ _peer := some q, code := hier_code.ANY_OLD_PARENT } : FwdServer))) p := by
      apply countPeer_pos_of_mem _ p hier_code.ANY_OLD_PARENT
      refine List.mem_map.mpr ⟨p, ?_, rfl⟩
      exact List.mem_filter.mpr ⟨hp, by simp [ht, ho]⟩
    omega

theorem peerAddFwdServer_lists_twice_witness :
    neverDirectStart.direct ≠ direct_t.DIRECT_YES
    ∧ peerGetSomeParentChoice oneParent neverDirectStart.request
        = some (exampleParent, hier_code.FIRSTUP_PARENT)
    ∧ countPeer neverDirectStart.servers exampleParent + 2
        ≤ countPeer (peerGetAllParents (oneParentConfig 10) oneParent
            (peerGetSomeParent oneParent neverDirectStart)).servers exampleParent :=
  ⟨by decide, by decide,
   (peerAddFwdServer_lists_twice (oneParentConfig 10) oneParent neverDirectStart exampleParent
      hier_code.FIRSTUP_PARENT (by decide) (by decide) (by decide) (by decide) (by decide)).2⟩

theorem peerSelectFooSwitch_duplicate :
    (peerSelectFooSwitch (oneParentConfig 10) oneParent neverDirectStart).servers
      = [{ _peer := some exampleParent, code := hier_code.FIRSTUP_PARENT },
         { _peer := some exampleParent, code := hier_code.ANY_OLD_PARENT }] := by
  decide

/-! ## Peer selection: no origin-server destination when the direct-disposition is No -/

theorem peersOnly_nil : PeersOnly [] := fun _ h => absurd h (List.not_mem_nil _)

theorem peersOnly_append {a b : List FwdServer} (ha : PeersOnly a) (hb : PeersOnly b) :
    PeersOnly (a ++ b) := by
  intro fs hfs
  rcases List.mem_append.mp hfs with h | h
  · exact ha fs h
  · exact hb fs h

theorem addsPeers_refl (s : ps_state) : AddsPeers s s :=
  ⟨rfl, [], by simp, fun _ => peersOnly_nil⟩

theorem AddsPeers.atrans {a b c : ps_state} (h1 : AddsPeers a b) (h2 : AddsPeers b c) :
    AddsPeers a c := by
  obtain ⟨d1, e1, he1, hp1⟩ := h1
  obtain ⟨d2, e2, he2, hp2⟩ := h2
  refine ⟨d2.trans d1, e1 ++ e2, ?_, ?_⟩
  · rw [he2, he1, List.append_assoc]
  · intro hd
    exact peersOnly_append (hp1 hd) (hp2 (d1.trans hd))

theorem addsPeers_ite {s : ps_state} {c : Prop} [Decidable c] {a b : ps_state}
    (ha : AddsPeers s a) (hb : AddsPeers s b) : AddsPeers s (if c then a else b) := by
  split <;> assumption

theorem addsPeers_setPingStatus (s : ps_state) (st : ping_status_t) :
    AddsPeers s (s.setPingStatus st) :=
  ⟨rfl, [], by simp [ps_state.setPingStatus], fun _ => peersOnly_nil⟩

theorem addsPeers_ping (s : ps_state) (p : ping_data) : AddsPeers s { s with ping := p } :=
  ⟨rfl, [], by simp, fun _ => peersOnly_nil⟩

theorem addsPeers_pingEvent (s : ps_state) (b : Bool) : AddsPeers s { s with pingEvent := b } :=
  ⟨rfl, [], by simp, fun _ => peersOnly_nil⟩

theorem addsPeers_addServer (s : ps_state) (p : Option CachePeer) (code : hier_code)
    (h : s.direct = direct_t.DIRECT_NO → p ≠ none) :
    AddsPeers s { s with servers := peerAddFwdServer s.servers p code } := by
  refine ⟨rfl, [{ _peer := p, code := code }], rfl, ?_⟩
  intro hd fs hfs
  rw [List.mem_singleton.mp hfs]
  exact h hd

theorem addsPeers_addPeer (s : ps_state) (p : CachePeer) (code : hier_code) :
    AddsPeers s { s with servers := peerAddFwdServer s.servers (some p) code } :=
  addsPeers_addServer s (some p) code (fun _ => Option.some_ne_none p)

theorem addsPeers_peerSelectPinned (env : Env) (s : ps_state) :
    AddsPeers s (peerSelectPinned env s) := by
  unfold peerSelectPinned
  repeat' (first | split | dsimp only)
  all_goals first
    | exact addsPeers_refl _
    | exact (addsPeers_addPeer _ _ _).atrans (addsPeers_setPingStatus _ _)
    | (refine (addsPeers_addServer _ _ _ ?_).atrans (addsPeers_setPingStatus _ _)
       intro hd
       simp_all)

theorem addsPeers_peerGetSomeNeighbor (cfg : SquidConfig) (env : Env) (s : ps_state) :
    AddsPeers s (peerGetSomeNeighbor cfg env s) := by
  unfold peerGetSomeNeighbor
  repeat' (first | split | dsimp only)
  all_goals first
    | exact addsPeers_refl _
    | exact addsPeers_setPingStatus _ _
    | exact (addsPeers_addPeer _ _ _).atrans (addsPeers_setPingStatus _ _)

theorem peerCheckNetdbDirect_never (cfg : SquidConfig) (env : Env) (s : ps_state)
    (h : s.direct = direct_t.DIRECT_NO) : peerCheckNetdbDirect cfg env s = false := by
  unfold peerCheckNetdbDirect
  simp [h]

theorem addsPeers_peerGetSomeNeighborReplies (cfg : SquidConfig) (env : Env) (s : ps_state) :
    AddsPeers s (peerGetSomeNeighborReplies cfg env s) := by
  rw [peerGetSomeNeighborReplies_eq cfg env s]
  refine ⟨rfl, _, rfl, ?_⟩
  intro hd fs hfs
  unfold neighborReplyChoice at hfs
  rw [peerCheckNetdbDirect_never cfg env s hd] at hfs
  simp only [Bool.false_eq_true, if_false] at hfs
  repeat' split at hfs
  all_goals (simp at hfs)
  all_goals first
    | (subst hfs; simp)
    | (obtain ⟨p, -, rfl⟩ := hfs; simp)

theorem addsPeers_peerGetSomeDirect (s : ps_state) : AddsPeers s (peerGetSomeDirect s) := by
  unfold peerGetSomeDirect
  split
  · exact addsPeers_refl _
  · rename_i hne
    split
    · exact addsPeers_refl _
    · refine addsPeers_addServer _ _ _ ?_
      intro hd
      rw [hd] at hne
      exact absurd rfl hne

theorem addsPeers_peerGetSomeParent (env : Env) (s : ps_state) :
    AddsPeers s (peerGetSomeParent env s) := by
  unfold peerGetSomeParent
  split
  · exact addsPeers_refl _
  · split
    · exact addsPeers_addPeer _ _ _
    · exact addsPeers_refl _

theorem addsPeers_peerGetAllParents (cfg : SquidConfig) (env : Env) (s : ps_state) :
    AddsPeers s (peerGetAllParents cfg env s) := by
  rw [peerGetAllParents_eq]
  refine ⟨rfl, _, rfl, ?_⟩
  intro _ fs hfs
  rcases List.mem_append.mp hfs with h | h
  · obtain ⟨p, -, rfl⟩ := List.mem_map.mp h
    simp
  · cases hd : env.getDefaultParent s.request with
    | none => simp [hd] at h
    | some p =>
      simp [hd] at h
      subst h
      simp

theorem addsPeers_peerSelectFooSwitch (cfg : SquidConfig) (env : Env) (s : ps_state) :
    AddsPeers s (peerSelectFooSwitch cfg env s) := by
  unfold peerSelectFooSwitch
  split
  · exact addsPeers_peerGetSomeDirect s
  · exact (addsPeers_peerGetSomeParent env s).atrans (addsPeers_peerGetAllParents cfg env _)
  · dsimp only
    have hp : ∀ t : ps_state, AddsPeers t (peerGetAllParents cfg env (peerGetSomeParent env t)) :=
      fun t => (addsPeers_peerGetSomeParent env t).atrans (addsPeers_peerGetAllParents cfg env _)
    cases cfg.prefer_direct <;> cases cfg.nonhierarchical_direct <;>
      cases hh : (peerGetSomeDirect s).request.flags.hierarchical <;>
      cases hh2 : s.request.flags.hierarchical <;>
      simp only [hh, hh2, Bool.false_eq_true, if_false, if_true, Bool.not_true, Bool.not_false,
        Bool.or_false, Bool.or_true, Bool.false_or, Bool.true_or]
    all_goals first
      | exact addsPeers_peerGetSomeDirect _
      | exact (hp _).atrans (addsPeers_peerGetSomeDirect _)
      | exact (addsPeers_peerGetSomeDirect _).atrans (hp _)

theorem addsPeers_peerSelectFooNeighbors (cfg : SquidConfig) (env : Env) (s : ps_state) :
    AddsPeers s (peerSelectFooNeighbors cfg env s).1 := by
  unfold peerSelectFooNeighbors
  have hpin : AddsPeers s (if (s.entry.isNone || s.pingStatusIs ping_status_t.PING_NONE) = true
      then peerSelectPinned env s else s) :=
    addsPeers_ite (addsPeers_peerSelectPinned env s) (addsPeers_refl s)
  dsimp only
  generalize (if (s.entry.isNone || s.pingStatusIs ping_status_t.PING_NONE) = true
      then peerSelectPinned env s else s) = x at hpin
  refine hpin.atrans ?_
  repeat' (first | split | dsimp only)
  all_goals first
    | exact addsPeers_refl _
    | exact addsPeers_peerGetSomeNeighbor cfg env _
    | exact (addsPeers_peerGetSomeNeighborReplies cfg env _).atrans (addsPeers_setPingStatus _ _)
theorem noDirectInv_sub {s t : ps_state} (h : NoDirectInv s) (hd : t.direct = s.direct)
    (hs : ∀ fs ∈ t.servers, fs ∈ s.servers) : NoDirectInv t := by
  constructor
  · intro hu
    have h0 := h.undecided (hd.symm.trans hu)
    apply List.eq_nil_iff_forall_not_mem.mpr
    intro fs hfs
    have := hs fs hfs
    rw [h0] at this
    exact List.not_mem_nil _ this
  · intro hn fs hfs
    exact h.peers (hd.symm.trans hn) fs (hs fs hfs)

theorem noDirectInv_same {s t : ps_state} (h : NoDirectInv s) (hd : t.direct = s.direct)
    (hs : t.servers = s.servers) : NoDirectInv t :=
  noDirectInv_sub h hd (fun _ hfs => hs ▸ hfs)

theorem noDirectInv_nil {s : ps_state} (h : s.servers = []) : NoDirectInv s :=
  ⟨fun _ => h, fun _ _ hfs => absurd (h ▸ hfs) (List.not_mem_nil _)⟩

theorem noDirectInv_destroy (s : ps_state) : NoDirectInv s.destroy :=
  noDirectInv_nil (destroy_fields s).2.2.2.2.2.2.2.2.2.1

theorem noDirectInv_ite {c : Prop} [Decidable c] {a b : ps_state}
    (ha : NoDirectInv a) (hb : NoDirectInv b) : NoDirectInv (if c then a else b) := by
  split <;> assumption

theorem noDirectInv_adds {s t : ps_state} (h : NoDirectInv s)
    (hn : s.direct ≠ direct_t.DIRECT_UNKNOWN) (ha : AddsPeers s t) : NoDirectInv t := by
  obtain ⟨hd, extra, he, hp⟩ := ha
  constructor
  · intro hu
    exact absurd (hd.symm.trans hu) hn
  · intro hno
    rw [he]
    exact peersOnly_append (h.peers (hd.symm.trans hno)) (hp (hd.symm.trans hno))

theorem noDirectInv_peerSelectDnsPaths (cfg : SquidConfig) (env : Env) {s : ps_state}
    (h : NoDirectInv s) (hl : s.deleted = false) :
    NoDirectInv (peerSelectDnsPaths cfg env s) := by
  unfold peerSelectDnsPaths
  cases hi : s.interestedInitiator with
  | false =>
    rw [peerSelectDnsPathsFrom_aborted cfg env _ s hi]
    exact noDirectInv_destroy s
  | true =>
    have ho := peerSelectDnsPathsFrom_outcome cfg env s.servers s rfl hi hl
    exact noDirectInv_sub h ho.direct ho.servers

theorem peerSelectFooDirect_servers (cfg : SquidConfig) (env : Env) (s : ps_state) :
    (peerSelectFooDirect cfg env s).servers = s.servers := by
  unfold peerSelectFooDirect
  repeat' split
  all_goals rfl

theorem noDirectInv_peerSelectFooDirect (cfg : SquidConfig) (env : Env) {s : ps_state}
    (h : NoDirectInv s) : NoDirectInv (peerSelectFooDirect cfg env s) := by
  by_cases hu : s.direct = direct_t.DIRECT_UNKNOWN
  · exact noDirectInv_nil ((peerSelectFooDirect_servers cfg env s).trans (h.undecided hu))
  · rw [(peerSelectFooDirect_direct cfg env s).1 hu]
    exact h

theorem noDirectInv_peerSelectFoo (cfg : SquidConfig) (env : Env) {s : ps_state}
    (h : NoDirectInv s) (hl : s.deleted = false) : NoDirectInv (peerSelectFoo cfg env s) := by
  unfold peerSelectFoo
  have hdec := (peerSelectFooDirect_fields cfg env s).2.2.2.2.2.2.2
  have hdel := (peerSelectFooDirect_fields cfg env s).2.1
  have a2 := addsPeers_peerSelectFooNeighbors cfg env (peerSelectFooDirect cfg env s)
  have q2 := quiet_peerSelectFooNeighbors cfg env (peerSelectFooDirect cfg env s)
  have a3 := addsPeers_peerSelectFooSwitch cfg env
    (peerSelectFooNeighbors cfg env (peerSelectFooDirect cfg env s)).1
  have q3 := quiet_peerSelectFooSwitch cfg env
    (peerSelectFooNeighbors cfg env (peerSelectFooDirect cfg env s)).1
  have h1 := noDirectInv_peerSelectFooDirect cfg env h
  have h2 := noDirectInv_adds h1 hdec a2
  have h3 := noDirectInv_adds h1 hdec (a2.atrans a3)
  refine noDirectInv_ite (noDirectInv_destroy s) (noDirectInv_ite ?_ (noDirectInv_ite ?_ ?_))
  · exact noDirectInv_same (s := s) h rfl rfl
  · exact noDirectInv_same (s := s) h rfl rfl
  · dsimp only
    refine noDirectInv_ite h2 ?_
    exact noDirectInv_peerSelectDnsPaths cfg env h3
      (q3.deleted.trans (q2.deleted.trans (hdel.trans hl)))

theorem servers_peerParentMissFirst (env : Env) (p : CachePeer) (s : ps_state) :
    (peerParentMissFirst env p s).direct = s.direct
    ∧ (peerParentMissFirst env p s).servers = s.servers := by
  unfold peerParentMissFirst
  repeat' (first | split | dsimp only)
  all_goals exact ⟨rfl, rfl⟩

theorem servers_peerIcpParentMiss (cfg : SquidConfig) (env : Env) (p : CachePeer)
    (header : icp_common_t) (s : ps_state) :
    (peerIcpParentMiss cfg env p header s).direct = s.direct
    ∧ (peerIcpParentMiss cfg env p header s).servers = s.servers := by
  unfold peerIcpParentMiss
  have key : ∀ x : ps_state, x.direct = s.direct ∧ x.servers = s.servers →
      (peerParentMissFirst env p x).direct = s.direct
      ∧ (peerParentMissFirst env p x).servers = s.servers := fun x hx =>
    ⟨(servers_peerParentMissFirst env p x).1.trans hx.1,
     (servers_peerParentMissFirst env p x).2.trans hx.2⟩
  apply key
  repeat' (first | split | dsimp only)
  all_goals exact ⟨rfl, rfl⟩

theorem servers_peerHtcpParentMiss (cfg : SquidConfig) (env : Env) (p : CachePeer)
    (htcp : HtcpReplyData) (s : ps_state) :
    (peerHtcpParentMiss cfg env p htcp s).direct = s.direct
    ∧ (peerHtcpParentMiss cfg env p htcp s).servers = s.servers := by
  unfold peerHtcpParentMiss
  have key : ∀ x : ps_state, x.direct = s.direct ∧ x.servers = s.servers →
      (peerParentMissFirst env p x).direct = s.direct
      ∧ (peerParentMissFirst env p x).servers = s.servers := fun x hx =>
    ⟨(servers_peerParentMissFirst env p x).1.trans hx.1,
     (servers_peerParentMissFirst env p x).2.trans hx.2⟩
  apply key
  repeat' (first | split | dsimp only)
  all_goals exact ⟨rfl, rfl⟩

theorem noDirectInv_peerHandleIcpReply (cfg : SquidConfig) (env : Env) (p : CachePeer)
    (type : peer_t) (header : icp_common_t) {s : ps_state}
    (h : NoDirectInv s) (hl : s.deleted = false) :
    NoDirectInv (peerHandleIcpReply cfg env p type header s) := by
  unfold peerHandleIcpReply
  have f0 : ∀ pd : ping_data, Frame s { s with ping := pd } :=
    fun _ => ⟨rfl, rfl, rfl, rfl, rfl, rfl, rfl, [], by simp, by simp⟩
  have f1 : Frame s (if ((header.opcode == icp_opcode.ICP_MISS
        || header.opcode == icp_opcode.ICP_DECHO) && type == peer_t.PEER_PARENT) = true
      then peerIcpParentMiss cfg env p header
        { s with ping := { s.ping with n_recv := s.ping.n_recv + 1 } }
      else { s with ping := { s.ping with n_recv := s.ping.n_recv + 1 } }) :=
    frame_ite ((f0 _).ftrans (frame_peerIcpParentMiss cfg env p header _)) (f0 _)
  have h1 : NoDirectInv (if ((header.opcode == icp_opcode.ICP_MISS
        || header.opcode == icp_opcode.ICP_DECHO) && type == peer_t.PEER_PARENT) = true
      then peerIcpParentMiss cfg env p header
        { s with ping := { s.ping with n_recv := s.ping.n_recv + 1 } }
      else { s with ping := { s.ping with n_recv := s.ping.n_recv + 1 } }) :=
    noDirectInv_ite
      (noDirectInv_same h (servers_peerIcpParentMiss cfg env p header _).1
        (servers_peerIcpParentMiss cfg env p header _).2)
      (noDirectInv_same (s := s) h rfl rfl)
  refine noDirectInv_ite ?_ (noDirectInv_ite h1 ?_)
  · exact noDirectInv_peerSelectFoo cfg env (noDirectInv_same (s := s) h rfl rfl) hl
  · exact noDirectInv_peerSelectFoo cfg env h1 (f1.deleted.trans hl)

theorem noDirectInv_peerHandleHtcpReply (cfg : SquidConfig) (env : Env) (p : CachePeer)
    (type : peer_t) (htcp : HtcpReplyData) {s : ps_state}
    (h : NoDirectInv s) (hl : s.deleted = false) :
    NoDirectInv (peerHandleHtcpReply cfg env p type htcp s) := by
  unfold peerHandleHtcpReply
  have f0 : ∀ pd : ping_data, Frame s { s with ping := pd } :=
    fun _ => ⟨rfl, rfl, rfl, rfl, rfl, rfl, rfl, [], by simp, by simp⟩
  have f1 : Frame s (if (type == peer_t.PEER_PARENT) = true
      then peerHtcpParentMiss cfg env p htcp
        { s with ping := { s.ping with n_recv := s.ping.n_recv + 1 } }
      else { s with ping := { s.ping with n_recv := s.ping.n_recv + 1 } }) :=
    frame_ite ((f0 _).ftrans (frame_peerHtcpParentMiss cfg env p htcp _)) (f0 _)
  have h1 : NoDirectInv (if (type == peer_t.PEER_PARENT) = true
      then peerHtcpParentMiss cfg env p htcp
        { s with ping := { s.ping with n_recv := s.ping.n_recv + 1 } }
      else { s with ping := { s.ping with n_recv := s.ping.n_recv + 1 } }) :=
    noDirectInv_ite
      (noDirectInv_same h (servers_peerHtcpParentMiss cfg env p htcp _).1
        (servers_peerHtcpParentMiss cfg env p htcp _).2)
      (noDirectInv_same (s := s) h rfl rfl)
  refine noDirectInv_ite ?_ (noDirectInv_ite h1 ?_)
  · exact noDirectInv_peerSelectFoo cfg env (noDirectInv_same (s := s) h rfl rfl) hl
  · exact noDirectInv_peerSelectFoo cfg env h1 (f1.deleted.trans hl)

theorem noDirectInv_aclDone (cfg : SquidConfig) (env : Env) (answer : allow_t) {s : ps_state}
    (h : NoDirectInv s) (hu : s.direct = direct_t.DIRECT_UNKNOWN) (hl : s.deleted = false) :
    NoDirectInv (peerCheckAlwaysDirectDone cfg env answer s)
    ∧ NoDirectInv (peerCheckNeverDirectDone cfg env answer s) := by
  have hnil := h.undecided hu
  unfold peerCheckAlwaysDirectDone peerCheckNeverDirectDone
  constructor
  · dsimp only
    split <;> exact noDirectInv_peerSelectFoo cfg env (noDirectInv_nil hnil) hl
  · dsimp only
    split <;> exact noDirectInv_peerSelectFoo cfg env (noDirectInv_nil hnil) hl

theorem noDirectInv_peerPingTimeout (cfg : SquidConfig) (env : Env) {s : ps_state}
    (h : NoDirectInv s) (hl : s.deleted = false) :
    NoDirectInv (peerPingTimeout cfg env s) := by
  unfold peerPingTimeout
  dsimp only
  have q0 := quiet_setPingStatus s ping_status_t.PING_DONE
  have a0 := addsPeers_setPingStatus s ping_status_t.PING_DONE
  have h0 : NoDirectInv (s.setPingStatus ping_status_t.PING_DONE) :=
    noDirectInv_same h rfl (by simp [ps_state.setPingStatus])
  refine noDirectInv_ite (noDirectInv_destroy _) ?_
  exact noDirectInv_peerSelectFoo cfg env
    (noDirectInv_same (s := s.setPingStatus ping_status_t.PING_DONE) h0 rfl rfl)
    (q0.deleted.trans hl)

theorem noDirectInv_noteIp (cfg : SquidConfig) (ip : Ip.Address) {s : ps_state}
    (h : NoDirectInv s) : NoDirectInv (s.noteIp cfg ip) := by
  unfold ps_state.noteIp
  refine noDirectInv_ite (noDirectInv_destroy s) (noDirectInv_ite h ?_)
  split
  · exact h
  · dsimp only
    refine noDirectInv_ite h ?_
    unfold ps_state.handlePath
    dsimp only
    split
    · exact noDirectInv_same (s := s) h rfl rfl
    · exact noDirectInv_same (s := s) h rfl rfl

theorem noDirectInv_noteIps (cfg : SquidConfig) (env : Env) (ia : Bool) (dnsError : String)
    {s : ps_state} (h : NoDirectInv s) (hl : s.deleted = false) :
    NoDirectInv (ps_state.noteIps cfg env s ia dnsError) := by
  unfold ps_state.noteIps
  refine noDirectInv_ite (noDirectInv_destroy s) ?_
  split
  · exact h
  · rename_i fs next hs
    dsimp only
    have key : ∀ e : Option ErrorState,
        NoDirectInv (peerSelectDnsPaths cfg env { s with lastError := e, servers := next }) := by
      intro e
      refine noDirectInv_peerSelectDnsPaths cfg env (noDirectInv_sub (s := s) h rfl ?_) hl
      intro x hx
      rw [hs]
      exact List.mem_cons_of_mem _ hx
    cases ia with
    | true =>
      simp only [Bool.not_true, Bool.false_eq_true, if_false]
      exact key s.lastError
    | false =>
      simp only [Bool.not_false, if_true]
      split
      · exact key _
      · exact key _

theorem noDirectInv_step (cfg : SquidConfig) (env : Env) (ev : Event) {s : ps_state}
    (hw : Waits s) (h : NoDirectInv s) : NoDirectInv (step cfg env s ev) := by
  unfold step
  by_cases hd : s.deleted = true
  · rw [if_pos hd]
    exact h
  · have hl : s.deleted = false := by simpa using hd
    rw [if_neg hd]
    cases ev with
    | aclAnswer answer =>
      by_cases hu : s.direct = direct_t.DIRECT_UNKNOWN
      · dsimp only
        split
        · exact (noDirectInv_aclDone cfg env answer h hu hl).1
        · exact (noDirectInv_aclDone cfg env answer h hu hl).2
        · exact h
      · have hn := (hw.decided hl hu).1
        dsimp only
        rw [hn]
        exact h
    | icpReply p type header =>
      exact noDirectInv_ite (noDirectInv_peerHandleIcpReply cfg env p type header h hl) h
    | htcpReply p type htcp =>
      exact noDirectInv_ite (noDirectInv_peerHandleHtcpReply cfg env p type htcp h hl) h
    | pingTimeout =>
      refine noDirectInv_ite ?_ h
      exact noDirectInv_peerPingTimeout cfg env (noDirectInv_same (s := s) h rfl rfl) hl
    | noteIp ip =>
      dsimp only
      split
      · exact h
      · exact noDirectInv_noteIp cfg ip h
    | noteIps ia dnsError =>
      dsimp only
      split
      · exact h
      · exact noDirectInv_noteIps cfg env ia dnsError (noDirectInv_same (s := s) h rfl rfl) hl
    | initiatorUnsubscribes => exact noDirectInv_same (s := s) h rfl rfl
    | initiatorGone => exact noDirectInv_same (s := s) h rfl rfl

theorem noDirectInv_run {cfg : SquidConfig} {req : HttpRequest} (env : Env)
    (events : List Event) :
    ∀ s : ps_state, RunInv cfg req s → Waits s → NoDirectInv s →
      NoDirectInv (run cfg env s events) := by
  unfold run
  induction events with
  | nil => intro s _ _ h; exact h
  | cons ev t ih =>
    intro s hr hw h
    rw [List.foldl_cons]
    exact ih _ (runInv_step env ev hr) (waits_step env ev hr hw) (noDirectInv_step cfg env ev hw h)
theorem peerSelectFoo_keeps_direct (cfg : SquidConfig) (env : Env) (s : ps_state)
    (hl : s.deleted = false) (hn : s.direct ≠ direct_t.DIRECT_UNKNOWN) :
    (peerSelectFoo cfg env s).direct = s.direct := by
  unfold peerSelectFoo
  cases hi : s.interestedInitiator with
  | false =>
    simp only [Bool.not_false, if_true]
    exact (destroy_fields s).2.1
  | true =>
    have hne : (s.direct == direct_t.DIRECT_UNKNOWN) = false := by simpa using hn
    simp only [Bool.not_true, Bool.false_eq_true, if_false, hne, Bool.false_and]
    rw [(peerSelectFooDirect_direct cfg env s).1 hn]
    have q2 := quiet_peerSelectFooNeighbors cfg env s
    have q3 := quiet_peerSelectFooSwitch cfg env (peerSelectFooNeighbors cfg env s).1
    split
    · exact q2.direct
    · have hi3 : (peerSelectFooSwitch cfg env (peerSelectFooNeighbors cfg env s).1).interestedInitiator
          = true :=
        (interested_congr (q3.initiator.trans q2.initiator)).trans hi
      have ho := peerSelectDnsPathsFrom_outcome cfg env _ _ rfl hi3
        (q3.deleted.trans (q2.deleted.trans hl))
      exact ho.direct.trans (q3.direct.trans q2.direct)

/-- C38: if the direct-disposition is No, each helper of `peerSelectFoo` appends to the
destination list only destinations that name a peer; `peerSelectFoo` called on a list
without origin-server destinations leaves such a list and the disposition No; and in
every run of a selection, whenever the direct-disposition is No, no destination of the
list has a null peer. With the disposition Maybe the same pinned request does get the
peer-less PINNED destination; a request with the `noDirect` flag gets the disposition No
and a list of parents. -/
theorem peerSelectFoo_never_direct_peers (cfg : SquidConfig) (env : Env) :
    (∀ s : ps_state, s.direct = direct_t.DIRECT_NO →
      ∀ t ∈ selectionHelpers cfg env s,
        ∃ extra : List FwdServer, t.servers = s.servers ++ extra
          ∧ ∀ fs ∈ extra, fs._peer ≠ none)
    ∧ (∀ s : ps_state, s.deleted = false → s.direct = direct_t.DIRECT_NO →
        (∀ fs ∈ s.servers, fs._peer ≠ none) →
        (peerSelectFoo cfg env s).direct = direct_t.DIRECT_NO
        ∧ ∀ fs ∈ (peerSelectFoo cfg env s).servers, fs._peer ≠ none)
    ∧ (∀ (request : HttpRequest) (entry : Option StoreEntry) (events : List Event),
        (run cfg env (peerSelect cfg env request entry) events).direct = direct_t.DIRECT_NO →
        ∀ fs ∈ (run cfg env (peerSelect cfg env request entry) events).servers,
          fs._peer ≠ none)
    ∧ (peerSelectPinned oneParent (neverDirectPinned ping_status_t.PING_NONE)).servers = []
    ∧ (peerSelectPinned oneParent
        { neverDirectPinned ping_status_t.PING_NONE with direct := direct_t.DIRECT_MAYBE }).servers
        = [{ _peer := none, code := hier_code.PINNED }]
    ∧ (peerSelect (oneParentConfig 10) oneParent
        (exampleRequest { noFlags with noDirect := true }) none).direct = direct_t.DIRECT_NO
    ∧ (peerSelect (oneParentConfig 10) oneParent
        (exampleRequest { noFlags with noDirect := true }) none).servers
        = [{ _peer := some exampleParent, code := hier_code.FIRSTUP_PARENT },
           { _peer := some exampleParent, code := hier_code.ANY_OLD_PARENT }] := by
  refine ⟨?_, ?_, ?_, by decide, by decide, by decide, by decide⟩
  · intro s hd t ht
    have key : AddsPeers s t := by
      simp only [selectionHelpers, List.mem_cons, List.mem_singleton, List.not_mem_nil,
        or_false] at ht
      rcases ht with rfl | rfl | rfl | rfl | rfl | rfl | rfl | rfl
      · exact addsPeers_peerSelectPinned env s
      · exact addsPeers_peerGetSomeNeighbor cfg env s
      · exact addsPeers_peerGetSomeNeighborReplies cfg env s
      · exact addsPeers_peerGetSomeDirect s
      · exact addsPeers_peerGetSomeParent env s
      · exact addsPeers_peerGetAllParents cfg env s
      · exact addsPeers_peerSelectFooNeighbors cfg env s
      · exact addsPeers_peerSelectFooSwitch cfg env s
    obtain ⟨-, extra, he, hp⟩ := key
    exact ⟨extra, he, hp hd⟩
  · intro s hl hd hp
    have hn : s.direct ≠ direct_t.DIRECT_UNKNOWN := by rw [hd]; decide
    have hk := (peerSelectFoo_keeps_direct cfg env s hl hn).trans hd
    have hinv : NoDirectInv s := ⟨fun hu => absurd hu hn, fun _ => hp⟩
    exact ⟨hk, (noDirectInv_peerSelectFoo cfg env hinv hl).peers hk⟩
  · intro request entry events hd
    have h0 : NoDirectInv (peerSelect cfg env request entry) :=
      noDirectInv_peerSelectFoo cfg env (noDirectInv_nil rfl) rfl
    have hr : RunInv cfg request (peerSelect cfg env request entry) :=
      runInv_peerSelectFoo env (runInv_init cfg _ request entry) rfl
    have hw : Waits (peerSelect cfg env request entry) :=
      (waits_peerSelectFoo cfg env ⟨rfl, fun _ => rfl, Or.inl rfl⟩).1
    exact (noDirectInv_run env events _ hr hw h0).peers hd

theorem peerSelectFoo_never_direct_example :
    (run (oneParentConfig 10) oneParent
        (peerSelectFoo (oneParentConfig 10) oneParent
          (neverDirectPinned ping_status_t.PING_NONE)) []).servers
      = [{ _peer := some exampleParent, code := hier_code.FIRSTUP_PARENT },
         { _peer := some exampleParent, code := hier_code.ANY_OLD_PARENT }] := by
  decide

/-! ## Peer selection: the error reported at the end -/

theorem peerSelectDnsPathsDone_eq (env : Env) (s : ps_state)
    (hi : s.interestedInitiator = true) :
    peerSelectDnsPathsDone env s
      = ps_state.destroy
          { s with servers := [], ping := { s.ping with stop := env.current_time },
                   lastError := none,
                   calls := s.calls ++ [InitiatorCall.noteDestinationsEnd
                     (if s.foundPaths = 0 then s.lastError else none)] } := by
  unfold ps_state.interestedInitiator at hi
  cases hini : s.initiator_ with
  | none => rw [hini] at hi; simp at hi
  | some ini =>
    rw [hini] at hi
    have hsub : ini.subscribed = true := by simpa using hi
    unfold peerSelectDnsPathsDone
    cases he : s.lastError with
    | none => simp [ps_state.interestedInitiator, hini, hsub, he]
    | some e =>
      by_cases hz : s.foundPaths = 0
      · simp [ps_state.interestedInitiator, hini, hsub, he, hz]
      · simp [ps_state.interestedInitiator, hini, hsub, he, hz]

theorem peerSelectDnsPathsDone_end (env : Env) (s : ps_state)
    (hi : s.interestedInitiator = true) : DnsEnd s (peerSelectDnsPathsDone env s) := by
  have hd := destroy_fields
  rw [peerSelectDnsPathsDone_eq env s hi]
  refine ⟨[], ?_, Or.inr ⟨?_, ?_, ?_⟩⟩
  · simp [hd]
  · simp [hd]
  · simp [hd]
  · simp [hd]

theorem peerSelectDnsPathsFrom_end (cfg : SquidConfig) (env : Env) :
    ∀ (servers : List FwdServer) (s : ps_state), s.interestedInitiator = true →
      DnsEnd s (peerSelectDnsPathsFrom cfg env servers s) := by
  intro servers
  induction servers with
  | nil =>
    intro s hi
    rw [peerSelectDnsPathsFrom]
    simp only [hi, Bool.not_true, Bool.false_eq_true, if_false]
    exact peerSelectDnsPathsDone_end env s hi
  | cons fs next ih =>
    intro s hi
    rw [peerSelectDnsPathsFrom_cons cfg env fs next s hi]
    by_cases hu : usesOriginalDst cfg s.request fs = true
    · simp only [hu, if_true]
      cases hm : s.request.clientConnectionManager with
      | none =>
        simp only []
        exact ih { s with servers := next } hi
      | some clientLocal =>
        simp only []
        rw [handlePath_eq s _ _ hi]
        have h2 := ih { s with foundPaths := s.foundPaths + 1,
                               calls := s.calls ++ [InitiatorCall.noteDestination
                                 { remote := clientLocal, peerType := hier_code.ORIGINAL_DST,
                                   peer := fs._peer }],
                               servers := next } hi
        obtain ⟨paths, hf, ho⟩ := h2
        refine ⟨{ remote := clientLocal, peerType := hier_code.ORIGINAL_DST,
                  peer := fs._peer } :: paths, ?_, ?_⟩
        · rw [hf]
          simp only [List.length_cons]
          omega
        · rcases ho with ⟨h1, h2, h3⟩ | ⟨h1, h2, h3⟩
          · left
            refine ⟨h1, h2, ?_⟩
            rw [h3]
            simp
          · right
            refine ⟨h1, h2, ?_⟩
            rw [h3]
            simp
    · simp only [hu, Bool.false_eq_true, if_false]
      by_cases hw : s.wantsMoreDestinations cfg = true
      · simp only [hw, if_true]
        exact ⟨[], by simp, Or.inl ⟨rfl, rfl, by simp⟩⟩
      · simp only [hw, Bool.false_eq_true, if_false]
        exact peerSelectDnsPathsDone_end env s hi
theorem errInv_frame {s t : ps_state} (h : ErrInv s) (f : Frame s t) : ErrInv t := by
  refine ⟨?_, ?_, ?_⟩
  · intro e he
    exact h.lastError e (f.lastError ▸ he)
  · intro hl e
    rw [f.calls]
    exact h.live (f.deleted ▸ hl) e
  · intro e he
    rw [f.calls] at he
    rw [f.foundPaths]
    exact h.ended e he

theorem errInv_ite {c : Prop} [Decidable c] {a b : ps_state}
    (ha : ErrInv a) (hb : ErrInv b) : ErrInv (if c then a else b) := by
  split <;> assumption

theorem errInv_destroy {s : ps_state} (h : ErrInv s) (hl : s.deleted = false) :
    ErrInv s.destroy := by
  have hd := destroy_fields s
  refine ⟨?_, ?_, ?_⟩
  · intro e he
    rw [hd.2.2.2.2.2.2.2.2.2.2.2.1] at he
    exact Option.noConfusion he
  · intro hl2
    rw [hd.2.2.2.2.2.2.2.2.1] at hl2
    exact Bool.noConfusion hl2
  · intro e he
    rw [hd.2.2.2.2.2.1] at he
    exact absurd he (h.live hl _)

theorem end_not_mem_paths (calls : List InitiatorCall) (paths : List Comm.Connection)
    (e : Option ErrorState) (h : InitiatorCall.noteDestinationsEnd e ∉ calls) :
    InitiatorCall.noteDestinationsEnd e ∉ calls ++ paths.map InitiatorCall.noteDestination := by
  intro hm
  rcases List.mem_append.mp hm with h1 | h1
  · exact h h1
  · obtain ⟨p, -, hp⟩ := List.mem_map.mp h1
    exact InitiatorCall.noConfusion hp

theorem errInv_dnsEnd {s t : ps_state} (h : ErrInv s) (hl : s.deleted = false)
    (d : DnsEnd s t) : ErrInv t := by
  obtain ⟨paths, hf, ho⟩ := d
  rcases ho with ⟨h1, h2, h3⟩ | ⟨h1, h2, h3⟩
  · refine ⟨?_, ?_, ?_⟩
    · intro e he
      exact h.lastError e (h2 ▸ he)
    · intro _ e
      rw [h3]
      exact end_not_mem_paths _ _ _ (h.live hl e)
    · intro e he
      rw [h3] at he
      exact absurd he (end_not_mem_paths _ _ _ (h.live hl _))
  · refine ⟨?_, ?_, ?_⟩
    · intro e he
      rw [h2] at he
      exact Option.noConfusion he
    · intro hl2
      rw [h1] at hl2
      exact Bool.noConfusion hl2
    · intro e he
      rw [h3] at he
      rcases List.mem_append.mp he with he1 | he1
      · exact absurd he1 (end_not_mem_paths _ _ _ (h.live hl _))
      · have heq := List.mem_singleton.mp he1
        injection heq with heq
        by_cases hz : t.foundPaths = 0
        · rw [if_pos hz] at heq
          exact ⟨hz, h.lastError e heq.symm⟩
        · rw [if_neg hz] at heq
          exact Option.noConfusion heq

theorem errInv_peerSelectDnsPaths (cfg : SquidConfig) (env : Env) {s : ps_state}
    (h : ErrInv s) (hl : s.deleted = false) : ErrInv (peerSelectDnsPaths cfg env s) := by
  unfold peerSelectDnsPaths
  cases hi : s.interestedInitiator with
  | false =>
    rw [peerSelectDnsPathsFrom_aborted cfg env _ s hi]
    exact errInv_destroy h hl
  | true => exact errInv_dnsEnd h hl (peerSelectDnsPathsFrom_end cfg env _ s hi)

theorem errInv_peerSelectFoo (cfg : SquidConfig) (env : Env) {s : ps_state}
    (h : ErrInv s) (hl : s.deleted = false) : ErrInv (peerSelectFoo cfg env s) := by
  unfold peerSelectFoo
  have f1 := frame_peerSelectFooDirect cfg env s
  have f2 := (quiet_peerSelectFooNeighbors cfg env (peerSelectFooDirect cfg env s)).toFrame
  have f3 := (quiet_peerSelectFooSwitch cfg env
    (peerSelectFooNeighbors cfg env (peerSelectFooDirect cfg env s)).1).toFrame
  have f := f1.ftrans (f2.ftrans f3)
  refine errInv_ite (errInv_destroy h hl) (errInv_ite ?_ (errInv_ite ?_ (errInv_ite ?_ ?_)))
  · exact errInv_frame h ⟨rfl, rfl, rfl, rfl, rfl, rfl, rfl, [], by simp, by simp⟩
  · exact errInv_frame h ⟨rfl, rfl, rfl, rfl, rfl, rfl, rfl, [], by simp, by simp⟩
  · exact errInv_frame h (f1.ftrans f2)
  · exact errInv_peerSelectDnsPaths cfg env (errInv_frame h f) (f.deleted.trans hl)

theorem errInv_peerHandleIcpReply (cfg : SquidConfig) (env : Env) (p : CachePeer)
    (type : peer_t) (header : icp_common_t) {s : ps_state}
    (h : ErrInv s) (hl : s.deleted = false) :
    ErrInv (peerHandleIcpReply cfg env p type header s) := by
  unfold peerHandleIcpReply
  have f0 : ∀ pd : ping_data, Frame s { s with ping := pd } :=
    fun _ => ⟨rfl, rfl, rfl, rfl, rfl, rfl, rfl, [], by simp, by simp⟩
  have f1 : Frame s (if ((header.opcode == icp_opcode.ICP_MISS
        || header.opcode == icp_opcode.ICP_DECHO) && type == peer_t.PEER_PARENT) = true
      then peerIcpParentMiss cfg env p header
        { s with ping := { s.ping with n_recv := s.ping.n_recv + 1 } }
      else { s with ping := { s.ping with n_recv := s.ping.n_recv + 1 } }) :=
    frame_ite ((f0 _).ftrans (frame_peerIcpParentMiss cfg env p header _)) (f0 _)
  refine errInv_ite ?_ (errInv_ite ?_ ?_)
  · exact errInv_peerSelectFoo cfg env
      (errInv_frame h ⟨rfl, rfl, rfl, rfl, rfl, rfl, rfl, [], by simp, by simp⟩) hl
  · exact errInv_frame h f1
  · exact errInv_peerSelectFoo cfg env (errInv_frame h f1) (f1.deleted.trans hl)

theorem errInv_peerHandleHtcpReply (cfg : SquidConfig) (env : Env) (p : CachePeer)
    (type : peer_t) (htcp : HtcpReplyData) {s : ps_state}
    (h : ErrInv s) (hl : s.deleted = false) :
    ErrInv (peerHandleHtcpReply cfg env p type htcp s) := by
  unfold peerHandleHtcpReply
  have f0 : ∀ pd : ping_data, Frame s { s with ping := pd } :=
    fun _ => ⟨rfl, rfl, rfl, rfl, rfl, rfl, rfl, [], by simp, by simp⟩
  have f1 : Frame s (if (type == peer_t.PEER_PARENT) = true
      then peerHtcpParentMiss cfg env p htcp
        { s with ping := { s.ping with n_recv := s.ping.n_recv + 1 } }
      else { s with ping := { s.ping with n_recv := s.ping.n_recv + 1 } }) :=
    frame_ite ((f0 _).ftrans (frame_peerHtcpParentMiss cfg env p htcp _)) (f0 _)
  refine errInv_ite ?_ (errInv_ite ?_ ?_)
  · exact errInv_peerSelectFoo cfg env
      (errInv_frame h ⟨rfl, rfl, rfl, rfl, rfl, rfl, rfl, [], by simp, by simp⟩) hl
  · exact errInv_frame h f1
  · exact errInv_peerSelectFoo cfg env (errInv_frame h f1) (f1.deleted.trans hl)

theorem errInv_aclDone (cfg : SquidConfig) (env : Env) (answer : allow_t) {s : ps_state}
    (h : ErrInv s) (hl : s.deleted = false) :
    ErrInv (peerCheckAlwaysDirectDone cfg env answer s)
    ∧ ErrInv (peerCheckNeverDirectDone cfg env answer s) := by
  unfold peerCheckAlwaysDirectDone peerCheckNeverDirectDone
  constructor
  · dsimp only
    split <;>
      exact errInv_peerSelectFoo cfg env
        (errInv_frame h ⟨rfl, rfl, rfl, rfl, rfl, rfl, rfl, [], by simp, by simp⟩) hl
  · dsimp only
    split <;>
      exact errInv_peerSelectFoo cfg env
        (errInv_frame h ⟨rfl, rfl, rfl, rfl, rfl, rfl, rfl, [], by simp, by simp⟩) hl

theorem errInv_peerPingTimeout (cfg : SquidConfig) (env : Env) {s : ps_state}
    (h : ErrInv s) (hl : s.deleted = false) : ErrInv (peerPingTimeout cfg env s) := by
  unfold peerPingTimeout
  dsimp only
  have f0 := (quiet_setPingStatus s ping_status_t.PING_DONE).toFrame
  have h0 := errInv_frame h f0
  have hl0 := f0.deleted.trans hl
  refine errInv_ite (errInv_destroy h0 hl0) ?_
  exact errInv_peerSelectFoo cfg env
    (errInv_frame h0 ⟨rfl, rfl, rfl, rfl, rfl, rfl, rfl, [], by simp, by simp⟩) hl0

theorem errInv_handlePath {s : ps_state} (h : ErrInv s) (hl : s.deleted = false)
    (path : Comm.Connection) (fs : FwdServer) : ErrInv (s.handlePath path fs) := by
  unfold ps_state.handlePath
  dsimp only
  split
  · refine ⟨h.lastError, ?_, ?_⟩
    · intro _ e hm
      rcases List.mem_append.mp hm with h1 | h1
      · exact h.live hl e h1
      · exact InitiatorCall.noConfusion (List.mem_singleton.mp h1)
    · intro e hm
      rcases List.mem_append.mp hm with h1 | h1
      · exact absurd h1 (h.live hl _)
      · exact InitiatorCall.noConfusion (List.mem_singleton.mp h1)
  · exact ⟨h.lastError, fun _ e => h.live hl e, fun e hm => absurd hm (h.live hl _)⟩

theorem errInv_noteIp (cfg : SquidConfig) (ip : Ip.Address) {s : ps_state}
    (h : ErrInv s) (hl : s.deleted = false) : ErrInv (s.noteIp cfg ip) := by
  unfold ps_state.noteIp
  refine errInv_ite (errInv_destroy h hl) (errInv_ite h ?_)
  split
  · exact h
  · dsimp only
    exact errInv_ite h (errInv_handlePath h hl _ _)

theorem errInv_setError {s : ps_state} (h : ErrInv s) (e : Option ErrorState)
    (he : ∀ x, e = some x → x.type = err_type.ERR_DNS_FAIL ∧ x.httpStatus = 503)
    (l : List FwdServer) : ErrInv { s with lastError := e, servers := l } :=
  ⟨he, h.live, h.ended⟩

theorem errorAfterLookup_status (s : ps_state) (fs : FwdServer) (ia : Bool)
    (dnsError : String)
    (h : ∀ x, s.lastError = some x → x.type = err_type.ERR_DNS_FAIL ∧ x.httpStatus = 503) :
    ∀ x, errorAfterLookup s fs ia dnsError = some x →
      x.type = err_type.ERR_DNS_FAIL ∧ x.httpStatus = 503 := by
  intro x hx
  unfold errorAfterLookup at hx
  split at hx
  · exact h x hx
  · split at hx
    · injection hx with hx
      subst hx
      exact ⟨rfl, rfl⟩
    · exact Option.noConfusion hx

theorem noteIps_eq (cfg : SquidConfig) (env : Env) (s : ps_state) (ia : Bool)
    (dnsError : String) (fs : FwdServer) (next : List FwdServer)
    (hi : s.interestedInitiator = true) (hs : s.servers = fs :: next) :
    ps_state.noteIps cfg env s ia dnsError
      = peerSelectDnsPaths cfg env
          { s with lastError := errorAfterLookup s fs ia dnsError, servers := next } := by
  unfold ps_state.noteIps errorAfterLookup
  simp only [hi, Bool.not_true, Bool.false_eq_true, if_false]
  rw [hs]
  dsimp only
  cases ia with
  | true => simp
  | false =>
    by_cases hc : fs.code = hier_code.HIER_DIRECT
    · simp [hc]
    · simp [hc]

theorem errInv_noteIps (cfg : SquidConfig) (env : Env) (ia : Bool) (dnsError : String)
    {s : ps_state} (h : ErrInv s) (hl : s.deleted = false) :
    ErrInv (ps_state.noteIps cfg env s ia dnsError) := by
  cases hi : s.interestedInitiator with
  | false =>
    unfold ps_state.noteIps
    simp only [hi, Bool.not_false, if_true]
    exact errInv_destroy h hl
  | true =>
    cases hs : s.servers with
    | nil =>
      unfold ps_state.noteIps
      simp only [hi, Bool.not_true, Bool.false_eq_true, if_false]
      rw [hs]
      exact h
    | cons fs next =>
      rw [noteIps_eq cfg env s ia dnsError fs next hi hs]
      exact errInv_peerSelectDnsPaths cfg env
        (errInv_setError h _ (errorAfterLookup_status s fs ia dnsError h.lastError) next) hl

theorem errInv_step (cfg : SquidConfig) (env : Env) (ev : Event) {s : ps_state}
    (h : ErrInv s) : ErrInv (step cfg env s ev) := by
  unfold step
  by_cases hd : s.deleted = true
  · rw [if_pos hd]
    exact h
  · have hl : s.deleted = false := by simpa using hd
    rw [if_neg hd]
    cases ev with
    | aclAnswer answer =>
      dsimp only
      split
      · exact (errInv_aclDone cfg env answer h hl).1
      · exact (errInv_aclDone cfg env answer h hl).2
      · exact h
    | icpReply p type header =>
      exact errInv_ite (errInv_peerHandleIcpReply cfg env p type header h hl) h
    | htcpReply p type htcp =>
      exact errInv_ite (errInv_peerHandleHtcpReply cfg env p type htcp h hl) h
    | pingTimeout =>
      refine errInv_ite ?_ h
      exact errInv_peerPingTimeout cfg env
        (errInv_frame h ⟨rfl, rfl, rfl, rfl, rfl, rfl, rfl, [], by simp, by simp⟩) hl
    | noteIp ip =>
      dsimp only
      split
      · exact h
      · exact errInv_noteIp cfg ip h hl
    | noteIps ia dnsError =>
      dsimp only
      split
      · exact h
      · exact errInv_noteIps cfg env ia dnsError ⟨h.lastError, h.live, h.ended⟩ hl
    | initiatorUnsubscribes =>
      exact ⟨h.lastError, h.live, h.ended⟩
    | initiatorGone =>
      exact ⟨h.lastError, h.live, h.ended⟩

theorem errInv_run (cfg : SquidConfig) (env : Env) (events : List Event) :
    ∀ s : ps_state, ErrInv s → ErrInv (run cfg env s events) := by
  unfold run
  induction events with
  | nil => intro s h; exact h
  | cons ev t ih =>
    intro s h
    rw [List.foldl_cons]
    exact ih _ (errInv_step cfg env ev h)

theorem errInv_init (cfg : SquidConfig) (initiator : PeerSelectionInitiator)
    (request : HttpRequest) (entry : Option StoreEntry) :
    ErrInv (ps_state.init cfg initiator request entry) :=
  ⟨fun _ he => Option.noConfusion he, fun _ _ hm => absurd hm (List.not_mem_nil _),
   fun _ hm => absurd hm (List.not_mem_nil _)⟩
/-- C33, the claim as stated fails: with `prefer_direct` the origin server is looked up
first; its lookup fails and stores a DNS_FAIL error, the failed lookup of the parent after
it discards that error, and the selection ends without a path and with a null error. -/
theorem noteDestinationsEnd_error_claim_fails :
    (peerSelect preferDirectConfig oneParent hierarchicalRequest none).servers
      = [{ _peer := none, code := hier_code.HIER_DIRECT },
         { _peer := some exampleParent, code := hier_code.FIRSTUP_PARENT },
         { _peer := some exampleParent, code := hier_code.ANY_OLD_PARENT }]
    ∧ (run preferDirectConfig oneParent
        (peerSelect preferDirectConfig oneParent hierarchicalRequest none)
        [Event.noteIps false "no address"]).lastError = some dnsFailure
    ∧ (run preferDirectConfig oneParent
        (peerSelect preferDirectConfig oneParent hierarchicalRequest none)
        failedLookups).calls = [InitiatorCall.noteDestinationsEnd none]
    ∧ (run preferDirectConfig oneParent
        (peerSelect preferDirectConfig oneParent hierarchicalRequest none)
        failedLookups).foundPaths = 0 := by
  decide

/-- C33, amended: `noteIps` on a selection with an interested initiator and the
destination `fs` at the head of the list first replaces the stored error: it keeps it if
addresses were found, and otherwise stores a DNS_FAIL error with status 503 if `fs` is
HIER_DIRECT and no error if `fs` is any other destination. Then either the next lookup is
started with that error stored, or the end is reported with that error if no path was
found and with a null error if one was. In every run of a selection an error passed to
`noteDestinationsEnd` is a DNS_FAIL error with status 503, and it is passed only if no
path was found and handed out. When the only destination is the origin server and its
lookup fails, that error is passed; when the lookup of the origin server fails and the
parent after it has an address, the error is null. -/
theorem noteDestinationsEnd_error (cfg : SquidConfig) (env : Env) :
    (∀ (s : ps_state) (fs : FwdServer) (next : List FwdServer) (ia : Bool) (dnsError : String),
        s.interestedInitiator = true → s.servers = fs :: next →
        ∃ paths : List Comm.Connection,
          (ps_state.noteIps cfg env s ia dnsError).foundPaths = s.foundPaths + paths.length
          ∧ (((ps_state.noteIps cfg env s ia dnsError).deleted = s.deleted
                ∧ (ps_state.noteIps cfg env s ia dnsError).lastError
                    = errorAfterLookup s fs ia dnsError
                ∧ (ps_state.noteIps cfg env s ia dnsError).calls
                    = s.calls ++ paths.map InitiatorCall.noteDestination)
            ∨ ((ps_state.noteIps cfg env s ia dnsError).deleted = true
                ∧ (ps_state.noteIps cfg env s ia dnsError).calls
                    = s.calls ++ paths.map InitiatorCall.noteDestination
                      ++ [InitiatorCall.noteDestinationsEnd
                            (if (ps_state.noteIps cfg env s ia dnsError).foundPaths = 0
                             then errorAfterLookup s fs ia dnsError else none)])))
    ∧ (∀ (request : HttpRequest) (entry : Option StoreEntry) (events : List Event)
        (e : ErrorState),
        InitiatorCall.noteDestinationsEnd (some e)
            ∈ (run cfg env (peerSelect cfg env request entry) events).calls →
          e.type = err_type.ERR_DNS_FAIL ∧ e.httpStatus = 503
          ∧ (run cfg env (peerSelect cfg env request entry) events).foundPaths = 0
          ∧ countNoteDestination (run cfg env (peerSelect cfg env request entry) events).calls
              = 0)
    ∧ (run (defaultConfig 10) noNeighbors
        (peerSelect (defaultConfig 10) noNeighbors (exampleRequest noFlags) none)
        [Event.noteIps false "no address"]).calls
        = [InitiatorCall.noteDestinationsEnd (some dnsFailure)]
    ∧ (run preferDirectConfig oneParent
        (peerSelect preferDirectConfig oneParent hierarchicalRequest none)
        lateAddress).calls
        = [InitiatorCall.noteDestination
             { remote := Ip.Address.ofOctets 198 51 100 1 3128,
               peerType := hier_code.FIRSTUP_PARENT, peer := some exampleParent },
           InitiatorCall.noteDestinationsEnd none] := by
  refine ⟨?_, ?_, by decide, by decide⟩
  · intro s fs next ia dnsError hi hs
    rw [noteIps_eq cfg env s ia dnsError fs next hi hs]
    obtain ⟨paths, hf, ho⟩ := peerSelectDnsPathsFrom_end cfg env next
      { s with lastError := errorAfterLookup s fs ia dnsError, servers := next } hi
    refine ⟨paths, hf, ?_⟩
    rcases ho with ⟨h1, h2, h3⟩ | ⟨h1, -, h3⟩
    · exact Or.inl ⟨h1, h2, h3⟩
    · exact Or.inr ⟨h1, h3⟩
  · intro request entry events e he
    have hinv : ErrInv (run cfg env (peerSelect cfg env request entry) events) :=
      errInv_run cfg env events _
        (errInv_peerSelectFoo cfg env (errInv_init cfg _ request entry) rfl)
    have hr := runInv_peerSelect cfg env request entry events
    obtain ⟨h1, h2, h3⟩ := hinv.ended e he
    refine ⟨h2, h3, h1, ?_⟩
    have := hr.found
    omega

/-! ## NetDB: the peer array of an entry -/

theorem entriesHave_store {P : netdbEntry → Prop} {db : NetDB} (inv : EntriesHave P db)
    {m : netdbEntry} (hm : P m) : EntriesHave P (db.store m) := by
  intro e he
  rcases mem_store.mp he with ⟨h1, _⟩ | ⟨rfl, _⟩
  · exact inv e h1
  · exact hm

theorem entriesHave_netdbHostDelete {P : netdbEntry → Prop} (hP : OfPeers P) {db : NetDB}
    (inv : EntriesHave P db) {n : netdbEntry} (hn : P n) (hostname : String) :
    EntriesHave P (netdbHostDelete db n hostname).1 ∧ P (netdbHostDelete db n hostname).2 := by
  have h2 : P { n with link_count := n.link_count - 1, hosts := n.hosts.erase hostname } :=
    hP.congr _ n rfl rfl hn
  unfold netdbHostDelete
  exact ⟨fun e he => entriesHave_store inv h2 e he, h2⟩

theorem entriesHave_hostDelete_fold {P : netdbEntry → Prop} (hP : OfPeers P) :
    ∀ (hosts : List String) (db : NetDB) (n : netdbEntry), EntriesHave P db → P n →
      EntriesHave P
          (hosts.foldl (fun (st : NetDB × netdbEntry) x => netdbHostDelete st.1 st.2 x) (db, n)).1
      ∧ P (hosts.foldl (fun (st : NetDB × netdbEntry) x => netdbHostDelete st.1 st.2 x)
            (db, n)).2 := by
  intro hosts
  induction hosts with
  | nil => intro db n inv hn; exact ⟨inv, hn⟩
  | cons x rest ih =>
    intro db n inv hn
    rw [List.foldl_cons]
    obtain ⟨i1, i2⟩ := entriesHave_netdbHostDelete hP inv hn x
    exact ih _ _ i1 i2

theorem entriesHave_netdbHashDelete {P : netdbEntry → Prop} {db : NetDB}
    (inv : EntriesHave P db) (key : Ip.Address) : EntriesHave P (netdbHashDelete db key) := by
  intro e he
  unfold netdbHashDelete at he
  exact inv e (List.mem_filter.mp he).1

theorem entriesHave_netdbRelease {P : netdbEntry → Prop} (hP : OfPeers P) {db : NetDB}
    (inv : EntriesHave P db) {n : netdbEntry} (hn : P n) : EntriesHave P (netdbRelease db n) := by
  obtain ⟨i1, _⟩ := entriesHave_hostDelete_fold hP n.hosts db n inv hn
  unfold netdbRelease
  simp only
  generalize n.hosts.foldl (fun (st : NetDB × netdbEntry) x => netdbHostDelete st.1 st.2 x)
    (db, n) = r at i1
  have i4 : EntriesHave P (r.1.store { r.2 with hosts := [], peers := [], n_peers_alloc := 0 }) :=
    entriesHave_store i1 (hP.empty _ rfl)
  split
  · exact entriesHave_netdbHashDelete i4 _
  · exact i4

theorem entriesHave_netdbPurgeLRULoop {P : netdbEntry → Prop} (hP : OfPeers P) (cfg : Netdb) :
    ∀ (l : List netdbEntry) (db : NetDB), EntriesHave P db → (∀ n ∈ l, P n) →
      EntriesHave P (netdbPurgeLRULoop cfg l db) := by
  intro l
  induction l with
  | nil =>
    intro db inv _
    rw [netdbPurgeLRULoop]
    exact inv
  | cons n rest ih =>
    intro db inv hl
    rw [netdbPurgeLRULoop]
    split
    · exact inv
    · exact ih _ (entriesHave_netdbRelease hP inv (hl n (List.mem_cons_self _ _)))
        (fun m hm => hl m (List.mem_cons_of_mem _ hm))

theorem entriesHave_netdbPurgeLRU {P : netdbEntry → Prop} (hP : OfPeers P) (cfg : Netdb)
    {db : NetDB} (inv : EntriesHave P db) : EntriesHave P (netdbPurgeLRU cfg db) := by
  unfold netdbPurgeLRU
  have hp : (qsortLRU db.addr_table).Perm db.addr_table := List.perm_insertionSort _ _
  exact entriesHave_netdbPurgeLRULoop hP cfg _ db inv (fun n hn => inv n (hp.mem_iff.mp hn))

theorem entriesHave_netdbAdd {P : netdbEntry → Prop} (hP : OfPeers P) (cfg : Netdb)
    {db : NetDB} (inv : EntriesHave P db) (addr : Ip.Address) :
    EntriesHave P (netdbAdd cfg db addr).1 ∧ P (netdbAdd cfg db addr).2 := by
  have inv1 : EntriesHave P (if UseCount db > cfg.high then netdbPurgeLRU cfg db else db) := by
    split
    · exact entriesHave_netdbPurgeLRU hP cfg inv
    · exact inv
  unfold netdbAdd
  simp only
  generalize (if UseCount db > cfg.high then netdbPurgeLRU cfg db else db) = db1 at inv1
  cases hl : netdbLookupAddr db1 addr with
  | some n => exact ⟨inv1, inv1 n (netdbLookupAddr_mem hl).1⟩
  | none =>
    refine ⟨?_, hP.empty _ rfl⟩
    intro e he
    rcases List.mem_append.mp he with h | h
    · exact inv1 e h
    · rw [List.mem_singleton.mp h]
      exact hP.empty _ rfl

theorem entriesHave_netdbUpdatePeer {P : netdbEntry → Prop} (squid_curtime : Int)
    {db : NetDB} (host : String) (e : CachePeer) (irtt ihops : Int)
    (hrec : ∀ n : netdbEntry, P n → P (netdbRecordPeer squid_curtime n e (irtt : ℚ) (ihops : ℚ)))
    (inv : EntriesHave P db) :
    EntriesHave P (netdbUpdatePeer squid_curtime db host e irtt ihops) := by
  unfold netdbUpdatePeer
  simp only
  cases hl : netdbLookupHost db host with
  | none => exact inv
  | some n => exact entriesHave_store inv (hrec n (inv n (netdbLookupHost_some hl).1))

theorem entriesHave_netdbExchangeUpdatePeer {P : netdbEntry → Prop} (hP : OfPeers P)
    (cfg : Netdb) (squid_curtime : Int) {db : NetDB} (addr : Ip.Address) (e : CachePeer)
    (rtt hops : ℚ)
    (hrec : ∀ n : netdbEntry, P n → P (netdbRecordPeer squid_curtime n e rtt hops))
    (inv : EntriesHave P db) :
    EntriesHave P (netdbExchangeUpdatePeer cfg squid_curtime db addr e rtt hops) := by
  unfold netdbExchangeUpdatePeer
  split
  · exact inv
  · simp only
    cases hl : netdbLookupAddr db addr with
    | some n => exact entriesHave_store inv (hrec n (inv n (netdbLookupAddr_mem hl).1))
    | none =>
      obtain ⟨a1, a2⟩ := entriesHave_netdbAdd hP cfg inv addr
      exact entriesHave_store a1 (hrec _ a2)

theorem ofPeers_peerSlots : OfPeers PeerSlots := by
  constructor
  · intro m n hp ha h
    exact ⟨hp ▸ h.names, by rw [hp, ha]; exact h.alloc, hp ▸ h.sorted⟩
  · intro n hn
    exact ⟨by rw [hn]; exact List.nodup_nil, by rw [hn]; exact Nat.zero_le _,
      by rw [hn]; exact List.sorted_nil⟩

theorem ofPeers_slotsIn (L : List String) : OfPeers (SlotsIn L) := by
  constructor
  · intro m n hp ha h
    exact ⟨ofPeers_peerSlots.congr m n hp ha h.1, by rw [hp]; exact h.2⟩
  · intro n hn
    refine ⟨ofPeers_peerSlots.empty n hn, ?_⟩
    rw [hn]
    intro p hp
    exact absurd hp (List.not_mem_nil _)

theorem netdbRecordPeer_alloc (squid_curtime : Int) (n : netdbEntry) (e : CachePeer)
    (rtt hops : ℚ) :
    (netdbRecordPeer squid_curtime n e rtt hops).n_peers_alloc
      = if (netdbPeerByName n e.host).isSome then n.n_peers_alloc
        else if n.peers.length = n.n_peers_alloc then
          (if n.n_peers_alloc = 0 then 2 else n.n_peers_alloc * 2)
        else n.n_peers_alloc := by
  rw [netdbRecordPeer_eq]
  cases hf : netdbPeerByName n e.host with
  | some p =>
    simp only [Option.isSome_some, if_true]
    split <;> rfl
  | none =>
    simp only [Option.isSome_none, Bool.false_eq_true, if_false]
    have ha : (netdbPeerAdd n e).n_peers_alloc
        = if n.peers.length = n.n_peers_alloc then
            (if n.n_peers_alloc = 0 then 2 else n.n_peers_alloc * 2)
          else n.n_peers_alloc := by
      unfold netdbPeerAdd
      by_cases h1 : n.peers.length = n.n_peers_alloc
      · by_cases h2 : n.n_peers_alloc = 0
        · simp [h1, h2]
        · simp [h1, h2]
      · simp [h1]
    rw [← ha]
    split <;> rfl

theorem peerSlots_netdbRecordPeer (squid_curtime : Int) (n : netdbEntry) (e : CachePeer)
    (rtt hops : ℚ) (h : PeerSlots n) : PeerSlots (netdbRecordPeer squid_curtime n e rtt hops) := by
  refine ⟨(netdbRecordPeer_found squid_curtime n e rtt hops h.names).2, ?_,
    (netdbRecordPeer_slot squid_curtime n e rtt hops).1⟩
  rw [netdbRecordPeer_length, netdbRecordPeer_alloc]
  have ha := h.alloc
  cases hf : netdbPeerByName n e.host with
  | some p => simpa using ha
  | none =>
    simp only [Option.isSome_none, Bool.false_eq_true, if_false]
    by_cases h1 : n.peers.length = n.n_peers_alloc
    · rw [if_pos h1]
      by_cases h2 : n.n_peers_alloc = 0
      · rw [if_pos h2]
        omega
      · rw [if_neg h2]
        omega
    · rw [if_neg h1]
      omega

theorem netdbRecordPeer_names (squid_curtime : Int) (n : netdbEntry) (e : CachePeer)
    (rtt hops : ℚ) :
    ∀ p ∈ (netdbRecordPeer squid_curtime n e rtt hops).peers,
      p.peername = e.host ∨ ∃ q ∈ n.peers, q.peername = p.peername := by
  intro p hp
  obtain ⟨_, _, p3, _⟩ := netdbRecordPeer_slot squid_curtime n e rtt hops
  have hm := p3.mem_iff.mp hp
  have hname : p.peername ∈ (writePeerSlot e.host rtt hops (squid_curtime + 3600)
      (match netdbPeerByName n e.host with
        | some _ => n.peers
        | none => n.peers ++ [{ peername := e.host, hops := 0, rtt := 0, expires := 0 }])).map
      (fun q => q.peername) := List.mem_map_of_mem _ hm
  rw [writePeerSlot_names] at hname
  obtain ⟨q, hq, hqn⟩ := List.mem_map.mp hname
  cases hf : netdbPeerByName n e.host with
  | some x =>
    rw [hf] at hq
    exact Or.inr ⟨q, hq, hqn⟩
  | none =>
    rw [hf] at hq
    rcases List.mem_append.mp hq with h | h
    · exact Or.inr ⟨q, h, hqn⟩
    · rw [List.mem_singleton.mp h] at hqn
      exact Or.inl hqn.symm

theorem slotsIn_netdbRecordPeer (L : List String) (squid_curtime : Int) (n : netdbEntry)
    (e : CachePeer) (rtt hops : ℚ) (he : e.host ∈ L) (h : SlotsIn L n) :
    SlotsIn L (netdbRecordPeer squid_curtime n e rtt hops) := by
  refine ⟨peerSlots_netdbRecordPeer squid_curtime n e rtt hops h.1, ?_⟩
  intro p hp
  rcases netdbRecordPeer_names squid_curtime n e rtt hops p hp with h1 | ⟨q, hq, hqn⟩
  · rw [h1]
    exact he
  · rw [← hqn]
    exact h.2 q hq

theorem entriesHave_applyPeerUpdate {P : netdbEntry → Prop} (hP : OfPeers P) (cfg : Netdb)
    (squid_curtime : Int) {db : NetDB} (u : PeerUpdate)
    (hrec : ∀ (n : netdbEntry) (e : CachePeer) (rtt hops : ℚ), e.host = u.peername → P n →
      P (netdbRecordPeer squid_curtime n e rtt hops))
    (inv : EntriesHave P db) : EntriesHave P (applyPeerUpdate cfg squid_curtime db u) := by
  cases u with
  | update host e irtt ihops =>
    exact entriesHave_netdbUpdatePeer squid_curtime host e irtt ihops
      (fun n hn => hrec n e _ _ rfl hn) inv
  | exchange addr e rtt hops =>
    exact entriesHave_netdbExchangeUpdatePeer hP cfg squid_curtime addr e rtt hops
      (fun n hn => hrec n e _ _ rfl hn) inv

theorem peerSlots_applyPeerUpdate (cfg : Netdb) (squid_curtime : Int) {db : NetDB}
    (u : PeerUpdate) (inv : EntriesHave PeerSlots db) :
    EntriesHave PeerSlots (applyPeerUpdate cfg squid_curtime db u) :=
  entriesHave_applyPeerUpdate ofPeers_peerSlots cfg squid_curtime u
    (fun n e rtt hops _ hn => peerSlots_netdbRecordPeer squid_curtime n e rtt hops hn) inv

theorem slotsIn_foldl (L : List String) (cfg : Netdb) (squid_curtime : Int) :
    ∀ (updates : List PeerUpdate) (db : NetDB), (∀ u ∈ updates, u.peername ∈ L) →
      EntriesHave (SlotsIn L) db →
      EntriesHave (SlotsIn L) (updates.foldl (applyPeerUpdate cfg squid_curtime) db) := by
  intro updates
  induction updates with
  | nil => intro db _ inv; exact inv
  | cons u rest ih =>
    intro db hL inv
    rw [List.foldl_cons]
    refine ih _ (fun v hv => hL v (List.mem_cons_of_mem _ hv)) ?_
    refine entriesHave_applyPeerUpdate (ofPeers_slotsIn L) cfg squid_curtime u ?_ inv
    intro n e rtt hops he hn
    exact slotsIn_netdbRecordPeer L squid_curtime n e rtt hops
      (he ▸ hL u (List.mem_cons_self _ _)) hn

theorem slotsIn_length {L : List String} {n : netdbEntry} (h : SlotsIn L n) :
    n.peers.length ≤ L.dedup.length := by
  have hsub : n.peers.map (fun p => p.peername) ⊆ L.dedup := by
    intro x hx
    obtain ⟨p, hp, rfl⟩ := List.mem_map.mp hx
    exact List.mem_dedup.mpr (h.2 p hp)
  have := (List.subperm_of_subset h.1.names hsub).length_le
  simpa using this
theorem entriesHave_of_no_peers {P : netdbEntry → Prop} (hP : OfPeers P) {db : NetDB}
    (h : ∀ n ∈ db.addr_table, n.peers = []) : EntriesHave P db :=
  fun n hn => hP.empty n (h n hn)

theorem peerSlots_foldl (cfg : Netdb) (squid_curtime : Int) :
    ∀ (updates : List PeerUpdate) (db : NetDB), EntriesHave PeerSlots db →
      EntriesHave PeerSlots (updates.foldl (applyPeerUpdate cfg squid_curtime) db) := by
  intro updates
  induction updates with
  | nil => intro db inv; exact inv
  | cons u rest ih =>
    intro db inv
    rw [List.foldl_cons]
    exact ih _ (peerSlots_applyPeerUpdate cfg squid_curtime u inv)

theorem netdbPeerByName_isSome (n : netdbEntry) (peername : String) :
    (netdbPeerByName n peername).isSome = true ↔ netdbPeerByName n peername ≠ none := by
  cases netdbPeerByName n peername <;> simp

/-- C39: a call of `netdbUpdatePeer` or `netdbExchangeUpdatePeer` keeps the peer arrays
of all entries well formed: slot names distinct, `n_peers` at most `n_peers_alloc`. On
the entry it writes to, a slot is added only if `netdbPeerByName` finds none with the host
name of the peer; otherwise the number of slots stays and the slot of that name is
overwritten. After any sequence of such calls on tables without peer slots, every entry
has distinct slot names, `n_peers <= n_peers_alloc`, and at most as many slots as there
are distinct peer names among the calls. Four measurements from two peers leave two
slots. -/
theorem netdbPeerSlots_distinct (cfg : Netdb) (squid_curtime : Int) :
    (∀ (db : NetDB) (u : PeerUpdate), EntriesHave PeerSlots db →
        EntriesHave PeerSlots (applyPeerUpdate cfg squid_curtime db u))
    ∧ (∀ (n : netdbEntry) (e : CachePeer) (rtt hops : ℚ), PeerSlots n →
        PeerSlots (netdbRecordPeer squid_curtime n e rtt hops)
        ∧ (netdbPeerByName n e.host ≠ none →
            (netdbRecordPeer squid_curtime n e rtt hops).peers.length = n.peers.length)
        ∧ (netdbPeerByName n e.host = none →
            (netdbRecordPeer squid_curtime n e rtt hops).peers.length = n.peers.length + 1)
        ∧ netdbPeerByName (netdbRecordPeer squid_curtime n e rtt hops) e.host
            = some { peername := e.host, hops := hops, rtt := rtt,
                     expires := squid_curtime + 3600 })
    ∧ (∀ (db : NetDB) (updates : List PeerUpdate), (∀ n ∈ db.addr_table, n.peers = []) →
        ∀ n ∈ (updates.foldl (applyPeerUpdate cfg squid_curtime) db).addr_table,
          (n.peers.map (fun p => p.peername)).Nodup
          ∧ n.peers.length ≤ n.n_peers_alloc
          ∧ n.peers.length ≤ (updates.map PeerUpdate.peername).dedup.length)
    ∧ (repeatedUpdates.foldl (applyPeerUpdate exampleNetdb 1000) emptyDB).addr_table.map
          (fun n => (n.peers.map (fun p => (p.peername, p.rtt)), n.n_peers_alloc))
        = [([("parent.example", 10), ("near.example", 40)], 2)] := by
  refine ⟨?_, ?_, ?_, by decide!⟩
  · intro db u inv
    exact peerSlots_applyPeerUpdate cfg squid_curtime u inv
  · intro n e rtt hops h
    refine ⟨peerSlots_netdbRecordPeer squid_curtime n e rtt hops h, ?_, ?_,
      (netdbRecordPeer_found squid_curtime n e rtt hops h.names).1⟩
    · intro hf
      rw [netdbRecordPeer_length, if_pos ((netdbPeerByName_isSome n e.host).mpr hf)]
    · intro hf
      rw [netdbRecordPeer_length, hf]
      rfl
  · intro db updates h0 n hn
    have inv := slotsIn_foldl (updates.map PeerUpdate.peername) cfg squid_curtime updates db
      (fun u hu => List.mem_map_of_mem _ hu)
      (entriesHave_of_no_peers (ofPeers_slotsIn _) h0) n hn
    exact ⟨inv.1.names, inv.1.alloc, slotsIn_length inv⟩
/-! ## NetDB: the closest parent is the one measured nearest -/

theorem netdbClosestParentLoop_first (cfg : SquidConfig) (env : Env) (request : HttpRequest)
    (n : netdbEntry) (p : CachePeer) :
    ∀ l : List net_db_peer, netdbClosestParentLoop cfg env request n l = some p →
      ∃ (pre : List net_db_peer) (slot : net_db_peer) (post : List net_db_peer),
        l = pre ++ slot :: post
        ∧ (∀ h ∈ pre, findUsableParentAtHostname cfg env h.peername request = none)
        ∧ findUsableParentAtHostname cfg env slot.peername request = some p := by
  intro l
  induction l with
  | nil =>
    intro h
    rw [netdbClosestParentLoop] at h
    exact Option.noConfusion h
  | cons a rest ih =>
    intro h
    rw [netdbClosestParentLoop] at h
    split at h
    · exact Option.noConfusion h
    · cases hf : findUsableParentAtHostname cfg env a.peername request with
      | some q =>
        rw [hf] at h
        simp only [Option.some.injEq] at h
        subst h
        exact ⟨[], a, rest, rfl, fun _ hx => absurd hx (List.not_mem_nil _), hf⟩
      | none =>
        rw [hf] at h
        simp only at h
        obtain ⟨pre, slot, post, h1, h2, h3⟩ := ih h
        refine ⟨a :: pre, slot, post, by rw [h1]; rfl, ?_, h3⟩
        intro x hx
        rcases List.mem_cons.mp hx with hxa | hxp
        · rw [hxa]
          exact hf
        · exact h2 x hxp

theorem closestParentEntry_mem {env : Env} {request : HttpRequest} {n : netdbEntry}
    (h : closestParentEntry env request = some n) : n ∈ env.netdb.addr_table := by
  unfold closestParentEntry at h
  cases h1 : netdbLookupHost env.netdb request.url_host with
  | some m =>
    rw [h1] at h
    simp only [Option.some.injEq] at h
    subst h
    exact (netdbLookupHost_some h1).1
  | none =>
    rw [h1] at h
    simp only at h
    cases h2 : env.ipcache_gethostbyname request.url_host with
    | none =>
      rw [h2] at h
      exact Option.noConfusion h
    | some ia =>
      rw [h2] at h
      exact (netdbLookupAddr_mem h).1

/-- C35: when `netdbClosestParent` returns a parent and the peer array of the entry is in
ascending RTT order, the parent was found at a slot whose recorded RTT is not greater than
that of any slot of the entry that names a usable parent. The order holds for every entry
of tables whose peer arrays are well formed, and `netdbUpdatePeer` and
`netdbExchangeUpdatePeer` keep them so. Of the two usable parents recorded at 20 and at
10, the one at 10 is returned although the other one comes first in `Config.peers`. -/
theorem netdbClosestParent_least_rtt (cfg : SquidConfig) (env : Env) (request : HttpRequest) :
    (∀ (p : CachePeer) (n : netdbEntry), netdbClosestParent cfg env request = some p →
        closestParentEntry env request = some n →
        n.peers.Sorted (fun p1 p2 => p1.rtt ≤ p2.rtt) →
        ∃ slot ∈ n.peers,
          findUsableParentAtHostname cfg env slot.peername request = some p
          ∧ ∀ other ∈ n.peers,
              findUsableParentAtHostname cfg env other.peername request ≠ none →
              slot.rtt ≤ other.rtt)
    ∧ (EntriesHave PeerSlots env.netdb → ∀ n : netdbEntry,
        closestParentEntry env request = some n →
        n.peers.Sorted (fun p1 p2 => p1.rtt ≤ p2.rtt))
    ∧ (∀ (netcfg : Netdb) (squid_curtime : Int) (db : NetDB) (updates : List PeerUpdate),
        EntriesHave PeerSlots db →
        EntriesHave PeerSlots (updates.foldl (applyPeerUpdate netcfg squid_curtime) db))
    ∧ EntriesHave PeerSlots threePeersDB
    ∧ netdbClosestParent nearParentConfig threePeersEnv (exampleRequest noFlags)
        = some nearParent := by
  refine ⟨?_, ?_, ?_, ?_, by decide!⟩
  · intro p n hp he hs
    rw [netdbClosestParent_eq, he] at hp
    simp only at hp
    by_cases hz : (n.peers.length == 0) = true
    · rw [if_pos hz] at hp
      exact Option.noConfusion hp
    · rw [if_neg hz] at hp
      obtain ⟨pre, slot, post, h1, h2, h3⟩ :=
        netdbClosestParentLoop_first cfg env request n p n.peers hp
      refine ⟨slot, by rw [h1]; simp, h3, ?_⟩
      intro other ho hu
      rw [h1] at ho hs
      rcases List.mem_append.mp ho with hpre | hrest
      · exact absurd (h2 other hpre) hu
      · have hs2 := (List.pairwise_append.mp hs).2.1
        rcases List.mem_cons.mp hrest with heq | hpost
        · rw [heq]
        · exact (List.pairwise_cons.mp hs2).1 other hpost
  · intro inv n he
    exact (inv n (closestParentEntry_mem he)).sorted
  · intro netcfg squid_curtime db updates inv
    exact peerSlots_foldl netcfg squid_curtime updates db inv
  · intro n hn
    have hn2 : n = threePeersEntry := by simpa [threePeersDB] using hn
    subst hn2
    exact ⟨by decide, by decide, by decide!⟩

/-! ## The forwarding client: `completeForwarding` runs only when adaptation is done -/

namespace Client

theorem guarded_refl (s : State) : Guarded s s :=
  ⟨[], by simp, fun _ _ _ h => absurd h (List.not_mem_nil _), fun h => h⟩

theorem Guarded.gthen {a b c : State} (h1 : Guarded a b) (h2 : Guarded b c) : Guarded a c := by
  obtain ⟨e1, he1, hd1, hf1⟩ := h1
  obtain ⟨e2, he2, hd2, hf2⟩ := h2
  refine ⟨e1 ++ e2, by rw [he2, he1, List.append_assoc], ?_, fun h => hf1 (hf2 h)⟩
  intro d st r hm
  rcases List.mem_append.mp hm with h | h
  · exact hd1 d st r h
  · exact hd2 d st r h

theorem guarded_same {s t : State} (hc : t.calls = s.calls) (hf : t.failure = s.failure) :
    Guarded s t :=
  ⟨[], by simp [hc], fun _ _ _ h => absurd h (List.not_mem_nil _), fun h => hf ▸ h⟩

theorem guarded_call (s : State) (c : Call) (hc : c.isGhost = false) :
    Guarded s (s.call c) := by
  refine ⟨[c], rfl, ?_, fun h => h⟩
  intro d st r hmem
  rw [List.mem_singleton] at hmem
  subst hmem
  cases hc

theorem guarded_fail (s : State) (what : String)
    (h : what ≠ "Assure(doneWithAdaptation())") : Guarded s (s.fail what) := by
  refine ⟨[], by simp [State.fail], fun _ _ _ hm => absurd hm (List.not_mem_nil _), ?_⟩
  intro hf
  have : what = "Assure(doneWithAdaptation())" := by
    simpa [State.fail] using hf
  exact absurd this h

theorem guarded_ite {s a b : State} {c : Prop} [Decidable c] (ha : Guarded s a)
    (hb : Guarded s b) : Guarded s (if c then a else b) := by
  split
  · exact ha
  · exact hb

theorem guarded_completeForwarding (s : State) (hd : doneWithAdaptation s = true) :
    Guarded s (completeForwarding s) := by
  rw [completeForwarding_eq s hd]
  refine ⟨_, by rw [List.append_assoc, List.append_assoc], ?_, fun h => h⟩
  intro d st r hm
  revert hm
  cases s.startedAdaptation <;> cases s.receivedWholeAdaptedReply <;>
    cases s.markedParsedVirginReplyAsWhole <;> simp <;> intros <;> assumption

theorem guarded_done_then_complete (s : State) :
    Guarded s (if !doneWithAdaptation s then s else completeForwarding s) := by
  by_cases hd : doneWithAdaptation s = true
  · simp only [hd, Bool.not_true, Bool.false_eq_true, if_false]
    exact guarded_completeForwarding s hd
  · have hd2 : doneWithAdaptation s = false := by simpa using hd
    simp only [hd2, Bool.not_false, if_true]
    exact guarded_refl s

theorem guarded_serverComplete2 (s : State) : Guarded s (serverComplete2 s) := by
  have h1 : Guarded s
      (if s.virginBodyDestination.isSome then { s with virginBodyDestination := none } else s) :=
    guarded_ite (guarded_same rfl rfl) (guarded_refl s)
  exact h1.gthen (guarded_done_then_complete _)

theorem guarded_handleAdaptationCompleted (o : Obs) (s : State)
    (hd : doneWithAdaptation s = true) : Guarded s (handleAdaptationCompleted o s) := by
  unfold handleAdaptationCompleted
  rw [cleanAdaptation_done s hd]
  simp only
  refine guarded_ite (guarded_refl s) ?_
  by_cases hm : o.mayReadVirginReplyBody = true
  · simp only [hm, if_true]
    have hc : Guarded s (closeServer s) :=
      (guarded_same (s := s) (t := { s with doneWithServer := true }) rfl rfl).gthen
        (guarded_call _ _ (by rfl))
    exact hc.gthen (guarded_completeForwarding _ hd)
  · simp only [hm, if_false]
    exact guarded_completeForwarding s hd

theorem guarded_done_completed (o : Obs) (s : State) :
    Guarded s (if doneWithAdaptation s then handleAdaptationCompleted o s else s) := by
  by_cases hd : doneWithAdaptation s = true
  · rw [if_pos hd]
    exact guarded_handleAdaptationCompleted o s hd
  · rw [if_neg hd]
    exact guarded_refl s

theorem guarded_closeServer (s : State) : Guarded s (closeServer s) :=
  (guarded_same (s := s) (t := { s with doneWithServer := true }) rfl rfl).gthen
    (guarded_call _ _ (by rfl))

theorem guarded_abortOnData (s : State) (reason : String) : Guarded s (abortOnData s reason) :=
  guarded_call _ _ (by rfl)

theorem guarded_abortOnBadEntry (o : Obs) (s : State) (reason : String) :
    Guarded s (abortOnBadEntry o s reason).1 := by
  unfold abortOnBadEntry
  split
  · exact guarded_refl s
  · exact guarded_abortOnData s reason

theorem guarded_serverComplete (s : State) :
    Guarded s (serverComplete s) := by
  have h1 : Guarded s (if !s.doneWithServer then closeServer s else s) :=
    guarded_ite (guarded_closeServer s) (guarded_refl s)
  unfold serverComplete
  simp only
  generalize (if !s.doneWithServer then closeServer s else s) = s1 at h1
  have h3 : Guarded s1
      (if s1.requestBodySource.isSome
        then { s1 with completed := true, requestBodySource := none }
        else { s1 with completed := true }) :=
    guarded_ite (guarded_same rfl rfl) (guarded_same rfl rfl)
  exact h1.gthen (h3.gthen (guarded_ite (guarded_refl _) (guarded_serverComplete2 _)))

theorem guarded_doneSendingRequestBody (s : State) : Guarded s (doneSendingRequestBody s) :=
  guarded_ite (guarded_fail _ _ (by decide)) (guarded_same rfl rfl)

theorem guarded_sendMoreRequestBody (o : Obs) (s : State) :
    Guarded s (sendMoreRequestBody o s) := by
  unfold sendMoreRequestBody
  cases hp : s.requestBodySource with
  | none => exact guarded_fail _ _ (by decide)
  | some pipe =>
    exact guarded_ite (guarded_fail _ _ (by decide)) (guarded_ite (guarded_refl _)
      (guarded_ite ((guarded_same rfl rfl).gthen (guarded_call _ _ (by rfl)))
        (guarded_same rfl rfl)))

theorem guarded_handleMoreRequestBodyAvailable (o : Obs) (s : State) :
    Guarded s (handleMoreRequestBodyAvailable o s) :=
  guarded_ite (guarded_sendMoreRequestBody o s) (guarded_refl s)

theorem guarded_handleRequestBodyProductionEnded (s : State) :
    Guarded s (handleRequestBodyProductionEnded s) :=
  (guarded_same (s := s) (t := { s with receivedWholeRequestBody := true }) rfl rfl).gthen
    (guarded_ite (guarded_doneSendingRequestBody _) (guarded_refl _))

theorem guarded_handleRequestBodyProducerAborted (s : State) :
    Guarded s (handleRequestBodyProducerAborted s) :=
  (guarded_call s _ (by rfl)).gthen (guarded_same rfl rfl)

theorem guarded_sentRequestBody (o : Obs) (s : State) (io : CommIoCbParams) :
    Guarded s (sentRequestBody o s io) := by
  have h1 : Guarded s
      (if io.size > 0 then ({ s with requestSender := false } : State).call
          (Call.fdBytes io.fd io.size)
        else { s with requestSender := false }) :=
    (guarded_same (s := s) (t := { s with requestSender := false }) rfl rfl).gthen
      (guarded_ite (guarded_call _ _ (by rfl)) (guarded_refl _))
  unfold sentRequestBody
  simp only
  generalize (if io.size > 0 then ({ s with requestSender := false } : State).call
          (Call.fdBytes io.fd io.size)
        else { s with requestSender := false }) = s1 at h1
  refine h1.gthen (guarded_ite (guarded_refl _) ?_)
  cases hp : s1.requestBodySource with
  | none => exact guarded_refl _
  | some pipe =>
    refine (guarded_call s1 Call.notePeerWrite rfl).gthen ?_
    exact guarded_ite ((guarded_call _ _ (by rfl)).gthen (guarded_abortOnData _ _))
      (guarded_ite (guarded_abortOnData _ _)
        (guarded_ite (guarded_sendMoreRequestBody _ _)
          (guarded_ite (guarded_doneSendingRequestBody _) (guarded_refl _))))

theorem guarded_foldl_calls (f : List Char → Call) (hf : ∀ u, (f u).isGhost = false) :
    ∀ (l : List (List Char)) (s : State),
      Guarded s (l.foldl (fun st url => st.call (f url)) s) := by
  intro l
  induction l with
  | nil => intro s; exact guarded_refl s
  | cons u t ih =>
    intro s
    rw [List.foldl_cons]
    exact (guarded_call s (f u) (hf u)).gthen (ih _)

theorem guarded_haveParsedReplyHeaders (lib : UriLib) (s : State) (rep : HttpReply) :
    Guarded s (haveParsedReplyHeaders lib s rep) := by
  have h1 := guarded_foldl_calls Call.purgeEntriesByUrl (fun _ => rfl)
    (maybePurgeOthers lib s.request rep) s
  unfold haveParsedReplyHeaders
  simp only
  generalize (maybePurgeOthers lib s.request rep).foldl
    (fun st url => st.call (Call.purgeEntriesByUrl url)) s = s1 at h1
  cases rep.contentRangeOffset with
  | none => exact h1.gthen (guarded_same rfl rfl)
  | some offset => exact h1.gthen (guarded_same rfl rfl)

theorem guarded_setFinalReply (lib : UriLib) (o : Obs) (s : State) (rep : HttpReply) :
    Guarded s (setFinalReply lib o s rep) := by
  unfold setFinalReply
  refine guarded_ite (guarded_fail _ _ (by decide)) ?_
  simp only
  refine (guarded_same (s := s) (t := { s with theFinalReply := some rep }) rfl rfl).gthen ?_
  refine (guarded_call _ (Call.entryReplaceHttpReply rep) rfl).gthen ?_
  refine (guarded_haveParsedReplyHeaders lib _ rep).gthen ?_
  exact (guarded_ite (guarded_call _ _ (by rfl)) (guarded_refl _)).gthen (guarded_call _ _ (by rfl))

theorem guarded_setVirginReply (s : State) (rep : HttpReply) :
    Guarded s (setVirginReply s rep) :=
  guarded_ite (guarded_fail _ _ (by decide)) (guarded_same rfl rfl)

theorem guarded_cleanAdaptation (s : State) : Guarded s (cleanAdaptation s) := by
  have h1 : Guarded s
      (if s.virginBodyDestination.isSome then { s with virginBodyDestination := none } else s) :=
    guarded_ite (guarded_same rfl rfl) (guarded_refl s)
  unfold cleanAdaptation
  simp only
  generalize (if s.virginBodyDestination.isSome
    then { s with virginBodyDestination := none } else s) = s1 at h1
  have h2 : Guarded s1
      (if s1.adaptedHeadSource then
        ({ s1 with adaptedHeadSource := false } : State).call Call.noteInitiatorAborted
       else s1) :=
    guarded_ite ((guarded_same (s := s1) (t := { s1 with adaptedHeadSource := false }) rfl
      rfl).gthen
        (guarded_call _ _ (by rfl))) (guarded_refl _)
  generalize (if s1.adaptedHeadSource then
        ({ s1 with adaptedHeadSource := false } : State).call Call.noteInitiatorAborted
       else s1) = s2 at h2
  have h3 : Guarded s2
      (if s2.adaptedBodySource.isSome then { s2 with adaptedBodySource := none } else s2) :=
    guarded_ite (guarded_same rfl rfl) (guarded_refl _)
  generalize (if s2.adaptedBodySource.isSome
    then { s2 with adaptedBodySource := none } else s2) = s3 at h3
  exact h1.gthen (h2.gthen (h3.gthen
    (guarded_ite (guarded_ite (guarded_refl _) (guarded_fail _ _ (by decide))) (guarded_refl _))))

theorem guarded_checkAdaptationWithBodyCompletion (o : Obs) (s : State) :
    Guarded s (checkAdaptationWithBodyCompletion o s) := by
  unfold checkAdaptationWithBodyCompletion
  cases hp : s.adaptedBodySource with
  | none => exact guarded_refl s
  | some pipe =>
    refine guarded_ite (guarded_refl _) (guarded_ite (guarded_refl _) ?_)
    simp only
    refine (guarded_same (s := s) (t := { s with adaptedBodySource := none }) rfl rfl).gthen ?_
    exact guarded_done_completed o _

theorem guarded_handleMoreAdaptedBodyAvailable (o : Obs) (s : State) :
    Guarded s (handleMoreAdaptedBodyAvailable o s) := by
  unfold handleMoreAdaptedBodyAvailable
  refine guarded_ite (guarded_abortOnBadEntry o s _) ?_
  cases hp : s.adaptedBodySource with
  | none => exact guarded_fail _ _ (by decide)
  | some pipe =>
    refine guarded_ite (guarded_refl _) ?_
    simp only
    have h1 : Guarded s (if o.bytesWanted pipe.buf.length < pipe.buf.length
        then s.call Call.entryDeferProducer else s) :=
      guarded_ite (guarded_call s _ (by rfl)) (guarded_refl s)
    have hb : (if o.bytesWanted pipe.buf.length < pipe.buf.length
        then s.call Call.entryDeferProducer else s).adaptedBodySource = some pipe := by
      split <;> exact hp
    generalize (if o.bytesWanted pipe.buf.length < pipe.buf.length
        then s.call Call.entryDeferProducer else s) = s1 at h1 hb
    refine h1.gthen (guarded_ite (guarded_refl _) ?_)
    refine Guarded.gthen (b := s1.call (Call.entryWrite s1.currentOffset (pipe.buf.take
      (if o.bytesWanted pipe.buf.length < pipe.buf.length then o.bytesWanted pipe.buf.length
        else pipe.buf.length)))) (guarded_call _ _ rfl) ?_
    exact guarded_same rfl rfl

theorem guarded_resumeBodyStorage (o : Obs) (s : State) :
    Guarded s (resumeBodyStorage o s) := by
  unfold resumeBodyStorage
  refine guarded_ite (guarded_abortOnBadEntry o s _) (guarded_ite (guarded_refl _) ?_)
  exact (guarded_handleMoreAdaptedBodyAvailable o s).gthen
    (guarded_ite (guarded_refl _) (guarded_checkAdaptationWithBodyCompletion o _))

theorem guarded_handleAdaptedBodyProductionEnded (o : Obs) (s : State) :
    Guarded s (handleAdaptedBodyProductionEnded o s) := by
  unfold handleAdaptedBodyProductionEnded
  refine guarded_ite (guarded_abortOnBadEntry o s _) (guarded_ite (guarded_fail _ _ (by decide)) ?_)
  refine Guarded.gthen (b := { s with receivedWholeAdaptedReply := true }) ?_
    (guarded_checkAdaptationWithBodyCompletion o _)
  exact guarded_same rfl rfl

theorem guarded_handledEarlyAdaptationAbort (o : Obs) (s : State) :
    Guarded s (handledEarlyAdaptationAbort o s).1 := by
  unfold handledEarlyAdaptationAbort
  by_cases he : o.entryEmpty = true
  · rw [if_pos he]
    exact (guarded_call s _ (by rfl)).gthen
      ((guarded_call _ _ (by rfl)).gthen (guarded_call _ _ (by rfl)))
  · rw [if_neg he]
    exact guarded_ite (guarded_call s _ (by rfl)) (guarded_refl s)

theorem guarded_handleAdaptedBodyProducerAborted (o : Obs) (s : State) :
    Guarded s (handleAdaptedBodyProducerAborted o s) := by
  unfold handleAdaptedBodyProducerAborted
  refine guarded_ite (guarded_abortOnBadEntry o s _) (guarded_ite (guarded_fail _ _ (by decide)) ?_)
  have h1 : Guarded s { s with adaptedReplyAborted := true } := guarded_same rfl rfl
  generalize ({ s with adaptedReplyAborted := true } : State) = s1 at h1
  simp only
  refine h1.gthen ?_
  cases hp : s1.adaptedBodySource with
  | none => exact guarded_fail _ _ (by decide)
  | some pipe =>
    refine guarded_ite (guarded_refl _) ?_
    exact guarded_ite (guarded_handledEarlyAdaptationAbort o _)
      ((guarded_handledEarlyAdaptationAbort o _).gthen
        (guarded_checkAdaptationWithBodyCompletion o _))

theorem guarded_handleAdaptationAborted (o : Obs) (s : State) (bypassable : Bool) :
    Guarded s (handleAdaptationAborted o s bypassable) := by
  unfold handleAdaptationAborted
  refine guarded_ite (guarded_abortOnBadEntry o s _) ?_
  exact guarded_ite ((guarded_handledEarlyAdaptationAbort o s).gthen (guarded_call _ _ (by rfl)))
    (guarded_handledEarlyAdaptationAbort o s)

theorem guarded_handleAdaptationBlocked (o : Obs) (s : State) (answer : Answer) :
    Guarded s (handleAdaptationBlocked o s answer) := by
  unfold handleAdaptationBlocked
  refine guarded_ite (guarded_abortOnBadEntry o s _) (guarded_ite ?_ ?_)
  · exact (guarded_ite (c := o.hasRequest = true) (guarded_call s _ (by rfl))
      (guarded_refl s)).gthen (guarded_call _ _ (by rfl))
  · exact (guarded_call s _ (by rfl)).gthen
      ((guarded_call _ _ (by rfl)).gthen (guarded_abortOnData _ _))

theorem guarded_handleAdaptedHeader (lib : UriLib) (o : Obs) (s : State)
    (msg : Option HttpReply) :
    Guarded s (handleAdaptedHeader lib o s msg) := by
  unfold handleAdaptedHeader
  refine guarded_ite ?_ ?_
  · cases msg with
    | none => exact (guarded_abortOnBadEntry o s _).gthen (guarded_fail _ _ (by decide))
    | some rep =>
      exact (guarded_abortOnBadEntry o s _).gthen
        (guarded_ite (guarded_call _ _ (by rfl)) (guarded_refl _))
  · cases msg with
    | none => exact guarded_fail _ _ (by decide)
    | some rep =>
      have h1 := guarded_setFinalReply lib o s rep
      simp only
      generalize setFinalReply lib o s rep = s1 at h1
      refine h1.gthen (guarded_ite (guarded_refl _) (guarded_ite (guarded_fail _ _ (by decide)) ?_))
      cases hbp : rep.body_pipe with
      | some pipe =>
        refine Guarded.gthen (b := { s1 with adaptedBodySource := some pipe })
          (guarded_same rfl rfl) ?_
        exact guarded_ite (guarded_fail _ _ (by decide)) (guarded_checkAdaptationWithBodyCompletion o _)
      | none =>
        refine guarded_ite (guarded_fail _ _ (by decide)) ?_
        refine Guarded.gthen (b := { s1 with receivedWholeAdaptedReply := true })
          (guarded_same rfl rfl) ?_
        exact guarded_done_completed o _

theorem guarded_noteAdaptationAnswer (lib : UriLib) (o : Obs) (s : State) (answer : Answer) :
    Guarded s (noteAdaptationAnswer lib o s answer) := by
  unfold noteAdaptationAnswer
  have h1 : Guarded s { s with adaptedHeadSource := false } :=
    guarded_same rfl rfl
  cases answer.kind with
  | akForward => exact h1.gthen (guarded_handleAdaptedHeader lib o _ _)
  | akBlock => exact h1.gthen (guarded_handleAdaptationBlocked o _ _)
  | akError => exact h1.gthen (guarded_handleAdaptationAborted o _ _)

theorem guarded_storeReplyBody (s : State) (data : List Nat) :
    Guarded s (storeReplyBody s data) :=
  (guarded_call s _ (by rfl)).gthen (guarded_same rfl rfl)

theorem guarded_adaptVirginReplyBody (s : State) (data : List Nat) :
    Guarded s (adaptVirginReplyBody s data) := by
  unfold adaptVirginReplyBody
  refine guarded_ite (guarded_fail _ _ (by decide)) ?_
  cases hv : s.virginBodyDestination with
  | none => exact guarded_refl s
  | some pipe =>
    cases hr : s.responseBodyBuffer with
    | some buffered =>
      refine guarded_ite (guarded_fail _ _ (by decide)) ?_
      exact guarded_ite (guarded_same rfl rfl) (guarded_same rfl rfl)
    | none =>
      refine guarded_ite (guarded_ite ?_ (guarded_same rfl rfl))
        (guarded_same rfl rfl)
      exact Guarded.gthen (b := { s with virginBodyDestination := some (pipe.putMoreData data).1 })
        (guarded_same rfl rfl) (guarded_fail _ _ (by decide))

theorem guarded_addVirginReplyBody (s : State) (data : List Nat) :
    Guarded s (addVirginReplyBody s data) :=
  guarded_ite (guarded_fail _ _ (by decide))
    (guarded_ite (guarded_adaptVirginReplyBody s data) (guarded_storeReplyBody s data))

theorem guarded_noteMoreBodySpaceAvailable (s : State) :
    Guarded s (noteMoreBodySpaceAvailable s) := by
  unfold noteMoreBodySpaceAvailable
  refine guarded_ite ?_ (guarded_call s _ (by rfl))
  have h1 := guarded_addVirginReplyBody s []
  simp only
  generalize addVirginReplyBody s [] = s1 at h1
  cases hf : s1.failure with
  | some f => simpa [hf] using h1
  | none =>
    simp only [Option.isSome_none, Bool.false_eq_true, if_false]
    exact h1.gthen (guarded_ite (guarded_serverComplete2 s1) (guarded_call _ _ (by rfl)))

theorem guarded_noteBodyConsumerAborted (o : Obs) (s : State) :
    Guarded s (noteBodyConsumerAborted o s) :=
  Guarded.gthen (b := { s with virginBodyDestination := none }) (guarded_same rfl rfl)
    (guarded_done_completed o _)

theorem guarded_startAdaptation (o : Obs) (s : State) (pipeSpace : Nat) :
    Guarded s (startAdaptation o s pipeSpace) := by
  unfold startAdaptation
  refine guarded_ite (guarded_fail _ _ (by decide)) ?_
  cases hv : s.theVirginReply with
  | none => exact guarded_fail _ _ (by decide)
  | some vrep =>
    refine guarded_ite (guarded_fail _ _ (by decide)) ?_
    cases o.virginBodyExpected with
    | none =>
      simp only
      by_cases hi : o.initiated = true
      · simp only [hi, Bool.not_true, Bool.false_eq_true, if_false]
        exact guarded_same rfl rfl
      · simp only [Bool.not_eq_true] at hi
        simp only [hi, Bool.not_false, if_true]
        exact guarded_fail _ _ (by decide)
    | some size =>
      simp only
      by_cases hi : o.initiated = true
      · simp only [hi, Bool.not_true, Bool.false_eq_true, if_false]
        exact guarded_same rfl rfl
      · simp only [Bool.not_eq_true] at hi
        simp only [hi, Bool.not_false, if_true]
        exact guarded_fail _ _ (by decide)

theorem guarded_sendBodyIsTooLargeError (s : State) : Guarded s (sendBodyIsTooLargeError s) :=
  (guarded_call s _ (by rfl)).gthen ((guarded_call _ _ (by rfl)).gthen (guarded_abortOnData _ _))

theorem guarded_noteAdaptationAclCheckDone (lib : UriLib) (o : Obs) (s : State)
    (group : Bool) (pipeSpace : Nat) :
    Guarded s (noteAdaptationAclCheckDone lib o s group pipeSpace) := by
  unfold noteAdaptationAclCheckDone
  have h1 : Guarded s { s with adaptationAccessCheckPending := false } :=
    guarded_same rfl rfl
  generalize ({ s with adaptationAccessCheckPending := false } : State) = s1 at h1
  simp only
  refine h1.gthen (guarded_ite (guarded_abortOnBadEntry o s1 _) ?_)
  cases hv : s1.theVirginReply with
  | none => exact guarded_fail _ _ (by decide)
  | some vrep =>
    refine guarded_ite (guarded_sendBodyIsTooLargeError s1) (guarded_ite ?_ ?_)
    · exact (guarded_setFinalReply lib o s1 vrep).gthen
        (guarded_ite (guarded_refl _) (guarded_call _ _ (by rfl)))
    · exact (guarded_startAdaptation o s1 pipeSpace).gthen
        (guarded_ite (guarded_refl _) (guarded_call _ _ (by rfl)))

theorem guarded_adaptOrFinalizeReply (lib : UriLib) (o : Obs) (s : State) :
    Guarded s (adaptOrFinalizeReply lib o s) := by
  unfold adaptOrFinalizeReply
  split
  · exact guarded_fail _ _ (by decide)
  · exact Guarded.gthen (b := { s with adaptationAccessCheckPending := o.accessCheckStarted })
      (guarded_same rfl rfl) (guarded_ite (guarded_refl _) (guarded_setFinalReply lib o _ _))

theorem guarded_startRequestBodyFlow (o : Obs) (s : State) (body_pipe : BodyPipe) :
    Guarded s (startRequestBodyFlow o s body_pipe) :=
  guarded_ite (guarded_same rfl rfl) (guarded_same rfl rfl)

theorem guarded_swanSong (s : State) : Guarded s (swanSong s) := by
  unfold swanSong
  have h1 : Guarded s
      (if s.requestBodySource.isSome then { s with requestBodySource := none } else s) :=
    guarded_ite (guarded_same rfl rfl) (guarded_refl s)
  generalize (if s.requestBodySource.isSome then { s with requestBodySource := none } else s)
    = s1 at h1
  simp only
  have h2 := guarded_cleanAdaptation s1
  generalize cleanAdaptation s1 = s2 at h2
  refine h1.gthen (h2.gthen (guarded_ite (guarded_refl _) ?_))
  have h3 : Guarded s2 (if !s2.doneWithServer then closeServer s2 else s2) :=
    guarded_ite (guarded_closeServer s2) (guarded_refl s2)
  generalize (if !s2.doneWithServer then closeServer s2 else s2) = s3 at h3
  refine h3.gthen (guarded_ite ?_ (guarded_refl _))
  exact Guarded.gthen (b := { s3 with doneWithFwd := some "swanSong()" })
    (guarded_same rfl rfl) (guarded_call _ _ (by rfl))

theorem guarded_noteMoreBodyDataAvailable (o : Obs) (s : State) (bp : PipeRef) :
    Guarded s (noteMoreBodyDataAvailable o s bp) :=
  guarded_ite (guarded_handleMoreAdaptedBodyAvailable o s)
    (guarded_ite (guarded_handleMoreRequestBodyAvailable o s) (guarded_refl s))

theorem guarded_noteBodyProductionEnded (o : Obs) (s : State) (bp : PipeRef) :
    Guarded s (noteBodyProductionEnded o s bp) := by
  unfold noteBodyProductionEnded
  by_cases h : s.adaptedBodySource.isSome = true ∧ bp = PipeRef.adaptedBody
  · rw [if_pos h]
    exact guarded_handleAdaptedBodyProductionEnded o s
  · rw [if_neg h]
    exact guarded_ite (guarded_handleRequestBodyProductionEnded s) (guarded_refl s)

theorem guarded_noteBodyProducerAborted (o : Obs) (s : State) (bp : PipeRef) :
    Guarded s (noteBodyProducerAborted o s bp) :=
  guarded_ite (guarded_handleAdaptedBodyProducerAborted o s)
    (guarded_ite (guarded_handleRequestBodyProducerAborted s) (guarded_refl s))

theorem guarded_refresh (o : Obs) (s : State) : Guarded s (refresh o s) := by
  exact guarded_same rfl rfl

theorem guarded_step (lib : UriLib) (s : State) (oe : Obs × Event) :
    Guarded s (step lib s oe) := by
  unfold step
  refine guarded_ite (guarded_refl s) ?_
  have h1 := guarded_refresh oe.1 s
  simp only
  generalize refresh oe.1 s = s1 at h1
  refine h1.gthen ?_
  cases oe.2 with
  | startRequestBodyFlow body_pipe => exact guarded_startRequestBodyFlow _ _ _
  | setVirginReply rep => exact guarded_setVirginReply _ _
  | markParsedVirginReplyAsWhole reason => exact guarded_same rfl rfl
  | adaptOrFinalizeReply => exact guarded_adaptOrFinalizeReply _ _ _
  | addVirginReplyBody data => exact guarded_addVirginReplyBody _ _
  | serverComplete => exact guarded_serverComplete _
  | sentRequestBody io => exact guarded_sentRequestBody _ _ _
  | noteMoreBodyDataAvailable bp => exact guarded_noteMoreBodyDataAvailable _ _ _
  | noteBodyProductionEnded bp => exact guarded_noteBodyProductionEnded _ _ _
  | noteBodyProducerAborted bp => exact guarded_noteBodyProducerAborted _ _ _
  | noteMoreBodySpaceAvailable => exact guarded_noteMoreBodySpaceAvailable _
  | noteBodyConsumerAborted => exact guarded_noteBodyConsumerAborted _ _
  | noteAdaptationAclCheckDone group pipeSpace =>
    exact guarded_ite (guarded_noteAdaptationAclCheckDone _ _ _ _ _) (guarded_refl _)
  | noteAdaptationAnswer answer =>
    exact guarded_ite (guarded_noteAdaptationAnswer _ _ _ _) (guarded_refl _)
  | resumeBodyStorage => exact guarded_resumeBodyStorage _ _
  | swanSong => exact guarded_swanSong _

theorem guarded_foldl_step (lib : UriLib) :
    ∀ (events : List (Obs × Event)) (s : State), Guarded s (events.foldl (step lib) s) := by
  intro events
  induction events with
  | nil => intro s; exact guarded_refl s
  | cons oe t ih =>
    intro s
    rw [List.foldl_cons]
    exact (guarded_step lib s oe).gthen (ih _)

/-- C40: in every job that the calls from outside can produce, each run of
`completeForwarding` began in a state where `doneWithAdaptation()` held, and the job has
not failed the `Assure(doneWithAdaptation())` of `completeForwarding`. `serverComplete2`
goes on to `completeForwarding` only with `doneWithAdaptation()`; a
`handleAdaptationCompleted` call in a state with `doneWithAdaptation()` finds the state
unchanged by `cleanAdaptation` and runs `completeForwarding` with it; and the callers of
`handleAdaptationCompleted` test `doneWithAdaptation()` first. The job of `adaptedRun`
makes such a run. -/
theorem completeForwarding_only_when_done (lib : UriLib) (request : HttpRequest)
    (events : List (Obs × Event)) :
    (∀ d st r : Bool,
      Call.completeForwardingCalled d st r ∈ (run lib request events).calls → d = true)
    ∧ (run lib request events).failure ≠ some "Assure(doneWithAdaptation())"
    ∧ (∀ s : State, doneWithAdaptation s = true →
        cleanAdaptation s = s
        ∧ (completeForwarding s).failure = s.failure
        ∧ ∀ o : Obs, s.failure = none → (handleAdaptationCompleted o s).failure = none)
    ∧ (∀ s : State,
        doneWithAdaptation { s with virginBodyDestination := none } = false →
        serverComplete2 s = { s with virginBodyDestination := none })
    ∧ (∀ (o : Obs) (s : State), doneWithAdaptation { s with virginBodyDestination := none } = false →
        noteBodyConsumerAborted o s = { s with virginBodyDestination := none })
    ∧ (∀ (o : Obs) (s : State) (pipe : BodyPipe), s.adaptedBodySource = some pipe →
        doneWithAdaptation { s with adaptedBodySource := none } = false →
        (checkAdaptationWithBodyCompletion o s = s
          ∨ checkAdaptationWithBodyCompletion o s = { s with adaptedBodySource := none }))
    ∧ Call.completeForwardingCalled true true true
        ∈ (run sampleLib putRequest adaptedRun).calls := by
  obtain ⟨extra, hc, hd, hf⟩ := guarded_foldl_step lib events (State.init request)
  have hc2 : (run lib request events).calls = extra := by
    show (events.foldl (step lib) (State.init request)).calls = extra
    rw [hc]
    rfl
  refine ⟨?_, ?_, ?_, ?_, ?_, ?_, by decide⟩
  · intro d st r hm
    rw [hc2] at hm
    exact hd d st r hm
  · intro h
    have := hf h
    simp [State.init] at this
  · intro s hds
    refine ⟨cleanAdaptation_done s hds, ?_, ?_⟩
    · rw [completeForwarding_eq s hds]
    · intro o hfn
      exact (handleAdaptationCompleted_calls o s hds hfn).2.1
  · intro s hnd
    unfold serverComplete2
    cases hv : s.virginBodyDestination with
    | none =>
      have hs : ({ s with virginBodyDestination := none } : State) = s := by
        cases s
        simp_all
      rw [hs] at hnd ⊢
      simp [hnd]
    | some pipe => simp [hnd]
  · intro o s hnd
    unfold noteBodyConsumerAborted
    simp [hnd]
  · intro o s pipe hp hnd
    unfold checkAdaptationWithBodyCompletion
    rw [hp]
    simp only
    split
    · exact Or.inl rfl
    · split
      · exact Or.inl rfl
      · right
        simp [hnd]

end Client

end Squid
